import Mathlib

/-! # Hierarchical k-means index

Shallow embedding of `flann/algorithms/kmeans_index_original.h` (class `KMeansIndex`).

Conventions of the embedding.

* `ElementType`, `DistanceType`, `float` and `double` values are exact rationals: the
  development is about the algorithm in exact arithmetic, not about rounding.
* A quotient by a zero count is an IEEE NaN in the source, a value the rationals do not
  have.  `recomputeCenters` stops with `Err.nan` at such a division, so that
  `computeClustering` and `buildIndex` describe the runs without NaN centres.  The source
  goes on after the division, to the reassignment and the repair of the empty clusters;
  these runs are covered by `computeClusteringBy` and `buildIndexBy`, in which the outcome
  of every scan for the nearest centre is left open.  Where a NaN is only stored (the
  variance of an empty child, the statistics of an empty dataset) the model keeps the value
  `0` that rational division by zero gives.
* The branch heap of a search has the capacity `size_` it is allocated with.
* `std::numeric_limits<T>::max()` is `none` in an `Option ℚ`.
* Pointers into the tree are the nodes themselves; a leaf's `indices` pointer is its offset
  into the index array.  The field `mean_radius`, computed with a floating-point square
  root and read by no operation, is left out.
* `rand()` is an explicit stream of naturals threaded through the build.
* `int` counters and levels are unbounded integers.  The node numbers and labels of
  `getClusterCentersOnLevelL`, which grow like `branching ^ level`, are computed in 32-bit
  two's-complement arithmetic (`wrapInt`).
* Output to `std::cout` is left out.
* A recursion whose depth the source does not bound takes a fuel argument and returns
  `Err.outOfFuel` when it runs out.
-/

namespace KMeans

/-- A vector of elements (a dataset row, a centre, a query). -/
abbrev Vec := List ℚ

/-- Component `k` of a vector; `ZeroIterator` is the empty list, every component of
which reads `0`. -/
def vget (v : Vec) (k : Nat) : ℚ := v.getD k 0

/-- The `ZeroIterator<ElementType>()` argument of the distance functor. -/
def ZeroIterator : Vec := []

/-- The distance functor `distance(a, b, len)`. -/
abbrev Distance := Vec → Vec → Nat → ℚ

/-- Modelled from the spec: the distance functor of `flann/algorithms/dist.h` is not part of
the sources; this is the squared Euclidean distance `d` the scenarios of the specification
are stated with. -/
def L2 : Distance := fun a b len =>
  ((List.range len).map (fun k => (vget a k - vget b k) ^ 2)).sum

/-- The outcomes other than a normal return. -/
inductive Err where
  | invalidParameter
  | outOfFuel
  | nan
  | hang
  | assertionFailed
  | ioFailure
  | nullPointer
  deriving DecidableEq, Repr

/-- The `Matrix<ElementType>` holding the dataset. -/
structure Matrix where
  data : List Vec
  rows : Nat
  cols : Nat

/-- Row access `dataset[i]`. -/
def Matrix.row (m : Matrix) (i : Nat) : Vec := m.data.getD i []

/-- The stream of values returned by successive calls of `rand()`. -/
abbrev Rng := List Nat

/-- The resolution `RAND_MAX + 1` of the random generator. -/
def RAND_RES : Nat := 2147483648

/-- Modelled from the spec: `rand_int(high)` of `flann/util/random.h` (not part of the
sources) picks an integer of `[0, high)` uniformly; here it is the next value of the stream
reduced modulo `high`. -/
def rand_int (high : Nat) (g : Rng) : Nat × Rng := (g.headD 0 % high, g.tail)

/-- Modelled from the spec: `rand_double(high)` of `flann/util/random.h` (not part of the
sources) draws a real of `[0, high)`; here it is `high` scaled by the next value of the
stream read as a fraction of `RAND_RES`. -/
def rand_double (high : ℚ) (g : Rng) : ℚ × Rng :=
  (high * ((g.headD 0 % RAND_RES : Nat) : ℚ) / (RAND_RES : ℚ), g.tail)

/-- In-place exchange `std::swap(a[i], a[j])` on an array of integers. -/
def swapAt (a : List Nat) (i j : Nat) : List Nat :=
  (a.set i (a.getD j 0)).set j (a.getD i 0)

/-- Modelled from the spec: the shuffle that `UniqueRandom::init(n)` of `flann/util/random.h`
(not part of the sources) performs, so that `next()` yields distinct values of `[0, n)` in
random order.  `i` counts down from `n`. -/
def uniqueRandomShuffle : Nat → List Nat → Rng → List Nat × Rng
  | 0, vals, g => (vals, g)
  | i + 1, vals, g =>
    let r := rand_int (i + 1) g
    uniqueRandomShuffle i (swapAt vals i r.1) r.2

/-- Modelled from the spec: `UniqueRandom r(n)`; the result lists the values that successive
`r.next()` calls return before the negative sentinel. -/
def UniqueRandom (n : Nat) (g : Rng) : List Nat × Rng :=
  uniqueRandomShuffle n (List.range n) g

/-- The seeding strategies `flann_centers_init_t`. -/
inductive flann_centers_init_t where
  | FLANN_CENTERS_RANDOM
  | FLANN_CENTERS_GONZALES
  | FLANN_CENTERS_KMEANSPP
  deriving DecidableEq, Repr

/-- Struct `KMeansNode`: `childs` is `none` for the null pointer, `indices` is the offset of
the leaf's slice in the index array (`none` for the null pointer). -/
inductive KMeansNode where
  | mk (pivot : Vec) (radius : ℚ) (variance : ℚ) (size : Nat) (level : Nat)
      (childs : Option (List KMeansNode)) (indices : Option Nat)

namespace KMeansNode

/-- Field `pivot`. -/
def pivot : KMeansNode → Vec
  | mk p _ _ _ _ _ _ => p

/-- Field `radius`. -/
def radius : KMeansNode → ℚ
  | mk _ r _ _ _ _ _ => r

/-- Field `variance`. -/
def variance : KMeansNode → ℚ
  | mk _ _ v _ _ _ _ => v

/-- Field `size`. -/
def size : KMeansNode → Nat
  | mk _ _ _ s _ _ _ => s

/-- Field `level`. -/
def level : KMeansNode → Nat
  | mk _ _ _ _ l _ _ => l

/-- Field `childs`. -/
def childs : KMeansNode → Option (List KMeansNode)
  | mk _ _ _ _ _ c _ => c

/-- Field `indices`. -/
def indices : KMeansNode → Option Nat
  | mk _ _ _ _ _ _ i => i

/-- Element `childs[i]` of the child array. -/
def child (n : KMeansNode) (i : Nat) : KMeansNode :=
  (n.childs.getD []).getD i (mk [] 0 0 0 0 none none)

end KMeansNode

/-- The fields of a node that are set before `computeClustering` is called on it. -/
structure NodeStats where
  pivot : Vec
  radius : ℚ
  variance : ℚ

/-- Struct `KMeansIndexParams`; `centers_init` is the raw value of the enumeration. -/
structure KMeansIndexParams where
  branching : Int
  iterations : Int
  centers_init : Int
  cb_index : ℚ

/-- The data members of class `KMeansIndex`.  `root` and `indices` are `none` for the null
pointer. -/
structure KMeansIndex where
  branching : Int
  max_iter : Nat
  cb_index : ℚ
  dataset : Matrix
  size_ : Nat
  veclen_ : Nat
  root : Option KMeansNode
  indices : Option (List Nat)
  distance : Distance
  memoryCounter : Nat
  chooseCenters : flann_centers_init_t

/-- The part of the index state that the build threads through: the random stream and the
memory counter. -/
structure BuildState where
  rng : Rng
  memoryCounter : Nat

/-- The size in bytes of a `DistanceType` value. -/
def sizeofDistanceType : Nat := 4

/-- The loops of `chooseCentersRandom`: the first argument lists the values `r.next()` still
has to return, the second the centres `centers[0..index)` accepted so far. -/
def chooseCentersRandomLoop (ix : KMeansIndex) (k : Nat) (indices : List Nat) :
    List Nat → List Nat → List Nat
  | [], centers => centers
  | rnd :: rest, centers =>
    if centers.length < k then
      if centers.any (fun cj => decide (ix.distance (ix.dataset.row (indices.getD rnd 0))
          (ix.dataset.row cj) ix.dataset.cols < 1 / 10 ^ 16)) then
        chooseCentersRandomLoop ix k indices rest centers
      else
        chooseCentersRandomLoop ix k indices rest (centers ++ [indices.getD rnd 0])
    else centers

/-- Method `chooseCentersRandom`; the result is `centers[0..centers_length)`. -/
def chooseCentersRandom (ix : KMeansIndex) (k : Nat) (indices : List Nat) (g : Rng) :
    List Nat × Rng :=
  let r := UniqueRandom indices.length g
  (chooseCentersRandomLoop ix k indices r.1 [], r.2)

/-- The distance of candidate `id` to the nearest of the chosen centres
(`chooseCentersGonzales`, the loop over `i`). -/
def gonzalesDist (ix : KMeansIndex) (centers : List Nat) (id : Nat) : ℚ :=
  centers.tail.foldl
    (fun dist ci =>
      if ix.distance (ix.dataset.row ci) (ix.dataset.row id) ix.dataset.cols < dist then
        ix.distance (ix.dataset.row ci) (ix.dataset.row id) ix.dataset.cols
      else dist)
    (ix.distance (ix.dataset.row (centers.getD 0 0)) (ix.dataset.row id) ix.dataset.cols)

/-- The loop over `j` of `chooseCentersGonzales`: the pair `(best_index, best_val)`, where
`none` stands for `best_index = -1`. -/
def gonzalesBest (ix : KMeansIndex) (indices : List Nat) (centers : List Nat) :
    Option Nat × ℚ :=
  (List.range indices.length).foldl
    (fun best j =>
      if gonzalesDist ix centers (indices.getD j 0) > best.2 then
        (some j, gonzalesDist ix centers (indices.getD j 0))
      else best)
    (none, 0)

/-- The loop over `index` of `chooseCentersGonzales`; the first argument counts the slots
still to fill. -/
def chooseCentersGonzalesLoop (ix : KMeansIndex) (indices : List Nat) :
    Nat → List Nat → List Nat
  | 0, centers => centers
  | slots + 1, centers =>
    match (gonzalesBest ix indices centers).1 with
    | some best_index =>
      chooseCentersGonzalesLoop ix indices slots (centers ++ [indices.getD best_index 0])
    | none => centers

/-- Method `chooseCentersGonzales`. -/
def chooseCentersGonzales (ix : KMeansIndex) (k : Nat) (indices : List Nat) (g : Rng) :
    List Nat × Rng :=
  let r := rand_int indices.length g
  (chooseCentersGonzalesLoop ix indices (k - 1) [indices.getD r.1 0], r.2)

/-- The walk `for (index = 0; index < n-1; index++)` of `chooseCentersKMeanspp`; the first
argument counts the steps left. -/
def kmeansppWalk (closestDistSq : List ℚ) : Nat → Nat → ℚ → Nat
  | 0, index, _ => index
  | steps + 1, index, randVal =>
    if randVal ≤ closestDistSq.getD index 0 then index
    else kmeansppWalk closestDistSq steps (index + 1) (randVal - closestDistSq.getD index 0)

/-- The array `closestDistSq` after the point `indices[index]` has become a centre; with
`none` for the old array it is the initial array. -/
def kmeansppClosest (ix : KMeansIndex) (indices : List Nat) (index : Nat)
    (closestDistSq : Option (List ℚ)) : List ℚ :=
  (List.range indices.length).map (fun i =>
    match closestDistSq with
    | none => ix.distance (ix.dataset.row (indices.getD i 0))
        (ix.dataset.row (indices.getD index 0)) ix.dataset.cols
    | some cl => min (ix.distance (ix.dataset.row (indices.getD i 0))
        (ix.dataset.row (indices.getD index 0)) ix.dataset.cols) (cl.getD i 0))

/-- The loop over `centerCount` of `chooseCentersKMeanspp` (`numLocalTries = 1`); the first
argument counts the centres still to choose. -/
def chooseCentersKMeansppLoop (ix : KMeansIndex) (indices : List Nat) :
    Nat → List Nat → List ℚ → ℚ → Rng → List Nat × Rng
  | 0, centers, _, _, g => (centers, g)
  | todo + 1, centers, closestDistSq, currentPot, g =>
    let r := rand_double currentPot g
    let index := kmeansppWalk closestDistSq (indices.length - 1) 0 r.1
    let newClosest := kmeansppClosest ix indices index (some closestDistSq)
    chooseCentersKMeansppLoop ix indices todo (centers ++ [indices.getD index 0])
      newClosest newClosest.sum r.2

/-- Method `chooseCentersKMeanspp`. -/
def chooseCentersKMeanspp (ix : KMeansIndex) (k : Nat) (indices : List Nat) (g : Rng) :
    List Nat × Rng :=
  let r := rand_int indices.length g
  let closestDistSq := kmeansppClosest ix indices r.1 none
  chooseCentersKMeansppLoop ix indices (k - 1) [indices.getD r.1 0]
    closestDistSq closestDistSq.sum r.2

/-- The call `(this->*chooseCenters)(k, indices, indices_length, centers, centers_length)`. -/
def callChooseCenters (ix : KMeansIndex) (k : Nat) (indices : List Nat) (g : Rng) :
    List Nat × Rng :=
  match ix.chooseCenters with
  | .FLANN_CENTERS_RANDOM => chooseCentersRandom ix k indices g
  | .FLANN_CENTERS_GONZALES => chooseCentersGonzales ix k indices g
  | .FLANN_CENTERS_KMEANSPP => chooseCentersKMeanspp ix k indices g

/-- Method `computeNodeStatistics`: pivot (mean), radius and variance of the node.  The
sums for the mean and the variance run over `size_` entries, the radius over
`indices_length` entries, as in the source. -/
def computeNodeStatistics (ix : KMeansIndex) (indices : List Nat) (indices_length : Nat) :
    NodeStats :=
  let mean : Vec := (List.range ix.veclen_).map (fun j =>
    ((List.range ix.size_).map (fun i => vget (ix.dataset.row (indices.getD i 0)) j)).sum
      / (ix.size_ : ℚ))
  let variance : ℚ :=
    ((List.range ix.size_).map (fun i =>
        ix.distance (ix.dataset.row (indices.getD i 0)) ZeroIterator ix.veclen_)).sum
      / (ix.size_ : ℚ)
      - ix.distance mean ZeroIterator ix.veclen_
  let radius : ℚ := (List.range indices_length).foldl
    (fun radius i =>
      if ix.distance mean (ix.dataset.row (indices.getD i 0)) ix.veclen_ > radius then
        ix.distance mean (ix.dataset.row (indices.getD i 0)) ix.veclen_
      else radius)
    0
  { pivot := mean, radius := radius, variance := variance }

/-- The working buffers of one split: `dcenters`, `radiuses`, `count`, `belongs_to`. -/
structure Clusters where
  dcenters : List Vec
  radiuses : List ℚ
  count : List Int
  belongs_to : List Nat

/-- The scan `for (j = 1; j < branching; ++j)` for the centre nearest to `x`; the result is
the pair of the centre index and `sq_dist`. -/
def nearestCenter (ix : KMeansIndex) (x : Vec) (dcenters : List Vec) (branching : Nat) :
    Nat × ℚ :=
  (List.range' 1 (branching - 1)).foldl
    (fun best j =>
      if best.2 > ix.distance x (dcenters.getD j []) ix.veclen_ then
        (j, ix.distance x (dcenters.getD j []) ix.veclen_)
      else best)
    (0, ix.distance x (dcenters.getD 0 []) ix.veclen_)

/-- The first assignment of the points to the clusters (the loop after the comment
"assign points to clusters"). -/
def assignPoints (ix : KMeansIndex) (indices : List Nat) (dcenters : List Vec)
    (branching : Nat) : Clusters :=
  (List.range indices.length).foldl
    (fun st i =>
      let nc := nearestCenter ix (ix.dataset.row (indices.getD i 0)) dcenters branching
      { st with
        radiuses :=
          if nc.2 > st.radiuses.getD nc.1 0 then st.radiuses.set nc.1 nc.2 else st.radiuses
        count := st.count.set nc.1 (st.count.getD nc.1 0 + 1)
        belongs_to := st.belongs_to.set i nc.1 })
    { dcenters := dcenters
      radiuses := List.replicate branching 0
      count := List.replicate branching 0
      belongs_to := List.replicate indices.length 0 }

/-- The sums of the member vectors per cluster (the first two loops after the comment "compute
the new cluster centers"). -/
def sumCenters (ix : KMeansIndex) (indices : List Nat) (belongs_to : List Nat)
    (branching : Nat) : List Vec :=
  (List.range indices.length).foldl
    (fun dc i =>
      dc.set (belongs_to.getD i 0)
        ((List.range ix.veclen_).map (fun k =>
          vget (dc.getD (belongs_to.getD i 0) []) k
            + vget (ix.dataset.row (indices.getD i 0)) k)))
    (List.replicate branching (List.replicate ix.veclen_ 0))

/-- The new cluster centres: the sums divided by `count[i]`.  A zero count gives NaN
components in the source, which goes on with them; the model ends with `Err.nan` there, and
`lloydLoopBy` follows the loop beyond that point. -/
def recomputeCenters (ix : KMeansIndex) (indices : List Nat) (st : Clusters)
    (branching : Nat) : Except Err (List Vec) :=
  if 0 < ix.veclen_ ∧ (List.range branching).any (fun i => decide (st.count.getD i 0 = 0)) then
    Except.error Err.nan
  else
    Except.ok ((List.range branching).map (fun i =>
      (List.range ix.veclen_).map (fun k =>
        vget ((sumCenters ix indices st.belongs_to branching).getD i []) k
          / ((st.count.getD i 0 : Int) : ℚ))))

/-- The loop after the comment "reassign points to clusters"; the flag is `converged`. -/
def reassignPoints (ix : KMeansIndex) (indices : List Nat) (branching : Nat)
    (st : Clusters) (converged : Bool) : Clusters × Bool :=
  (List.range indices.length).foldl
    (fun acc i =>
      let nc := nearestCenter ix (ix.dataset.row (indices.getD i 0)) acc.1.dcenters branching
      let radiuses :=
        if nc.2 > acc.1.radiuses.getD nc.1 0 then acc.1.radiuses.set nc.1 nc.2
        else acc.1.radiuses
      if nc.1 ≠ acc.1.belongs_to.getD i 0 then
        ({ acc.1 with
            radiuses := radiuses
            count := ((acc.1.count.set (acc.1.belongs_to.getD i 0)
                (acc.1.count.getD (acc.1.belongs_to.getD i 0) 0 - 1)).set nc.1
                ((acc.1.count.set (acc.1.belongs_to.getD i 0)
                  (acc.1.count.getD (acc.1.belongs_to.getD i 0) 0 - 1)).getD nc.1 0 + 1))
            belongs_to := acc.1.belongs_to.set i nc.1 }, false)
      else ({ acc.1 with radiuses := radiuses }, acc.2))
    (st, converged)

/-- The search `while (count[j] <= 1) j = (j+1) % branching` for a cluster that can give a
point away.  The counts do not change during the search, so after `branching` unsuccessful
steps the source loops forever: `Err.hang`. -/
def findDonor (count : List Int) (branching : Nat) : Nat → Nat → Except Err Nat
  | 0, _ => Except.error Err.hang
  | steps + 1, j =>
    if count.getD j 0 ≤ 1 then findDonor count branching steps ((j + 1) % branching)
    else Except.ok j

/-- The body of the empty-cluster repair for cluster `i`: when `count[i] == 0`, the first
point of a donor cluster `j` is moved into `i`. -/
def repairCluster (branching : Nat) (acc : Clusters × Bool) (i : Nat) :
    Except Err (Clusters × Bool) :=
  if acc.1.count.getD i 0 = 0 then
    match findDonor acc.1.count branching branching ((i + 1) % branching) with
    | Except.error e => Except.error e
    | Except.ok j =>
      if acc.1.belongs_to.indexOf j < acc.1.belongs_to.length then
        Except.ok ({ acc.1 with
          belongs_to := acc.1.belongs_to.set (acc.1.belongs_to.indexOf j) i
          count := ((acc.1.count.set j (acc.1.count.getD j 0 - 1)).set i
            ((acc.1.count.set j (acc.1.count.getD j 0 - 1)).getD i 0 + 1)) }, false)
      else Except.ok (acc.1, false)
  else Except.ok acc

/-- The loop `for (i = 0; i < branching; ++i)` of the empty-cluster repair, over the cluster
indices that are still to be visited. -/
def repairClusters (branching : Nat) : List Nat → Clusters × Bool → Except Err (Clusters × Bool)
  | [], acc => Except.ok acc
  | i :: rest, acc =>
    match repairCluster branching acc i with
    | Except.error e => Except.error e
    | Except.ok acc1 => repairClusters branching rest acc1

/-- The loop `while (!converged && iteration < max_iter)`; the first argument is
`max_iter - iteration`. -/
def lloydLoop (ix : KMeansIndex) (indices : List Nat) (branching : Nat) :
    Nat → Bool → Clusters → Except Err Clusters
  | 0, _, st => Except.ok st
  | left + 1, converged, st =>
    if converged then Except.ok st
    else
      match recomputeCenters ix indices st branching with
      | Except.error e => Except.error e
      | Except.ok dcenters =>
        match repairClusters branching (List.range branching)
            (reassignPoints ix indices branching
              { st with dcenters := dcenters, radiuses := List.replicate branching 0 } true) with
        | Except.error e => Except.error e
        | Except.ok acc => lloydLoop ix indices branching left acc.2 acc.1

/-- The state of the partition loops of `computeClustering`: the slice `indices`, the array
`belongs_to`, the cursor `end` and the accumulator `variance`. -/
structure PartState where
  indices : List Nat
  belongs_to : List Nat
  end_ : Nat
  variance : ℚ

/-- The body of the loop `for (i = 0; i < indices_length; ++i)` that gathers the members of
cluster `c` behind the cursor. -/
def partitionStep (ix : KMeansIndex) (c : Nat) (st : PartState) (i : Nat) : PartState :=
  if st.belongs_to.getD i 0 = c then
    { indices := swapAt st.indices i st.end_
      belongs_to := swapAt st.belongs_to i st.end_
      end_ := st.end_ + 1
      variance := st.variance
        + ix.distance (ix.dataset.row (st.indices.getD i 0)) ZeroIterator ix.veclen_ }
  else st

/-- The loop `for (i = 0; i < indices_length; ++i)` for cluster `c`. -/
def partitionPass (ix : KMeansIndex) (c : Nat) (st : PartState) : PartState :=
  (List.range st.indices.length).foldl (partitionStep ix c) st

/-- The result of `computeClustering` on a slice: the finished node, the slice as the call
leaves it, and the threaded state. -/
abbrev ClusteringResult := Except Err (KMeansNode × List Nat × BuildState)

/-- The loop `for (c = 0; c < branching; ++c)` that creates the children, over the cluster
indices still to be visited.  `recurse` is the recursive call of `computeClustering`;
`off` is the offset of the slice in the index array, `start` the cursor `start`.  For an
empty cluster (`count[c] = 0`, possible only with `max_iter = 0`) the source stores the NaN
of `0 / 0` less the squared norm of the centre as the variance of the child; the model
stores `0` less that norm. -/
def clusterChildren (ix : KMeansIndex)
    (recurse : BuildState → List Nat → Nat → NodeStats → Nat → ClusteringResult)
    (off level : Nat) (centers : List Vec) (radiuses : List ℚ) (count : List Int) :
    List Nat → List Nat → List Nat → Nat → BuildState →
      Except Err (List KMeansNode × List Nat × BuildState)
  | [], indices, _, _, bs => Except.ok ([], indices, bs)
  | c :: cs, indices, belongs_to, start, bs =>
    let p := partitionPass ix c
      { indices := indices, belongs_to := belongs_to, end_ := start, variance := 0 }
    let variance := p.variance / ((count.getD c 0 : Int) : ℚ)
      - ix.distance (centers.getD c []) ZeroIterator ix.veclen_
    match recurse bs ((p.indices.drop start).take (p.end_ - start)) (off + start)
        { pivot := centers.getD c [], radius := radiuses.getD c 0, variance := variance }
        (level + 1) with
    | Except.error e => Except.error e
    | Except.ok (child, slice, bs1) =>
      match clusterChildren ix recurse off level centers radiuses count cs
          (p.indices.take start ++ slice ++ p.indices.drop p.end_) p.belongs_to p.end_ bs1 with
      | Except.error e => Except.error e
      | Except.ok (rest, indices1, bs2) => Except.ok (child :: rest, indices1, bs2)

/-- The leaf exit of `computeClustering`: the slice is sorted and the node keeps its
offset. -/
def makeLeaf (stats : NodeStats) (indices : List Nat) (off level : Nat) (bs : BuildState) :
    ClusteringResult :=
  Except.ok (KMeansNode.mk stats.pivot stats.radius stats.variance indices.length level
    none (some off), indices.insertionSort (fun a b => a ≤ b), bs)

/-- Method `computeClustering(node, indices, indices_length, branching, level)`.  The node
arrives as the statistics its caller has set; `indices` is the slice and `off` its offset
in the index array. -/
def computeClustering (ix : KMeansIndex) (branching : Nat) :
    Nat → BuildState → List Nat → Nat → NodeStats → Nat → ClusteringResult
  | 0, _, _, _, _, _ => Except.error Err.outOfFuel
  | fuel + 1, bs, indices, off, stats, level =>
    if indices.length < branching then makeLeaf stats indices off level bs
    else
      let seeds := callChooseCenters ix branching indices bs.rng
      if seeds.1.length < branching then
        makeLeaf stats indices off level { bs with rng := seeds.2 }
      else
        match lloydLoop ix indices branching ix.max_iter false
            (assignPoints ix indices
              ((List.range branching).map (fun i =>
                (List.range ix.veclen_).map (fun k =>
                  vget (ix.dataset.row (seeds.1.getD i 0)) k)))
              branching) with
        | Except.error e => Except.error e
        | Except.ok st =>
          match clusterChildren ix (computeClustering ix branching fuel) off level
              st.dcenters st.radiuses st.count (List.range branching)
              indices st.belongs_to 0
              { rng := seeds.2
                memoryCounter :=
                  bs.memoryCounter + branching * (ix.veclen_ * sizeofDistanceType) } with
          | Except.error e => Except.error e
          | Except.ok (childs, indices1, bs1) =>
            Except.ok (KMeansNode.mk stats.pivot stats.radius stats.variance indices.length
              level (some childs) none, indices1, bs1)

/-- Modelled from the spec: the enumerator `FLANN_CENTERS_RANDOM` of `flann_centers_init_t`
(declared in `flann/defines.h`, not part of the sources), as a raw value. -/
def FLANN_CENTERS_RANDOM : Int := 0

/-- Modelled from the spec: the enumerator `FLANN_CENTERS_GONZALES` of `flann_centers_init_t`
(declared in `flann/defines.h`, not part of the sources), as a raw value. -/
def FLANN_CENTERS_GONZALES : Int := 1

/-- Modelled from the spec: the enumerator `FLANN_CENTERS_KMEANSPP` of `flann_centers_init_t`
(declared in `flann/defines.h`, not part of the sources), as a raw value. -/
def FLANN_CENTERS_KMEANSPP : Int := 2

/-- The constructor `KMeansIndex(inputData, params, d)`.  The member `chooseCenters`, a
pointer to one of the three seeders, is recorded as the strategy it stands for. -/
def KMeansIndex.new (inputData : Matrix) (params : KMeansIndexParams) (d : Distance) :
    Except Err KMeansIndex :=
  if params.centers_init = FLANN_CENTERS_RANDOM ∨ params.centers_init = FLANN_CENTERS_GONZALES
      ∨ params.centers_init = FLANN_CENTERS_KMEANSPP then
    Except.ok
      { branching := params.branching
        max_iter := if params.iterations < 0 then 2147483647 else params.iterations.toNat
        cb_index := 2 / 5
        dataset := inputData
        size_ := inputData.rows
        veclen_ := inputData.cols
        root := none
        indices := none
        distance := d
        memoryCounter := 0
        chooseCenters :=
          if params.centers_init = FLANN_CENTERS_RANDOM then .FLANN_CENTERS_RANDOM
          else if params.centers_init = FLANN_CENTERS_GONZALES then .FLANN_CENTERS_GONZALES
          else .FLANN_CENTERS_KMEANSPP }
  else Except.error Err.invalidParameter

/-- Method `set_cb_index(index)`. -/
def set_cb_index (ix : KMeansIndex) (index : ℚ) : KMeansIndex :=
  { ix with cb_index := index }

/-- Method `buildIndex`; the fuel bounds the depth of the recursion of
`computeClustering`. -/
def buildIndex (ix : KMeansIndex) (fuel : Nat) (g : Rng) : Except Err (KMeansIndex × Rng) :=
  if ix.branching < 2 then Except.error Err.invalidParameter
  else
    match computeClustering ix ix.branching.toNat fuel
        { rng := g
          memoryCounter := ix.memoryCounter + ix.veclen_ * sizeofDistanceType }
        (List.range ix.size_) 0
        (computeNodeStatistics ix (List.range ix.size_) ix.size_) 0 with
    | Except.error e => Except.error e
    | Except.ok (root, indices, bs) =>
      Except.ok ({ ix with
        root := some root, indices := some indices, memoryCounter := bs.memoryCounter }, bs.rng)

/-- Modelled from the spec: the result sink (`ResultSet<DistanceType>` of
`flann/util/result_set.h`, not part of the sources) is an online top-k accumulator with the
operations `addPoint(dist, id)`, `worstDist()` and `full()`.  `entries` holds the kept pairs
in ascending order of distance. -/
structure ResultSet where
  capacity : Nat
  entries : List (ℚ × Nat)

/-- Modelled from the spec: `full()` of the result sink: `capacity` pairs are held. -/
def ResultSet.full (r : ResultSet) : Bool := r.entries.length == r.capacity

/-- Modelled from the spec: `worstDist()` of the result sink: the largest kept distance once
the sink is full, the largest representable value (`none`) before. -/
def ResultSet.worstDist (r : ResultSet) : Option ℚ :=
  if r.full then r.entries.getLast?.map Prod.fst else none

/-- Modelled from the spec: the position at which the sink inserts a new pair: behind every
kept pair that is not farther (ties are resolved by insertion order). -/
def insertEntry (dist : ℚ) (index : Nat) : List (ℚ × Nat) → List (ℚ × Nat)
  | [] => [(dist, index)]
  | e :: es => if dist < e.1 then (dist, index) :: e :: es else e :: insertEntry dist index es

/-- Modelled from the spec: `addPoint(dist, id)` of the result sink: the pair is inserted and
the sink keeps its `capacity` nearest pairs. -/
def ResultSet.addPoint (r : ResultSet) (dist : ℚ) (index : Nat) : ResultSet :=
  { r with entries := (insertEntry dist index r.entries).take r.capacity }

/-- The comparison `x < m`, where `none` is the largest representable value. -/
def ltMax (dist : ℚ) (worst_dist : Option ℚ) : Bool :=
  match worst_dist with
  | none => true
  | some w => decide (dist < w)

/-- The test "ignore those clusters that are too far away" of `findNN` and `findExactNN`:
`val > 0 && val2 > 0`.  With `wsq` the largest representable value, `val` is negative. -/
def pruneTest (bsq rsq : ℚ) (wsq : Option ℚ) : Bool :=
  match wsq with
  | none => false
  | some w =>
    decide (bsq - rsq - w > 0
      ∧ (bsq - rsq - w) * (bsq - rsq - w) - 4 * rsq * w > 0)

/-- The loop over the points of a leaf in `findNN` and `findExactNN`; `worst_dist` is read
once, before the loop. -/
def scanLeaf (ix : KMeansIndex) (node : KMeansNode) (vec : Vec) (result : ResultSet) :
    ResultSet :=
  (List.range node.size).foldl
    (fun res i =>
      if ltMax (ix.distance
          (ix.dataset.row ((ix.indices.getD []).getD (node.indices.getD 0 + i) 0))
          vec ix.veclen_) result.worstDist then
        res.addPoint (ix.distance
          (ix.dataset.row ((ix.indices.getD []).getD (node.indices.getD 0 + i) 0))
          vec ix.veclen_) ((ix.indices.getD []).getD (node.indices.getD 0 + i) 0)
      else res)
    result

/-- The insertion of child `i`, at distance `dist`, into the arrays `domain_distances` and
`sort_indices` of `getCenterOrdering`: before the first entry that is not nearer. -/
def insertOrdered (dist : ℚ) (i : Nat) : List (ℚ × Nat) → List (ℚ × Nat)
  | [] => [(dist, i)]
  | e :: es => if e.1 < dist then e :: insertOrdered dist i es else (dist, i) :: e :: es

/-- Method `getCenterOrdering`: the array `sort_indices`. -/
def getCenterOrdering (ix : KMeansIndex) (node : KMeansNode) (q : Vec) : List Nat :=
  ((List.range ix.branching.toNat).foldl
    (fun acc i => insertOrdered (ix.distance q (node.child i).pivot ix.veclen_) i acc)
    []).map Prod.snd

/-- Method `findExactNN`; the fuel bounds the depth of the recursion. -/
def findExactNN (ix : KMeansIndex) (vec : Vec) :
    Nat → KMeansNode → ResultSet → Except Err ResultSet
  | 0, _, _ => Except.error Err.outOfFuel
  | fuel + 1, node, result =>
    if pruneTest (ix.distance vec node.pivot ix.veclen_) node.radius result.worstDist then
      Except.ok result
    else
      match node.childs with
      | none => Except.ok (scanLeaf ix node vec result)
      | some _ =>
        (getCenterOrdering ix node vec).foldl
          (fun acc i =>
            match acc with
            | Except.error e => Except.error e
            | Except.ok res => findExactNN ix vec fuel (node.child i) res)
          (Except.ok result)

/-- The entries `BranchStruct<KMeansNodePtr, DistanceType>` of the branch heap. -/
structure BranchSt where
  node : KMeansNode
  mindist : ℚ

/-- Modelled from the spec: the branch heap (`Heap<BranchSt>` of `flann/util/heap.h`, not part
of the sources) is a priority queue ordered by ascending key.  `length` is the capacity the
heap is allocated with (`new Heap<BranchSt>(size_)` in `findNeighbors`, "branch heap of
capacity `N`"); `items` are the branches held, in insertion order. -/
structure Heap where
  length : Nat
  items : List BranchSt

/-- Modelled from the spec: `insert(node, key)` of the branch heap.  The heap holds at most
`length` branches: an insert into a heap that holds `length` branches already leaves it as
it is, the specification naming no failure of `insert`. -/
def Heap.insert (h : Heap) (b : BranchSt) : Heap :=
  if h.items.length < h.length then { h with items := h.items ++ [b] } else h

/-- Modelled from the spec: the position of the branch that `popMin` removes: the first of
the branches with the least key. -/
def Heap.minPos : List BranchSt → Nat
  | [] => 0
  | b :: rest =>
    if rest.all (fun c => decide (b.mindist ≤ c.mindist)) then 0 else Heap.minPos rest + 1

/-- Modelled from the spec: `popMin()` of the branch heap: the branch with the least key and
the remaining heap, or `none` when the heap is empty. -/
def Heap.popMin (h : Heap) : Option (BranchSt × Heap) :=
  match h.items with
  | [] => none
  | b :: rest => some ((b :: rest).getD (Heap.minPos (b :: rest)) b,
      { h with items := (b :: rest).eraseIdx (Heap.minPos (b :: rest)) })

/-- Method `exploreNodeBranches`: the index of the nearest child, and the heap after the other
children have been inserted. -/
def exploreNodeBranches (ix : KMeansIndex) (node : KMeansNode) (q : Vec) (heap : Heap) :
    Nat × Heap :=
  let best_index := (List.range' 1 (ix.branching.toNat - 1)).foldl
    (fun best i =>
      if ix.distance q (node.child i).pivot ix.veclen_
          < ix.distance q (node.child best).pivot ix.veclen_ then i
      else best)
    0
  (best_index, (List.range ix.branching.toNat).foldl
    (fun h i =>
      if i ≠ best_index then
        Heap.insert h
          { node := node.child i
            mindist := ix.distance q (node.child i).pivot ix.veclen_
              - ix.cb_index * (node.child i).variance }
      else h)
    heap)

/-- The variables a best-bin-first search threads through: the result sink, the counter
`checks` and the branch heap. -/
structure SearchState where
  result : ResultSet
  checks : Int
  heap : Heap

/-- Method `findNN`; the fuel bounds the depth of the descent. -/
def findNN (ix : KMeansIndex) (vec : Vec) (maxChecks : Int) :
    Nat → KMeansNode → SearchState → Except Err SearchState
  | 0, _, _ => Except.error Err.outOfFuel
  | fuel + 1, node, st =>
    if pruneTest (ix.distance vec node.pivot ix.veclen_) node.radius st.result.worstDist then
      Except.ok st
    else
      match node.childs with
      | none =>
        if st.checks ≥ maxChecks ∧ st.result.full = true then Except.ok st
        else
          Except.ok { st with
            checks := st.checks + node.size
            result := scanLeaf ix node vec st.result }
      | some _ =>
        findNN ix vec maxChecks fuel
          (node.child (exploreNodeBranches ix node vec st.heap).1)
          { st with heap := (exploreNodeBranches ix node vec st.heap).2 }

/-- The loop `while (heap->popMin(branch) && (checks < maxChecks || !result.full()))` of
`findNeighbors`; the first argument bounds the number of iterations, the second is the fuel
of each descent. -/
def bbfLoop (ix : KMeansIndex) (vec : Vec) (maxChecks : Int) :
    Nat → Nat → SearchState → Except Err SearchState
  | 0, _, _ => Except.error Err.outOfFuel
  | steps + 1, fuel, st =>
    match Heap.popMin st.heap with
    | none => Except.ok st
    | some (branch, heap) =>
      if st.checks < maxChecks ∨ st.result.full = false then
        match findNN ix vec maxChecks fuel branch.node { st with heap := heap } with
        | Except.error e => Except.error e
        | Except.ok st1 => bbfLoop ix vec maxChecks steps fuel st1
      else Except.ok { st with heap := heap }

/-- The value `FLANN_CHECKS_UNLIMITED` of the search parameter `checks`. -/
def FLANN_CHECKS_UNLIMITED : Int := -1

/-- Method `findNeighbors(result, vec, searchParams)`, with `searchParams.checks = maxChecks`.
The result is the sink together with the final value of the counter `checks` (`0` for the
exact search, which has no counter).  `fuel` bounds the depth of a descent and the number of
iterations of the loop.  The final `assert(result.full())` is `Err.assertionFailed`. -/
def findNeighbors (ix : KMeansIndex) (result : ResultSet) (vec : Vec) (maxChecks : Int)
    (fuel : Nat) : Except Err (ResultSet × Int) :=
  match ix.root with
  | none => Except.error Err.nullPointer
  | some root =>
    if maxChecks = FLANN_CHECKS_UNLIMITED then
      match findExactNN ix vec fuel root result with
      | Except.error e => Except.error e
      | Except.ok res => Except.ok (res, 0)
    else
      match findNN ix vec maxChecks fuel root
          { result := result, checks := 0, heap := { length := ix.size_, items := [] } } with
      | Except.error e => Except.error e
      | Except.ok st =>
        match bbfLoop ix vec maxChecks fuel fuel st with
        | Except.error e => Except.error e
        | Except.ok st1 =>
          if st1.result.full then Except.ok (st1.result, st1.checks)
          else Except.error Err.assertionFailed

/-- The candidate value `variance` of `getMinVarianceClusters` for splitting cluster `c`. -/
def splitVariance (ix : KMeansIndex) (meanVariance : ℚ) (c : KMeansNode) : ℚ :=
  (List.range ix.branching.toNat).foldl
    (fun variance j => variance + (c.child j).variance * ((c.child j).size : ℚ))
    (meanVariance - c.variance * (c.size : ℚ))

/-- The loop `for (i = 0; i < clusterCount; ++i)` of `getMinVarianceClusters`: the pair
`(minVariance, splitIndex)`, with `none` for the largest representable value and for
`splitIndex = -1`. -/
def findSplit (ix : KMeansIndex) (clusters : List KMeansNode) (meanVariance : ℚ) :
    Option ℚ × Option Nat :=
  (List.range clusters.length).foldl
    (fun acc i =>
      if ((clusters.getD i (KMeansNode.mk [] 0 0 0 0 none none)).childs).isSome then
        if ltMax (splitVariance ix meanVariance
            (clusters.getD i (KMeansNode.mk [] 0 0 0 0 none none))) acc.1 then
          (some (splitVariance ix meanVariance
            (clusters.getD i (KMeansNode.mk [] 0 0 0 0 none none))), some i)
        else acc
      else acc)
    (none, none)

/-- The cluster array after the node at `splitIndex` has been split: it is replaced by its
child 0 and the other children are appended. -/
def splitCluster (ix : KMeansIndex) (clusters : List KMeansNode) (splitIndex : Nat) :
    List KMeansNode :=
  clusters.set splitIndex
      ((clusters.getD splitIndex (KMeansNode.mk [] 0 0 0 0 none none)).child 0)
    ++ (List.range' 1 (ix.branching.toNat - 1)).map
      (fun i => (clusters.getD splitIndex (KMeansNode.mk [] 0 0 0 0 none none)).child i)

/-- The loop `while (clusterCount < clusters_length)` of `getMinVarianceClusters`; the fuel
bounds the number of iterations.  The state is `clusters[0..clusterCount)` and
`meanVariance`. -/
def minVarianceLoop (ix : KMeansIndex) (clusters_length : Nat) :
    Nat → List KMeansNode → ℚ → Except Err (List KMeansNode × ℚ)
  | 0, _, _ => Except.error Err.outOfFuel
  | fuel + 1, clusters, meanVariance =>
    if clusters.length < clusters_length then
      match findSplit ix clusters meanVariance with
      | (_, none) => Except.ok (clusters, meanVariance)
      | (minVariance, some splitIndex) =>
        if ix.branching.toNat + clusters.length - 1 > clusters_length then
          Except.ok (clusters, meanVariance)
        else
          minVarianceLoop ix clusters_length fuel (splitCluster ix clusters splitIndex)
            (minVariance.getD 0)
    else Except.ok (clusters, meanVariance)

/-- Method `getMinVarianceClusters(root, clusters, clusters_length, varianceValue)`: the
entries `clusters[0..clusterCount)` (whose number is the return value) and
`varianceValue`. -/
def getMinVarianceClusters (ix : KMeansIndex) (root : KMeansNode) (clusters_length : Nat)
    (fuel : Nat) : Except Err (List KMeansNode × ℚ) :=
  match minVarianceLoop ix clusters_length fuel [root] (root.variance * (root.size : ℚ)) with
  | Except.error e => Except.error e
  | Except.ok (clusters, meanVariance) => Except.ok (clusters, meanVariance / (root.size : ℚ))

/-- Method `getClusterCenters(centers)`: the return value `clusterCount` and the rows of
`centers` after the call. -/
def getClusterCenters (ix : KMeansIndex) (centers : Matrix) (fuel : Nat) :
    Except Err (Nat × List Vec) :=
  if centers.rows < 1 then Except.error Err.invalidParameter
  else
    match ix.root with
    | none => Except.error Err.nullPointer
    | some root =>
      match getMinVarianceClusters ix root centers.rows fuel with
      | Except.error e => Except.error e
      | Except.ok (clusters, _) =>
        Except.ok (clusters.length,
          (List.range centers.rows).map (fun i =>
            if i < clusters.length then
              (List.range ix.veclen_).map (fun j =>
                vget (clusters.getD i (KMeansNode.mk [] 0 0 0 0 none none)).pivot j)
            else centers.row i))

/-- The first traversal of `getClusterCentersOnLevelL` (breadth first, over the list `fifo`):
the largest `level` met, starting from `max_level`.  The fuel bounds the number of nodes
taken from the list. -/
def maxLevelLoop (ix : KMeansIndex) : Nat → List KMeansNode → Int → Except Err Int
  | 0, fifo, max_level =>
    match fifo with
    | [] => Except.ok max_level
    | _ :: _ => Except.error Err.outOfFuel
  | _ + 1, [], max_level => Except.ok max_level
  | fuel + 1, node :: fifo, max_level =>
    maxLevelLoop ix fuel
      (match node.childs with
        | some _ => fifo ++ (List.range ix.branching.toNat).map node.child
        | none => fifo)
      (max max_level (node.level : Int))

/-- The value of an arithmetic operation on `int` operands: the exact result reduced to the
range of a 32-bit two's-complement integer, `[-2^31, 2^31)`, as the machine computes it. -/
def wrapInt (x : Int) : Int := (x + 2147483648) % 4294967296 - 2147483648

/-- The value `nb_nodes_before_L` of `getClusterCentersOnLevelL`: it starts at 1 and the loop
`for (i = 1; i < level_L; ++i)` adds the powers `branching ^ i`. -/
def nbNodesBeforeL (branching level_L : Int) : Int :=
  ((List.range (level_L - 1).toNat).foldl
    (fun (acc : Int × Int) _ =>
      (wrapInt (acc.1 * branching), wrapInt (acc.2 + wrapInt (acc.1 * branching)))) (1, 1)).2

/-- The loop `while (current_level < level_L)` of `getClusterCentersOnLevelL` on the pair
`(id_of_parent_at_level_L, current_level)`; the first argument bounds the iterations. -/
def descendToLevel (branching level_L : Int) : Nat → Int × Int → Int × Int
  | 0, s => s
  | n + 1, s =>
    if s.2 < level_L then
      descendToLevel branching level_L n (wrapInt (wrapInt (s.1 * branching) + 1), s.2 + 1)
    else s

/-- The loop `while (current_level > level_L)` of `getClusterCentersOnLevelL` on the pair
`(id_of_parent_at_level_L, current_level)`; the first argument bounds the iterations.  The
quotient of two `int` values truncates. -/
def climbToLevel (branching level_L : Int) : Nat → Int × Int → Int × Int
  | 0, s => s
  | n + 1, s =>
    if s.2 > level_L then
      climbToLevel branching level_L n (Int.tdiv (wrapInt (s.1 - 1)) branching, s.2 - 1)
    else s

/-- The label `id_of_parent_at_level_L` that `getClusterCentersOnLevelL` computes for a leaf
with the breadth-first number `id` on level `level`. -/
def idOfParentAtLevelL (branching level_L nb_nodes_before_L : Int) (id level : Int) : Int :=
  let s1 := descendToLevel branching level_L (level_L - level).toNat (id, level)
  let s2 := climbToLevel branching level_L (s1.2 - level_L).toNat s1
  let s3 := if s2.2 < level_L then (wrapInt (wrapInt (s2.1 * branching) + 1), s2.2 + 1) else s2
  wrapInt (s3.1 - nb_nodes_before_L)

/-- The number `node.second * branching + i + 1` that the second traversal of
`getClusterCentersOnLevelL` gives to child `i` of the node with the number `id`, computed in
`int`. -/
def childNumber (branching id : Int) (i : Nat) : Int :=
  wrapInt (wrapInt (wrapInt (id * branching) + (i : Int)) + 1)

/-- The loop `for (i = 0; i < node->size; ++i) clusterIds[node->indices[i]] = id` over the
points of a leaf. -/
def writeLabels (ix : KMeansIndex) (node : KMeansNode) (id : Int) (clusterIds : List Int) :
    List Int :=
  (List.range node.size).foldl
    (fun ids i => ids.set ((ix.indices.getD []).getD (node.indices.getD 0 + i) 0) id)
    clusterIds

/-- The second traversal of `getClusterCentersOnLevelL` (breadth first, over the list
`fifo_ids` of nodes with their numbers): the array `clusterIds`.  The fuel bounds the number
of nodes taken from the list. -/
def labelLoop (ix : KMeansIndex) (level_L nb_nodes_before_L : Int) :
    Nat → List (KMeansNode × Int) → List Int → Except Err (List Int)
  | 0, fifo_ids, clusterIds =>
    match fifo_ids with
    | [] => Except.ok clusterIds
    | _ :: _ => Except.error Err.outOfFuel
  | _ + 1, [], clusterIds => Except.ok clusterIds
  | fuel + 1, node :: fifo_ids, clusterIds =>
    match node.1.childs with
    | some _ =>
      labelLoop ix level_L nb_nodes_before_L fuel
        (fifo_ids ++ (List.range ix.branching.toNat).map (fun i =>
          (node.1.child i, childNumber ix.branching node.2 i)))
        clusterIds
    | none =>
      labelLoop ix level_L nb_nodes_before_L fuel fifo_ids
        (writeLabels ix node.1
          (idOfParentAtLevelL ix.branching level_L nb_nodes_before_L node.2 (node.1.level : Int))
          clusterIds)

/-- Method `getClusterCentersOnLevelL(level_L, clusterIds)`: the return value and the array
`clusterIds` after the call.  The two lines written to `std::cout` are left out.  `fuel`
bounds the number of nodes each traversal takes from its list. -/
def getClusterCentersOnLevelL (ix : KMeansIndex) (level_L : Int) (clusterIds : List Int)
    (fuel : Nat) : Except Err (Int × List Int) :=
  match ix.root with
  | none => Except.ok (-2, clusterIds)
  | some root =>
    match maxLevelLoop ix fuel [root] (-1) with
    | Except.error e => Except.error e
    | Except.ok max_level =>
      match labelLoop ix level_L (nbNodesBeforeL ix.branching level_L) fuel [(root, 0)]
          clusterIds with
      | Except.error e => Except.error e
      | Except.ok ids => Except.ok (max_level, ids)

/-- The values written to and read from the stream: an `int`, a `float`, and the raw copy of
a node record (`save_value(stream, *node)`), of which the scalar fields, the nullness of
`childs` and the raw `indices` field matter. -/
inductive Tok where
  | int (v : Int)
  | real (v : ℚ)
  | node (radius variance : ℚ) (size level : Nat) (childsNull : Bool) (indices : Option Nat)

mutual
/-- Method `save_tree`. -/
def save_tree (ix : KMeansIndex) : KMeansNode → List Tok
  | KMeansNode.mk pivot radius variance size level none indices =>
    Tok.node radius variance size level true indices
      :: ((List.range ix.veclen_).map (fun k => Tok.real (vget pivot k))
        ++ [Tok.int ((indices.getD 0 : Nat) : Int)])
  | KMeansNode.mk pivot radius variance size level (some cs) indices =>
    Tok.node radius variance size level false indices
      :: ((List.range ix.veclen_).map (fun k => Tok.real (vget pivot k))
        ++ save_childs ix ix.branching.toNat cs)
/-- The loop `for (i = 0; i < branching; ++i) save_tree(stream, node->childs[i])`; the first
argument is `branching - i`, the second the child array from entry `i` on. -/
def save_childs (ix : KMeansIndex) : Nat → List KMeansNode → List Tok
  | 0, _ => []
  | _ + 1, [] => []
  | n + 1, c :: cs => save_tree ix c ++ save_childs ix n cs
end

mutual
/-- The nodes of the tree below and including a node, in pre-order. -/
def KMeansNode.nodes : KMeansNode → List KMeansNode
  | KMeansNode.mk p r v s l none i => [KMeansNode.mk p r v s l none i]
  | KMeansNode.mk p r v s l (some cs) i =>
    KMeansNode.mk p r v s l (some cs) i :: KMeansNode.nodesList cs
/-- The nodes of the trees of a child array. -/
def KMeansNode.nodesList : List KMeansNode → List KMeansNode
  | [] => []
  | c :: cs => c.nodes ++ KMeansNode.nodesList cs
end

mutual
/-- The number of edges on the longest path from a node down to a leaf. -/
def KMeansNode.depth : KMeansNode → Nat
  | KMeansNode.mk _ _ _ _ _ none _ => 0
  | KMeansNode.mk _ _ _ _ _ (some cs) _ => KMeansNode.depthList cs + 1
/-- The largest depth among the nodes of a child array. -/
def KMeansNode.depthList : List KMeansNode → Nat
  | [] => 0
  | c :: cs => max c.depth (KMeansNode.depthList cs)
end

/-- The predicate `node->childs == NULL`. -/
def KMeansNode.isLeaf (n : KMeansNode) : Bool := n.childs.isNone

/-- The ids `node->indices[0..size)` of a leaf, read from the index array. -/
def leafIds (ix : KMeansIndex) (n : KMeansNode) : List Nat :=
  ((ix.indices.getD []).drop (n.indices.getD 0)).take n.size

/-- The invariant of the partition loop of `computeClustering` for cluster `c`, whose members
are gathered from position `start` on, before position `i` is visited: the points before
`start` belong to earlier clusters, those between `start` and the cursor to `c`, those
between the cursor and `i` to later clusters, and the others to `c` or a later cluster. -/
def PartInv (c start i : Nat) (st : PartState) : Prop :=
  st.belongs_to.length = st.indices.length ∧ start ≤ st.end_ ∧ st.end_ ≤ max start i ∧
  (∀ p, p < start → st.belongs_to.getD p 0 < c) ∧
  (∀ p, start ≤ p → p < st.end_ → st.belongs_to.getD p 0 = c) ∧
  (∀ p, st.end_ ≤ p → p < max start i → c < st.belongs_to.getD p 0) ∧
  (∀ p, max start i ≤ p → p < st.belongs_to.length → c ≤ st.belongs_to.getD p 0)

/-- The shape of a list of sibling subtrees that the build lays out over a slice of the index
array: `Forest B D lvl off slice nodes` says that the nodes, all on level `lvl`, occupy
consecutive parts of `slice`, which starts at offset `off` of the index array; every node
records the length of its part as `size`, a leaf records the offset of its part, whose ids
are in ascending order, an internal node has `B` children, which occupy its part in the same
way on level `lvl + 1`; every pivot has `D` components. -/
inductive Forest (B D : Nat) : Nat → Nat → List Nat → List KMeansNode → Prop
  | nil (lvl off : Nat) : Forest B D lvl off [] []
  | leaf (lvl off : Nat) (p : Vec) (r v : ℚ) (s rest : List Nat) (cs : List KMeansNode) :
      s.Sorted (fun a b => a ≤ b) → p.length = D → Forest B D lvl (off + s.length) rest cs →
      Forest B D lvl off (s ++ rest) (KMeansNode.mk p r v s.length lvl none (some off) :: cs)
  | inner (lvl off : Nat) (p : Vec) (r v : ℚ) (s rest : List Nat)
      (childs cs : List KMeansNode) :
      p.length = D → childs.length = B → Forest B D (lvl + 1) off s childs →
      Forest B D lvl (off + s.length) rest cs →
      Forest B D lvl off (s ++ rest) (KMeansNode.mk p r v s.length lvl (some childs) none :: cs)

/-- The shape of the working buffers of a split of `len` points into `B` clusters, with
centres of `D` components: `belongs_to` has an entry below `B` for every point, and
`dcenters` has `B` rows of `D` components. -/
def ClustersOK (B D len : Nat) (st : Clusters) : Prop :=
  st.belongs_to.length = len ∧ (∀ x ∈ st.belongs_to, x < B)
    ∧ (∀ c, c < B → (st.dcenters.getD c []).length = D)

/-- The shape of a built index: the branching factor is at least 2, the index array is a
permutation of the row numbers, and the tree is laid out over it as `Forest` describes. -/
def WellFormed (ix : KMeansIndex) : Prop :=
  2 ≤ ix.branching ∧ ∃ root perm, ix.root = some root ∧ ix.indices = some perm
    ∧ perm.Perm (List.range ix.size_)
    ∧ Forest ix.branching.toNat ix.veclen_ 0 0 perm [root]

/-- What the build guarantees for a node `n` of a tree laid out over `slice`, which starts at
offset `off` of the index array: an internal node has `B` children whose sizes add up to
its own; a leaf records an offset at which `size` ids of the slice lie, in ascending
order. -/
def NodeOK (B off : Nat) (slice : List Nat) (n : KMeansNode) : Prop :=
  (∀ cs, n.childs = some cs → cs.length = B ∧ n.size = (cs.map KMeansNode.size).sum)
  ∧ (n.childs = none → ∃ o, n.indices = some o ∧ off ≤ o ∧ o + n.size ≤ off + slice.length
      ∧ ((slice.drop (o - off)).take n.size).Sorted (fun a b => a ≤ b))

/-- The largest size of a leaf below a node. -/
def maxLeafSize (n : KMeansNode) : Nat :=
  ((n.nodes.filter KMeansNode.isLeaf).map KMeansNode.size).foldl max 0

/-- Every leaf below `n` has at most `L` points. -/
def LeafBound (L : Nat) (n : KMeansNode) : Prop :=
  ∀ m ∈ n.nodes, m.childs = none → m.size ≤ L

/-- The invariant of the best-bin-first search behind the bound on the counter `checks`,
for a sink of capacity `k`, the budget `maxChecks` and trees whose leaves have at most `L`
points. -/
def ChecksInv (k : Nat) (maxChecks : Int) (L : Nat) (st : SearchState) : Prop :=
  st.result.capacity = k ∧ st.result.entries.length ≤ k
    ∧ (st.result.full = false → st.checks = (st.result.entries.length : Int))
    ∧ st.checks ≤ max 0 (max maxChecks (k : Int) - 1 + (L : Int))
    ∧ ∀ b ∈ st.heap.items, LeafBound L b.node

/-- A node of a tree laid out as `Forest` describes, with `B` children per internal node. -/
def Shaped (B : Nat) (n : KMeansNode) : Prop :=
  ∃ D lvl off slice, Forest B D lvl off slice [n]

/-- The sum of `f` over the nodes of the branches in the heap. -/
def heapSum (f : KMeansNode → Nat) (h : List BranchSt) : Nat :=
  (h.map (fun b => f b.node)).sum

/-- The invariant of the best-bin-first search behind its termination: the branches in the
heap are well-shaped subtrees of depth below `fuel` with at most `M` nodes in total. -/
def HeapInv (B fuel M : Nat) (st : SearchState) : Prop :=
  (∀ b ∈ st.heap.items, Shaped B b.node ∧ b.node.depth < fuel)
    ∧ heapSum (fun n => n.nodes.length) st.heap.items ≤ M

/-- The invariant of the best-bin-first search behind the final assertion, for a sink of
capacity `k` over `N` points: while the sink is not full it holds every point scanned so
far, and the points scanned, those below the branches in the heap and `extra` further ones
add up to `N`. -/
def FillInv (B N k : Nat) (extra : Nat) (st : SearchState) : Prop :=
  st.result.capacity = k ∧ st.result.entries.length ≤ k
    ∧ (st.result.full = false →
        st.checks = (st.result.entries.length : Int)
          ∧ st.result.entries.length + heapSum KMeansNode.size st.heap.items + extra = N)
    ∧ ∀ b ∈ st.heap.items, Shaped B b.node

/-- No split below and including `n` has an empty child: every child of every node holds at
least one point. -/
def Populated (n : KMeansNode) : Prop := ∀ m ∈ n.nodes, ∀ ch ∈ m.childs.getD [], 1 ≤ ch.size

/-- Whether a tree has an empty child can be checked by evaluation. -/
instance Populated.decidable (n : KMeansNode) : Decidable (Populated n) := by
  unfold Populated
  infer_instance

/-- The invariant of the best-bin-first search behind the room in the branch heap, for a heap
of capacity `N`: the branches in the heap are non-empty subtrees without empty children,
and their sizes and `extra` further points add up to at most `N`, so that the heap holds
fewer than `N` branches whenever `extra` is positive. -/
def RoomInv (N extra : Nat) (st : SearchState) : Prop :=
  st.heap.length = N
    ∧ (∀ b ∈ st.heap.items, 1 ≤ b.node.size ∧ Populated b.node)
    ∧ heapSum KMeansNode.size st.heap.items + extra ≤ N

/-- The leaves below and including a node, from left to right. -/
def KMeansNode.leaves (n : KMeansNode) : List KMeansNode := n.nodes.filter KMeansNode.isLeaf

/-- The ids of the points in the leaves below a node. -/
def members (ix : KMeansIndex) (n : KMeansNode) : List Nat := n.leaves.flatMap (leafIds ix)

/-- The invariant of the loop of `getMinVarianceClusters`: the clusters are well-shaped nodes
whose leaves are, up to order, the leaves of the tree. -/
def CutInv (B : Nat) (root : KMeansNode) (clusters : List KMeansNode) : Prop :=
  (∀ c ∈ clusters, Shaped B c)
    ∧ (clusters.flatMap KMeansNode.leaves).Perm root.leaves

/-- The `k` smallest values of a list, in ascending order. -/
def kSmallest (ds : List ℚ) (k : Nat) : List ℚ := (ds.insertionSort (fun a b => a ≤ b)).take k

/-- The sink holds the `capacity` smallest of the distances in `seen`. -/
def SinkInv (r : ResultSet) (seen : List ℚ) : Prop :=
  r.entries.map Prod.fst = kSmallest seen r.capacity

/-- A node of a tree that is laid out over the index array of `ix` as `Forest` describes. -/
def Laid (ix : KMeansIndex) (n : KMeansNode) : Prop :=
  ∃ D lvl off slice perm, Forest ix.branching.toNat D lvl off slice [n]
    ∧ ix.indices = some perm ∧ (perm.drop off).take slice.length = slice

/-- The radius of every node below and including `n` bounds the distance from the pivot of
the node to every point in the leaves below it. -/
def RadiusOK (ix : KMeansIndex) (n : KMeansNode) : Prop :=
  ∀ m ∈ n.nodes, ∀ j ∈ members ix m,
    ix.distance (ix.dataset.row j) m.pivot ix.veclen_ ≤ m.radius

/-- The radius bound can be checked by evaluation. -/
instance RadiusOK.decidable (ix : KMeansIndex) (n : KMeansNode) : Decidable (RadiusOK ix n) := by
  unfold RadiusOK
  infer_instance

mutual
/-- The leaves below a node, from left to right, each with the number the second traversal of
`getClusterCentersOnLevelL` gives it when the node has the number `id`: child `i` of a node
with the number `n` has the number `childNumber branching n i`. -/
def taggedLeaves (branching : Int) : KMeansNode → Int → List (KMeansNode × Int)
  | KMeansNode.mk p r v s l none i, id => [(KMeansNode.mk p r v s l none i, id)]
  | KMeansNode.mk _ _ _ _ _ (some cs) _, id => taggedList branching cs id 0
/-- The numbered leaves below the entries of a child array from entry `i` on, for a parent
with the number `id`. -/
def taggedList (branching : Int) : List KMeansNode → Int → Nat → List (KMeansNode × Int)
  | [], _, _ => []
  | c :: cs, id, i =>
    taggedLeaves branching c (childNumber branching id i) ++ taggedList branching cs id (i + 1)
end

/-- The label that `getClusterCentersOnLevelL` computes for a numbered leaf. -/
def leafLabel (ix : KMeansIndex) (level_L : Int) (x : KMeansNode × Int) : Int :=
  idOfParentAtLevelL ix.branching level_L (nbNodesBeforeL ix.branching level_L) x.2
    (x.1.level : Int)

/-- The sum of the distances, under the distance of the index, from the points `js` to
`p`. -/
def distSum (ix : KMeansIndex) (js : List Nat) (p : Vec) : ℚ :=
  (js.map (fun j => ix.distance (ix.dataset.row j) p ix.veclen_)).sum

/-- Every node below and including `n` stores the mean of the points below it as its pivot
and their mean squared distance to the pivot as its variance (both stated multiplied by the
size of the node). -/
def MeanVarOK (ix : KMeansIndex) (n : KMeansNode) : Prop :=
  ∀ m ∈ n.nodes,
    (∀ k, k < ix.veclen_ →
      vget m.pivot k * (m.size : ℚ)
        = ((members ix m).map (fun j => vget (ix.dataset.row j) k)).sum)
    ∧ m.variance * (m.size : ℚ) = distSum ix (members ix m) m.pivot

/-- The mean and variance property can be checked by evaluation. -/
instance MeanVarOK.decidableOK (ix : KMeansIndex) (n : KMeansNode) :
    Decidable (MeanVarOK ix n) := by
  unfold MeanVarOK
  infer_instance

/-- The array `count` agrees with the array `belongs_to`: it has an entry for each of the
`B` clusters, which is the number of points assigned to the cluster. -/
def CountOK (B : Nat) (st : Clusters) : Prop :=
  st.count.length = B ∧ ∀ c, c < B → st.count.getD c 0 = (st.belongs_to.count c : Int)

/-- The state of the repair loop before cluster `t` is visited, against the state `st0` at
the start of the pass. -/
def RepairInv (B m : Nat) (st0 : Clusters) (t : Nat) (st : Clusters) : Prop :=
  CountOK B st ∧ st.belongs_to.length = m ∧ (∀ x ∈ st.belongs_to, x < B)
    ∧ st.dcenters = st0.dcenters ∧ st.radiuses = st0.radiuses
    ∧ (∀ c, c < B → st0.count.getD c 0 = 0 →
        (t ≤ c → st.count.getD c 0 = 0) ∧ (c < t → st.count.getD c 0 = 1))
    ∧ (∀ c, c < B → st0.count.getD c 0 ≠ 0 →
        1 ≤ st.count.getD c 0 ∧ st.count.getD c 0 ≤ st0.count.getD c 0)
    ∧ (∀ p, p < m → st.belongs_to.getD p 0 = st0.belongs_to.getD p 0
        ∨ st0.count.getD (st.belongs_to.getD p 0) 0 = 0)

/-- What the first assignment leaves in the buffers after `n` points. -/
def AssignInv (ix : KMeansIndex) (indices : List Nat) (dc : List Vec) (B n : Nat)
    (st : Clusters) : Prop :=
  st.dcenters = dc ∧ st.belongs_to.length = indices.length
    ∧ (∀ i, i < n → st.belongs_to.getD i 0
        = (nearestCenter ix (ix.dataset.row (indices.getD i 0)) dc B).1)
    ∧ st.count.length = B
    ∧ (∀ c, c < B → st.count.getD c 0 = ((st.belongs_to.take n).count c : Int))
    ∧ st.radiuses.length = B
    ∧ ∀ c, c < B →
        (∀ i, i < n → st.belongs_to.getD i 0 = c →
          (nearestCenter ix (ix.dataset.row (indices.getD i 0)) dc B).2 ≤ st.radiuses.getD c 0)
        ∧ (st.radiuses.getD c 0 = 0 ∨ ∃ i, i < n ∧ st.belongs_to.getD i 0 = c
            ∧ (nearestCenter ix (ix.dataset.row (indices.getD i 0)) dc B).2
              = st.radiuses.getD c 0)

/-- The number of points of the clusters `c, ..., c + t - 1`: the distance of the sub-slice
of cluster `c + t` from the cursor at which cluster `c` starts. -/
def slotOffset (assign : Nat → Nat) (indices : List Nat) (c t : Nat) : Nat :=
  ((List.range t).map (fun i =>
    (indices.filter (fun x => decide (assign x = c + i))).length)).sum

/-- The rows `dcenters[0..branching)` as `computeClustering` fills them from the seeds
`centers_idx` before the first assignment. -/
def seedRows (ix : KMeansIndex) (branching : Nat) (centers_idx : List Nat) : List Vec :=
  (List.range branching).map (fun i =>
    (List.range ix.veclen_).map (fun k => vget (ix.dataset.row (centers_idx.getD i 0)) k))

/-- The rows of the ids of a slice are pairwise apart: no two different ids pass the
duplicate test of the random seeder. -/
def RowsApart (ix : KMeansIndex) (indices : List Nat) : Prop :=
  ∀ a ∈ indices, ∀ b ∈ indices, a ≠ b →
    ¬ ix.distance (ix.dataset.row a) (ix.dataset.row b) ix.dataset.cols < 1 / 10 ^ 16

/-- The interactions of `query_vector` (file `query_vector.cc`) with the console, the files
and the search libraries, in program order. -/
inductive QueryEvent where
  | printUsage
  | reportDescMode (desc_mode : Int)
  | reportMethod (method : Int)
  | openResults
  | reportResults
  | openAssignments
  | reportAssignments
  | readAssignments
  | createFlannIndex
  | reportFlannIndex
  | createAnnTree
  | readKeyList
  | localizeImage (i : Nat)
  | closeResults
  | cleanUp
  deriving DecidableEq, Repr

/-- Modelled from the spec: the outcomes of the calls of `query_vector` into the parts that
are not among the sources (the file streams, `visual_words_handler` of
`features/visual_words_handler.hh`) and the number of names in the key list; the
specification does not describe them, so they are left free. -/
structure QueryWorld where
  resultsOpen : Bool
  assignmentsOpen : Bool
  flannIndexCreated : Bool
  nb_keyfiles : Nat

/-- Function `query_vector(keylist, nb_leafs, vw_assignments, desc_mode, method, results,
query_vector)`: the return value and the interactions in program order.  The function has no
`return` statement at its end; `none` stands for the value of a call that runs to the end.
The work on one query image is the single interaction `localizeImage`. -/
def query_vector (w : QueryWorld) (desc_mode method : Int) : Option Int × List QueryEvent :=
  if desc_mode ≠ 0 ∧ desc_mode ≠ 1 then
    (some (-1), [QueryEvent.printUsage, QueryEvent.reportDescMode desc_mode])
  else if method < 0 ∨ method > 3 then
    (some (-1), [QueryEvent.printUsage, QueryEvent.reportMethod method])
  else if ¬ w.resultsOpen then
    (some 1, [QueryEvent.printUsage, QueryEvent.openResults, QueryEvent.reportResults])
  else if ¬ w.assignmentsOpen then
    (some (-1), [QueryEvent.printUsage, QueryEvent.openResults, QueryEvent.openAssignments,
      QueryEvent.reportAssignments])
  else if method = 0 ∨ method = 3 then
    if ¬ w.flannIndexCreated then
      (some (-1), [QueryEvent.printUsage, QueryEvent.openResults, QueryEvent.openAssignments,
        QueryEvent.readAssignments, QueryEvent.createFlannIndex, QueryEvent.reportFlannIndex])
    else
      (none, [QueryEvent.printUsage, QueryEvent.openResults, QueryEvent.openAssignments,
          QueryEvent.readAssignments, QueryEvent.createFlannIndex, QueryEvent.readKeyList]
        ++ (List.range w.nb_keyfiles).map QueryEvent.localizeImage
        ++ [QueryEvent.closeResults, QueryEvent.cleanUp])
  else
    (none, [QueryEvent.printUsage, QueryEvent.openResults, QueryEvent.openAssignments,
        QueryEvent.readAssignments, QueryEvent.createAnnTree, QueryEvent.readKeyList]
      ++ (List.range w.nb_keyfiles).map QueryEvent.localizeImage
      ++ [QueryEvent.closeResults, QueryEvent.cleanUp])

/-- The local `int sigma = 1/4*128;` of `query_vector`; the quotient of two `int` values
truncates. -/
def sigma : Int := Int.tdiv 1 4 * 128

/-- The local `float w_fi = exp(-1*distance*distance)/(sigma*sigma);` of `query_vector`, for
the library function `exp`; `none` stands for the quotient by zero (an infinity or NaN). -/
def w_fi (exp : ℚ → ℚ) (distance : ℚ) : Option ℚ :=
  if ((sigma * sigma : Int) : ℚ) = 0 then none
  else some (exp (-1 * distance * distance) / ((sigma * sigma : Int) : ℚ))

/-- A world in which every file opens, the search index is created and the key list names two
images. -/
def worldAllGood : QueryWorld :=
  { resultsOpen := true, assignmentsOpen := true, flannIndexCreated := true, nb_keyfiles := 2 }

/-- The sum of `variance * size` over a list of clusters. -/
def weightedVariance (clusters : List KMeansNode) : ℚ :=
  (clusters.map (fun c => c.variance * (c.size : ℚ))).sum

/-- A distance functor that is zero from a vector to itself, never negative and not
symmetric: the amount by which the first component of the second argument exceeds that of the
first. -/
def oneSided : Distance := fun a b _ =>
  if vget a 0 < vget b 0 then vget b 0 - vget a 0 else 0

/-- An index over the rows `(0)` and `(1)` with branching 2, Gonzales seeding and the distance
`oneSided`. -/
def indexOneSided : KMeansIndex :=
  { branching := 2, max_iter := 11, cb_index := 2 / 5
    dataset := { data := [[0], [1]], rows := 2, cols := 1 }
    size_ := 2, veclen_ := 1, root := none, indices := none, distance := oneSided
    memoryCounter := 0, chooseCenters := .FLANN_CENTERS_GONZALES }

/-- The error of an outcome other than a normal return, `none` for a normal return. -/
def errValue {α : Type} (r : Except Err α) : Option Err :=
  match r with
  | Except.ok _ => none
  | Except.error e => some e

/-- The first assignment of the points to the clusters (the loop after the comment "assign
points to clusters") with the scan for the nearest centre left open: `pick i` is the value of
`new_centroid` that the scan yields for the point at position `i`, whatever the arithmetic
on the centres makes it.  `count` and `belongs_to` are followed as in the source; the centres
and `radiuses`, which no branch of the split reads, are not. -/
def assignPointsBy (pick : Nat → Nat) (indices_length branching : Nat) : Clusters :=
  (List.range indices_length).foldl
    (fun st i =>
      { st with
        count := st.count.set (pick i) (st.count.getD (pick i) 0 + 1)
        belongs_to := st.belongs_to.set i (pick i) })
    { dcenters := []
      radiuses := []
      count := List.replicate branching 0
      belongs_to := List.replicate indices_length 0 }

/-- The loop after the comment "reassign points to clusters" with the scan for the nearest
centre left open: `pick i` is the value of `new_centroid` for the point at position `i`,
whatever the centres are (NaN components after a division by a zero count included).  The
flag is `converged`; `count` and `belongs_to` are updated as in the source. -/
def reassignPointsBy (pick : Nat → Nat) (indices_length : Nat) (st : Clusters)
    (converged : Bool) : Clusters × Bool :=
  (List.range indices_length).foldl
    (fun acc i =>
      if pick i ≠ acc.1.belongs_to.getD i 0 then
        ({ acc.1 with
            count := ((acc.1.count.set (acc.1.belongs_to.getD i 0)
                (acc.1.count.getD (acc.1.belongs_to.getD i 0) 0 - 1)).set (pick i)
                ((acc.1.count.set (acc.1.belongs_to.getD i 0)
                  (acc.1.count.getD (acc.1.belongs_to.getD i 0) 0 - 1)).getD (pick i) 0 + 1))
            belongs_to := acc.1.belongs_to.set i (pick i) }, false)
      else acc)
    (st, converged)

/-- The loop `while (!converged && iteration < max_iter)` with the arithmetic on the centres
left open: the new centres are not computed, and `picks iteration i` is the value of
`new_centroid` for the point at position `i` in the pass that follows `iteration++`.  The
first argument is `max_iter - iteration`, the second is `iteration`.  The repair of the empty
clusters is the one of the source. -/
def lloydLoopBy (picks : Nat → Nat → Nat) (indices_length branching : Nat) :
    Nat → Nat → Bool → Clusters → Except Err Clusters
  | 0, _, _, st => Except.ok st
  | left + 1, iteration, converged, st =>
    if converged then Except.ok st
    else
      match repairClusters branching (List.range branching)
          (reassignPointsBy (picks (iteration + 1)) indices_length st true) with
      | Except.error e => Except.error e
      | Except.ok acc =>
        lloydLoopBy picks indices_length branching left (iteration + 1) acc.2 acc.1

/-- Method `computeClustering` with the arithmetic on the centres left open.  `seeded indices`
tells whether the seeder returns `branching` centres for the slice, `picks indices 0 i` is
the cluster of the point at position `i` in the first assignment, and `picks indices t i` its
value of `new_centroid` in pass `t` of the Lloyd loop.  The leaf exits, the iteration cap,
the repair of the empty clusters, the partition of the slice and the recursion are those of
the source; the statistics of the children are computed from empty centre arrays and carry
no meaning.  Two calls that reach the Lloyd loop work on different slices, so that every run
of the source is the run of this function for some `seeded` and `picks`. -/
def computeClusteringBy (ix : KMeansIndex) (seeded : List Nat → Bool)
    (picks : List Nat → Nat → Nat → Nat) (branching : Nat) :
    Nat → BuildState → List Nat → Nat → NodeStats → Nat → ClusteringResult
  | 0, _, _, _, _, _ => Except.error Err.outOfFuel
  | fuel + 1, bs, indices, off, stats, level =>
    if indices.length < branching then makeLeaf stats indices off level bs
    else
      if seeded indices = false then makeLeaf stats indices off level bs
      else
        match lloydLoopBy (picks indices) indices.length branching ix.max_iter 0 false
            (assignPointsBy (picks indices 0) indices.length branching) with
        | Except.error e => Except.error e
        | Except.ok st =>
          match clusterChildren ix (computeClusteringBy ix seeded picks branching fuel) off level
              st.dcenters st.radiuses st.count (List.range branching)
              indices st.belongs_to 0
              { rng := bs.rng
                memoryCounter :=
                  bs.memoryCounter + branching * (ix.veclen_ * sizeofDistanceType) } with
          | Except.error e => Except.error e
          | Except.ok (childs, indices1, bs1) =>
            Except.ok (KMeansNode.mk stats.pivot stats.radius stats.variance indices.length
              level (some childs) none, indices1, bs1)

/-- Method `buildIndex` over `computeClusteringBy`. -/
def buildIndexBy (ix : KMeansIndex) (seeded : List Nat → Bool)
    (picks : List Nat → Nat → Nat → Nat) (fuel : Nat) (g : Rng) :
    Except Err (KMeansIndex × Rng) :=
  if ix.branching < 2 then Except.error Err.invalidParameter
  else
    match computeClusteringBy ix seeded picks ix.branching.toNat fuel
        { rng := g
          memoryCounter := ix.memoryCounter + ix.veclen_ * sizeofDistanceType }
        (List.range ix.size_) 0
        (computeNodeStatistics ix (List.range ix.size_) ix.size_) 0 with
    | Except.error e => Except.error e
    | Except.ok (root, indices, bs) =>
      Except.ok ({ ix with
        root := some root, indices := some indices, memoryCounter := bs.memoryCounter }, bs.rng)

/-- Every split below and including `n` is into `B` children, each of which holds at least
one point and at most the points of the split node less `B - 1`. -/
def Shrinks (B : Nat) (n : KMeansNode) : Prop :=
  ∀ m ∈ n.nodes, ∀ cs, m.childs = some cs →
    cs.length = B ∧ ∀ ch ∈ cs, 1 ≤ ch.size ∧ ch.size + (B - 1) ≤ m.size

/-- The dataset of scenario S1. -/
def dataS1 : Matrix := { data := [[0, 0], [0, 1], [10, 0], [10, 1]], rows := 4, cols := 2 }

/-- The index of scenario S1 before the build: branching 2, random seeding. -/
def indexS1 : KMeansIndex :=
  { branching := 2, max_iter := 11, cb_index := 2 / 5, dataset := dataS1, size_ := 4
    veclen_ := 2, root := none, indices := none, distance := L2, memoryCounter := 0
    chooseCenters := .FLANN_CENTERS_RANDOM }

/-- The value of a normal return, `d` for any other outcome. -/
def okValue {α : Type} (r : Except Err α) (d : α) : α :=
  match r with
  | Except.ok a => a
  | Except.error _ => d

/-- The index of scenario S1 after the build (with the random stream `[]`). -/
def builtS1 : KMeansIndex × Rng := okValue (buildIndex indexS1 3 []) (indexS1, [])

/-- The root of the index of scenario S1 after the build. -/
def rootS1 : KMeansNode := builtS1.1.root.getD (KMeansNode.mk [] 0 0 0 0 none none)

/-- The outcome of the best-bin-first search on the built index of scenario S1 for the query
`(0, 1/2)` with `k = 2` and the budget `checks = 1`. -/
def searchS1 : ResultSet × Int :=
  okValue (findNeighbors builtS1.1 { capacity := 2, entries := [] } [0, 1 / 2] 1 4)
    ({ capacity := 2, entries := [] }, 0)

/-- An index over a single row, with branching 2. -/
def indexOne : KMeansIndex :=
  { branching := 2, max_iter := 11, cb_index := 2 / 5
    dataset := { data := [[3, 4]], rows := 1, cols := 2 }
    size_ := 1, veclen_ := 2, root := none, indices := none, distance := L2
    memoryCounter := 0, chooseCenters := .FLANN_CENTERS_KMEANSPP }

/-- An index over three identical rows, with branching 2 and Gonzales seeding. -/
def indexDup : KMeansIndex :=
  { branching := 2, max_iter := 11, cb_index := 2 / 5
    dataset := { data := [[1, 2], [1, 2], [1, 2]], rows := 3, cols := 2 }
    size_ := 3, veclen_ := 2, root := none, indices := none, distance := L2
    memoryCounter := 0, chooseCenters := .FLANN_CENTERS_GONZALES }

/-- An output matrix of three rows for `getClusterCenters` on scenario S1. -/
def centersS1 : Matrix := { data := [[0, 0], [0, 0], [0, 0]], rows := 3, cols := 2 }

/-- The return value of `getClusterCentersOnLevelL` and the labels it leaves in
`clusterIds`. -/
def levelLabels (ix : KMeansIndex) (level_L : Int) (clusterIds : List Int) (fuel : Nat) :
    Option (Int × List Int) :=
  match getClusterCentersOnLevelL ix level_L clusterIds fuel with
  | Except.ok r => some r
  | Except.error _ => none

/-- An index with branching 3 and iteration cap 1 over seven points on a line. -/
def indexR : KMeansIndex :=
  { branching := 3, max_iter := 1, cb_index := 2 / 5
    dataset := { data := [[8], [10], [30], [32], [33], [34], [51]], rows := 7, cols := 1 }
    size_ := 7, veclen_ := 1, root := none, indices := none, distance := L2
    memoryCounter := 0, chooseCenters := .FLANN_CENTERS_RANDOM }

/-- A random stream for which the first split of `indexR` is seeded with the rows 0, 1
and 6. -/
def rngR : Rng := [2, 5, 4, 3, 2, 1, 0]

/-- The index a build returns, if it returns one. -/
def builtIndex (r : Except Err (KMeansIndex × Rng)) : Option KMeansIndex :=
  match r with
  | Except.ok (ix, _) => some ix
  | Except.error _ => none

/-- The leaf members that lie farther from the pivot of their leaf than its radius, as
triples of the id, the distance to the pivot and the radius. -/
def radiusViolations (ix : KMeansIndex) : List (Nat × ℚ × ℚ) :=
  (((ix.root.map KMeansNode.nodes).getD []).filter KMeansNode.isLeaf).flatMap (fun n =>
    ((leafIds ix n).filter (fun j =>
        decide (n.radius < ix.distance (ix.dataset.row j) n.pivot ix.veclen_))).map
      (fun j => (j, ix.distance (ix.dataset.row j) n.pivot ix.veclen_, n.radius)))

/-- The entries of the sink after `findNeighbors` on an empty sink of capacity `k`, and the
final value of the counter `checks`. -/
def searchEntries (ix : KMeansIndex) (vec : Vec) (k : Nat) (maxChecks : Int) (fuel : Nat) :
    Option (List (ℚ × Nat) × Int) :=
  match findNeighbors ix { capacity := k, entries := [] } vec maxChecks fuel with
  | Except.ok r => some (r.1.entries, r.2)
  | Except.error _ => none

/-- The index of scenario S1 with `iterations = 0`. -/
def indexS0 : KMeansIndex := { indexS1 with max_iter := 0 }

/-- The call of `computeClustering` on the root of `indexS0`, with the random stream `[]`. -/
def rootCallS0 : ClusteringResult :=
  computeClustering indexS0 2 (4 + 1) { rng := [], memoryCounter := 0 } (List.range 4) 0
    (computeNodeStatistics indexS0 (List.range 4) 4) 0

/-- An index over 100 all-zero rows, with the default branching 32, 11 iterations and
k-means++ seeding. -/
def indexZeros : KMeansIndex :=
  { branching := 32, max_iter := 11, cb_index := 2 / 5
    dataset := { data := List.replicate 100 [0, 0], rows := 100, cols := 2 }
    size_ := 100, veclen_ := 2, root := none, indices := none, distance := L2
    memoryCounter := 0, chooseCenters := .FLANN_CENTERS_KMEANSPP }

/-- An index over two identical rows, with branching 2, `iterations = 0` and k-means++
seeding. -/
def indexTwin : KMeansIndex :=
  { branching := 2, max_iter := 0, cb_index := 2 / 5
    dataset := { data := [[0], [0]], rows := 2, cols := 1 }
    size_ := 2, veclen_ := 1, root := none, indices := none, distance := L2
    memoryCounter := 0, chooseCenters := .FLANN_CENTERS_KMEANSPP }

/-- The index of scenario S1 after the build with the random stream `[3, 2, 1, 0]`, for
which the sampler of the root yields the rows 0 and 1 as seeds. -/
def builtS1b : KMeansIndex × Rng := okValue (buildIndex indexS1 3 [3, 2, 1, 0]) (indexS1, [])

/-- The ids below each child of the root of `builtS1b`. -/
def childIdsS1b : List (List Nat) :=
  (((builtS1b.1.root.getD (KMeansNode.mk [] 0 0 0 0 none none)).childs.getD []).map
    (members builtS1b.1))

/-- An index over the 33 one-component rows `1, 2, 4, ..., 2^32`, with branching 2, Gonzales
seeding and `iterations = 0`: every split separates the largest row from the others, so the
tree is a chain of depth 32. -/
def indexChain : KMeansIndex :=
  { branching := 2, max_iter := 0, cb_index := 2 / 5
    dataset :=
      { data := (List.range 33).map (fun i => [((2 ^ i : Nat) : ℚ)]), rows := 33, cols := 1 }
    size_ := 33, veclen_ := 1, root := none, indices := none, distance := L2
    memoryCounter := 0, chooseCenters := .FLANN_CENTERS_GONZALES }

/-- The index `indexChain` after the build (with the random stream `[]`). -/
def builtChain : KMeansIndex × Rng := okValue (buildIndex indexChain 40 []) (indexChain, [])

/-- The root of `builtChain`. -/
def rootChain : KMeansNode := builtChain.1.root.getD (KMeansNode.mk [] 0 0 0 0 none none)

/-- An empty branch heap with the capacity that `findNeighbors` gives it in scenario S1. -/
def heapS1 : Heap := { length := 4, items := [] }

/-- An index over the two rows `0` and `1`, with branching 2, `iterations = 0` and k-means++
seeding. -/
def indexPair : KMeansIndex :=
  { branching := 2, max_iter := 0, cb_index := 2 / 5
    dataset := { data := [[0], [1]], rows := 2, cols := 1 }
    size_ := 2, veclen_ := 1, root := none, indices := none, distance := L2
    memoryCounter := 0, chooseCenters := .FLANN_CENTERS_KMEANSPP }

/-- The index `indexPair` after the build with the random stream `0, 0, 0, 0, 0, 1`: the
sampler yields row 0 twice as the seeds of the root and of its first child, and the rows 0
and 1 one level below. -/
def builtPair : KMeansIndex × Rng :=
  okValue (buildIndex indexPair 5 [0, 0, 0, 0, 0, 1]) (indexPair, [])

/-- The root of the tree of `builtPair`. -/
def rootPair : KMeansNode := builtPair.1.root.getD (KMeansNode.mk [] 0 0 0 0 none none)

/-- A seeder outcome for `computeClusteringBy`: `branching` centres on every slice. -/
def seededAll : List Nat → Bool := fun _ => true

/-- Scan outcomes for `computeClusteringBy`: every point picks cluster 0 in every pass, as
happens when the centre of cluster 0 is the only one without NaN components and also when it
is itself NaN. -/
def picksFirst : List Nat → Nat → Nat → Nat := fun _ _ _ => 0

/-! ## Theorems -/

theorem swapAt_length (a : List Nat) (i j : Nat) : (swapAt a i j).length = a.length := by
  simp [swapAt]

theorem getD_swapAt (a : List Nat) (i j p : Nat) (hi : i < a.length) (hj : j < a.length) :
    (swapAt a i j).getD p 0
      = if p = j then a.getD i 0 else if p = i then a.getD j 0 else a.getD p 0 := by
  unfold swapAt
  simp only [List.getD_eq_getElem?_getD, List.getElem?_set, List.length_set]
  by_cases h1 : j = p
  · subst h1; simp [hj]
  · by_cases h2 : i = p
    · subst h2; simp [h1, hi, Ne.symm h1]
    · simp [h1, h2, Ne.symm h1, Ne.symm h2]

theorem swapAt_perm (a : List Nat) (i j : Nat) (hi : i < a.length) (hj : j < a.length) :
    (swapAt a i j).Perm a := by
  rw [List.perm_iff_count]
  intro x
  unfold swapAt
  rw [List.count_set _ _ _ _ (by simpa using hj), List.count_set _ _ _ _ hi]
  simp only [List.getElem_set, List.getD_eq_getElem?_getD, List.getElem?_eq_getElem hi,
    List.getElem?_eq_getElem hj, Option.getD_some, beq_iff_eq]
  have h1 : a[i] = x → 1 ≤ a.count x := fun h =>
    List.count_pos_iff.mpr (h ▸ List.getElem_mem hi)
  by_cases hij : i = j
  · subst hij
    by_cases hx : a[i] = x
    · have := h1 hx; simp [hx]; omega
    · simp [hx]
  · simp only [hij, if_false]
    by_cases hx : a[i] = x <;> by_cases hy : a[j] = x <;> simp [hx, hy]
    all_goals
      have h9 := h1 hx
      omega


theorem partitionStep_inv (ix : KMeansIndex) (c start i : Nat) (st : PartState)
    (hi : i < st.indices.length) (h : PartInv c start i st) :
    PartInv c start (i + 1) (partitionStep ix c st i) := by
  obtain ⟨hlen, h1, h2, h3, h4, h5, h6⟩ := h
  unfold partitionStep
  split
  · rename_i hc
    have hsi : start ≤ i := by
      by_contra hlt
      have := h3 i (by omega)
      omega
    have hei : st.end_ ≤ i := by rw [max_eq_right hsi] at h2; exact h2
    have hib : i < st.belongs_to.length := by omega
    have heb : st.end_ < st.belongs_to.length := by omega
    rw [max_eq_right hsi] at h5 h6
    refine ⟨by simp [swapAt_length, hlen], by simp; omega, by simp; omega, ?_, ?_, ?_, ?_⟩
    · intro p hp
      simp only [getD_swapAt _ _ _ _ hib heb]
      rw [if_neg (by omega), if_neg (by omega)]
      exact h3 p hp
    · intro p hp1 hp2
      simp only [getD_swapAt _ _ _ _ hib heb]
      by_cases hpe : p = st.end_
      · rw [if_pos hpe]; exact hc
      · rw [if_neg hpe, if_neg (by simp at hp2; omega)]
        exact h4 p hp1 (by simp at hp2; omega)
    · intro p hp1 hp2
      simp only [getD_swapAt _ _ _ _ hib heb]
      simp only at hp1
      rw [max_eq_right (by omega)] at hp2
      rw [if_neg (by omega)]
      by_cases hpi : p = i
      · rw [if_pos hpi]; exact h5 _ (le_refl _) (by omega)
      · rw [if_neg hpi]; exact h5 p (by omega) (by omega)
    · intro p hp1 hp2
      simp only [getD_swapAt _ _ _ _ hib heb]
      rw [max_eq_right (by omega)] at hp1
      simp only [swapAt_length] at hp2
      rw [if_neg (by omega), if_neg (by omega)]
      exact h6 p (by omega) hp2
  · rename_i hc
    by_cases hsi : start ≤ i
    · rw [max_eq_right hsi] at h2 h5 h6
      refine ⟨hlen, h1, ?_, h3, h4, ?_, ?_⟩
      · rw [max_eq_right (by omega)]; omega
      · intro p hp1 hp2
        rw [max_eq_right (by omega)] at hp2
        by_cases hpi : p = i
        · subst hpi
          have := h6 p (le_refl _) (by omega)
          omega
        · exact h5 p hp1 (by omega)
      · intro p hp1 hp2
        rw [max_eq_right (by omega)] at hp1
        exact h6 p (by omega) hp2
    · have e1 : max start (i + 1) = start := max_eq_left (by omega)
      have e2 : max start i = start := max_eq_left (by omega)
      rw [e2] at h2 h5 h6
      refine ⟨hlen, h1, by rw [e1]; exact h2, h3, h4, by rw [e1]; exact h5, by rw [e1]; exact h6⟩

theorem take_set_of_le {α : Type} (a : α) {n m : Nat} (l : List α) (h : m ≤ n) :
    (l.set n a).take m = l.take m :=
  List.ext_getElem? fun i => by
    rw [List.getElem?_take, List.getElem?_take]
    split
    · rw [List.getElem?_set_ne (by omega)]
    · rfl

theorem partitionStep_indices (ix : KMeansIndex) (c start i : Nat) (st : PartState)
    (hi : i < st.indices.length) (h : PartInv c start i st) :
    (partitionStep ix c st i).indices.Perm st.indices
      ∧ (partitionStep ix c st i).indices.length = st.indices.length
      ∧ (partitionStep ix c st i).indices.take start = st.indices.take start := by
  obtain ⟨hlen, h1, h2, h3, h4, h5, h6⟩ := h
  unfold partitionStep
  split
  · rename_i hc
    have hsi : start ≤ i := by
      by_contra hlt
      have := h3 i (by omega)
      omega
    have hei : st.end_ ≤ i := by rw [max_eq_right hsi] at h2; exact h2
    refine ⟨swapAt_perm _ _ _ hi (by omega), swapAt_length _ _ _, ?_⟩
    show List.take start (swapAt st.indices i st.end_) = _
    unfold swapAt
    rw [take_set_of_le _ _ h1, take_set_of_le _ _ hsi]
  · exact ⟨List.Perm.refl _, rfl, rfl⟩

theorem partitionStep_belongs (ix : KMeansIndex) (c start i : Nat) (st : PartState)
    (hi : i < st.indices.length) (h : PartInv c start i st) :
    (partitionStep ix c st i).belongs_to.Perm st.belongs_to := by
  obtain ⟨hlen, h1, h2, h3, h4, h5, h6⟩ := h
  unfold partitionStep
  split
  · rename_i hc
    have hsi : start ≤ i := by
      by_contra hlt
      have := h3 i (by omega)
      omega
    have hei : st.end_ ≤ i := by rw [max_eq_right hsi] at h2; exact h2
    exact swapAt_perm _ _ _ (by omega) (by omega)
  · exact List.Perm.refl _

theorem partitionFold (ix : KMeansIndex) (c start : Nat) (st0 : PartState)
    (h0 : PartInv c start 0 st0) (n : Nat) (hn : n ≤ st0.indices.length) :
    PartInv c start n ((List.range n).foldl (partitionStep ix c) st0)
      ∧ ((List.range n).foldl (partitionStep ix c) st0).indices.Perm st0.indices
      ∧ ((List.range n).foldl (partitionStep ix c) st0).indices.length = st0.indices.length
      ∧ ((List.range n).foldl (partitionStep ix c) st0).indices.take start
          = st0.indices.take start
      ∧ ((List.range n).foldl (partitionStep ix c) st0).belongs_to.Perm st0.belongs_to := by
  induction n with
  | zero => exact ⟨h0, List.Perm.refl _, rfl, rfl, List.Perm.refl _⟩
  | succ n ih =>
    obtain ⟨i1, i2, i3, i4, i5⟩ := ih (by omega)
    rw [List.range_succ, List.foldl_append]
    simp only [List.foldl_cons, List.foldl_nil]
    have hi : n < ((List.range n).foldl (partitionStep ix c) st0).indices.length := by omega
    obtain ⟨j1, j2, j3⟩ := partitionStep_indices ix c start n _ hi i1
    exact ⟨partitionStep_inv ix c start n _ hi i1, j1.trans i2, j2.trans i3, j3.trans i4,
      (partitionStep_belongs ix c start n _ hi i1).trans i5⟩

/-- What a pass of the partition loop establishes -/
theorem partitionPass_spec (ix : KMeansIndex) (c start : Nat) (indices bt : List Nat)
    (hlen : bt.length = indices.length) (hs : start ≤ indices.length)
    (hlo : ∀ p, p < start → bt.getD p 0 < c)
    (hhi : ∀ p, start ≤ p → p < bt.length → c ≤ bt.getD p 0) (p : PartState)
    (hp : p = partitionPass ix c
      { indices := indices, belongs_to := bt, end_ := start, variance := 0 }) :
    p.indices.Perm indices ∧ p.indices.length = indices.length
      ∧ p.indices.take start = indices.take start
      ∧ p.belongs_to.Perm bt ∧ p.belongs_to.length = indices.length
      ∧ start ≤ p.end_ ∧ p.end_ ≤ indices.length
      ∧ (∀ q, q < p.end_ → p.belongs_to.getD q 0 < c + 1)
      ∧ (∀ q, p.end_ ≤ q → q < p.belongs_to.length → c + 1 ≤ p.belongs_to.getD q 0) := by
  subst hp
  unfold partitionPass
  dsimp only
  have h0 : PartInv c start 0
      { indices := indices, belongs_to := bt, end_ := start, variance := 0 } := by
    refine ⟨hlen, le_refl _, by simp, hlo, ?_, ?_, ?_⟩
    · intro q h1 h2; simp only at h2; omega
    · intro q h1 h2; simp only at h1; rw [max_eq_left (Nat.zero_le _)] at h2; omega
    · intro q h1 h2; rw [max_eq_left (Nat.zero_le _)] at h1; exact hhi q h1 h2
  obtain ⟨⟨k0, k1, k2, k3, k4, k5, k6⟩, i2, i3, i4, i5⟩ :=
    partitionFold ix c start _ h0 indices.length (le_refl _)
  dsimp only at k0 k1 k2 k3 k4 k5 k6 i2 i3 i4 i5
  rw [max_eq_right hs] at k2 k5 k6
  refine ⟨i2, i3, i4, i5, k0.trans i3, k1, k2, ?_, ?_⟩
  · intro q hq
    by_cases hqs : q < start
    · have := k3 q hqs; omega
    · have := k4 q (by omega) hq; omega
  · intro q hq1 hq2
    have hq3 : q < indices.length := by
      have := k0.trans i3
      simp only at this
      omega
    have := k5 q hq1 hq3
    omega

theorem Forest.nil_slice {B D lvl off : Nat} {s : List Nat}
    (h : Forest B D lvl off s []) : s = [] := by
  cases h; rfl

theorem Forest.cons_single {B D lvl off : Nat} {s r : List Nat} {node : KMeansNode}
    {cs : List KMeansNode} (h1 : Forest B D lvl off s [node])
    (h2 : Forest B D lvl (off + s.length) r cs) :
    Forest B D lvl off (s ++ r) (node :: cs) := by
  cases h1 with
  | leaf _ _ p r0 v s0 rest _ hs hp hrest =>
    have := Forest.nil_slice hrest
    subst this
    simp only [List.append_nil] at h2 ⊢
    exact Forest.leaf lvl off p r0 v s0 r cs hs hp h2
  | inner _ _ p r0 v s0 rest childs _ hp hB hch hrest =>
    have := Forest.nil_slice hrest
    subst this
    simp only [List.append_nil] at h2 ⊢
    exact Forest.inner lvl off p r0 v s0 r childs cs hp hB hch h2

theorem take_mid_drop {α : Type} (l : List α) (a b : Nat) (hab : a ≤ b) :
    l.take a ++ (l.drop a).take (b - a) ++ l.drop b = l := by
  have h1 : (l.drop a).take (b - a) ++ l.drop b = l.drop a := by
    have : l.drop b = (l.drop a).drop (b - a) := by
      rw [List.drop_drop]; congr 1; omega
    rw [this, List.take_append_drop]
  rw [List.append_assoc, h1, List.take_append_drop]

theorem getD_lt_of_forall_mem (bt : List Nat) (B p : Nat) (h : ∀ x ∈ bt, x < B)
    (hp : p < bt.length) : bt.getD p 0 < B := by
  rw [List.getD_eq_getElem _ _ hp]
  exact h _ (List.getElem_mem hp)

theorem clusterChildren_spec (ix : KMeansIndex) (B D : Nat)
    (recurse : BuildState → List Nat → Nat → NodeStats → Nat → ClusteringResult)
    (off level : Nat) (centers : List Vec) (radiuses : List ℚ) (count : List Int)
    (hrec : ∀ bs sub o stats lvl node slice bs1,
      recurse bs sub o stats lvl = Except.ok (node, slice, bs1) → stats.pivot.length = D →
      slice.Perm sub ∧ Forest B D lvl o slice [node])
    (hcent : ∀ c, c < B → (centers.getD c []).length = D) :
    ∀ (n c : Nat) (indices bt : List Nat) (start : Nat) (bs : BuildState)
      (childs : List KMeansNode) (indices1 : List Nat) (bs2 : BuildState),
      c + n = B → bt.length = indices.length → start ≤ indices.length →
      (∀ p, p < start → bt.getD p 0 < c) →
      (∀ p, start ≤ p → p < bt.length → c ≤ bt.getD p 0) →
      (∀ x ∈ bt, x < B) →
      clusterChildren ix recurse off level centers radiuses count (List.range' c n)
        indices bt start bs = Except.ok (childs, indices1, bs2) →
      indices1.Perm indices ∧ indices1.take start = indices.take start
        ∧ indices1.length = indices.length ∧ childs.length = n
        ∧ Forest B D (level + 1) (off + start) (indices1.drop start) childs := by
  intro n
  induction n with
  | zero =>
    intro c indices bt start bs childs indices1 bs2 hc hlen hs hlo hhi hB h
    simp only [List.range'_zero, clusterChildren, Except.ok.injEq, Prod.mk.injEq] at h
    obtain ⟨h1, h2, _⟩ := h
    subst h1 h2
    have hstart : start = indices.length := by
      by_contra hne
      have hlt : start < bt.length := by omega
      have h1 := hhi start (le_refl _) hlt
      have h2 := getD_lt_of_forall_mem bt B start hB hlt
      omega
    refine ⟨List.Perm.refl _, rfl, rfl, rfl, ?_⟩
    rw [hstart, List.drop_length]
    exact Forest.nil _ _
  | succ n ih =>
    intro c indices bt start bs childs indices1 bs2 hc hlen hs hlo hhi hB h
    rw [List.range'_succ] at h
    simp only [clusterChildren] at h
    obtain ⟨q1, q2, q3, q4, q5, q6, q7, q8, q9⟩ :=
      partitionPass_spec ix c start indices bt hlen hs hlo hhi _ rfl
    generalize partitionPass ix c
      { indices := indices, belongs_to := bt, end_ := start, variance := 0 } = p at h q1 q2 q3 q4 q5 q6 q7 q8 q9
    split at h
    · exact absurd h (by simp)
    · rename_i child slice bs1 hr
      obtain ⟨r1, r2⟩ := hrec _ _ _ _ _ _ _ _ hr (hcent c (by omega))
      have hsl : slice.length = p.end_ - start := by
        rw [r1.length_eq, List.length_take, List.length_drop]; omega
      split at h
      · exact absurd h (by simp)
      · rename_i rest indices2 bs3 hr2
        simp only [Except.ok.injEq, Prod.mk.injEq] at h
        obtain ⟨h1, h2, h3⟩ := h
        subst h1 h2 h3
        have hlen2 : (p.indices.take start ++ slice ++ p.indices.drop p.end_).length
            = indices.length := by
          simp only [List.length_append, List.length_take, List.length_drop, hsl]; omega
        obtain ⟨i1, i2, i3, i4, i5⟩ := ih (c + 1) _ p.belongs_to p.end_ bs1 rest indices2 bs3
          (by omega) (by rw [q5, hlen2]) (by rw [hlen2]; exact q7) q8 q9
          (fun x hx => hB x (q4.mem_iff.mp hx)) hr2
        have hperm : (p.indices.take start ++ slice ++ p.indices.drop p.end_).Perm p.indices := by
          conv => rhs; rw [← take_mid_drop p.indices start p.end_ q6]
          exact (List.Perm.append_left _ r1).append_right _
        have htake : indices2.take p.end_ = p.indices.take start ++ slice := by
          rw [i2, List.take_append_of_le_length (by
            simp only [List.length_append, List.length_take, hsl]; omega)]
          rw [List.take_of_length_le (by
            simp only [List.length_append, List.length_take, hsl]; omega)]
        have hdecomp : indices2 = (p.indices.take start ++ slice) ++ indices2.drop p.end_ := by
          rw [← htake, List.take_append_drop]
        have hts : (p.indices.take start).length = start := by
          rw [List.length_take]; omega
        refine ⟨(i1.trans hperm).trans q1, ?_, by rw [i3, hlen2], by simp [i4], ?_⟩
        · rw [hdecomp, List.append_assoc, List.take_append_of_le_length (by omega),
            List.take_of_length_le (by omega), q3]
        · have hdrop : indices2.drop start = slice ++ indices2.drop p.end_ := by
            conv => lhs; rw [hdecomp, List.append_assoc]
            rw [List.drop_append_of_le_length (by omega), List.drop_of_length_le (by omega)]
            simp
          rw [hdrop]
          refine Forest.cons_single r2 ?_
          rw [hsl]
          have : off + start + (p.end_ - start) = off + p.end_ := by omega
          rw [this]
          exact i5

theorem foldl_inv {α β : Type} (P : β → Prop) (f : β → α → β) (l : List α)
    (h : ∀ b a, a ∈ l → P b → P (f b a)) : ∀ b, P b → P (l.foldl f b) := by
  induction l with
  | nil => intro b hb; exact hb
  | cons x xs ih =>
    intro b hb
    exact ih (fun b a ha => h b a (List.mem_cons_of_mem _ ha)) _ (h b x (List.mem_cons_self _ _) hb)

theorem nearestCenter_lt (ix : KMeansIndex) (x : Vec) (dc : List Vec) (B : Nat) (hB : 1 ≤ B) :
    (nearestCenter ix x dc B).1 < B := by
  unfold nearestCenter
  apply foldl_inv (fun b : Nat × ℚ => b.1 < B)
  · intro b a ha hb
    rw [List.mem_range'_1] at ha
    split
    · show a < B; omega
    · exact hb
  · exact hB

theorem mem_set_lt (bt : List Nat) (i v B : Nat) (h : ∀ x ∈ bt, x < B) (hv : v < B) :
    ∀ x ∈ bt.set i v, x < B := by
  intro x hx
  rcases List.mem_or_eq_of_mem_set hx with h1 | h1
  · exact h x h1
  · rw [h1]; exact hv

theorem rows_shape (B D c : Nat) (f : Nat → Nat → ℚ) (hc : c < B) :
    (((List.range B).map (fun i => (List.range D).map (fun k => f i k))).getD c []).length
      = D := by
  rw [List.getD_eq_getElem _ _ (by simpa using hc)]
  simp

theorem assignPoints_ok (ix : KMeansIndex) (indices : List Nat) (B : Nat) (hB : 1 ≤ B)
    (dc : List Vec) (hdc : ∀ c, c < B → (dc.getD c []).length = ix.veclen_) :
    ClustersOK B ix.veclen_ indices.length (assignPoints ix indices dc B) := by
  unfold assignPoints
  apply foldl_inv (ClustersOK B ix.veclen_ indices.length)
  · intro st i _ hst
    obtain ⟨h1, h2, h3⟩ := hst
    refine ⟨by simp [h1], ?_, h3⟩
    exact mem_set_lt _ _ _ _ h2 (nearestCenter_lt ix _ _ B hB)
  · refine ⟨by simp, ?_, hdc⟩
    intro x hx
    rw [List.mem_replicate] at hx
    omega

theorem reassignPoints_ok (ix : KMeansIndex) (indices : List Nat) (B len : Nat) (hB : 1 ≤ B)
    (st : Clusters) (conv : Bool) (h : ClustersOK B ix.veclen_ len st) :
    ClustersOK B ix.veclen_ len (reassignPoints ix indices B st conv).1 := by
  unfold reassignPoints
  apply foldl_inv (fun acc : Clusters × Bool => ClustersOK B ix.veclen_ len acc.1)
  · intro acc i _ hacc
    obtain ⟨h1, h2, h3⟩ := hacc
    dsimp only
    split
    · exact ⟨by simp [h1], mem_set_lt _ _ _ _ h2 (nearestCenter_lt ix _ _ B hB), h3⟩
    · exact ⟨h1, h2, h3⟩
  · exact h

theorem repairCluster_ok (B D len i : Nat) (hi : i < B) (acc acc1 : Clusters × Bool)
    (h : ClustersOK B D len acc.1) (hr : repairCluster B acc i = Except.ok acc1) :
    ClustersOK B D len acc1.1 := by
  obtain ⟨h1, h2, h3⟩ := h
  unfold repairCluster at hr
  split at hr
  · split at hr
    · exact absurd hr (by simp)
    · split at hr
      · simp only [Except.ok.injEq] at hr
        subst hr
        exact ⟨by simp [h1], mem_set_lt _ _ _ _ h2 hi, h3⟩
      · simp only [Except.ok.injEq] at hr
        subst hr
        exact ⟨h1, h2, h3⟩
  · simp only [Except.ok.injEq] at hr
    subst hr
    exact ⟨h1, h2, h3⟩

theorem repairClusters_ok (B D len : Nat) (l : List Nat) (hl : ∀ i ∈ l, i < B) :
    ∀ (acc acc1 : Clusters × Bool), ClustersOK B D len acc.1 →
      repairClusters B l acc = Except.ok acc1 → ClustersOK B D len acc1.1 := by
  induction l with
  | nil =>
    intro acc acc1 h hr
    simp only [repairClusters, Except.ok.injEq] at hr
    subst hr; exact h
  | cons i rest ih =>
    intro acc acc1 h hr
    simp only [repairClusters] at hr
    split at hr
    · exact absurd hr (by simp)
    · rename_i acc2 h2
      exact ih (fun j hj => hl j (List.mem_cons_of_mem _ hj)) acc2 acc1
        (repairCluster_ok B D len i (hl i (List.mem_cons_self _ _)) acc acc2 h h2) hr

theorem recomputeCenters_shape (ix : KMeansIndex) (indices : List Nat) (st : Clusters)
    (B : Nat) (dc : List Vec) (h : recomputeCenters ix indices st B = Except.ok dc) :
    ∀ c, c < B → (dc.getD c []).length = ix.veclen_ := by
  unfold recomputeCenters at h
  split at h
  · exact absurd h (by simp)
  · simp only [Except.ok.injEq] at h
    subst h
    intro c hc
    exact rows_shape B ix.veclen_ c _ hc

theorem lloydLoop_ok (ix : KMeansIndex) (indices : List Nat) (B : Nat) (hB : 1 ≤ B) :
    ∀ (left : Nat) (conv : Bool) (st st1 : Clusters),
      ClustersOK B ix.veclen_ indices.length st →
      lloydLoop ix indices B left conv st = Except.ok st1 →
      ClustersOK B ix.veclen_ indices.length st1 := by
  intro left
  induction left with
  | zero =>
    intro conv st st1 h hr
    simp only [lloydLoop, Except.ok.injEq] at hr
    subst hr; exact h
  | succ left ih =>
    intro conv st st1 h hr
    simp only [lloydLoop] at hr
    split at hr
    · simp only [Except.ok.injEq] at hr
      subst hr; exact h
    · split at hr
      · exact absurd hr (by simp)
      · rename_i dc hdc
        split at hr
        · exact absurd hr (by simp)
        · rename_i acc hacc
          refine ih acc.2 acc.1 st1 ?_ hr
          refine repairClusters_ok B ix.veclen_ indices.length (List.range B)
            (fun i hi => List.mem_range.mp hi) _ acc ?_ hacc
          apply reassignPoints_ok ix indices B indices.length hB
          exact ⟨h.1, h.2.1, recomputeCenters_shape ix indices st B dc hdc⟩


theorem makeLeaf_spec (B D : Nat) (stats : NodeStats) (indices : List Nat) (off level : Nat)
    (bs : BuildState) (node : KMeansNode) (slice : List Nat) (bs1 : BuildState)
    (h : makeLeaf stats indices off level bs = Except.ok (node, slice, bs1))
    (hp : stats.pivot.length = D) :
    slice.Perm indices ∧ Forest B D level off slice [node] := by
  simp only [makeLeaf, Except.ok.injEq, Prod.mk.injEq] at h
  obtain ⟨h1, h2, _⟩ := h
  subst h1 h2
  refine ⟨List.perm_insertionSort _ _, ?_⟩
  have h3 := @Forest.leaf B D level off stats.pivot stats.radius stats.variance
    (indices.insertionSort (fun a b => a ≤ b)) [] []
    (List.sorted_insertionSort _ _) hp (Forest.nil _ _)
  rw [List.append_nil, (List.perm_insertionSort _ _).length_eq] at h3
  exact h3

theorem computeClustering_spec (ix : KMeansIndex) (B : Nat) (hB : 1 ≤ B) :
    ∀ (fuel : Nat) (bs : BuildState) (indices : List Nat) (off : Nat) (stats : NodeStats)
      (level : Nat) (node : KMeansNode) (slice : List Nat) (bs1 : BuildState),
      computeClustering ix B fuel bs indices off stats level = Except.ok (node, slice, bs1) →
      stats.pivot.length = ix.veclen_ →
      slice.Perm indices ∧ Forest B ix.veclen_ level off slice [node] := by
  intro fuel
  induction fuel with
  | zero =>
    intro bs indices off stats level node slice bs1 h
    simp [computeClustering] at h
  | succ fuel ih =>
    intro bs indices off stats level node slice bs1 h hp
    simp only [computeClustering] at h
    split at h
    · exact makeLeaf_spec B _ _ _ _ _ _ _ _ _ h hp
    · split at h
      · exact makeLeaf_spec B _ _ _ _ _ _ _ _ _ h hp
      · split at h
        · exact absurd h (by simp)
        · rename_i st hst
          have hok := lloydLoop_ok ix indices B hB _ _ _ st
            (assignPoints_ok ix indices B hB _ (fun c hc => rows_shape B ix.veclen_ c _ hc)) hst
          obtain ⟨k1, k2, k3⟩ := hok
          split at h
          · exact absurd h (by simp)
          · rename_i childs indices1 bs2 hch
            simp only [Except.ok.injEq, Prod.mk.injEq] at h
            obtain ⟨h1, h2, _⟩ := h
            subst h1 h2
            have hcs := clusterChildren_spec ix B ix.veclen_ (computeClustering ix B fuel) off
              level st.dcenters st.radiuses st.count
              (fun bs sub o stats lvl node slice bs1 hr hpl => ih bs sub o stats lvl node slice bs1 hr hpl)
              k3 B 0 indices st.belongs_to 0 _ childs indices1 bs2 (by omega) k1
              (Nat.zero_le _) (fun p hp0 => absurd hp0 (by omega))
              (fun p _ _ => Nat.zero_le _) k2
              (by rw [← List.range_eq_range']; exact hch)
            obtain ⟨c1, _, c3, c4, c5⟩ := hcs
            refine ⟨c1, ?_⟩
            simp only [Nat.add_zero, List.drop_zero] at c5
            have h3 := @Forest.inner B ix.veclen_ level off stats.pivot stats.radius
              stats.variance indices1 [] childs [] hp c4 c5 (Forest.nil _ _)
            rw [List.append_nil, c3] at h3
            exact h3

theorem computeNodeStatistics_pivot (ix : KMeansIndex) (indices : List Nat) (n : Nat) :
    (computeNodeStatistics ix indices n).pivot.length = ix.veclen_ := by
  simp [computeNodeStatistics]

theorem buildIndex_wellFormed (ix : KMeansIndex) (fuel : Nat) (g : Rng) (ix1 : KMeansIndex)
    (g1 : Rng) (h : buildIndex ix fuel g = Except.ok (ix1, g1)) :
    WellFormed ix1 ∧ ix1.size_ = ix.size_ ∧ ix1.veclen_ = ix.veclen_
      ∧ ix1.branching = ix.branching ∧ ix1.dataset = ix.dataset
      ∧ ix1.distance = ix.distance ∧ ix1.cb_index = ix.cb_index := by
  unfold buildIndex at h
  split at h
  · exact absurd h (by simp)
  · rename_i hb
    split at h
    · exact absurd h (by simp)
    · rename_i root indices bs hcc
      simp only [Except.ok.injEq, Prod.mk.injEq] at h
      obtain ⟨h1, _⟩ := h
      subst h1
      obtain ⟨c1, c2⟩ := computeClustering_spec ix ix.branching.toNat (by omega) _ _ _ _ _ _ _ _ _
        hcc (computeNodeStatistics_pivot ix _ _)
      exact ⟨⟨by simpa using hb, root, indices, rfl, rfl, c1, c2⟩, rfl, rfl, rfl, rfl, rfl, rfl⟩

theorem eq_ok_of_isOk {α : Type} (r : Except Err α) (d : α) (h : r.isOk = true) :
    r = Except.ok (okValue r d) := by
  cases r with
  | ok a => rfl
  | error e => simp [Except.isOk, Except.toBool] at h

theorem drop_take_append_left (s r : List Nat) (d z : Nat) (h : d + z ≤ s.length) :
    ((s ++ r).drop d).take z = (s.drop d).take z := by
  rw [List.drop_append_of_le_length (by omega),
    List.take_append_of_le_length (by rw [List.length_drop]; omega)]

theorem drop_append_add (s r : List Nat) (d : Nat) :
    (s ++ r).drop (s.length + d) = r.drop d := by
  rw [List.drop_append]

theorem NodeOK.append_right {B off : Nat} {s : List Nat} (r : List Nat) {n : KMeansNode}
    (h : NodeOK B off s n) : NodeOK B off (s ++ r) n := by
  refine ⟨h.1, fun hl => ?_⟩
  obtain ⟨o, h1, h2, h3, h4⟩ := h.2 hl
  refine ⟨o, h1, h2, by rw [List.length_append]; omega, ?_⟩
  rw [drop_take_append_left _ _ _ _ (by omega)]
  exact h4

theorem NodeOK.append_left {B off : Nat} (s : List Nat) {r : List Nat} {n : KMeansNode}
    (h : NodeOK B (off + s.length) r n) : NodeOK B off (s ++ r) n := by
  refine ⟨h.1, fun hl => ?_⟩
  obtain ⟨o, h1, h2, h3, h4⟩ := h.2 hl
  refine ⟨o, h1, by omega, by rw [List.length_append]; omega, ?_⟩
  have : o - off = s.length + (o - (off + s.length)) := by omega
  rw [this, drop_append_add]
  exact h4

theorem Forest.nodes_ok {B D lvl off : Nat} {slice : List Nat} {nodes : List KMeansNode}
    (h : Forest B D lvl off slice nodes) :
    (nodes.map KMeansNode.size).sum = slice.length
      ∧ ∀ n ∈ KMeansNode.nodesList nodes, NodeOK B off slice n := by
  induction h with
  | nil lvl off => exact ⟨rfl, fun n hn => by simp [KMeansNode.nodesList] at hn⟩
  | leaf lvl off p r v s rest cs hs hp hrest ih =>
    obtain ⟨ih1, ih2⟩ := ih
    refine ⟨by simp [KMeansNode.size, ih1], ?_⟩
    intro n hn
    simp only [KMeansNode.nodesList, KMeansNode.nodes, List.mem_append, List.mem_singleton,
      List.cons_append, List.nil_append, List.mem_cons] at hn
    rcases hn with hn | hn
    · subst hn
      refine ⟨fun cs hcs => by simp [KMeansNode.childs] at hcs, fun _ => ?_⟩
      refine ⟨off, rfl, le_refl _, by simp [KMeansNode.size], ?_⟩
      simp only [Nat.sub_self, List.drop_zero, KMeansNode.size, List.take_left']
      exact hs
    · exact NodeOK.append_left s (ih2 n hn)
  | inner lvl off p r v s rest childs cs hp hB hch hrest ih1 ih2 =>
    obtain ⟨a1, a2⟩ := ih1
    obtain ⟨b1, b2⟩ := ih2
    refine ⟨by simp [KMeansNode.size, b1], ?_⟩
    intro n hn
    simp only [KMeansNode.nodesList, KMeansNode.nodes, List.mem_append,
      List.cons_append, List.mem_cons] at hn
    rcases hn with hn | hn | hn
    · subst hn
      refine ⟨fun cs0 hcs => ?_, fun hl => by simp [KMeansNode.childs] at hl⟩
      simp only [KMeansNode.childs, Option.some.injEq] at hcs
      subst hcs
      exact ⟨hB, by simp [KMeansNode.size, a1]⟩
    · exact NodeOK.append_right rest (a2 n hn)
    · exact NodeOK.append_left s (b2 n hn)

theorem le_foldl_max (l : List Nat) : ∀ (a : Nat), a ≤ l.foldl max a ∧ ∀ x ∈ l, x ≤ l.foldl max a := by
  induction l with
  | nil => intro a; exact ⟨le_refl _, fun x hx => by simp at hx⟩
  | cons y ys ih =>
    intro a
    obtain ⟨h1, h2⟩ := ih (max a y)
    refine ⟨le_trans (le_max_left _ _) h1, fun x hx => ?_⟩
    rcases List.mem_cons.mp hx with h | h
    · subst h; exact le_trans (le_max_right _ _) h1
    · exact h2 x h

theorem leafBound_maxLeafSize (n : KMeansNode) : LeafBound (maxLeafSize n) n := by
  intro m hm hl
  unfold maxLeafSize
  apply (le_foldl_max _ 0).2
  apply List.mem_map_of_mem
  rw [List.mem_filter]
  exact ⟨hm, by simp [KMeansNode.isLeaf, hl]⟩

theorem mem_nodesList {n : KMeansNode} {cs : List KMeansNode} :
    n ∈ KMeansNode.nodesList cs ↔ ∃ c ∈ cs, n ∈ c.nodes := by
  induction cs with
  | nil => simp [KMeansNode.nodesList]
  | cons c cs ih => simp [KMeansNode.nodesList, ih]

theorem nodes_of_childs {n : KMeansNode} {cs : List KMeansNode} (h : n.childs = some cs) :
    n.nodes = n :: KMeansNode.nodesList cs := by
  cases n with
  | mk p r v s l c i =>
    simp only [KMeansNode.childs] at h
    subst h
    simp [KMeansNode.nodes]

theorem nodes_of_leaf {n : KMeansNode} (h : n.childs = none) : n.nodes = [n] := by
  cases n with
  | mk p r v s l c i =>
    simp only [KMeansNode.childs] at h
    subst h
    simp [KMeansNode.nodes]

theorem child_cases (n : KMeansNode) (i : Nat) :
    (∃ cs, n.childs = some cs ∧ n.child i ∈ cs)
      ∨ n.child i = KMeansNode.mk [] 0 0 0 0 none none := by
  unfold KMeansNode.child
  cases hc : n.childs with
  | none => right; simp
  | some cs =>
    by_cases hi : i < cs.length
    · left
      refine ⟨cs, rfl, ?_⟩
      simp only [Option.getD_some]
      rw [List.getD_eq_getElem _ _ hi]
      exact List.getElem_mem hi
    · right
      simp only [Option.getD_some]
      exact List.getD_eq_default _ _ (by omega)

theorem leafBound_child {L : Nat} {n : KMeansNode} (h : LeafBound L n) (i : Nat) :
    LeafBound L (n.child i) := by
  rcases child_cases n i with ⟨cs, h1, h2⟩ | h1
  · intro m hm hl
    apply h m _ hl
    rw [nodes_of_childs h1]
    exact List.mem_cons_of_mem _ (mem_nodesList.mpr ⟨_, h2, hm⟩)
  · rw [h1]
    intro m hm hl
    simp only [KMeansNode.nodes, List.mem_singleton] at hm
    subst hm
    simp [KMeansNode.size]

theorem insertEntry_length (d : ℚ) (i : Nat) (es : List (ℚ × Nat)) :
    (insertEntry d i es).length = es.length + 1 := by
  induction es with
  | nil => rfl
  | cons e es ih =>
    simp only [insertEntry]
    split
    · rfl
    · simp [ih]

theorem addPoint_capacity (r : ResultSet) (d : ℚ) (i : Nat) :
    (r.addPoint d i).capacity = r.capacity := rfl

theorem addPoint_length (r : ResultSet) (d : ℚ) (i : Nat) :
    (r.addPoint d i).entries.length = min r.capacity (r.entries.length + 1) := by
  simp [ResultSet.addPoint, insertEntry_length]

theorem full_iff (r : ResultSet) : r.full = true ↔ r.entries.length = r.capacity := by
  simp [ResultSet.full]

theorem worstDist_of_not_full (r : ResultSet) (h : r.full = false) : r.worstDist = none := by
  simp [ResultSet.worstDist, h]

theorem scanFold_length (dist : Nat → ℚ) (idf : Nat → Nat) (w : Option ℚ) (cap : Nat) :
    ∀ (l : List Nat) (r1 : ResultSet), r1.capacity = cap → r1.entries.length ≤ cap →
      (l.foldl (fun res i =>
          if ltMax (dist i) w = true then res.addPoint (dist i) (idf i) else res) r1).capacity
          = cap
        ∧ (l.foldl (fun res i =>
          if ltMax (dist i) w = true then res.addPoint (dist i) (idf i) else res)
            r1).entries.length ≤ cap
        ∧ r1.entries.length ≤ (l.foldl (fun res i =>
          if ltMax (dist i) w = true then res.addPoint (dist i) (idf i) else res)
            r1).entries.length
        ∧ (w = none → (l.foldl (fun res i =>
          if ltMax (dist i) w = true then res.addPoint (dist i) (idf i) else res)
            r1).entries.length = min cap (r1.entries.length + l.length)) := by
  intro l
  induction l with
  | nil =>
    intro r1 h1 h2
    exact ⟨h1, h2, le_refl _, fun _ => by simp; omega⟩
  | cons i rest ih =>
    intro r1 h1 h2
    simp only [List.foldl_cons]
    split
    · rename_i hlt
      obtain ⟨a1, a2, a3, a4⟩ := ih (r1.addPoint (dist i) (idf i))
        (by rw [addPoint_capacity, h1]) (by rw [addPoint_length, h1]; omega)
      refine ⟨a1, a2, ?_, fun hn => ?_⟩
      · rw [addPoint_length, h1] at a3; omega
      · rw [a4 hn, addPoint_length, h1]; simp only [List.length_cons]; omega
    · rename_i hlt
      obtain ⟨a1, a2, a3, a4⟩ := ih r1 h1 h2
      refine ⟨a1, a2, a3, fun hn => ?_⟩
      subst hn
      simp [ltMax] at hlt

/-- The sink after a leaf scan: the capacity is kept, the sink holds no more than its
capacity and no less than before, and a sink that was not full has taken every point. -/
theorem scanLeaf_length (ix : KMeansIndex) (node : KMeansNode) (vec : Vec) (r : ResultSet)
    (hr : r.entries.length ≤ r.capacity) :
    (scanLeaf ix node vec r).capacity = r.capacity
      ∧ (scanLeaf ix node vec r).entries.length ≤ r.capacity
      ∧ r.entries.length ≤ (scanLeaf ix node vec r).entries.length
      ∧ (r.full = false → (scanLeaf ix node vec r).entries.length
          = min r.capacity (r.entries.length + node.size)) := by
  obtain ⟨a1, a2, a3, a4⟩ := scanFold_length
    (fun i => ix.distance
      (ix.dataset.row ((ix.indices.getD []).getD (node.indices.getD 0 + i) 0)) vec ix.veclen_)
    (fun i => (ix.indices.getD []).getD (node.indices.getD 0 + i) 0)
    r.worstDist r.capacity (List.range node.size) r rfl hr
  refine ⟨a1, a2, a3, fun hf => ?_⟩
  have := a4 (worstDist_of_not_full r hf)
  rw [List.length_range] at this
  exact this

/-- Proof rule for one descent of the best-bin-first search. -/
theorem findNN_rule (ix : KMeansIndex) (vec : Vec) (maxChecks : Int)
    (J : KMeansNode → SearchState → Prop) (K : SearchState → Prop)
    (hprune : ∀ n st, J n st →
      pruneTest (ix.distance vec n.pivot ix.veclen_) n.radius st.result.worstDist = true → K st)
    (hskip : ∀ n st, J n st → n.childs = none → maxChecks ≤ st.checks →
      st.result.full = true → K st)
    (hscan : ∀ n st, J n st → n.childs = none →
      pruneTest (ix.distance vec n.pivot ix.veclen_) n.radius st.result.worstDist = false →
      (st.checks < maxChecks ∨ st.result.full = false) →
      K { st with checks := st.checks + n.size, result := scanLeaf ix n vec st.result })
    (hdesc : ∀ n st cs, J n st → n.childs = some cs →
      pruneTest (ix.distance vec n.pivot ix.veclen_) n.radius st.result.worstDist = false →
      J (n.child (exploreNodeBranches ix n vec st.heap).1)
        { st with heap := (exploreNodeBranches ix n vec st.heap).2 }) :
    ∀ (fuel : Nat) (n : KMeansNode) (st st1 : SearchState), J n st →
      findNN ix vec maxChecks fuel n st = Except.ok st1 → K st1 := by
  intro fuel
  induction fuel with
  | zero => intro n st st1 _ h; simp [findNN] at h
  | succ fuel ih =>
    intro n st st1 hJ h
    simp only [findNN] at h
    split at h
    · rename_i hp
      simp only [Except.ok.injEq] at h
      subst h
      exact hprune n st hJ hp
    · rename_i hp
      simp only [Bool.not_eq_true] at hp
      split at h
      · rename_i hc
        split at h
        · rename_i hcond
          simp only [Except.ok.injEq] at h
          subst h
          exact hskip n st hJ hc hcond.1 hcond.2
        · rename_i hcond
          simp only [Except.ok.injEq] at h
          subst h
          apply hscan n st hJ hc hp
          by_cases hlt : st.checks < maxChecks
          · exact Or.inl hlt
          · right
            simp only [ge_iff_le, not_and, Bool.not_eq_true] at hcond
            exact hcond (by omega)
      · rename_i cs hc
        exact ih _ _ st1 (hdesc n st cs hJ hc hp) h

/-- Proof rule for the loop of `findNeighbors`. -/
theorem bbfLoop_rule (ix : KMeansIndex) (vec : Vec) (maxChecks : Int)
    (J : KMeansNode → SearchState → Prop) (K : SearchState → Prop)
    (hfind : ∀ (fuel : Nat) (n : KMeansNode) (st st1 : SearchState), J n st →
      findNN ix vec maxChecks fuel n st = Except.ok st1 → K st1)
    (hpop : ∀ st b h1, K st → Heap.popMin st.heap = some (b, h1) →
      (st.checks < maxChecks ∨ st.result.full = false) → J b.node { st with heap := h1 }) :
    ∀ (steps fuel : Nat) (st st1 : SearchState), K st →
      bbfLoop ix vec maxChecks steps fuel st = Except.ok st1 →
      ∃ st0, K st0 ∧ st1.result = st0.result ∧ st1.checks = st0.checks
        ∧ (st0.heap.items = [] ∨ (maxChecks ≤ st0.checks ∧ st0.result.full = true)) := by
  intro steps
  induction steps with
  | zero => intro fuel st st1 _ h; simp [bbfLoop] at h
  | succ steps ih =>
    intro fuel st st1 hK h
    simp only [bbfLoop] at h
    split at h
    · rename_i hpm
      simp only [Except.ok.injEq] at h
      subst h
      refine ⟨st, hK, rfl, rfl, Or.inl ?_⟩
      cases hh : st.heap.items with
      | nil => rfl
      | cons b rest => simp [Heap.popMin, hh] at hpm
    · rename_i b h1 hpm
      split at h
      · rename_i hcond
        split at h
        · exact absurd h (by simp)
        · rename_i st2 hf
          exact ih fuel st2 st1 (hfind fuel b.node _ st2 (hpop st b h1 hK hpm hcond) hf) h
      · rename_i hcond
        simp only [Except.ok.injEq] at h
        subst h
        refine ⟨st, hK, rfl, rfl, Or.inr ?_⟩
        simp only [not_or, not_lt, Bool.not_eq_false] at hcond
        exact hcond

theorem popMin_spec (h h1 : Heap) (b : BranchSt) (hp : Heap.popMin h = some (b, h1)) :
    ∃ (hi : Heap.minPos h.items < h.items.length),
      b = h.items[Heap.minPos h.items] ∧ h1.items = h.items.eraseIdx (Heap.minPos h.items)
        ∧ h1.length = h.length := by
  have hpos : ∀ (l : List BranchSt), l ≠ [] → Heap.minPos l < l.length := by
    intro l
    induction l with
    | nil => intro h; exact absurd rfl h
    | cons x xs ih =>
      intro _
      simp only [Heap.minPos]
      split
      · simp
      · rename_i hall
        have hne : xs ≠ [] := by
          intro he; subst he; simp at hall
        have := ih hne
        simp; omega
  unfold Heap.popMin at hp
  split at hp
  · exact absurd hp (by simp)
  · rename_i c rest hc
    simp only [Option.some.injEq, Prod.mk.injEq] at hp
    obtain ⟨hb, hh⟩ := hp
    have hi : Heap.minPos h.items < h.items.length := by
      rw [hc]; exact hpos _ (by simp)
    refine ⟨hi, ?_, ?_, ?_⟩
    · rw [← hb]
      simp only [hc]
      rw [List.getD_eq_getElem _ _ (hpos _ (by simp))]
    · rw [← hh, hc]
    · rw [← hh]

theorem popMin_mem (h h1 : Heap) (b : BranchSt) (hp : Heap.popMin h = some (b, h1)) :
    b ∈ h.items ∧ ∀ x ∈ h1.items, x ∈ h.items := by
  obtain ⟨hi, e1, e2, _⟩ := popMin_spec h h1 b hp
  refine ⟨by rw [e1]; exact List.getElem_mem hi, fun x hx => ?_⟩
  rw [e2] at hx
  exact (List.eraseIdx_sublist _ _).subset hx

/-- A run of inserts appends as many of the branches as the heap has room for. -/
theorem insert_foldl (bs : List BranchSt) :
    ∀ (h : Heap), bs.foldl Heap.insert h
      = { h with items := h.items ++ bs.take (h.length - h.items.length) } := by
  induction bs with
  | nil => intro h; simp
  | cons b bs ih =>
    intro h
    simp only [List.foldl_cons]
    rw [ih]
    unfold Heap.insert
    split
    · rename_i hlt
      obtain ⟨k, hk⟩ : ∃ k, h.length - h.items.length = k + 1 :=
        ⟨h.length - h.items.length - 1, by omega⟩
      have e : h.length - (h.items ++ [b]).length = k := by
        rw [List.length_append, List.length_singleton]; omega
      simp only [e, hk, List.take_succ_cons, List.append_assoc, List.singleton_append]
    · rename_i hlt
      have e : h.length - h.items.length = 0 := by omega
      simp only [e, List.take_zero]

/-- The inserts of `exploreNodeBranches`: the children other than the returned one, in the
order of their indices. -/
theorem explore_heap (ix : KMeansIndex) (n : KMeansNode) (q : Vec) (heap : Heap) :
    (exploreNodeBranches ix n q heap).2
      = (((List.range ix.branching.toNat).filter
          (fun i => decide (i ≠ (exploreNodeBranches ix n q heap).1))).map
          (fun i => ({ node := n.child i
                       mindist := ix.distance q (n.child i).pivot ix.veclen_
                         - ix.cb_index * (n.child i).variance } : BranchSt))).foldl
        Heap.insert heap := by
  have key : ∀ (best : Nat) (f : Nat → BranchSt) (l : List Nat) (h : Heap),
      l.foldl (fun h i => if i ≠ best then Heap.insert h (f i) else h) h
        = ((l.filter (fun i => decide (i ≠ best))).map f).foldl Heap.insert h := by
    intro best f l
    induction l with
    | nil => intro h; simp
    | cons i rest ih =>
      intro h
      simp only [List.foldl_cons]
      rw [ih]
      by_cases hi : i = best
      · simp [hi]
      · simp [hi, List.filter_cons]
  unfold exploreNodeBranches
  exact key _ _ _ _

/-- The heap after `exploreNodeBranches` holds the branches it held before, followed by as
many of the children other than the returned one as it has room for. -/
theorem explore_items (ix : KMeansIndex) (n : KMeansNode) (q : Vec) (heap : Heap) :
    (exploreNodeBranches ix n q heap).2.length = heap.length
      ∧ (exploreNodeBranches ix n q heap).2.items
        = heap.items ++ (((List.range ix.branching.toNat).filter
            (fun i => decide (i ≠ (exploreNodeBranches ix n q heap).1))).map
            (fun i => ({ node := n.child i
                         mindist := ix.distance q (n.child i).pivot ix.veclen_
                           - ix.cb_index * (n.child i).variance } : BranchSt))).take
          (heap.length - heap.items.length) := by
  rw [explore_heap, insert_foldl]
  exact ⟨rfl, rfl⟩

theorem explore_heap_mem (ix : KMeansIndex) (n : KMeansNode) (q : Vec) (heap : Heap)
    (b : BranchSt) (hb : b ∈ (exploreNodeBranches ix n q heap).2.items) :
    b ∈ heap.items ∨ ∃ i, i < ix.branching.toNat ∧ b.node = n.child i := by
  rw [(explore_items ix n q heap).2] at hb
  rcases List.mem_append.mp hb with h | h
  · exact Or.inl h
  · right
    obtain ⟨i, hi1, hi⟩ := List.mem_map.mp ((List.take_sublist _ _).subset h)
    exact ⟨i, List.mem_range.mp (List.mem_filter.mp hi1).1, by rw [← hi]⟩

/-- C8 (amended): for every index, query, sink capacity `k` and finite budget `maxChecks`, the
final value of the counter `checks` of a best-bin-first `findNeighbors` call is at most
`max(maxChecks, k) - 1 + L`, where `L` is the size of the largest leaf (and `0` when that is
negative): a leaf is scanned whole, and leaves are scanned regardless of the budget while
the sink is not full. -/
theorem checks_bounded_by_budget_and_leaf (ix : KMeansIndex) (root : KMeansNode) (vec : Vec)
    (k : Nat) (maxChecks : Int) (fuel : Nat) (res : ResultSet) (checks : Int)
    (hroot : ix.root = some root) (hfin : maxChecks ≠ FLANN_CHECKS_UNLIMITED)
    (h : findNeighbors ix { capacity := k, entries := [] } vec maxChecks fuel
      = Except.ok (res, checks)) :
    checks ≤ max 0 (max maxChecks (k : Int) - 1 + (maxLeafSize root : Int)) := by
  have hfind := findNN_rule ix vec maxChecks
    (fun n st => ChecksInv k maxChecks (maxLeafSize root) st ∧ LeafBound (maxLeafSize root) n)
    (ChecksInv k maxChecks (maxLeafSize root))
    (fun n st hJ _ => hJ.1) (fun n st hJ _ _ _ => hJ.1)
    (by
      intro n st hJ hleaf _ hcond
      obtain ⟨⟨c1, c2, c3, c4, c5⟩, hL⟩ := hJ
      have hsize : n.size ≤ maxLeafSize root :=
        hL n (by rw [nodes_of_leaf hleaf]; exact List.mem_singleton.mpr rfl) hleaf
      obtain ⟨s1, s2, s3, s4⟩ := scanLeaf_length ix n vec st.result (by rw [c1]; exact c2)
      rw [c1] at s1 s2 s4
      refine ⟨s1, s2, ?_, ?_, c5⟩
      · intro hf
        have hf2 : (scanLeaf ix n vec st.result).entries.length ≠ k := by
          intro he
          have : (scanLeaf ix n vec st.result).full = true := by
            rw [full_iff, he, s1]
          rw [this] at hf
          exact absurd hf (by simp)
        show st.checks + (n.size : Int)
          = ((scanLeaf ix n vec st.result).entries.length : Int)
        cases hfull : st.result.full with
        | true =>
          rw [full_iff, c1] at hfull
          omega
        | false =>
          have := s4 hfull
          have := c3 hfull
          omega
      · show st.checks + (n.size : Int) ≤ _
        rcases hcond with hc | hc
        · omega
        · have := c3 hc
          have hne : st.result.entries.length ≠ k := by
            intro he
            have : st.result.full = true := by rw [full_iff, he, c1]
            rw [this] at hc
            exact absurd hc (by simp)
          omega)
    (by
      intro n st cs hJ _ _
      obtain ⟨⟨c1, c2, c3, c4, c5⟩, hL⟩ := hJ
      refine ⟨⟨c1, c2, c3, c4, ?_⟩, leafBound_child hL _⟩
      intro b hb
      rcases explore_heap_mem ix n vec st.heap b hb with h1 | ⟨i, _, h1⟩
      · exact c5 b h1
      · rw [h1]; exact leafBound_child hL i)
  unfold findNeighbors at h
  rw [hroot] at h
  simp only [hfin, if_false] at h
  split at h
  · exact absurd h (by simp)
  · rename_i st hst
    split at h
    · exact absurd h (by simp)
    · rename_i st1 hst1
      split at h
      · simp only [Except.ok.injEq, Prod.mk.injEq] at h
        obtain ⟨_, h2⟩ := h
        subst h2
        have hK0 : ChecksInv k maxChecks (maxLeafSize root) st :=
          hfind fuel root _ st
            ⟨⟨rfl, Nat.zero_le _, fun _ => rfl, le_max_left _ _,
              fun b hb => by simp at hb⟩, leafBound_maxLeafSize root⟩ hst
        obtain ⟨st0, hK, _, e2, _⟩ := bbfLoop_rule ix vec maxChecks _ _ hfind
          (by
            intro st b h1 hK hp _
            obtain ⟨c1, c2, c3, c4, c5⟩ := hK
            obtain ⟨m1, m2⟩ := popMin_mem _ _ _ hp
            exact ⟨⟨c1, c2, c3, c4, fun x hx => c5 x (m2 x hx)⟩, c5 b m1⟩)
          fuel fuel st st1 hK0 hst1
        rw [e2]
        exact hK.2.2.2.1
      · exact absurd h (by simp)


theorem eq_some_of_isSome {α : Type} (o : Option α) (d : α) (h : o.isSome = true) :
    o = some (o.getD d) := by
  cases o with
  | none => simp at h
  | some a => rfl

theorem rootS1_eq : builtS1.1.root = some rootS1 :=
  eq_some_of_isSome _ _ (by decide!)

theorem checks_bounded_by_budget_and_leaf_witness :
    builtS1.1.root = some rootS1 ∧ (1 : Int) ≠ FLANN_CHECKS_UNLIMITED
      ∧ findNeighbors builtS1.1 { capacity := 2, entries := [] } [0, 1 / 2] 1 4
          = Except.ok searchS1
      ∧ searchS1.2 ≤ max 0 (max 1 ((2 : Nat) : Int) - 1 + (maxLeafSize rootS1 : Int)) :=
  ⟨rootS1_eq, by decide, eq_ok_of_isOk _ _ (by decide!),
    checks_bounded_by_budget_and_leaf builtS1.1 rootS1 [0, 1 / 2] 2 1 4 searchS1.1 searchS1.2
      rootS1_eq (by decide) (eq_ok_of_isOk _ _ (by decide!))⟩

/-- C8 (as stated, refuted): on the built index of scenario S1 the best-bin-first search for
the two nearest neighbours of `(0, 1/2)` with the budget `checks = 1` ends with the counter
at `2`: the second leaf is scanned although the budget is used up, because the sink is not
full. -/
theorem checks_exceed_budget :
    (searchEntries builtS1.1 [0, 1 / 2] 2 1 4).map (fun r => (r.2, decide (r.2 ≤ 1)))
      = some (2, false) := by
  decide!

theorem Forest.single_of_mem {B D lvl off : Nat} {s : List Nat} {cs : List KMeansNode}
    (h : Forest B D lvl off s cs) :
    ∀ c ∈ cs, ∃ off1 s1, Forest B D lvl off1 s1 [c] := by
  induction h with
  | nil lvl off => intro c hc; simp at hc
  | leaf lvl off p r v s rest cs hs hp hrest ih =>
    intro c hc
    rcases List.mem_cons.mp hc with h1 | h1
    · subst h1
      exact ⟨off, s ++ [], Forest.leaf lvl off p r v s [] [] hs hp (Forest.nil _ _)⟩
    · exact ih c h1
  | inner lvl off p r v s rest childs cs hp hB hch hrest ih1 ih2 =>
    intro c hc
    rcases List.mem_cons.mp hc with h1 | h1
    · subst h1
      exact ⟨off, s ++ [], Forest.inner lvl off p r v s [] childs [] hp hB hch (Forest.nil _ _)⟩
    · exact ih2 c h1

theorem Shaped.childs {B : Nat} {n : KMeansNode} {cs : List KMeansNode} (h : Shaped B n)
    (hc : n.childs = some cs) :
    cs.length = B ∧ n.size = (cs.map KMeansNode.size).sum ∧ ∀ c ∈ cs, Shaped B c := by
  obtain ⟨D, lvl, off, slice, hf⟩ := h
  cases hf with
  | leaf _ _ p r v s rest _ hs hp hrest => simp [KMeansNode.childs] at hc
  | inner _ _ p r v s rest childs _ hp hB hch hrest =>
    simp only [KMeansNode.childs, Option.some.injEq] at hc
    subst hc
    refine ⟨hB, ?_, fun c hcm => ?_⟩
    · simp [KMeansNode.size, (Forest.nodes_ok hch).1]
    · obtain ⟨off1, s1, h1⟩ := Forest.single_of_mem hch c hcm
      exact ⟨D, lvl + 1, off1, s1, h1⟩

theorem child_mem {n : KMeansNode} {cs : List KMeansNode} (hc : n.childs = some cs) (i : Nat)
    (hi : i < cs.length) : n.child i ∈ cs ∧ n.child i = cs[i] := by
  have h0 : n.child i = cs[i] := by
    unfold KMeansNode.child
    rw [hc]
    simp only [Option.getD_some]
    exact List.getD_eq_getElem _ _ hi
  exact ⟨h0 ▸ List.getElem_mem hi, h0⟩

theorem map_child_range {α : Type} (f : KMeansNode → α) {n : KMeansNode} {cs : List KMeansNode}
    (hc : n.childs = some cs) :
    (List.range cs.length).map (fun i => f (n.child i)) = cs.map f := by
  apply List.ext_getElem
  · simp
  · intro i h1 h2
    simp only [List.getElem_map, List.getElem_range]
    have hi : i < cs.length := by simpa using h1
    rw [(child_mem hc i hi).2]

theorem sum_filter_ne_add (f : Nat → Nat) (B best : Nat) (hb : best < B) :
    (((List.range B).filter (fun i => decide (i ≠ best))).map f).sum + f best
      = ((List.range B).map f).sum := by
  induction B with
  | zero => omega
  | succ B ih =>
    rw [List.range_succ, List.filter_append, List.map_append, List.map_append,
      List.sum_append, List.sum_append]
    by_cases hbB : best = B
    · subst hbB
      have hfil : (List.range best).filter (fun i => decide (i ≠ best)) = List.range best := by
        rw [List.filter_eq_self]
        intro a ha
        have := List.mem_range.mp ha
        simp; omega
      rw [hfil]
      simp
    · have := ih (by omega)
      have hB : B ≠ best := fun h => hbB h.symm
      simp [hB] at this ⊢
      omega

theorem explore_best_lt (ix : KMeansIndex) (n : KMeansNode) (q : Vec) (heap : Heap)
    (hB : 1 ≤ ix.branching.toNat) :
    (exploreNodeBranches ix n q heap).1 < ix.branching.toNat := by
  unfold exploreNodeBranches
  apply foldl_inv (fun b : Nat => b < ix.branching.toNat)
  · intro b a ha hb
    rw [List.mem_range'_1] at ha
    split
    · omega
    · exact hb
  · exact hB

theorem nodes_self_mem (n : KMeansNode) : n ∈ n.nodes := by
  cases hc : n.childs with
  | none => rw [nodes_of_leaf hc]; exact List.mem_singleton.mpr rfl
  | some cs => rw [nodes_of_childs hc]; exact List.mem_cons_self _ _

theorem filter_ne_card (B best : Nat) (hb : best < B) :
    ((List.range B).filter (fun i => decide (i ≠ best))).length + 1 = B := by
  have h := sum_filter_ne_add (fun _ => 1) B best hb
  simpa using h

theorem heapSum_append (f : KMeansNode → Nat) (a b : List BranchSt) :
    heapSum f (a ++ b) = heapSum f a + heapSum f b := by
  simp [heapSum]

theorem heapSum_take_le (f : KMeansNode → Nat) (l : List BranchSt) (k : Nat) :
    heapSum f (l.take k) ≤ heapSum f l := by
  unfold heapSum
  rw [List.map_take]
  have := List.sum_take_add_sum_drop (l.map (fun b => f b.node)) k
  omega

/-- The children other than the returned one, measured by `f`, together with the returned
child. -/
theorem children_heapSum (ix : KMeansIndex) (f : KMeansNode → Nat) (n : KMeansNode) (q : Vec)
    (heap : Heap) (cs : List KMeansNode) (hc : n.childs = some cs)
    (hlen : cs.length = ix.branching.toNat) (hB : 1 ≤ ix.branching.toNat) :
    heapSum f (((List.range ix.branching.toNat).filter
          (fun i => decide (i ≠ (exploreNodeBranches ix n q heap).1))).map
          (fun i => ({ node := n.child i
                       mindist := ix.distance q (n.child i).pivot ix.veclen_
                         - ix.cb_index * (n.child i).variance } : BranchSt)))
        + f (n.child (exploreNodeBranches ix n q heap).1)
      = (cs.map f).sum := by
  unfold heapSum
  rw [List.map_map]
  have h1 := sum_filter_ne_add (fun i => f (n.child i)) ix.branching.toNat
    (exploreNodeBranches ix n q heap).1 (explore_best_lt ix n q heap hB)
  have h2 := map_child_range f hc
  rw [hlen] at h2
  rw [h2] at h1
  have : ((fun b : BranchSt => f b.node) ∘ fun i =>
        ({ node := n.child i
           mindist := ix.distance q (n.child i).pivot ix.veclen_
            - ix.cb_index * (n.child i).variance } : BranchSt))
      = fun i => f (n.child i) := by
    funext i; rfl
  rw [this]
  simp only at h1
  omega

/-- The heap after `exploreNodeBranches`, measured by `f`, together with the chosen child. -/
theorem explore_heapSum_le (ix : KMeansIndex) (f : KMeansNode → Nat) (n : KMeansNode) (q : Vec)
    (heap : Heap) (cs : List KMeansNode) (hc : n.childs = some cs)
    (hlen : cs.length = ix.branching.toNat) (hB : 1 ≤ ix.branching.toNat) :
    heapSum f (exploreNodeBranches ix n q heap).2.items
        + f (n.child (exploreNodeBranches ix n q heap).1)
      ≤ heapSum f heap.items + (cs.map f).sum := by
  rw [(explore_items ix n q heap).2, heapSum_append]
  have h1 := children_heapSum ix f n q heap cs hc hlen hB
  have h2 := heapSum_take_le f (((List.range ix.branching.toNat).filter
          (fun i => decide (i ≠ (exploreNodeBranches ix n q heap).1))).map
          (fun i => ({ node := n.child i
                       mindist := ix.distance q (n.child i).pivot ix.veclen_
                         - ix.cb_index * (n.child i).variance } : BranchSt)))
    (heap.length - heap.items.length)
  omega

/-- With room for `B - 1` further branches the heap takes every child but the returned
one. -/
theorem explore_items_room (ix : KMeansIndex) (n : KMeansNode) (q : Vec) (heap : Heap)
    (hB : 1 ≤ ix.branching.toNat)
    (hroom : heap.items.length + (ix.branching.toNat - 1) ≤ heap.length) :
    (exploreNodeBranches ix n q heap).2.items
      = heap.items ++ ((List.range ix.branching.toNat).filter
          (fun i => decide (i ≠ (exploreNodeBranches ix n q heap).1))).map
          (fun i => ({ node := n.child i
                       mindist := ix.distance q (n.child i).pivot ix.veclen_
                         - ix.cb_index * (n.child i).variance } : BranchSt)) := by
  rw [(explore_items ix n q heap).2, List.take_of_length_le]
  rw [List.length_map]
  have := filter_ne_card _ _ (explore_best_lt ix n q heap hB)
  omega

theorem explore_heapSum (ix : KMeansIndex) (f : KMeansNode → Nat) (n : KMeansNode) (q : Vec)
    (heap : Heap) (cs : List KMeansNode) (hc : n.childs = some cs)
    (hlen : cs.length = ix.branching.toNat) (hB : 1 ≤ ix.branching.toNat)
    (hroom : heap.items.length + (ix.branching.toNat - 1) ≤ heap.length) :
    heapSum f (exploreNodeBranches ix n q heap).2.items
        + f (n.child (exploreNodeBranches ix n q heap).1)
      = heapSum f heap.items + (cs.map f).sum := by
  rw [explore_items_room ix n q heap hB hroom, heapSum_append]
  have h1 := children_heapSum ix f n q heap cs hc hlen hB
  omega

theorem heapSum_eraseIdx (f : KMeansNode → Nat) :
    ∀ (l : List BranchSt) (i : Nat) (hi : i < l.length),
      heapSum f l = heapSum f (l.eraseIdx i) + f (l[i]).node := by
  intro l
  induction l with
  | nil => intro i hi; simp at hi
  | cons x xs ih =>
    intro i hi
    cases i with
    | zero => simp [heapSum]; omega
    | succ i =>
      have := ih i (by simpa using hi)
      simp only [heapSum, List.map_cons, List.sum_cons, List.eraseIdx_cons_succ,
        List.getElem_cons_succ] at this ⊢
      omega

theorem popMin_heapSum (f : KMeansNode → Nat) (h h1 : Heap) (b : BranchSt)
    (hp : Heap.popMin h = some (b, h1)) :
    heapSum f h.items = heapSum f h1.items + f b.node := by
  obtain ⟨hi, e1, e2, _⟩ := popMin_spec h h1 b hp
  rw [e1, e2]
  exact heapSum_eraseIdx f _ _ hi

theorem populated_child {n : KMeansNode} {cs : List KMeansNode} (h : Populated n)
    (hc : n.childs = some cs) (i : Nat) (hi : i < cs.length) :
    1 ≤ (n.child i).size ∧ Populated (n.child i) := by
  constructor
  · apply h n (nodes_self_mem n)
    rw [hc]
    exact (child_mem hc i hi).1
  · intro m hm
    apply h m
    rw [nodes_of_childs hc]
    exact List.mem_cons_of_mem _ (mem_nodesList.mpr ⟨_, (child_mem hc i hi).1, hm⟩)

theorem length_le_heapSum :
    ∀ (l : List BranchSt), (∀ b ∈ l, 1 ≤ b.node.size) →
      l.length ≤ heapSum KMeansNode.size l := by
  intro l
  induction l with
  | nil => intro _; simp [heapSum]
  | cons b rest ih =>
    intro h
    have h1 := h b (List.mem_cons_self _ _)
    have h2 := ih (fun x hx => h x (List.mem_cons_of_mem _ hx))
    simp only [heapSum, List.map_cons, List.sum_cons, List.length_cons] at h2 ⊢
    omega

theorem RoomInv.mono {N e e1 : Nat} {st st1 : SearchState} (h : RoomInv N e st)
    (hh : st1.heap = st.heap) (he : e1 ≤ e) : RoomInv N e1 st1 := by
  obtain ⟨r1, r2, r3⟩ := h
  unfold RoomInv
  rw [hh]
  exact ⟨r1, r2, by omega⟩

/-- A heap of capacity `N` over a tree without empty children has room for the children that
`exploreNodeBranches` inserts, and the invariant `RoomInv` is kept. -/
theorem RoomInv.explore (ix : KMeansIndex) (N : Nat) (n : KMeansNode) (q : Vec)
    (st : SearchState) (cs : List KMeansNode) (hc : n.childs = some cs)
    (hS : Shaped ix.branching.toNat n) (hB : 1 ≤ ix.branching.toNat)
    (hR : RoomInv N n.size st) (hP : Populated n) :
    st.heap.items.length + (ix.branching.toNat - 1) ≤ st.heap.length
      ∧ RoomInv N (n.child (exploreNodeBranches ix n q st.heap).1).size
          { st with heap := (exploreNodeBranches ix n q st.heap).2 }
      ∧ Populated (n.child (exploreNodeBranches ix n q st.heap).1) := by
  obtain ⟨r1, r2, r3⟩ := hR
  obtain ⟨s1, s2, s3⟩ := hS.childs hc
  have hbest := explore_best_lt ix n q st.heap hB
  have hpc : ∀ i, i < ix.branching.toNat →
      1 ≤ (n.child i).size ∧ Populated (n.child i) :=
    fun i hi => populated_child hP hc i (by omega)
  have hL : ∀ b ∈ ((List.range ix.branching.toNat).filter
          (fun i => decide (i ≠ (exploreNodeBranches ix n q st.heap).1))).map
          (fun i => ({ node := n.child i
                       mindist := ix.distance q (n.child i).pivot ix.veclen_
                         - ix.cb_index * (n.child i).variance } : BranchSt)),
      1 ≤ b.node.size := by
    intro b hb
    obtain ⟨i, hi1, hi⟩ := List.mem_map.mp hb
    rw [← hi]
    exact (hpc i (List.mem_range.mp (List.mem_filter.mp hi1).1)).1
  have h1 := length_le_heapSum _ (fun b hb => (r2 b hb).1)
  have h2 := length_le_heapSum _ hL
  rw [List.length_map] at h2
  have h3 := filter_ne_card _ _ hbest
  have h4 := children_heapSum ix KMeansNode.size n q st.heap cs hc s1 hB
  have h5 := (hpc _ hbest).1
  have hroom : st.heap.items.length + (ix.branching.toNat - 1) ≤ st.heap.length := by omega
  refine ⟨hroom, ⟨?_, ?_, ?_⟩, (hpc _ hbest).2⟩
  · show (exploreNodeBranches ix n q st.heap).2.length = N
    rw [(explore_items ix n q st.heap).1, r1]
  · intro b hb
    rcases explore_heap_mem ix n q st.heap b hb with h | ⟨i, hi, h⟩
    · exact r2 b h
    · rw [h]; exact hpc i hi
  · show heapSum KMeansNode.size (exploreNodeBranches ix n q st.heap).2.items
      + (n.child (exploreNodeBranches ix n q st.heap).1).size ≤ N
    have := explore_heapSum_le ix KMeansNode.size n q st.heap cs hc s1 hB
    omega

/-- Taking a branch out of the heap keeps the invariant `RoomInv`. -/
theorem RoomInv.pop {N : Nat} {st : SearchState} {b : BranchSt} {h1 : Heap}
    (hR : RoomInv N 0 st) (hp : Heap.popMin st.heap = some (b, h1)) :
    RoomInv N b.node.size { st with heap := h1 } ∧ Populated b.node := by
  obtain ⟨r1, r2, r3⟩ := hR
  obtain ⟨m1, m2⟩ := popMin_mem _ _ _ hp
  obtain ⟨_, _, _, e3⟩ := popMin_spec _ _ _ hp
  have hsum := popMin_heapSum KMeansNode.size _ _ _ hp
  refine ⟨⟨?_, fun x hx => r2 x (m2 x hx), ?_⟩, (r2 b m1).2⟩
  · show h1.length = N
    rw [e3, r1]
  · show heapSum KMeansNode.size h1.items + b.node.size ≤ N
    omega

theorem depth_child_lt {n : KMeansNode} {cs : List KMeansNode} (hc : n.childs = some cs)
    (i : Nat) : (n.child i).depth < n.depth := by
  have hd : n.depth = KMeansNode.depthList cs + 1 := by
    cases n with
    | mk p r v s l c ind =>
      simp only [KMeansNode.childs] at hc
      subst hc
      simp [KMeansNode.depth]
  have hmem : ∀ (l : List KMeansNode) (c : KMeansNode), c ∈ l →
      c.depth ≤ KMeansNode.depthList l := by
    intro l
    induction l with
    | nil => intro c h; simp at h
    | cons x xs ih =>
      intro c h
      simp only [KMeansNode.depthList]
      rcases List.mem_cons.mp h with h1 | h1
      · subst h1; exact le_max_left _ _
      · exact le_trans (ih c h1) (le_max_right _ _)
  rcases child_cases n i with ⟨cs1, h1, h2⟩ | h1
  · rw [hc] at h1
    simp only [Option.some.injEq] at h1
    subst h1
    have := hmem cs _ h2
    omega
  · rw [h1, hd]
    simp [KMeansNode.depth]

theorem nodes_length_childs {n : KMeansNode} {cs : List KMeansNode} (hc : n.childs = some cs) :
    n.nodes.length = 1 + (cs.map (fun c => c.nodes.length)).sum := by
  rw [nodes_of_childs hc, List.length_cons]
  have : ∀ (l : List KMeansNode),
      (KMeansNode.nodesList l).length = (l.map (fun c => c.nodes.length)).sum := by
    intro l
    induction l with
    | nil => simp [KMeansNode.nodesList]
    | cons x xs ih => simp [KMeansNode.nodesList, ih]
  rw [this]; omega

theorem nodes_length_pos (n : KMeansNode) : 1 ≤ n.nodes.length := by
  cases n with
  | mk p r v s l c ind =>
    cases c with
    | none => simp [KMeansNode.nodes]
    | some cs => simp [KMeansNode.nodes]

theorem shaped_child {B : Nat} {n : KMeansNode} {cs : List KMeansNode} (h : Shaped B n)
    (hc : n.childs = some cs) (i : Nat) (hi : i < B) : Shaped B (n.child i) := by
  obtain ⟨h1, _, h3⟩ := h.childs hc
  exact h3 _ (child_mem hc i (by omega)).1

theorem findNN_total (ix : KMeansIndex) (vec : Vec) (maxChecks : Int) :
    ∀ (fuel : Nat) (n : KMeansNode) (st : SearchState), n.depth < fuel →
      ∃ st1, findNN ix vec maxChecks fuel n st = Except.ok st1 := by
  intro fuel
  induction fuel with
  | zero => intro n st h; omega
  | succ fuel ih =>
    intro n st h
    simp only [findNN]
    split
    · exact ⟨_, rfl⟩
    · split
      · split
        · exact ⟨_, rfl⟩
        · exact ⟨_, rfl⟩
      · rename_i cs hc
        exact ih _ _ (by have := depth_child_lt hc (exploreNodeBranches ix n vec st.heap).1; omega)

theorem findNN_heapInv (ix : KMeansIndex) (vec : Vec) (maxChecks : Int) (fuel0 M : Nat)
    (hB : 1 ≤ ix.branching.toNat) :
    ∀ (fuel : Nat) (n : KMeansNode) (st st1 : SearchState),
      (HeapInv ix.branching.toNat fuel0 (M + 1 - n.nodes.length) st
        ∧ n.nodes.length ≤ M + 1 ∧ Shaped ix.branching.toNat n ∧ n.depth < fuel0) →
      findNN ix vec maxChecks fuel n st = Except.ok st1 →
      HeapInv ix.branching.toNat fuel0 M st1 := by
  apply findNN_rule ix vec maxChecks
    (fun n st => HeapInv ix.branching.toNat fuel0 (M + 1 - n.nodes.length) st
      ∧ n.nodes.length ≤ M + 1 ∧ Shaped ix.branching.toNat n ∧ n.depth < fuel0)
    (HeapInv ix.branching.toNat fuel0 M)
  · intro n st hJ _
    have := nodes_length_pos n
    exact ⟨hJ.1.1, by have := hJ.1.2; omega⟩
  · intro n st hJ _ _ _
    have := nodes_length_pos n
    exact ⟨hJ.1.1, by have := hJ.1.2; omega⟩
  · intro n st hJ _ _ _
    have := nodes_length_pos n
    exact ⟨hJ.1.1, by have := hJ.1.2; show heapSum _ st.heap.items ≤ M; omega⟩
  · intro n st cs hJ hc _
    obtain ⟨⟨j1, j2⟩, j3, j4, j5⟩ := hJ
    obtain ⟨s1, s2, s3⟩ := j4.childs hc
    have hsum := explore_heapSum_le ix (fun n => n.nodes.length) n vec st.heap cs hc s1 hB
    dsimp only at hsum
    have hlen := nodes_length_childs hc
    have hpos := nodes_length_pos (n.child (exploreNodeBranches ix n vec st.heap).1)
    have hbest := explore_best_lt ix n vec st.heap hB
    refine ⟨⟨?_, ?_⟩, ?_, shaped_child j4 hc _ hbest, ?_⟩
    · intro b hb
      rcases explore_heap_mem ix n vec st.heap b hb with h1 | ⟨i, hi, h1⟩
      · exact j1 b h1
      · rw [h1]
        exact ⟨shaped_child j4 hc i hi, by have := depth_child_lt hc i; omega⟩
    · show heapSum _ (exploreNodeBranches ix n vec st.heap).2.items ≤ _
      omega
    · omega
    · have := depth_child_lt hc (exploreNodeBranches ix n vec st.heap).1
      omega

theorem bbfLoop_total (ix : KMeansIndex) (vec : Vec) (maxChecks : Int) (fuel : Nat)
    (hB : 1 ≤ ix.branching.toNat) :
    ∀ (steps : Nat) (st : SearchState), HeapInv ix.branching.toNat fuel (steps - 1) st →
      1 ≤ steps → ∃ st1, bbfLoop ix vec maxChecks steps fuel st = Except.ok st1 := by
  intro steps
  induction steps with
  | zero => intro st _ h; omega
  | succ steps ih =>
    intro st hK _
    simp only [bbfLoop]
    split
    · exact ⟨_, rfl⟩
    · rename_i b h1 hpm
      split
      · obtain ⟨m1, m2⟩ := popMin_mem _ _ _ hpm
        have hsum := popMin_heapSum (fun n => n.nodes.length) _ _ _ hpm
        dsimp only at hsum
        obtain ⟨k1, k2⟩ := hK
        have hpos := nodes_length_pos b.node
        rw [Nat.add_sub_cancel] at k2
        have hsteps : 1 ≤ steps := by omega
        obtain ⟨st2, hst2⟩ := findNN_total ix vec maxChecks fuel b.node
          { st with heap := h1 } (k1 b m1).2
        rw [hst2]
        have hinv := findNN_heapInv ix vec maxChecks fuel (steps - 1) hB fuel b.node
          { st with heap := h1 } st2
          ⟨⟨fun x hx => k1 x (m2 x hx), by show heapSum _ h1.items ≤ _; omega⟩, by omega,
            (k1 b m1).1, (k1 b m1).2⟩ hst2
        exact ih st2 hinv hsteps
      · exact ⟨_, rfl⟩

theorem full_of_pruneTest (r : ResultSet) (bsq rsq : ℚ)
    (h : pruneTest bsq rsq r.worstDist = true) : r.full = true := by
  cases hf : r.full with
  | true => rfl
  | false =>
    rw [worstDist_of_not_full r hf] at h
    simp [pruneTest] at h

theorem findNN_fillInv (ix : KMeansIndex) (vec : Vec) (maxChecks : Int) (N k : Nat)
    (hB : 1 ≤ ix.branching.toNat) :
    ∀ (fuel : Nat) (n : KMeansNode) (st st1 : SearchState),
      (FillInv ix.branching.toNat N k n.size st ∧ Shaped ix.branching.toNat n
        ∧ RoomInv N n.size st ∧ Populated n) →
      findNN ix vec maxChecks fuel n st = Except.ok st1 →
      FillInv ix.branching.toNat N k 0 st1 ∧ RoomInv N 0 st1 := by
  apply findNN_rule ix vec maxChecks
    (fun n st => FillInv ix.branching.toNat N k n.size st ∧ Shaped ix.branching.toNat n
      ∧ RoomInv N n.size st ∧ Populated n)
    (fun st => FillInv ix.branching.toNat N k 0 st ∧ RoomInv N 0 st)
  · intro n st hJ hp
    obtain ⟨⟨c1, c2, c3, c4⟩, _, hR, _⟩ := hJ
    have hf := full_of_pruneTest _ _ _ hp
    exact ⟨⟨c1, c2, fun h => by rw [hf] at h; exact absurd h (by simp), c4⟩,
      hR.mono rfl (Nat.zero_le _)⟩
  · intro n st hJ _ _ hf
    obtain ⟨⟨c1, c2, c3, c4⟩, _, hR, _⟩ := hJ
    exact ⟨⟨c1, c2, fun h => by rw [hf] at h; exact absurd h (by simp), c4⟩,
      hR.mono rfl (Nat.zero_le _)⟩
  · intro n st hJ hleaf _ _
    obtain ⟨⟨c1, c2, c3, c4⟩, _, hR, _⟩ := hJ
    obtain ⟨s1, s2, s3, s4⟩ := scanLeaf_length ix n vec st.result (by rw [c1]; exact c2)
    rw [c1] at s1 s2 s4
    refine ⟨⟨s1, s2, ?_, c4⟩, hR.mono rfl (Nat.zero_le _)⟩
    intro hf
    have hne : (scanLeaf ix n vec st.result).entries.length ≠ k := by
      intro he
      have : (scanLeaf ix n vec st.result).full = true := by rw [full_iff, he, s1]
      rw [this] at hf
      exact absurd hf (by simp)
    show st.checks + (n.size : Int) = ((scanLeaf ix n vec st.result).entries.length : Int)
      ∧ (scanLeaf ix n vec st.result).entries.length
          + heapSum KMeansNode.size st.heap.items + 0 = N
    cases hfull : st.result.full with
    | true =>
      rw [full_iff, c1] at hfull
      omega
    | false =>
      have h4 := s4 hfull
      obtain ⟨h5, h6⟩ := c3 hfull
      constructor <;> omega
  · intro n st cs hJ hc _
    obtain ⟨⟨c1, c2, c3, c4⟩, hS, hR, hP⟩ := hJ
    obtain ⟨s1, s2, s3⟩ := hS.childs hc
    obtain ⟨hroom, hR1, hP1⟩ := RoomInv.explore ix N n vec st cs hc hS hB hR hP
    have hsum := explore_heapSum ix KMeansNode.size n vec st.heap cs hc s1 hB hroom
    have hbest := explore_best_lt ix n vec st.heap hB
    refine ⟨⟨c1, c2, ?_, ?_⟩, shaped_child hS hc _ hbest, hR1, hP1⟩
    · intro hf
      obtain ⟨h5, h6⟩ := c3 hf
      refine ⟨h5, ?_⟩
      show st.result.entries.length
        + heapSum KMeansNode.size (exploreNodeBranches ix n vec st.heap).2.items
        + (n.child (exploreNodeBranches ix n vec st.heap).1).size = N
      omega
    · intro b hb
      rcases explore_heap_mem ix n vec st.heap b hb with h2 | ⟨i, hi, h2⟩
      · exact c4 b h2
      · rw [h2]
        exact shaped_child hS hc i hi

/-- The best-bin-first search on a well-formed index over `N` points without empty children
returns and fills a sink of capacity `k ≤ N`, given enough fuel. -/
theorem findNeighbors_bbf_full (ix1 : KMeansIndex) (root : KMeansNode) (perm : List Nat)
    (N : Nat) (vec : Vec) (k : Nat) (maxChecks : Int)
    (w1 : 2 ≤ ix1.branching) (w2 : ix1.root = some root)
    (w4 : perm.Perm (List.range N))
    (w5 : Forest ix1.branching.toNat ix1.veclen_ 0 0 perm [root]) (hN : ix1.size_ = N)
    (hP : Populated root) (hk : k ≤ N)
    (hfin : maxChecks ≠ FLANN_CHECKS_UNLIMITED) (fuel : Nat)
    (hfuel : root.depth + root.nodes.length ≤ fuel) :
    ∃ res checks,
      findNeighbors ix1 { capacity := k, entries := [] } vec maxChecks fuel
          = Except.ok (res, checks)
        ∧ res.full = true := by
  have hB : 1 ≤ ix1.branching.toNat := by omega
  have hS : Shaped ix1.branching.toNat root := ⟨_, _, _, _, w5⟩
  have hsize : root.size = N := by
    have h1 := (Forest.nodes_ok w5).1
    have h2 := w4.length_eq
    rw [List.length_range] at h2
    simp only [List.map_cons, List.map_nil, List.sum_cons, List.sum_nil, Nat.add_zero] at h1
    omega
  have hpos := nodes_length_pos root
  unfold findNeighbors
  rw [w2]
  simp only [hfin, if_false]
  obtain ⟨st, hst⟩ := findNN_total ix1 vec maxChecks fuel root
    { result := { capacity := k, entries := [] }, checks := 0,
      heap := { length := ix1.size_, items := [] } } (by omega)
  rw [hst]
  have hK : FillInv ix1.branching.toNat N k 0 st ∧ RoomInv N 0 st :=
    findNN_fillInv ix1 vec maxChecks N k hB fuel root _ st
      ⟨⟨rfl, Nat.zero_le _, fun _ => ⟨rfl, by simp [heapSum]; omega⟩,
        fun b hb => by simp at hb⟩, hS,
        ⟨hN, fun b hb => by simp at hb, by simp [heapSum]; omega⟩, hP⟩ hst
  have hH : HeapInv ix1.branching.toNat fuel (fuel - 1) st :=
    findNN_heapInv ix1 vec maxChecks fuel (fuel - 1) hB fuel root _ st
      ⟨⟨fun b hb => by simp at hb, by simp [heapSum]⟩, by omega, hS, by omega⟩ hst
  obtain ⟨st1, hst1⟩ := bbfLoop_total ix1 vec maxChecks fuel hB fuel st hH (by omega)
  simp only [hst1]
  obtain ⟨st0, ⟨⟨c1, c2, c3, c4⟩, _⟩, x1, x2, x3⟩ := bbfLoop_rule ix1 vec maxChecks _ _
    (findNN_fillInv ix1 vec maxChecks N k hB)
    (by
      intro st b h1 hK hp _
      obtain ⟨⟨c1, c2, c3, c4⟩, hR⟩ := hK
      obtain ⟨m1, m2⟩ := popMin_mem _ _ _ hp
      have hsum := popMin_heapSum KMeansNode.size _ _ _ hp
      obtain ⟨hR1, hP1⟩ := hR.pop hp
      refine ⟨⟨c1, c2, fun hf => ?_, fun x hx => c4 x (m2 x hx)⟩, c4 b m1, hR1, hP1⟩
      obtain ⟨h5, h6⟩ := c3 hf
      refine ⟨h5, ?_⟩
      show st.result.entries.length + heapSum KMeansNode.size h1.items + b.node.size = N
      omega)
    fuel fuel st st1 hK hst1
  have hfull : st1.result.full = true := by
    rw [x1]
    rcases x3 with h | h
    · cases hf : st0.result.full with
      | true => rfl
      | false =>
        obtain ⟨_, h6⟩ := c3 hf
        rw [h] at h6
        simp only [heapSum, List.map_nil, List.sum_nil, Nat.add_zero] at h6
        have : st0.result.entries.length = st0.result.capacity := by omega
        rw [← full_iff] at this
        rw [this] at hf
        exact absurd hf (by simp)
    · exact h.2
  simp only [hfull, if_true]
  exact ⟨_, _, rfl, hfull⟩

/-- On every built index over `N` points whose tree has no empty child, for every query, every
`k ≤ N` and every finite budget (`0` and negative values included), `findNeighbors` on an
empty sink of capacity `k` returns, given enough fuel, and leaves the sink full. -/
theorem bbf_fills_sink_of_populated (ix : KMeansIndex) (fuel0 : Nat) (g : Rng)
    (ix1 : KMeansIndex) (g1 : Rng) (root : KMeansNode) (vec : Vec) (k : Nat) (maxChecks : Int)
    (hb : buildIndex ix fuel0 g = Except.ok (ix1, g1)) (hroot : ix1.root = some root)
    (hP : Populated root) (hk : k ≤ ix.size_)
    (hfin : maxChecks ≠ FLANN_CHECKS_UNLIMITED) (fuel : Nat)
    (hfuel : root.depth + root.nodes.length ≤ fuel) :
    ∃ res checks,
      findNeighbors ix1 { capacity := k, entries := [] } vec maxChecks fuel
          = Except.ok (res, checks)
        ∧ res.full = true := by
  obtain ⟨⟨w1, root1, perm, w2, _, w4, w5⟩, e1, _⟩ := buildIndex_wellFormed ix fuel0 g ix1 g1 hb
  rw [hroot, Option.some.injEq] at w2
  subst w2
  exact findNeighbors_bbf_full ix1 root perm ix.size_ vec k maxChecks w1 hroot (e1 ▸ w4) w5 e1
    hP hk hfin fuel hfuel

theorem map_vget_range (p : Vec) : (List.range p.length).map (vget p) = p := by
  apply List.ext_getElem
  · simp
  · intro i h1 h2
    simp only [List.getElem_map, List.getElem_range, vget]
    exact List.getD_eq_getElem _ _ h2

theorem set_perm_cons_eraseIdx {α : Type} (x : α) :
    ∀ (l : List α) (i : Nat), i < l.length → (l.set i x).Perm (x :: l.eraseIdx i) := by
  intro l
  induction l with
  | nil => intro i hi; simp at hi
  | cons y ys ih =>
    intro i hi
    cases i with
    | zero => simp
    | succ i =>
      simp only [List.set_cons_succ, List.eraseIdx_cons_succ]
      exact ((ih i (by simpa using hi)).cons y).trans (List.Perm.swap x y _)

theorem perm_cons_eraseIdx {α : Type} :
    ∀ (l : List α) (i : Nat) (hi : i < l.length), l.Perm (l[i] :: l.eraseIdx i) := by
  intro l
  induction l with
  | nil => intro i hi; simp at hi
  | cons y ys ih =>
    intro i hi
    cases i with
    | zero => simp
    | succ i =>
      simp only [List.getElem_cons_succ, List.eraseIdx_cons_succ]
      exact ((ih i (by simpa using hi)).cons y).trans (List.Perm.swap _ y _)

theorem nodesList_eq_flatMap (cs : List KMeansNode) :
    KMeansNode.nodesList cs = cs.flatMap KMeansNode.nodes := by
  induction cs with
  | nil => simp [KMeansNode.nodesList]
  | cons c cs ih => simp [KMeansNode.nodesList, ih]

theorem leaves_of_childs {n : KMeansNode} {cs : List KMeansNode} (hc : n.childs = some cs) :
    n.leaves = cs.flatMap KMeansNode.leaves := by
  unfold KMeansNode.leaves
  rw [nodes_of_childs hc, nodesList_eq_flatMap, List.filter_cons, List.filter_flatMap]
  simp [KMeansNode.isLeaf, hc]

theorem leaves_of_leaf {n : KMeansNode} (hc : n.childs = none) : n.leaves = [n] := by
  unfold KMeansNode.leaves
  rw [nodes_of_leaf hc]
  simp [KMeansNode.isLeaf, hc]

theorem members_of_childs (ix : KMeansIndex) {n : KMeansNode} {cs : List KMeansNode}
    (hc : n.childs = some cs) : members ix n = cs.flatMap (members ix) := by
  unfold members
  rw [leaves_of_childs hc, List.flatMap_assoc]

/-- The cluster array after a split is, up to order, the array without the split node,
followed by the children of that node. -/
theorem splitCluster_perm (ix : KMeansIndex) (clusters cs : List KMeansNode) (i : Nat)
    (hi : i < clusters.length) (hc : (clusters[i]).childs = some cs)
    (hlen : cs.length = ix.branching.toNat) (hB : 1 ≤ ix.branching.toNat) :
    (splitCluster ix clusters i).Perm (cs ++ clusters.eraseIdx i) := by
  unfold splitCluster
  rw [List.getD_eq_getElem _ _ hi]
  have hcs : cs = (clusters[i]).child 0
      :: (List.range' 1 (ix.branching.toNat - 1)).map (fun j => (clusters[i]).child j) := by
    have h1 := map_child_range (fun c => c) hc
    rw [hlen] at h1
    simp only [List.map_id'] at h1
    rw [← h1]
    obtain ⟨b, hb⟩ : ∃ b, ix.branching.toNat = b + 1 := ⟨ix.branching.toNat - 1, by omega⟩
    rw [hb, List.range_eq_range', List.range'_succ]
    simp
  have h2 := set_perm_cons_eraseIdx ((clusters[i]).child 0) clusters i hi
  have h3 : (clusters.set i ((clusters[i]).child 0)
        ++ (List.range' 1 (ix.branching.toNat - 1)).map (fun j => (clusters[i]).child j)).Perm
      ((List.range' 1 (ix.branching.toNat - 1)).map (fun j => (clusters[i]).child j)
        ++ ((clusters[i]).child 0 :: clusters.eraseIdx i)) :=
    (h2.append_right _).trans List.perm_append_comm
  refine h3.trans (List.perm_middle.trans ?_)
  conv => rhs; rw [hcs]
  simp

theorem slice_split (perm s rest : List Nat) (off : Nat)
    (h : (perm.drop off).take (s ++ rest).length = s ++ rest) :
    (perm.drop off).take s.length = s
      ∧ (perm.drop (off + s.length)).take rest.length = rest := by
  constructor
  · have h1 : ((perm.drop off).take (s ++ rest).length).take s.length = s := by
      rw [h, List.take_left']; rfl
    rw [List.take_take, List.length_append, Nat.min_eq_left (by omega)] at h1
    exact h1
  · have h1 : ((perm.drop off).take (s ++ rest).length).drop s.length = rest := by
      rw [h, List.drop_left']; rfl
    rw [List.drop_take, List.drop_drop, List.length_append] at h1
    have e1 : s.length + rest.length - s.length = rest.length := by omega
    rw [e1] at h1
    exact h1

theorem Forest.leaves_spec (ix : KMeansIndex) {B D lvl off : Nat} {s : List Nat}
    {cs : List KMeansNode} (h : Forest B D lvl off s cs) :
    ((cs.flatMap KMeansNode.leaves).map KMeansNode.size).sum = s.length
      ∧ ∀ (perm : List Nat), ix.indices = some perm → (perm.drop off).take s.length = s →
          cs.flatMap (members ix) = s := by
  induction h with
  | nil lvl off => exact ⟨rfl, fun perm _ _ => rfl⟩
  | leaf lvl off p r v s rest cs hs hp hrest ih =>
    obtain ⟨ih1, ih2⟩ := ih
    have hl : (KMeansNode.mk p r v s.length lvl none (some off)).leaves
        = [KMeansNode.mk p r v s.length lvl none (some off)] := leaves_of_leaf rfl
    constructor
    · simp only [List.flatMap_cons, hl, List.map_append, List.sum_append, ih1,
        List.length_append]
      simp [KMeansNode.size]
    · intro perm hperm hslice
      obtain ⟨h1, h2⟩ := slice_split perm s rest off hslice
      rw [List.flatMap_cons, ih2 perm hperm h2]
      simp [members, hl, leafIds, hperm, KMeansNode.indices, KMeansNode.size, h1]
  | inner lvl off p r v s rest childs cs hp hB hch hrest ih1 ih2 =>
    obtain ⟨a1, a2⟩ := ih1
    obtain ⟨b1, b2⟩ := ih2
    have hl : (KMeansNode.mk p r v s.length lvl (some childs) none).leaves
        = childs.flatMap KMeansNode.leaves := leaves_of_childs rfl
    constructor
    · simp only [List.flatMap_cons, hl, List.map_append, List.sum_append, a1, b1,
        List.length_append]
    · intro perm hperm hslice
      obtain ⟨h1, h2⟩ := slice_split perm s rest off hslice
      rw [List.flatMap_cons, b2 perm hperm h2,
        @members_of_childs ix (KMeansNode.mk p r v s.length lvl (some childs) none) childs rfl,
        a2 perm hperm h1]

theorem CutInv.split (ix : KMeansIndex) (root : KMeansNode) (clusters : List KMeansNode)
    (i : Nat) (hB : 1 ≤ ix.branching.toNat) (h : CutInv ix.branching.toNat root clusters)
    (hi : i < clusters.length) (hsome : ((clusters[i]).childs).isSome = true) :
    CutInv ix.branching.toNat root (splitCluster ix clusters i)
      ∧ (splitCluster ix clusters i).length = clusters.length + (ix.branching.toNat - 1) := by
  obtain ⟨cs, hc⟩ := Option.isSome_iff_exists.mp hsome
  obtain ⟨h1, h2⟩ := h
  have hS := h1 _ (List.getElem_mem hi)
  obtain ⟨s1, s2, s3⟩ := hS.childs hc
  have hperm := splitCluster_perm ix clusters cs i hi hc s1 hB
  refine ⟨⟨?_, ?_⟩, ?_⟩
  · intro c hcm
    rcases List.mem_append.mp (hperm.mem_iff.mp hcm) with h4 | h4
    · exact s3 c h4
    · exact h1 c ((List.eraseIdx_sublist _ _).subset h4)
  · refine ((hperm.flatMap_right KMeansNode.leaves).trans ?_).trans h2
    rw [List.flatMap_append, ← leaves_of_childs hc]
    have := (perm_cons_eraseIdx clusters i hi).flatMap_right KMeansNode.leaves
    rw [List.flatMap_cons] at this
    exact this.symm
  · simp [splitCluster]

theorem take_orderedInsert (d : ℚ) :
    ∀ (S : List ℚ) (k : Nat),
      (List.orderedInsert (fun a b => a ≤ b) d S).take k
        = (List.orderedInsert (fun a b => a ≤ b) d (S.take k)).take k := by
  intro S
  induction S with
  | nil => intro k; simp
  | cons a S ih =>
    intro k
    cases k with
    | zero => simp
    | succ k =>
      simp only [List.take_succ_cons, List.orderedInsert]
      split
      · simp only [List.take_succ_cons]
        congr 1
        cases k with
        | zero => simp
        | succ k =>
          simp only [List.take_succ_cons, List.take_take]
          congr 2
          omega
      · simp only [List.take_succ_cons]
        rw [ih k]

theorem insertEntry_fst_of_le (d : ℚ) (i : Nat) :
    ∀ (es : List (ℚ × Nat)), (∀ x ∈ es.map Prod.fst, d ≤ x) →
      (insertEntry d i es).map Prod.fst = d :: es.map Prod.fst := by
  intro es
  induction es with
  | nil => intro _; rfl
  | cons e es ih =>
    intro h
    simp only [insertEntry]
    split
    · rfl
    · rename_i hlt
      have h1 : d ≤ e.1 := h e.1 (by simp)
      have h2 : e.1 = d := le_antisymm (not_lt.mp hlt) h1
      simp only [List.map_cons]
      rw [ih (fun x hx => h x (by simp only [List.map_cons]; exact List.mem_cons_of_mem _ hx)), h2]

theorem insertEntry_fst (d : ℚ) (i : Nat) :
    ∀ (es : List (ℚ × Nat)), (es.map Prod.fst).Sorted (fun a b => a ≤ b) →
      (insertEntry d i es).map Prod.fst
        = List.orderedInsert (fun a b => a ≤ b) d (es.map Prod.fst) := by
  intro es
  induction es with
  | nil => intro _; rfl
  | cons e es ih =>
    intro hs
    simp only [List.map_cons, List.sorted_cons] at hs
    obtain ⟨hs1, hs2⟩ := hs
    simp only [insertEntry, List.map_cons, List.orderedInsert]
    by_cases hlt : d < e.1
    · simp [hlt, le_of_lt hlt]
    · simp only [hlt, if_false, List.map_cons]
      by_cases hle : d ≤ e.1
      · have h2 : e.1 = d := le_antisymm (not_lt.mp hlt) hle
        simp only [hle, if_true]
        rw [insertEntry_fst_of_le d i es (fun x hx => h2 ▸ hs1 x hx), h2]
      · simp only [hle, if_false]
        rw [ih hs2]

theorem kSmallest_sorted (seen : List ℚ) (k : Nat) :
    (kSmallest seen k).Sorted (fun a b => a ≤ b) :=
  (List.sorted_insertionSort _ seen).sublist (List.take_sublist _ _)

theorem kSmallest_perm {seen seen1 : List ℚ} (h : seen.Perm seen1) (k : Nat) :
    kSmallest seen k = kSmallest seen1 k := by
  unfold kSmallest
  rw [List.eq_of_perm_of_sorted
    (((List.perm_insertionSort _ seen).trans h).trans (List.perm_insertionSort _ seen1).symm)
    (List.sorted_insertionSort _ seen) (List.sorted_insertionSort _ seen1)]

theorem SinkInv.perm {r : ResultSet} {seen seen1 : List ℚ} (h : SinkInv r seen)
    (hp : seen.Perm seen1) : SinkInv r seen1 := by
  unfold SinkInv at h ⊢
  rw [h, kSmallest_perm hp]

theorem SinkInv.addPoint {r : ResultSet} {seen : List ℚ} (h : SinkInv r seen) (d : ℚ)
    (i : Nat) : SinkInv (r.addPoint d i) (d :: seen) := by
  unfold SinkInv at h ⊢
  have hs : (r.entries.map Prod.fst).Sorted (fun a b => a ≤ b) := h ▸ kSmallest_sorted _ _
  simp only [ResultSet.addPoint, List.map_take]
  rw [insertEntry_fst d i _ hs, h]
  unfold kSmallest
  rw [List.insertionSort_cons_eq_take_drop]
  rw [← List.orderedInsert_eq_take_drop]
  exact (take_orderedInsert d _ _).symm

theorem sum_range_eq_finset (f : Nat → ℚ) (n : Nat) :
    ((List.range n).map f).sum = ∑ i in Finset.range n, f i := by
  induction n with
  | zero => simp
  | succ n ih =>
    rw [List.range_succ, List.map_append, List.sum_append, ih, Finset.sum_range_succ]
    simp

theorem L2_nonneg (a b : Vec) (len : Nat) : 0 ≤ L2 a b len := by
  unfold L2
  rw [sum_range_eq_finset]
  exact Finset.sum_nonneg (fun i _ => sq_nonneg _)

theorem Forest.laid_of_mem {B D lvl off : Nat} {s : List Nat}
    {cs : List KMeansNode} (h : Forest B D lvl off s cs) (perm : List Nat)
    (hslice : (perm.drop off).take s.length = s) :
    ∀ c ∈ cs, ∃ off1 s1, Forest B D lvl off1 s1 [c]
      ∧ (perm.drop off1).take s1.length = s1 := by
  induction h with
  | nil lvl off => intro c hc; simp at hc
  | leaf lvl off p r v s rest cs hs hp hrest ih =>
    intro c hc
    obtain ⟨h1, h2⟩ := slice_split perm s rest off hslice
    rcases List.mem_cons.mp hc with h3 | h3
    · subst h3
      exact ⟨off, s ++ [], Forest.leaf lvl off p r v s [] [] hs hp (Forest.nil _ _),
        by simpa using h1⟩
    · exact ih h2 c h3
  | inner lvl off p r v s rest childs cs hp hB hch hrest ih1 ih2 =>
    intro c hc
    obtain ⟨h1, h2⟩ := slice_split perm s rest off hslice
    rcases List.mem_cons.mp hc with h3 | h3
    · subst h3
      exact ⟨off, s ++ [], Forest.inner lvl off p r v s [] childs [] hp hB hch (Forest.nil _ _),
        by simpa using h1⟩
    · exact ih2 h2 c h3

theorem Laid.shaped {ix : KMeansIndex} {n : KMeansNode} (h : Laid ix n) :
    Shaped ix.branching.toNat n := by
  obtain ⟨D, lvl, off, slice, perm, h1, _, _⟩ := h
  exact ⟨D, lvl, off, slice, h1⟩

theorem Laid.of_child {ix : KMeansIndex} {n : KMeansNode} {cs : List KMeansNode}
    (h : Laid ix n) (hc : n.childs = some cs) : ∀ c ∈ cs, Laid ix c := by
  obtain ⟨D, lvl, off, slice, perm, hf, hperm, hslice⟩ := h
  cases hf with
  | leaf _ _ p r v s rest _ hs hp hrest => simp [KMeansNode.childs] at hc
  | inner _ _ p r v s rest childs _ hp hB hch hrest =>
    simp only [KMeansNode.childs, Option.some.injEq] at hc
    subst hc
    have hr := Forest.nil_slice hrest
    subst hr
    rw [List.append_nil] at hslice
    intro c hcm
    obtain ⟨off1, s1, k1, k2⟩ := Forest.laid_of_mem hch perm hslice c hcm
    exact ⟨D, lvl + 1, off1, s1, perm, k1, hperm, k2⟩

theorem range_map_getD_eq (perm l : List Nat) (off : Nat)
    (h : (perm.drop off).take l.length = l) :
    (List.range l.length).map (fun i => perm.getD (off + i) 0) = l := by
  apply List.ext_getElem
  · simp
  · intro i h1 h2
    simp only [List.getElem_map, List.getElem_range]
    have h3 : ((perm.drop off).take l.length)[i]? = l[i]? := by rw [h]
    rw [List.getElem?_take_of_lt h2, List.getElem?_drop, List.getElem?_eq_getElem h2] at h3
    rw [List.getD_eq_getElem?_getD, h3]
    rfl

/-- The ids a leaf scan reads are the members of the leaf. -/
theorem Laid.scan_ids {ix : KMeansIndex} {n : KMeansNode} (h : Laid ix n)
    (hl : n.childs = none) :
    (List.range n.size).map (fun i => (ix.indices.getD []).getD (n.indices.getD 0 + i) 0)
      = members ix n := by
  obtain ⟨D, lvl, off, slice, perm, hf, hperm, hslice⟩ := h
  cases hf with
  | inner _ _ p r v s rest childs _ hp hB hch hrest => simp [KMeansNode.childs] at hl
  | leaf _ _ p r v s rest _ hs hp hrest =>
    have hr := Forest.nil_slice hrest
    subst hr
    rw [List.append_nil] at hslice
    have hm : members ix (KMeansNode.mk p r v s.length lvl none (some off)) = s := by
      simp [members, leaves_of_leaf, KMeansNode.childs, leafIds, hperm, KMeansNode.indices,
        KMeansNode.size, hslice]
    rw [hm]
    simp only [hperm, Option.getD_some, KMeansNode.indices, KMeansNode.size]
    exact range_map_getD_eq perm s off hslice

theorem range_filter_ne_perm (B best : Nat) (hb : best < B) :
    ((List.range B).filter (fun i => decide (i ≠ best)) ++ [best]).Perm (List.range B) := by
  induction B with
  | zero => omega
  | succ B ih =>
    rw [List.range_succ, List.filter_append]
    by_cases hbB : best = B
    · subst hbB
      have hfil : (List.range best).filter (fun i => decide (i ≠ best)) = List.range best := by
        rw [List.filter_eq_self]
        intro a ha
        have := List.mem_range.mp ha
        simp; omega
      rw [hfil]
      simp
    · have h1 := ih (by omega)
      have hB : B ≠ best := fun h => hbB h.symm
      have hf : List.filter (fun i => decide (i ≠ best)) [B] = [B] := by
        simp [List.filter_cons, hB]
      rw [hf, List.append_assoc]
      refine (List.Perm.append_left _ (List.perm_append_comm)).trans ?_
      rw [← List.append_assoc]
      exact h1.append_right _

/-- The radius bound of the amended C6 cannot be dropped: on the index built from `indexR` with
the random stream `rngR`, whose leaf of row 2 has radius 0 at distance 100 from its pivot, the
query `31` with `k = 3` and a budget of `7 = N` checks leaves the distances `1, 1, 4` in the
sink of the best-bin-first search and `1, 4, 9` in the sink of the exact search. -/
theorem distances_differ_on_broken_radius :
    (builtIndex (buildIndex indexR 5 rngR)).bind
        (fun ix => searchEntries ix [31] 3 7 20) = some ([(1, 3), (1, 2), (4, 4)], 3)
      ∧ (builtIndex (buildIndex indexR 5 rngR)).bind
        (fun ix => searchEntries ix [31] 3 FLANN_CHECKS_UNLIMITED 20)
          = some ([(1, 3), (4, 4), (9, 5)], 0) := by
  decide!

theorem findDonor_error (count : List Int) (branching : Nat) :
    ∀ (steps j : Nat) (e : Err), findDonor count branching steps j = Except.error e →
      e ≠ Err.invalidParameter := by
  intro steps
  induction steps with
  | zero =>
    intro j e h
    simp only [findDonor, Except.error.injEq] at h
    subst h
    decide
  | succ steps ih =>
    intro j e h
    simp only [findDonor] at h
    split at h
    · exact ih _ e h
    · exact absurd h (by simp)

theorem repairCluster_error (branching : Nat) (acc : Clusters × Bool) (i : Nat) (e : Err)
    (h : repairCluster branching acc i = Except.error e) : e ≠ Err.invalidParameter := by
  unfold repairCluster at h
  split at h
  · split at h
    · rename_i e1 he1
      simp only [Except.error.injEq] at h
      subst h
      exact findDonor_error _ _ _ _ _ he1
    · split at h <;> exact absurd h (by simp)
  · exact absurd h (by simp)

theorem repairClusters_error (branching : Nat) :
    ∀ (l : List Nat) (acc : Clusters × Bool) (e : Err),
      repairClusters branching l acc = Except.error e → e ≠ Err.invalidParameter := by
  intro l
  induction l with
  | nil => intro acc e h; exact absurd h (by simp [repairClusters])
  | cons i rest ih =>
    intro acc e h
    simp only [repairClusters] at h
    split at h
    · rename_i e1 he1
      simp only [Except.error.injEq] at h
      subst h
      exact repairCluster_error _ _ _ _ he1
    · exact ih _ e h

theorem lloydLoop_error (ix : KMeansIndex) (indices : List Nat) (branching : Nat) :
    ∀ (left : Nat) (converged : Bool) (st : Clusters) (e : Err),
      lloydLoop ix indices branching left converged st = Except.error e →
        e ≠ Err.invalidParameter := by
  intro left
  induction left with
  | zero => intro c st e h; exact absurd h (by simp [lloydLoop])
  | succ left ih =>
    intro c st e h
    simp only [lloydLoop] at h
    split at h
    · exact absurd h (by simp)
    · split at h
      · rename_i e1 he1
        simp only [Except.error.injEq] at h
        subst h
        unfold recomputeCenters at he1
        split at he1
        · simp only [Except.error.injEq] at he1
          subst he1
          decide
        · exact absurd he1 (by simp)
      · split at h
        · rename_i e1 he1
          simp only [Except.error.injEq] at h
          subst h
          exact repairClusters_error _ _ _ _ he1
        · exact ih _ _ e h

theorem clusterChildren_error (ix : KMeansIndex)
    (recurse : BuildState → List Nat → Nat → NodeStats → Nat → ClusteringResult)
    (hrec : ∀ bs s o st l e, recurse bs s o st l = Except.error e → e ≠ Err.invalidParameter)
    (off level : Nat) (centers : List Vec) (radiuses : List ℚ) (count : List Int) :
    ∀ (cs indices belongs_to : List Nat) (start : Nat) (bs : BuildState) (e : Err),
      clusterChildren ix recurse off level centers radiuses count cs indices belongs_to start bs
        = Except.error e → e ≠ Err.invalidParameter := by
  intro cs
  induction cs with
  | nil => intro i b s bs e h; exact absurd h (by simp [clusterChildren])
  | cons c cs ih =>
    intro i b s bs e h
    simp only [clusterChildren] at h
    split at h
    · rename_i e1 he1
      simp only [Except.error.injEq] at h
      subst h
      exact hrec _ _ _ _ _ _ he1
    · split at h
      · rename_i e1 he1
        simp only [Except.error.injEq] at h
        subst h
        exact ih _ _ _ _ _ he1
      · exact absurd h (by simp)

theorem computeClustering_error (ix : KMeansIndex) (branching : Nat) :
    ∀ (fuel : Nat) (bs : BuildState) (indices : List Nat) (off : Nat) (stats : NodeStats)
      (level : Nat) (e : Err),
      computeClustering ix branching fuel bs indices off stats level = Except.error e →
        e ≠ Err.invalidParameter := by
  intro fuel
  induction fuel with
  | zero =>
    intro bs i o st l e h
    simp only [computeClustering, Except.error.injEq] at h
    subst h
    decide
  | succ fuel ih =>
    intro bs i o st l e h
    simp only [computeClustering] at h
    split at h
    · exact absurd h (by simp [makeLeaf])
    · split at h
      · exact absurd h (by simp [makeLeaf])
      · split at h
        · rename_i e1 he1
          simp only [Except.error.injEq] at h
          subst h
          exact lloydLoop_error _ _ _ _ _ _ _ he1
        · split at h
          · rename_i e1 he1
            simp only [Except.error.injEq] at h
            subst h
            exact clusterChildren_error ix _ (ih) _ _ _ _ _ _ _ _ _ _ _ he1
          · exact absurd h (by simp)

/-- C17: `buildIndex` ends with the error `InvalidParameter` exactly when `branching < 2`
(`branching = 1` included), whatever the dataset, the fuel and the random stream.  The test
comes first: the error is returned before `indices` and `root` are assigned, and nothing of
the index is changed. -/
theorem buildIndex_raises_iff_branching_lt_two (ix : KMeansIndex) (fuel : Nat) (g : Rng) :
    buildIndex ix fuel g = Except.error Err.invalidParameter ↔ ix.branching < 2 := by
  constructor
  · intro h
    by_contra hB
    unfold buildIndex at h
    rw [if_neg hB] at h
    split at h
    · rename_i e he
      simp only [Except.error.injEq] at h
      subst h
      exact computeClustering_error _ _ _ _ _ _ _ _ _ he rfl
    · exact absurd h (by simp)
  · intro h
    unfold buildIndex
    rw [if_pos h]

theorem minVarianceLoop_error (ix : KMeansIndex) (clusters_length : Nat) :
    ∀ (fuel : Nat) (clusters : List KMeansNode) (meanVariance : ℚ) (e : Err),
      minVarianceLoop ix clusters_length fuel clusters meanVariance = Except.error e →
        e ≠ Err.invalidParameter := by
  intro fuel
  induction fuel with
  | zero =>
    intro cl mv e h
    simp only [minVarianceLoop, Except.error.injEq] at h
    subst h
    decide
  | succ fuel ih =>
    intro cl mv e h
    simp only [minVarianceLoop] at h
    split at h
    · split at h
      · exact absurd h (by simp)
      · split at h
        · exact absurd h (by simp)
        · exact ih _ _ e h
    · exact absurd h (by simp)

/-- C13: `getClusterCenters` ends with the error `InvalidParameter` exactly when the output
matrix has fewer than one row; the test comes before the tree is read and before a row is
written, so the outcome is the same on every index (one without a root included) and for
every fuel. -/
theorem getClusterCenters_raises_iff_no_rows (ix : KMeansIndex) (centers : Matrix)
    (fuel : Nat) :
    (getClusterCenters ix centers fuel = Except.error Err.invalidParameter ↔ centers.rows < 1)
      ∧ ∀ (ix1 : KMeansIndex) (fuel1 : Nat),
          getClusterCenters ix centers fuel = Except.error Err.invalidParameter →
            getClusterCenters ix1 centers fuel1 = Except.error Err.invalidParameter := by
  have key : ∀ (ix : KMeansIndex) (fuel : Nat),
      getClusterCenters ix centers fuel = Except.error Err.invalidParameter
        ↔ centers.rows < 1 := by
    intro ix fuel
    constructor
    · intro h
      by_contra hr
      unfold getClusterCenters at h
      rw [if_neg hr] at h
      split at h
      · exact absurd h (by simp)
      · split at h
        · rename_i e he
          simp only [Except.error.injEq] at h
          subst h
          unfold getMinVarianceClusters at he
          split at he
          · rename_i e1 he1
            simp only [Except.error.injEq] at he
            subst he
            exact minVarianceLoop_error _ _ _ _ _ _ he1 rfl
          · exact absurd he (by simp)
        · exact absurd h (by simp)
    · intro h
      unfold getClusterCenters
      rw [if_pos h]
  exact ⟨key ix fuel, fun ix1 fuel1 h => (key ix1 fuel1).mpr ((key ix fuel).mp h)⟩

/-- C18: the constructor succeeds exactly when `centers_init` is one of `FLANN_CENTERS_RANDOM`,
`FLANN_CENTERS_GONZALES` and `FLANN_CENTERS_KMEANSPP`; it fails only with the error
`InvalidParameter`; and the index it returns seeds with `chooseCentersRandom`,
`chooseCentersGonzales` and `chooseCentersKMeanspp` respectively. -/
theorem constructor_accepts_known_seeders (inputData : Matrix) (params : KMeansIndexParams)
    (d : Distance) :
    ((∃ ix, KMeansIndex.new inputData params d = Except.ok ix)
        ↔ (params.centers_init = FLANN_CENTERS_RANDOM
          ∨ params.centers_init = FLANN_CENTERS_GONZALES
          ∨ params.centers_init = FLANN_CENTERS_KMEANSPP))
      ∧ ((∀ ix, KMeansIndex.new inputData params d ≠ Except.ok ix)
        ↔ KMeansIndex.new inputData params d = Except.error Err.invalidParameter)
      ∧ ∀ ix, KMeansIndex.new inputData params d = Except.ok ix →
          (params.centers_init = FLANN_CENTERS_RANDOM →
            ∀ k indices g, callChooseCenters ix k indices g = chooseCentersRandom ix k indices g)
          ∧ (params.centers_init = FLANN_CENTERS_GONZALES →
            ∀ k indices g,
              callChooseCenters ix k indices g = chooseCentersGonzales ix k indices g)
          ∧ (params.centers_init = FLANN_CENTERS_KMEANSPP →
            ∀ k indices g,
              callChooseCenters ix k indices g = chooseCentersKMeanspp ix k indices g) := by
  by_cases h : params.centers_init = FLANN_CENTERS_RANDOM
      ∨ params.centers_init = FLANN_CENTERS_GONZALES
      ∨ params.centers_init = FLANN_CENTERS_KMEANSPP
  · refine ⟨⟨fun _ => h, fun _ => ?_⟩, ⟨fun hn => ?_, fun he => ?_⟩, ?_⟩
    · unfold KMeansIndex.new
      rw [if_pos h]
      exact ⟨_, rfl⟩
    · exfalso
      unfold KMeansIndex.new at hn
      rw [if_pos h] at hn
      exact hn _ rfl
    · unfold KMeansIndex.new at he
      rw [if_pos h] at he
      exact absurd he (by simp)
    · intro ix hix
      unfold KMeansIndex.new at hix
      rw [if_pos h] at hix
      simp only [Except.ok.injEq] at hix
      subst hix
      refine ⟨fun h1 k i g => ?_, fun h1 k i g => ?_, fun h1 k i g => ?_⟩
      · simp only [callChooseCenters, h1, if_true]
      · have h0 : ¬ (FLANN_CENTERS_GONZALES = FLANN_CENTERS_RANDOM) := by decide
        simp only [callChooseCenters, h1, h0, if_false, if_true]
      · have h0 : ¬ (FLANN_CENTERS_KMEANSPP = FLANN_CENTERS_RANDOM) := by decide
        have h2 : ¬ (FLANN_CENTERS_KMEANSPP = FLANN_CENTERS_GONZALES) := by decide
        simp only [callChooseCenters, h1, h0, h2, if_false]
  · have he : KMeansIndex.new inputData params d = Except.error Err.invalidParameter := by
      unfold KMeansIndex.new
      rw [if_neg h]
    refine ⟨⟨fun ⟨ix, hix⟩ => ?_, fun h1 => absurd h1 h⟩, ⟨fun _ => he, fun _ ix hix => ?_⟩, ?_⟩
    · rw [he] at hix
      exact absurd hix (by simp)
    · rw [he] at hix
      exact absurd hix (by simp)
    · intro ix hix
      rw [he] at hix
      exact absurd hix (by simp)

theorem insertionSort_range (n : Nat) :
    (List.range n).insertionSort (fun a b => a ≤ b) = List.range n := by
  apply List.Sorted.insertionSort_eq
  exact (List.pairwise_lt_range n).imp (fun h => Nat.le_of_lt h)

/-- C19: when the dataset has fewer rows than the branching factor (`N < B`, `B ≥ 2`, `N = 0`
included) the build returns, for every seeding strategy, with the root a leaf of size `N` on
level 0 whose slice is `0, 1, ..., N-1`; the random stream comes back untouched: no seeder
has run. -/
theorem small_dataset_root_is_leaf (ix : KMeansIndex) (fuel : Nat) (g : Rng)
    (hB : 2 ≤ ix.branching) (hN : (ix.size_ : Int) < ix.branching) (hfuel : 0 < fuel) :
    ∃ ix1 root, buildIndex ix fuel g = Except.ok (ix1, g)
      ∧ ix1.root = some root ∧ ix1.indices = some (List.range ix.size_)
      ∧ root.childs = none ∧ root.size = ix.size_ ∧ root.level = 0 ∧ root.indices = some 0
      ∧ leafIds ix1 root = List.range ix.size_ := by
  obtain ⟨fuel, rfl⟩ : ∃ f, fuel = f + 1 := ⟨fuel - 1, by omega⟩
  have h1 : ¬ ix.branching < 2 := by omega
  have h2 : ix.size_ < ix.branching.toNat := by omega
  unfold buildIndex
  rw [if_neg h1]
  simp only [computeClustering, List.length_range, if_pos h2, makeLeaf, insertionSort_range]
  refine ⟨_, _, rfl, rfl, rfl, rfl, rfl, rfl, rfl, ?_⟩
  simp [leafIds, KMeansNode.indices, KMeansNode.size]

theorem uniqueRandomShuffle_length :
    ∀ (i : Nat) (vals : List Nat) (g : Rng),
      (uniqueRandomShuffle i vals g).1.length = vals.length := by
  intro i
  induction i with
  | zero => intro vals g; rfl
  | succ i ih =>
    intro vals g
    simp only [uniqueRandomShuffle]
    rw [ih, swapAt_length]

theorem foldl_fixed {α β : Type} (f : β → α → β) (b : β) (l : List α)
    (h : ∀ a ∈ l, f b a = b) : l.foldl f b = b := by
  induction l with
  | nil => rfl
  | cons a l ih =>
    rw [List.foldl_cons, h a (List.mem_cons_self _ _)]
    exact ih (fun x hx => h x (List.mem_cons_of_mem _ hx))

theorem getD_lt_of_all_lt (indices : List Nat) (N : Nat) (hne : indices ≠ [])
    (hind : ∀ x ∈ indices, x < N) (i : Nat) : indices.getD i 0 < N := by
  have hN : 0 < N := by
    cases indices with
    | nil => exact absurd rfl hne
    | cons a l => exact Nat.lt_of_le_of_lt (Nat.zero_le _) (hind a (List.mem_cons_self _ _))
  rw [List.getD_eq_getElem?_getD]
  cases h : indices[i]? with
  | none => simpa using hN
  | some x =>
    obtain ⟨hi, hx⟩ := List.getElem?_eq_some_iff.mp h
    simpa using hind x (hx ▸ List.getElem_mem hi)

theorem chooseCentersRandomLoop_identical (ix : KMeansIndex) (k : Nat) (indices : List Nat)
    (hk : 2 ≤ k) (hne : indices ≠ []) (hind : ∀ x ∈ indices, x < ix.size_)
    (hzero : ∀ i j, i < ix.size_ → j < ix.size_ →
      ix.distance (ix.dataset.row i) (ix.dataset.row j) ix.dataset.cols = 0)
    (c : Nat) (hc : c < ix.size_) :
    ∀ (rs : List Nat), chooseCentersRandomLoop ix k indices rs [c] = [c] := by
  intro rs
  induction rs with
  | nil => rfl
  | cons r rs ih =>
    have h1 : ([c] : List Nat).length < k := by simp; omega
    have h2 : ([c] : List Nat).any (fun cj => decide (ix.distance
        (ix.dataset.row (indices.getD r 0)) (ix.dataset.row cj) ix.dataset.cols < 1 / 10 ^ 16))
        = true := by
      simp only [List.any_cons, List.any_nil, Bool.or_false, decide_eq_true_eq]
      rw [hzero _ _ (getD_lt_of_all_lt indices _ hne hind r) hc]
      norm_num
    simp only [chooseCentersRandomLoop, if_pos h1, h2, if_true]
    exact ih

theorem chooseCentersRandom_identical (ix : KMeansIndex) (k : Nat) (indices : List Nat)
    (g : Rng) (hk : 2 ≤ k) (hne : indices ≠ []) (hind : ∀ x ∈ indices, x < ix.size_)
    (hzero : ∀ i j, i < ix.size_ → j < ix.size_ →
      ix.distance (ix.dataset.row i) (ix.dataset.row j) ix.dataset.cols = 0) :
    (chooseCentersRandom ix k indices g).1.length = 1 := by
  unfold chooseCentersRandom
  have hlen : (UniqueRandom indices.length g).1.length = indices.length := by
    unfold UniqueRandom
    rw [uniqueRandomShuffle_length, List.length_range]
  have hpos : 0 < indices.length := List.length_pos.mpr hne
  cases hr : (UniqueRandom indices.length g).1 with
  | nil => rw [hr] at hlen; simp at hlen; omega
  | cons r rs =>
    have h1 : ([] : List Nat).length < k := by simp; omega
    simp only [hr, chooseCentersRandomLoop, if_pos h1, List.any_nil, List.nil_append]
    simp only [Bool.false_eq_true, if_false]
    rw [chooseCentersRandomLoop_identical ix k indices hk hne hind hzero _
      (getD_lt_of_all_lt indices _ hne hind r)]
    rfl

theorem chooseCentersGonzales_identical (ix : KMeansIndex) (k : Nat) (indices : List Nat)
    (g : Rng) (hk : 2 ≤ k) (hne : indices ≠ []) (hind : ∀ x ∈ indices, x < ix.size_)
    (hzero : ∀ i j, i < ix.size_ → j < ix.size_ →
      ix.distance (ix.dataset.row i) (ix.dataset.row j) ix.dataset.cols = 0) :
    (chooseCentersGonzales ix k indices g).1.length = 1 := by
  unfold chooseCentersGonzales
  obtain ⟨s, hs⟩ : ∃ s, k - 1 = s + 1 := ⟨k - 2, by omega⟩
  have hbest : ∀ c, c < ix.size_ → gonzalesBest ix indices [c] = (none, 0) := by
    intro c hc
    unfold gonzalesBest
    apply foldl_fixed
    intro j _
    have : gonzalesDist ix [c] (indices.getD j 0) = 0 := by
      simp only [gonzalesDist, List.tail_cons, List.foldl_nil, List.getD_cons_zero]
      exact hzero _ _ hc (getD_lt_of_all_lt indices _ hne hind j)
    simp only [this, gt_iff_lt, lt_self_iff_false, if_false]
  simp only [hs, chooseCentersGonzalesLoop,
    hbest _ (getD_lt_of_all_lt indices _ hne hind (rand_int indices.length g).1)]
  rfl

/-- C20: on a dataset of `N ≥ B` rows at pairwise distance 0, `chooseCentersRandom` and
`chooseCentersGonzales` return exactly one centre, and the build with either of them makes the
root a leaf that holds the ids `0, ..., N-1` in ascending order. -/
theorem identical_rows_root_is_leaf (ix : KMeansIndex) (fuel : Nat) (g : Rng)
    (hB : 2 ≤ ix.branching) (hN : ix.branching ≤ (ix.size_ : Int))
    (hzero : ∀ i j, i < ix.size_ → j < ix.size_ →
      ix.distance (ix.dataset.row i) (ix.dataset.row j) ix.dataset.cols = 0)
    (hfuel : 0 < fuel) :
    (chooseCentersRandom ix ix.branching.toNat (List.range ix.size_) g).1.length = 1
      ∧ (chooseCentersGonzales ix ix.branching.toNat (List.range ix.size_) g).1.length = 1
      ∧ (ix.chooseCenters = flann_centers_init_t.FLANN_CENTERS_RANDOM
          ∨ ix.chooseCenters = flann_centers_init_t.FLANN_CENTERS_GONZALES →
        ∃ ix1 g1 root, buildIndex ix fuel g = Except.ok (ix1, g1)
          ∧ ix1.root = some root ∧ ix1.indices = some (List.range ix.size_)
          ∧ root.childs = none ∧ root.size = ix.size_ ∧ root.level = 0
          ∧ root.indices = some 0 ∧ leafIds ix1 root = List.range ix.size_) := by
  have hk : 2 ≤ ix.branching.toNat := by omega
  have hne : List.range ix.size_ ≠ [] := by
    intro h
    have := congrArg List.length h
    simp at this
    omega
  have hind : ∀ x ∈ List.range ix.size_, x < ix.size_ := fun x hx => List.mem_range.mp hx
  have hR := chooseCentersRandom_identical ix _ _ g hk hne hind hzero
  have hG := chooseCentersGonzales_identical ix _ _ g hk hne hind hzero
  refine ⟨hR, hG, fun hs => ?_⟩
  obtain ⟨fuel, rfl⟩ : ∃ f, fuel = f + 1 := ⟨fuel - 1, by omega⟩
  have h1 : ¬ ix.branching < 2 := by omega
  have h2 : ¬ ix.size_ < ix.branching.toNat := by omega
  have h3 : (callChooseCenters ix ix.branching.toNat (List.range ix.size_) g).1.length
      < ix.branching.toNat := by
    have : (callChooseCenters ix ix.branching.toNat (List.range ix.size_) g).1.length = 1 := by
      unfold callChooseCenters
      rcases hs with hs | hs <;> rw [hs]
      · exact hR
      · exact hG
    omega
  unfold buildIndex
  rw [if_neg h1]
  simp only [computeClustering, List.length_range, if_neg h2, if_pos h3, makeLeaf,
    insertionSort_range]
  refine ⟨_, _, _, rfl, rfl, rfl, rfl, rfl, rfl, rfl, ?_⟩
  simp [leafIds, KMeansNode.indices, KMeansNode.size]

theorem buildIndex_raises_iff_branching_lt_two_witness :
    buildIndex { indexS1 with branching := 1 } 3 [] = Except.error Err.invalidParameter :=
  (buildIndex_raises_iff_branching_lt_two { indexS1 with branching := 1 } 3 []).mpr (by decide)

theorem small_dataset_root_is_leaf_witness :
    2 ≤ indexOne.branching ∧ (indexOne.size_ : Int) < indexOne.branching ∧ 0 < 1
      ∧ ∃ ix1 root, buildIndex indexOne 1 [7] = Except.ok (ix1, [7])
        ∧ ix1.root = some root ∧ ix1.indices = some (List.range indexOne.size_)
        ∧ root.childs = none ∧ root.size = indexOne.size_ ∧ root.level = 0
        ∧ root.indices = some 0 ∧ leafIds ix1 root = List.range indexOne.size_ :=
  ⟨by decide, by decide, by decide,
    small_dataset_root_is_leaf indexOne 1 [7] (by decide) (by decide) (by decide)⟩

theorem indexDup_zero : ∀ i j, i < indexDup.size_ → j < indexDup.size_ →
    indexDup.distance (indexDup.dataset.row i) (indexDup.dataset.row j) indexDup.dataset.cols
      = 0 := by
  intro i j hi hj
  have hi1 : i < 3 := hi
  have hj1 : j < 3 := hj
  interval_cases i <;> interval_cases j <;> decide!

theorem identical_rows_root_is_leaf_witness :
    2 ≤ indexDup.branching ∧ indexDup.branching ≤ (indexDup.size_ : Int) ∧ 0 < 1
      ∧ (chooseCentersRandom indexDup indexDup.branching.toNat (List.range indexDup.size_)
          [5, 1]).1.length = 1
      ∧ (chooseCentersGonzales indexDup indexDup.branching.toNat (List.range indexDup.size_)
          [5, 1]).1.length = 1
      ∧ (indexDup.chooseCenters = flann_centers_init_t.FLANN_CENTERS_RANDOM
          ∨ indexDup.chooseCenters = flann_centers_init_t.FLANN_CENTERS_GONZALES →
        ∃ ix1 g1 root, buildIndex indexDup 1 [5, 1] = Except.ok (ix1, g1)
          ∧ ix1.root = some root ∧ ix1.indices = some (List.range indexDup.size_)
          ∧ root.childs = none ∧ root.size = indexDup.size_ ∧ root.level = 0
          ∧ root.indices = some 0 ∧ leafIds ix1 root = List.range indexDup.size_) :=
  ⟨by decide, by decide, by decide,
    identical_rows_root_is_leaf indexDup 1 [5, 1] (by decide) (by decide) indexDup_zero
      (by decide)⟩


theorem splitCluster_length (ix : KMeansIndex) (clusters : List KMeansNode) (i : Nat) :
    (splitCluster ix clusters i).length = clusters.length + (ix.branching.toNat - 1) := by
  simp [splitCluster]

theorem minVarianceLoop_length (ix : KMeansIndex) (k : Nat) (hB : 2 ≤ ix.branching.toNat) :
    ∀ (fuel : Nat) (clusters : List KMeansNode) (mv : ℚ),
      clusters.length ≤ k → (clusters.length - 1) % (ix.branching.toNat - 1) = 0 →
      1 ≤ clusters.length → k - clusters.length < fuel →
      ∃ cl v, minVarianceLoop ix k fuel clusters mv = Except.ok (cl, v)
        ∧ clusters.length ≤ cl.length ∧ cl.length ≤ k
        ∧ (cl.length - 1) % (ix.branching.toNat - 1) = 0 := by
  intro fuel
  induction fuel with
  | zero => intro clusters mv _ _ _ h; omega
  | succ fuel ih =>
    intro clusters mv hle hmod hpos hfuel
    simp only [minVarianceLoop]
    split
    · rename_i hlt
      split
      · exact ⟨_, _, rfl, le_refl _, hle, hmod⟩
      · rename_i m i hfs
        split
        · exact ⟨_, _, rfl, le_refl _, hle, hmod⟩
        · rename_i hfit
          have hlen := splitCluster_length ix clusters i
          obtain ⟨cl, v, h1, h2, h3, h4⟩ := ih (splitCluster ix clusters i) (m.getD 0)
            (by omega)
            (by
              rw [hlen]
              have : clusters.length + (ix.branching.toNat - 1) - 1
                  = (clusters.length - 1) + (ix.branching.toNat - 1) := by omega
              rw [this, Nat.add_mod, hmod, Nat.mod_self]; simp) (by omega) (by omega)
          exact ⟨cl, v, h1, by omega, h3, h4⟩
    · exact ⟨_, _, rfl, le_refl _, hle, hmod⟩

/-- C12: for every tree, every branching factor `B ≥ 2` and every requested count `k ≥ 1`
(the row count of the output matrix; fuel at least `k`), `getMinVarianceClusters` returns a
count `k'` with `1 ≤ k' ≤ k` and `k' - 1` a multiple of `B - 1`; the cluster array holds
exactly `k'` entries, so no position from `k` on is written; `getClusterCenters` returns
`k'`, row `i < k'` of the output matrix holds the `veclen_` pivot values of cluster `i`, and
the rows from `k'` on are as they were. -/
theorem cluster_count_bounds (ix : KMeansIndex) (root : KMeansNode) (centers : Matrix)
    (fuel : Nat) (hroot : ix.root = some root) (hB : 2 ≤ ix.branching)
    (hk : 1 ≤ centers.rows) (hfuel : centers.rows ≤ fuel) :
    ∃ clusters v rows,
      getMinVarianceClusters ix root centers.rows fuel = Except.ok (clusters, v)
        ∧ 1 ≤ clusters.length ∧ clusters.length ≤ centers.rows
        ∧ (clusters.length - 1) % (ix.branching.toNat - 1) = 0
        ∧ getClusterCenters ix centers fuel = Except.ok (clusters.length, rows)
        ∧ rows.length = centers.rows
        ∧ (∀ i, i < clusters.length →
            rows.getD i [] = (List.range ix.veclen_).map (fun j =>
              vget (clusters.getD i (KMeansNode.mk [] 0 0 0 0 none none)).pivot j))
        ∧ (∀ i, clusters.length ≤ i → i < centers.rows → rows.getD i [] = centers.row i) := by
  obtain ⟨cl, v, h1, h2, h3, h4⟩ := minVarianceLoop_length ix centers.rows (by omega) fuel
    [root] (root.variance * (root.size : ℚ)) (by simpa using hk) (by simp) (by simp)
    (by simp; omega)
  have hg : getMinVarianceClusters ix root centers.rows fuel
      = Except.ok (cl, v / (root.size : ℚ)) := by
    simp only [getMinVarianceClusters, h1]
  have hr : ¬ centers.rows < 1 := by omega
  refine ⟨cl, _, (List.range centers.rows).map (fun i =>
      if i < cl.length then
        (List.range ix.veclen_).map (fun j =>
          vget (cl.getD i (KMeansNode.mk [] 0 0 0 0 none none)).pivot j)
      else centers.row i), hg, by simpa using h2, h3, h4, ?_, ?_, ?_, ?_⟩
  · simp only [getClusterCenters, if_neg hr, hroot, hg]
  · simp
  · intro i hi
    have hi2 : i < centers.rows := by omega
    rw [List.getD_eq_getElem?_getD, List.getElem?_map, List.getElem?_range hi2]
    simp [hi]
  · intro i hi hi2
    rw [List.getD_eq_getElem?_getD, List.getElem?_map, List.getElem?_range hi2]
    have : ¬ i < cl.length := by omega
    simp [this]

theorem Forest.level_of_mem {B D lvl off : Nat} {s : List Nat} {cs : List KMeansNode}
    (h : Forest B D lvl off s cs) : ∀ c ∈ cs, c.level = lvl := by
  induction h with
  | nil => intro c hc; simp at hc
  | leaf lvl off p r v s rest cs _ _ _ ih =>
    intro c hc
    rcases List.mem_cons.mp hc with rfl | hc
    · rfl
    · exact ih c hc
  | inner lvl off p r v s rest childs cs _ _ _ _ _ ih =>
    intro c hc
    rcases List.mem_cons.mp hc with rfl | hc
    · rfl
    · exact ih c hc

theorem Shaped.level_child {B : Nat} {n : KMeansNode} {cs : List KMeansNode} (h : Shaped B n)
    (hc : n.childs = some cs) : ∀ c ∈ cs, c.level = n.level + 1 := by
  obtain ⟨D, lvl, off, slice, hf⟩ := h
  cases hf with
  | leaf _ _ p r v s rest cs1 _ _ _ => simp [KMeansNode.childs] at hc
  | inner _ _ p r v s rest childs cs1 _ _ hch _ =>
    simp only [KMeansNode.childs, Option.some.injEq] at hc
    subst hc
    intro c hcm
    rw [hch.level_of_mem c hcm]
    rfl

theorem depthList_le : ∀ (cs : List KMeansNode), ∀ c ∈ cs, c.depth ≤ KMeansNode.depthList cs := by
  intro cs
  induction cs with
  | nil => intro c hc; simp at hc
  | cons a cs ih =>
    intro c hc
    simp only [KMeansNode.depthList]
    rcases List.mem_cons.mp hc with rfl | hc
    · exact le_max_left _ _
    · exact le_trans (ih c hc) (le_max_right _ _)

theorem depthList_mem : ∀ (cs : List KMeansNode), cs ≠ [] →
    ∃ c ∈ cs, c.depth = KMeansNode.depthList cs := by
  intro cs
  induction cs with
  | nil => intro h; exact absurd rfl h
  | cons a cs ih =>
    intro _
    simp only [KMeansNode.depthList]
    by_cases hcs : cs = []
    · subst hcs
      exact ⟨a, List.mem_cons_self _ _, by simp [KMeansNode.depthList]⟩
    · obtain ⟨c, hc, hd⟩ := ih hcs
      rcases le_total a.depth (KMeansNode.depthList cs) with h | h
      · exact ⟨c, List.mem_cons_of_mem _ hc, by rw [hd, max_eq_right h]⟩
      · exact ⟨a, List.mem_cons_self _ _, by rw [max_eq_left h]⟩

theorem depth_of_childs {n : KMeansNode} {cs : List KMeansNode} (hc : n.childs = some cs) :
    n.depth = KMeansNode.depthList cs + 1 := by
  cases n with
  | mk p r v s l c i =>
    simp only [KMeansNode.childs] at hc
    subst hc
    simp [KMeansNode.depth]

theorem depth_of_leaf {n : KMeansNode} (hc : n.childs = none) : n.depth = 0 := by
  cases n with
  | mk p r v s l c i =>
    simp only [KMeansNode.childs] at hc
    subst hc
    simp [KMeansNode.depth]

theorem level_le_depth (B : Nat) :
    ∀ (fuel : Nat) (n : KMeansNode), n.depth < fuel → Shaped B n →
      ∀ x ∈ n.nodes, x.level ≤ n.level + n.depth := by
  intro fuel
  induction fuel with
  | zero => intro n h; omega
  | succ fuel ih =>
    intro n hd hs x hx
    cases hc : n.childs with
    | none =>
      rw [nodes_of_leaf hc] at hx
      rw [List.mem_singleton.mp hx]
      omega
    | some cs =>
      rw [nodes_of_childs hc] at hx
      rcases List.mem_cons.mp hx with rfl | hx
      · omega
      · obtain ⟨c, hcm, hxc⟩ := mem_nodesList.mp hx
        have h1 := depthList_le cs c hcm
        have h2 := depth_of_childs hc
        have h3 := ih c (by omega) ((hs.childs hc).2.2 c hcm) x hxc
        have h4 := hs.level_child hc c hcm
        omega

theorem level_eq_depth (B : Nat) (hB : 1 ≤ B) :
    ∀ (fuel : Nat) (n : KMeansNode), n.depth < fuel → Shaped B n →
      ∃ x ∈ n.nodes, x.level = n.level + n.depth := by
  intro fuel
  induction fuel with
  | zero => intro n h; omega
  | succ fuel ih =>
    intro n hd hs
    cases hc : n.childs with
    | none =>
      exact ⟨n, nodes_self_mem n, by rw [depth_of_leaf hc]; rfl⟩
    | some cs =>
      have hne : cs ≠ [] := by
        intro h
        have := (hs.childs hc).1
        rw [h] at this
        simp at this
        omega
      obtain ⟨c, hcm, hcd⟩ := depthList_mem cs hne
      have h2 := depth_of_childs hc
      obtain ⟨x, hx, hxl⟩ := ih c (by omega) ((hs.childs hc).2.2 c hcm)
      have h4 := hs.level_child hc c hcm
      refine ⟨x, ?_, by omega⟩
      rw [nodes_of_childs hc]
      exact List.mem_cons_of_mem _ (mem_nodesList.mpr ⟨c, hcm, hx⟩)

theorem maxLevelLoop_spec (ix : KMeansIndex) :
    ∀ (fuel : Nat) (fifo : List KMeansNode) (m : Int),
      (∀ n ∈ fifo, Shaped ix.branching.toNat n) →
      (fifo.map (fun n => n.nodes.length)).sum ≤ fuel →
      ∃ m1, maxLevelLoop ix fuel fifo m = Except.ok m1 ∧ m ≤ m1
        ∧ (∀ n ∈ fifo, ∀ x ∈ n.nodes, (x.level : Int) ≤ m1)
        ∧ (m1 = m ∨ ∃ n ∈ fifo, ∃ x ∈ n.nodes, m1 = (x.level : Int)) := by
  intro fuel
  induction fuel with
  | zero =>
    intro fifo m _ hsum
    cases fifo with
    | nil => exact ⟨m, rfl, le_refl _, fun n hn => by simp at hn, Or.inl rfl⟩
    | cons a l =>
      have := nodes_length_pos a
      simp only [List.map_cons, List.sum_cons] at hsum
      omega
  | succ fuel ih =>
    intro fifo m hsh hsum
    cases fifo with
    | nil => exact ⟨m, rfl, le_refl _, fun n hn => by simp at hn, Or.inl rfl⟩
    | cons a l =>
      simp only [maxLevelLoop]
      simp only [List.map_cons, List.sum_cons] at hsum
      have hsa := hsh a (List.mem_cons_self _ _)
      have hsl : ∀ n ∈ l, Shaped ix.branching.toNat n :=
        fun n hn => hsh n (List.mem_cons_of_mem _ hn)
      cases hc : a.childs with
      | none =>
        have hna := nodes_of_leaf hc
        rw [hna] at hsum
        simp only [List.length_singleton] at hsum
        obtain ⟨m1, h1, h2, h3, h4⟩ := ih l (max m (a.level : Int)) hsl (by omega)
        refine ⟨m1, h1, le_trans (le_max_left _ _) h2, ?_, ?_⟩
        · intro n hn x hx
          rcases List.mem_cons.mp hn with rfl | hn
          · rw [hna] at hx
            rw [List.mem_singleton.mp hx]
            exact le_trans (le_max_right _ _) h2
          · exact h3 n hn x hx
        · rcases h4 with h4 | ⟨n, hn, x, hx, h4⟩
          · rcases le_total m (a.level : Int) with h | h
            · right
              exact ⟨a, List.mem_cons_self _ _, a, nodes_self_mem a, by rw [h4, max_eq_right h]⟩
            · left
              rw [h4, max_eq_left h]
          · right
            exact ⟨n, List.mem_cons_of_mem _ hn, x, hx, h4⟩
      | some cs =>
        obtain ⟨hlen, _, hcs⟩ := hsa.childs hc
        have hmap : (List.range ix.branching.toNat).map a.child = cs := by
          rw [← hlen]
          have := map_child_range (fun c => c) hc
          simpa using this
        rw [hmap]
        have hna := nodes_length_childs hc
        obtain ⟨m1, h1, h2, h3, h4⟩ := ih (l ++ cs) (max m (a.level : Int))
          (by
            intro n hn
            rcases List.mem_append.mp hn with hn | hn
            · exact hsl n hn
            · exact hcs n hn)
          (by
            rw [List.map_append, List.sum_append]
            omega)
        refine ⟨m1, h1, le_trans (le_max_left _ _) h2, ?_, ?_⟩
        · intro n hn x hx
          rcases List.mem_cons.mp hn with rfl | hn
          · rw [nodes_of_childs hc] at hx
            rcases List.mem_cons.mp hx with rfl | hx
            · exact le_trans (le_max_right _ _) h2
            · obtain ⟨c, hcm, hxc⟩ := mem_nodesList.mp hx
              exact h3 c (List.mem_append_right _ hcm) x hxc
          · exact h3 n (List.mem_append_left _ hn) x hx
        · rcases h4 with h4 | ⟨n, hn, x, hx, h4⟩
          · rcases le_total m (a.level : Int) with h | h
            · right
              exact ⟨a, List.mem_cons_self _ _, a, nodes_self_mem a, by rw [h4, max_eq_right h]⟩
            · left
              rw [h4, max_eq_left h]
          · right
            rcases List.mem_append.mp hn with hn | hn
            · exact ⟨n, List.mem_cons_of_mem _ hn, x, hx, h4⟩
            · refine ⟨a, List.mem_cons_self _ _, x, ?_, h4⟩
              rw [nodes_of_childs hc]
              exact List.mem_cons_of_mem _ (mem_nodesList.mpr ⟨n, hn, hx⟩)

theorem labelLoop_rule (ix : KMeansIndex) (level_L nb : Int)
    (Inv : List (KMeansNode × Int) → List Int → Prop)
    (hinner : ∀ (p : KMeansNode × Int) (rest : List (KMeansNode × Int)) (ids : List Int)
      (cs : List KMeansNode), Inv (p :: rest) ids → p.1.childs = some cs →
        Inv (rest ++ (List.range ix.branching.toNat).map (fun i =>
          (p.1.child i, childNumber ix.branching p.2 i))) ids)
    (hleaf : ∀ (p : KMeansNode × Int) (rest : List (KMeansNode × Int)) (ids : List Int),
      Inv (p :: rest) ids → p.1.childs = none →
        Inv rest (writeLabels ix p.1
          (idOfParentAtLevelL ix.branching level_L nb p.2 (p.1.level : Int)) ids)) :
    ∀ (fuel : Nat) (fifo : List (KMeansNode × Int)) (ids ids1 : List Int),
      Inv fifo ids → labelLoop ix level_L nb fuel fifo ids = Except.ok ids1 → Inv [] ids1 := by
  intro fuel
  induction fuel with
  | zero =>
    intro fifo ids ids1 hinv h
    cases fifo with
    | nil =>
      simp only [labelLoop, Except.ok.injEq] at h
      subst h
      exact hinv
    | cons a l => simp [labelLoop] at h
  | succ fuel ih =>
    intro fifo ids ids1 hinv h
    cases fifo with
    | nil =>
      simp only [labelLoop, Except.ok.injEq] at h
      subst h
      exact hinv
    | cons a l =>
      simp only [labelLoop] at h
      cases hc : a.1.childs with
      | none =>
        simp only [hc] at h
        exact ih _ _ _ (hleaf a l ids hinv hc) h
      | some cs =>
        simp only [hc] at h
        exact ih _ _ _ (hinner a l ids cs hinv hc) h

theorem labelLoop_total (ix : KMeansIndex) (level_L nb : Int) :
    ∀ (fuel : Nat) (fifo : List (KMeansNode × Int)) (ids : List Int),
      (∀ p ∈ fifo, Shaped ix.branching.toNat p.1) →
      (fifo.map (fun p => p.1.nodes.length)).sum ≤ fuel →
      ∃ ids1, labelLoop ix level_L nb fuel fifo ids = Except.ok ids1 := by
  intro fuel
  induction fuel with
  | zero =>
    intro fifo ids _ hsum
    cases fifo with
    | nil => exact ⟨ids, rfl⟩
    | cons a l =>
      have := nodes_length_pos a.1
      simp only [List.map_cons, List.sum_cons] at hsum
      omega
  | succ fuel ih =>
    intro fifo ids hsh hsum
    cases fifo with
    | nil => exact ⟨ids, rfl⟩
    | cons a l =>
      simp only [labelLoop]
      simp only [List.map_cons, List.sum_cons] at hsum
      have hsa := hsh a (List.mem_cons_self _ _)
      have hsl : ∀ p ∈ l, Shaped ix.branching.toNat p.1 :=
        fun n hn => hsh n (List.mem_cons_of_mem _ hn)
      cases hc : a.1.childs with
      | none =>
        have hna := nodes_of_leaf hc
        rw [hna] at hsum
        simp only [List.length_singleton] at hsum
        exact ih _ _ hsl (by omega)
      | some cs =>
        obtain ⟨hlen, _, hcs⟩ := hsa.childs hc
        have hna := nodes_length_childs hc
        refine ih _ _ ?_ ?_
        · intro p hp
          rcases List.mem_append.mp hp with hp | hp
          · exact hsl p hp
          · obtain ⟨i, hi, rfl⟩ := List.mem_map.mp hp
            exact shaped_child hsa hc i (List.mem_range.mp hi)
        · rw [List.map_append, List.sum_append, List.map_map]
          have : (List.range ix.branching.toNat).map
              ((fun p : KMeansNode × Int => p.1.nodes.length) ∘ fun i =>
                (a.1.child i, childNumber ix.branching a.2 i))
              = cs.map (fun c => c.nodes.length) := by
            rw [← hlen]
            exact map_child_range (fun c => c.nodes.length) hc
          rw [this]
          omega

theorem shaped_of_mem_nodes (B : Nat) :
    ∀ (fuel : Nat) (n : KMeansNode), n.depth < fuel → Shaped B n →
      ∀ x ∈ n.nodes, Shaped B x := by
  intro fuel
  induction fuel with
  | zero => intro n h; omega
  | succ fuel ih =>
    intro n hd hs x hx
    cases hc : n.childs with
    | none =>
      rw [nodes_of_leaf hc] at hx
      rw [List.mem_singleton.mp hx]
      exact hs
    | some cs =>
      rw [nodes_of_childs hc] at hx
      rcases List.mem_cons.mp hx with rfl | hx
      · exact hs
      · obtain ⟨c, hcm, hxc⟩ := mem_nodesList.mp hx
        have h1 := depthList_le cs c hcm
        have h2 := depth_of_childs hc
        exact ih c (by omega) ((hs.childs hc).2.2 c hcm) x hxc

theorem level_return_of_built (ix : KMeansIndex) (fuel0 : Nat) (g : Rng) (ix1 : KMeansIndex)
    (g1 : Rng) (hb : buildIndex ix fuel0 g = Except.ok (ix1, g1)) :
    ∃ root, ix1.root = some root ∧ root.level = 0
      ∧ (∀ n ∈ root.nodes, ∀ cs, n.childs = some cs → ∀ c ∈ cs, c.level = n.level + 1)
      ∧ (∀ n ∈ root.nodes, n.level ≤ root.depth)
      ∧ (∃ n ∈ root.nodes, n.level = root.depth)
      ∧ ∀ (level_L : Int) (clusterIds : List Int) (fuel : Nat),
          root.nodes.length ≤ fuel →
          ∃ ids, getClusterCentersOnLevelL ix1 level_L clusterIds fuel
              = Except.ok ((root.depth : Int), ids)
            ∧ (root.depth : Int) ≠ -2 := by
  obtain ⟨⟨w1, root, perm, w2, w3, w4, w5⟩, _⟩ := buildIndex_wellFormed ix fuel0 g ix1 g1 hb
  have hS : Shaped ix1.branching.toNat root := ⟨_, _, _, _, w5⟩
  have hB : 1 ≤ ix1.branching.toNat := by omega
  have hl0 : root.level = 0 := w5.level_of_mem root (List.mem_singleton.mpr rfl)
  have hle := level_le_depth ix1.branching.toNat (root.depth + 1) root (by omega) hS
  have heq := level_eq_depth ix1.branching.toNat hB (root.depth + 1) root (by omega) hS
  rw [hl0, Nat.zero_add] at hle heq
  refine ⟨root, w2, hl0, ?_, hle, heq, ?_⟩
  · intro n hn cs hc c hcm
    exact (shaped_of_mem_nodes _ (root.depth + 1) root (by omega) hS n hn).level_child hc c hcm
  · intro L ids fuel hfuel
    obtain ⟨m1, h1, h2, h3, h4⟩ := maxLevelLoop_spec ix1 fuel [root] (-1)
      (fun n hn => by rw [List.mem_singleton.mp hn]; exact hS) (by simpa using hfuel)
    obtain ⟨ids1, h5⟩ := labelLoop_total ix1 L (nbNodesBeforeL ix1.branching L) fuel
      [(root, 0)] ids (fun p hp => by rw [List.mem_singleton.mp hp]; exact hS)
      (by simpa using hfuel)
    have hm : m1 = (root.depth : Int) := by
      apply le_antisymm
      · rcases h4 with h4 | ⟨n, hn, x, hx, h4⟩
        · rw [h4]; omega
        · rw [List.mem_singleton.mp hn] at hx
          rw [h4]
          exact_mod_cast hle x hx
      · obtain ⟨x, hx, hxl⟩ := heq
        rw [← hxl]
        exact h3 root (List.mem_singleton.mpr rfl) x hx
    refine ⟨ids1, ?_, by omega⟩
    simp only [getClusterCentersOnLevelL, w2, h1, h5, hm]

theorem taggedLeaves_of_leaf (B : Int) {n : KMeansNode} (hc : n.childs = none) (id : Int) :
    taggedLeaves B n id = [(n, id)] := by
  cases n with
  | mk p r v s l c i =>
    simp only [KMeansNode.childs] at hc
    subst hc
    simp [taggedLeaves]

theorem taggedLeaves_of_childs (B : Int) {n : KMeansNode} {cs : List KMeansNode}
    (hc : n.childs = some cs) (id : Int) :
    taggedLeaves B n id = taggedList B cs id 0 := by
  cases n with
  | mk p r v s l c i =>
    simp only [KMeansNode.childs] at hc
    subst hc
    simp [taggedLeaves]

theorem mem_taggedList (B : Int) (x : KMeansNode × Int) :
    ∀ (cs : List KMeansNode) (id : Int) (i0 : Nat),
      x ∈ taggedList B cs id i0 ↔
        ∃ i, ∃ (hi : i < cs.length), x ∈ taggedLeaves B (cs[i]) (childNumber B id (i0 + i)) := by
  intro cs
  induction cs with
  | nil => intro id i0; simp [taggedList]
  | cons c cs ih =>
    intro id i0
    simp only [taggedList, List.mem_append, ih]
    constructor
    · rintro (h | ⟨i, hi, h⟩)
      · exact ⟨0, by simp, by simpa using h⟩
      · refine ⟨i + 1, by simpa using hi, ?_⟩
        have : i0 + (i + 1) = i0 + 1 + i := by omega
        rw [this]
        simpa using h
    · rintro ⟨i, hi, h⟩
      cases i with
      | zero => left; simpa using h
      | succ i =>
        right
        refine ⟨i, by simpa using hi, ?_⟩
        have : i0 + (i + 1) = i0 + 1 + i := by omega
        rw [this] at h
        simpa using h

theorem taggedList_fst (B : Int) :
    ∀ (fuel : Nat),
      (∀ (n : KMeansNode) (id : Int), n.depth < fuel →
        (taggedLeaves B n id).map Prod.fst = n.leaves)
      ∧ ∀ (cs : List KMeansNode) (id : Int) (i0 : Nat), KMeansNode.depthList cs < fuel →
        (taggedList B cs id i0).map Prod.fst = cs.flatMap KMeansNode.leaves := by
  intro fuel
  induction fuel with
  | zero => exact ⟨fun n id h => by omega, fun cs id i0 h => by omega⟩
  | succ fuel ih =>
    have h1 : ∀ (n : KMeansNode) (id : Int), n.depth < fuel + 1 →
        (taggedLeaves B n id).map Prod.fst = n.leaves := by
      intro n id hd
      cases hc : n.childs with
      | none => rw [taggedLeaves_of_leaf B hc, leaves_of_leaf hc]; rfl
      | some cs =>
        rw [taggedLeaves_of_childs B hc, leaves_of_childs hc]
        have := depth_of_childs hc
        exact ih.2 cs _ _ (by omega)
    refine ⟨h1, ?_⟩
    intro cs
    induction cs with
    | nil => intro id i0 _; rfl
    | cons c cs ihc =>
      intro id i0 hd
      simp only [KMeansNode.depthList] at hd
      simp only [taggedList, List.map_append, List.flatMap_cons]
      rw [h1 c _ (lt_of_le_of_lt (le_max_left _ _) hd),
        ihc id (i0 + 1) (lt_of_le_of_lt (le_max_right _ _) hd)]

theorem taggedLeaves_fst (B : Int) (n : KMeansNode) (id : Int) :
    (taggedLeaves B n id).map Prod.fst = n.leaves :=
  (taggedList_fst B (n.depth + 1)).1 n id (by omega)

theorem writeLabels_length (ix : KMeansIndex) (node : KMeansNode) (v : Int) (ids : List Int) :
    (writeLabels ix node v ids).length = ids.length := by
  unfold writeLabels
  apply foldl_inv (fun (l : List Int) => l.length = ids.length)
  · intro b a _ hb
    simp [hb]
  · rfl

theorem writeFold_getD (f : Nat → Nat) (v : Int) (j : Nat) :
    ∀ (l : List Nat) (ids : List Int),
      (l.foldl (fun acc i => acc.set (f i) v) ids).getD j 0
        = if j ∈ l.map f ∧ j < ids.length then v else ids.getD j 0 := by
  intro l
  induction l with
  | nil => intro ids; simp
  | cons a l ih =>
    intro ids
    rw [List.foldl_cons, ih]
    simp only [List.length_set, List.map_cons, List.mem_cons]
    by_cases h1 : j ∈ l.map f ∧ j < ids.length
    · rw [if_pos h1, if_pos ⟨Or.inr h1.1, h1.2⟩]
    · rw [if_neg h1]
      by_cases h2 : j = f a
      · subst h2
        by_cases h3 : f a < ids.length
        · rw [if_pos ⟨Or.inl rfl, h3⟩]
          simp [List.getD_eq_getElem?_getD, List.getElem?_set, h3]
        · rw [if_neg (fun h => h3 h.2)]
          simp only [List.getD_eq_getElem?_getD, List.getElem?_set, if_true, if_neg h3]
          rw [List.getElem?_eq_none (by omega)]
      · have : ¬ ((j = f a ∨ j ∈ l.map f) ∧ j < ids.length) := by
          rintro ⟨h | h, h4⟩
          · exact h2 h
          · exact h1 ⟨h, h4⟩
        rw [if_neg this]
        simp only [List.getD_eq_getElem?_getD, List.getElem?_set]
        rw [if_neg (fun h => h2 h.symm)]

theorem writeLabels_getD (ix : KMeansIndex) {node : KMeansNode} (hl : Laid ix node)
    (hc : node.childs = none) (v : Int) (ids : List Int) (j : Nat) :
    (writeLabels ix node v ids).getD j 0
      = if j ∈ members ix node ∧ j < ids.length then v else ids.getD j 0 := by
  unfold writeLabels
  rw [writeFold_getD (fun i => (ix.indices.getD []).getD (node.indices.getD 0 + i) 0) v j,
    hl.scan_ids hc]

theorem members_of_leaf (ix : KMeansIndex) {n : KMeansNode} (hc : n.childs = none) :
    members ix n = leafIds ix n := by
  unfold members
  rw [leaves_of_leaf hc]
  simp

theorem tagged_is_leaf (B : Int) {n : KMeansNode} {id : Int} {x : KMeansNode × Int}
    (hx : x ∈ taggedLeaves B n id) : x.1.childs = none := by
  have h1 : x.1 ∈ (taggedLeaves B n id).map Prod.fst := List.mem_map_of_mem _ hx
  rw [taggedLeaves_fst] at h1
  have := (List.mem_filter.mp h1).2
  simpa [KMeansNode.isLeaf] using this

theorem tagged_flatMap_members (ix : KMeansIndex) (n : KMeansNode) (id : Int) :
    (taggedLeaves ix.branching n id).flatMap (fun x => members ix x.1) = members ix n := by
  have h1 : (taggedLeaves ix.branching n id).flatMap (fun x => members ix x.1)
      = ((taggedLeaves ix.branching n id).map Prod.fst).flatMap (members ix) := by
    rw [List.flatMap_map]
  rw [h1, taggedLeaves_fst]
  unfold members
  apply List.flatMap_congr
  intro l hl
  have hc : l.childs = none := by
    have := (List.mem_filter.mp hl).2
    simpa [KMeansNode.isLeaf] using this
  rw [leaves_of_leaf hc]
  simp

theorem tagged_unique (ix : KMeansIndex) (root : KMeansNode)
    (hnd : (members ix root).Nodup) (x y : KMeansNode × Int)
    (hx : x ∈ taggedLeaves ix.branching root 0) (hy : y ∈ taggedLeaves ix.branching root 0)
    (j : Nat) (hjx : j ∈ members ix x.1) (hjy : j ∈ members ix y.1) : x = y := by
  by_contra hne
  rw [← tagged_flatMap_members ix root 0, List.nodup_flatMap] at hnd
  have hsym : Symmetric (fun (a b : KMeansNode × Int) =>
      List.Disjoint (members ix a.1) (members ix b.1)) := fun a b h => h.symm
  have := hnd.2.forall hsym hx hy hne
  exact this hjx hjy

theorem labelLoop_spec (ix : KMeansIndex) (level_L : Int) (root : KMeansNode) (N : Nat)
    (hB : 1 ≤ ix.branching) (hlaid : Laid ix root) (hnd : (members ix root).Nodup)
    (hN : ∀ j ∈ members ix root, j < N) (fuel : Nat) (ids ids1 : List Int)
    (hlen : ids.length = N)
    (h : labelLoop ix level_L (nbNodesBeforeL ix.branching level_L) fuel [(root, 0)] ids
      = Except.ok ids1) :
    ids1.length = N ∧ ∀ x ∈ taggedLeaves ix.branching root 0, ∀ j ∈ members ix x.1,
      ids1.getD j 0 = leafLabel ix level_L x := by
  have hBn : ((ix.branching.toNat : Nat) : Int) = ix.branching := Int.toNat_of_nonneg (by omega)
  have key := labelLoop_rule ix level_L (nbNodesBeforeL ix.branching level_L)
    (fun fifo ids => ids.length = N
      ∧ (∀ p ∈ fifo, Laid ix p.1
          ∧ ∀ y ∈ taggedLeaves ix.branching p.1 p.2, y ∈ taggedLeaves ix.branching root 0)
      ∧ ∀ x ∈ taggedLeaves ix.branching root 0, ∀ j ∈ members ix x.1,
          ids.getD j 0 = leafLabel ix level_L x
            ∨ ∃ p ∈ fifo, x ∈ taggedLeaves ix.branching p.1 p.2)
    (by
      rintro p rest ids cs ⟨i1, i2, i3⟩ hc
      obtain ⟨hpl, hpt⟩ := i2 p (List.mem_cons_self _ _)
      have hcl : cs.length = ix.branching.toNat := (hpl.shaped.childs hc).1
      have hsub : ∀ i, i < cs.length →
          ∀ y ∈ taggedLeaves ix.branching (p.1.child i) (childNumber ix.branching p.2 i),
            y ∈ taggedLeaves ix.branching p.1 p.2 := by
        intro i hi y hy
        rw [taggedLeaves_of_childs _ hc, mem_taggedList]
        refine ⟨i, hi, ?_⟩
        rw [← (child_mem hc i hi).2, Nat.zero_add]
        exact hy
      refine ⟨i1, ?_, ?_⟩
      · intro q hq
        rcases List.mem_append.mp hq with hq | hq
        · exact i2 q (List.mem_cons_of_mem _ hq)
        · obtain ⟨i, hi, rfl⟩ := List.mem_map.mp hq
          have hi2 : i < cs.length := by rw [hcl]; exact List.mem_range.mp hi
          exact ⟨hpl.of_child hc _ (child_mem hc i hi2).1,
            fun y hy => hpt y (hsub i hi2 y hy)⟩
      · intro x hx j hj
        rcases i3 x hx j hj with h1 | ⟨q, hq, hxq⟩
        · exact Or.inl h1
        · right
          rcases List.mem_cons.mp hq with rfl | hq
          · rw [taggedLeaves_of_childs _ hc, mem_taggedList] at hxq
            obtain ⟨i, hi, hxi⟩ := hxq
            refine ⟨(q.1.child i, childNumber ix.branching q.2 i), ?_, ?_⟩
            · apply List.mem_append_right
              exact List.mem_map.mpr ⟨i, List.mem_range.mpr (by omega), rfl⟩
            · show x ∈ taggedLeaves ix.branching (q.1.child i) _
              rw [(child_mem hc i hi).2]
              rw [Nat.zero_add] at hxi
              exact hxi
          · exact ⟨q, List.mem_append_left _ hq, hxq⟩)
    (by
      rintro p rest ids ⟨i1, i2, i3⟩ hc
      obtain ⟨hpl, hpt⟩ := i2 p (List.mem_cons_self _ _)
      have hp0 : p ∈ taggedLeaves ix.branching root 0 := by
        apply hpt
        rw [taggedLeaves_of_leaf _ hc]
        exact List.mem_singleton.mpr rfl
      refine ⟨by rw [writeLabels_length]; exact i1,
        fun q hq => i2 q (List.mem_cons_of_mem _ hq), ?_⟩
      intro x hx j hj
      have hjN : j < ids.length := by
        rw [i1]
        apply hN
        rw [← tagged_flatMap_members ix root 0]
        exact List.mem_flatMap.mpr ⟨x, hx, hj⟩
      rw [writeLabels_getD ix hpl hc]
      by_cases hjp : j ∈ members ix p.1
      · left
        rw [if_pos ⟨hjp, hjN⟩]
        have := tagged_unique ix root hnd x p hx hp0 j hj hjp
        rw [this]
        rfl
      · rw [if_neg (fun h => hjp h.1)]
        rcases i3 x hx j hj with h1 | ⟨q, hq, hxq⟩
        · exact Or.inl h1
        · right
          rcases List.mem_cons.mp hq with rfl | hq
          · exfalso
            rw [taggedLeaves_of_leaf _ hc, List.mem_singleton] at hxq
            rw [hxq] at hj
            exact hjp hj
          · exact ⟨q, hq, hxq⟩)
    fuel [(root, 0)] ids ids1
    ⟨hlen, fun p hp => by
        rw [List.mem_singleton.mp hp]
        exact ⟨hlaid, fun y hy => hy⟩,
      fun x hx j hj => Or.inr ⟨(root, 0), List.mem_singleton.mpr rfl, hx⟩⟩ h
  obtain ⟨k1, _, k3⟩ := key
  refine ⟨k1, fun x hx j hj => ?_⟩
  rcases k3 x hx j hj with h1 | ⟨q, hq, _⟩
  · exact h1
  · simp at hq

theorem labelling_of_built (ix : KMeansIndex) (fuel0 : Nat) (g : Rng) (ix1 : KMeansIndex)
    (g1 : Rng) (hb : buildIndex ix fuel0 g = Except.ok (ix1, g1)) (level_L : Int)
    (clusterIds : List Int) (fuel : Nat) (hlen : clusterIds.length = ix.size_) :
    ∃ root, ix1.root = some root ∧ Shaped ix1.branching.toNat root ∧ 1 ≤ ix1.branching
      ∧ (members ix1 root).Perm (List.range ix.size_)
      ∧ (root.nodes.length ≤ fuel →
        ∃ ids, getClusterCentersOnLevelL ix1 level_L clusterIds fuel
            = Except.ok ((root.depth : Int), ids)
          ∧ ids.length = ix.size_
          ∧ ∀ x ∈ taggedLeaves ix1.branching root 0, ∀ j ∈ members ix1 x.1,
              ids.getD j 0 = leafLabel ix1 level_L x) := by
  obtain ⟨⟨w1, root, perm, w2, w3, w4, w5⟩, e1, _⟩ := buildIndex_wellFormed ix fuel0 g ix1 g1 hb
  have hS : Shaped ix1.branching.toNat root := ⟨_, _, _, _, w5⟩
  have hlaid : Laid ix1 root := ⟨_, _, _, _, perm, w5, w3, by simp⟩
  have hmem : members ix1 root = perm := by
    have h6 := (Forest.leaves_spec ix1 w5).2 perm w3 (by simp)
    simpa using h6
  rw [e1] at w4
  refine ⟨root, w2, hS, by omega, hmem ▸ w4, fun hfuel => ?_⟩
  obtain ⟨root1, r1, _, _, _, _, r6⟩ := level_return_of_built ix fuel0 g ix1 g1 hb
  rw [w2, Option.some.injEq] at r1
  subst r1
  obtain ⟨ids, hres, _⟩ := r6 level_L clusterIds fuel hfuel
  refine ⟨ids, hres, ?_⟩
  have hlab : labelLoop ix1 level_L (nbNodesBeforeL ix1.branching level_L) fuel [(root, 0)]
      clusterIds = Except.ok ids := by
    unfold getClusterCentersOnLevelL at hres
    rw [w2] at hres
    simp only at hres
    split at hres
    · exact absurd hres (by simp)
    · split at hres
      · exact absurd hres (by simp)
      · rename_i ids2 h2
        simp only [Except.ok.injEq, Prod.mk.injEq] at hres
        rw [← hres.2]
        exact h2
  exact labelLoop_spec ix1 level_L root ix.size_ (by omega) hlaid
    (by rw [hmem]; exact w4.nodup_iff.mpr (List.nodup_range _))
    (by
      intro j hj
      rw [hmem] at hj
      exact List.mem_range.mp (w4.mem_iff.mp hj))
    fuel clusterIds ids hlen hlab

theorem foldl_add_sum {α : Type} (f : α → ℚ) (l : List α) :
    ∀ (init : ℚ), l.foldl (fun v a => v + f a) init = init + (l.map f).sum := by
  induction l with
  | nil => intro init; simp
  | cons a l ih =>
    intro init
    simp only [List.foldl_cons, ih, List.map_cons, List.sum_cons]
    ring

/-- C14 (defect of the code): on the index built over scenario S1, `level_L = 0` gives every
point the label `-1`, where the claim requires a label in `[0, B^0) = {0}`:
`nb_nodes_before_L` starts at 1 and the loop that completes it starts at `i = 1`, so for
`level_L = 0` the number 0 of the root has 1 subtracted. -/
theorem level_zero_labels_are_negative :
    levelLabels builtS1.1 0 [0, 0, 0, 0] 7 = some (2, [-1, -1, -1, -1]) := by
  decide!

theorem cluster_count_bounds_witness :
    builtS1.1.root = some rootS1 ∧ 2 ≤ builtS1.1.branching ∧ 1 ≤ centersS1.rows
      ∧ centersS1.rows ≤ 3
      ∧ ∃ clusters v rows,
        getMinVarianceClusters builtS1.1 rootS1 centersS1.rows 3 = Except.ok (clusters, v)
          ∧ 1 ≤ clusters.length ∧ clusters.length ≤ centersS1.rows
          ∧ (clusters.length - 1) % (builtS1.1.branching.toNat - 1) = 0
          ∧ getClusterCenters builtS1.1 centersS1 3 = Except.ok (clusters.length, rows)
          ∧ rows.length = centersS1.rows
          ∧ (∀ i, i < clusters.length →
              rows.getD i [] = (List.range builtS1.1.veclen_).map (fun j =>
                vget (clusters.getD i (KMeansNode.mk [] 0 0 0 0 none none)).pivot j))
          ∧ (∀ i, clusters.length ≤ i → i < centersS1.rows →
              rows.getD i [] = centersS1.row i) :=
  ⟨rootS1_eq, by decide!, by decide, by decide,
    cluster_count_bounds builtS1.1 rootS1 centersS1 3 rootS1_eq (by decide!) (by decide)
      (by decide)⟩

/-- C25: the constructor sets `cb_index` to 0.4 whatever the parameters carry,
`set_cb_index(x)` sets it to `x`, and the key that `exploreNodeBranches` pushes for every
child other than the best one is the distance of the query to the pivot of the child minus
the current `cb_index` times the variance of the child: the heap after the call is the heap
before it with these branches inserted in the order of their indices, so that it holds the
branches it held before followed by as many of these as it has room for. -/
theorem cb_index_default_and_setter (inputData : Matrix) (params : KMeansIndexParams)
    (d : Distance) (ix0 : KMeansIndex) (x : ℚ) (node : KMeansNode) (q : Vec) (heap : Heap) :
    (∀ ix, KMeansIndex.new inputData params d = Except.ok ix → ix.cb_index = 2 / 5)
      ∧ (set_cb_index ix0 x).cb_index = x
      ∧ (exploreNodeBranches (set_cb_index ix0 x) node q heap).2
        = (((List.range ix0.branching.toNat).filter
            (fun i => decide (i ≠ (exploreNodeBranches (set_cb_index ix0 x) node q heap).1))).map
            (fun i => ({ node := node.child i
                         mindist := ix0.distance q (node.child i).pivot ix0.veclen_
                           - x * (node.child i).variance } : BranchSt))).foldl
          Heap.insert heap
      ∧ (exploreNodeBranches (set_cb_index ix0 x) node q heap).2.items
        = heap.items ++ (((List.range ix0.branching.toNat).filter
            (fun i => decide (i ≠ (exploreNodeBranches (set_cb_index ix0 x) node q heap).1))).map
            (fun i => ({ node := node.child i
                         mindist := ix0.distance q (node.child i).pivot ix0.veclen_
                           - x * (node.child i).variance } : BranchSt))).take
          (heap.length - heap.items.length) := by
  refine ⟨fun ix h => ?_, rfl, ?_, ?_⟩
  · unfold KMeansIndex.new at h
    split at h
    · simp only [Except.ok.injEq] at h
      rw [← h]
    · exact absurd h (by simp)
  · exact explore_heap (set_cb_index ix0 x) node q heap
  · exact (explore_items (set_cb_index ix0 x) node q heap).2

theorem prune_algebra {K : Type} [LinearOrderedField K] (b r w : K) (hb : 0 ≤ b) (hr : 0 ≤ r)
    (hw : 0 ≤ w) :
    (b ^ 2 - r ^ 2 - w ^ 2 > 0
        ∧ (b ^ 2 - r ^ 2 - w ^ 2) * (b ^ 2 - r ^ 2 - w ^ 2) - 4 * r ^ 2 * w ^ 2 > 0)
      ↔ r + w < b := by
  constructor
  · rintro ⟨h1, h2⟩
    by_contra hn
    push_neg at hn
    have h3 : b ^ 2 - r ^ 2 - w ^ 2 ≤ 2 * r * w := by nlinarith
    have h4 : 0 ≤ 2 * r * w := by positivity
    nlinarith
  · intro h
    have h3 : 2 * r * w < b ^ 2 - r ^ 2 - w ^ 2 := by nlinarith
    have h4 : 0 ≤ 2 * r * w := by positivity
    constructor
    · linarith
    · nlinarith

theorem pruneTest_iff_sqrt (bsq rsq wsq : ℚ) (hb : 0 ≤ bsq) (hr : 0 ≤ rsq) (hw : 0 ≤ wsq) :
    pruneTest bsq rsq (some wsq) = true
      ↔ Real.sqrt (rsq : ℝ) + Real.sqrt (wsq : ℝ) < Real.sqrt (bsq : ℝ) := by
  have hb1 : (0 : ℝ) ≤ (bsq : ℝ) := by exact_mod_cast hb
  have hr1 : (0 : ℝ) ≤ (rsq : ℝ) := by exact_mod_cast hr
  have hw1 : (0 : ℝ) ≤ (wsq : ℝ) := by exact_mod_cast hw
  rw [← prune_algebra (Real.sqrt bsq) (Real.sqrt rsq) (Real.sqrt wsq) (Real.sqrt_nonneg _)
    (Real.sqrt_nonneg _) (Real.sqrt_nonneg _), Real.sq_sqrt hb1, Real.sq_sqrt hr1,
    Real.sq_sqrt hw1]
  simp only [pruneTest, gt_iff_lt, decide_eq_true_eq]
  constructor
  · rintro ⟨h1, h2⟩
    exact ⟨by exact_mod_cast h1, by exact_mod_cast h2⟩
  · rintro ⟨h1, h2⟩
    exact ⟨by exact_mod_cast h1, by exact_mod_cast h2⟩

/-- C26: for non-negative `b`, `r`, `w` the prune test of `findNN` and `findExactNN` on the
squares `b^2`, `r^2`, `w^2` holds exactly when `b > r + w`, so that a tie `b = r + w` keeps
the node; on squared values `bsq`, `rsq`, `wsq` it holds exactly when the square root of
`bsq` exceeds the sum of the square roots of `rsq` and `wsq`. -/
theorem prune_test_iff_farther_than_radius_plus_worst (b r w : ℚ) (hb : 0 ≤ b) (hr : 0 ≤ r)
    (hw : 0 ≤ w) :
    (pruneTest (b ^ 2) (r ^ 2) (some (w ^ 2)) = true ↔ b > r + w)
      ∧ (b = r + w → pruneTest (b ^ 2) (r ^ 2) (some (w ^ 2)) = false)
      ∧ (pruneTest b r (some w) = true
        ↔ Real.sqrt (b : ℝ) > Real.sqrt (r : ℝ) + Real.sqrt (w : ℝ)) := by
  have h1 : pruneTest (b ^ 2) (r ^ 2) (some (w ^ 2)) = true ↔ b > r + w := by
    simp only [pruneTest, decide_eq_true_eq]
    exact prune_algebra b r w hb hr hw
  refine ⟨h1, fun h => ?_, pruneTest_iff_sqrt b r w hb hr hw⟩
  have := h1.not
  rw [Bool.not_eq_true] at this
  exact this.mpr (by linarith)

theorem prune_test_iff_farther_than_radius_plus_worst_witness :
    (0 : ℚ) ≤ 3 ∧ (0 : ℚ) ≤ 1 ∧ (0 : ℚ) ≤ 2
      ∧ (pruneTest (3 ^ 2) (1 ^ 2) (some (2 ^ 2)) = true ↔ (3 : ℚ) > 1 + 2)
      ∧ ((3 : ℚ) = 1 + 2 → pruneTest (3 ^ 2) (1 ^ 2) (some (2 ^ 2)) = false)
      ∧ (pruneTest 3 1 (some 2) = true
        ↔ Real.sqrt ((3 : ℚ) : ℝ) > Real.sqrt ((1 : ℚ) : ℝ) + Real.sqrt ((2 : ℚ) : ℝ)) :=
  ⟨by norm_num, by norm_num, by norm_num,
    prune_test_iff_farther_than_radius_plus_worst 3 1 2 (by norm_num) (by norm_num)
      (by norm_num)⟩

theorem uniqueRandomShuffle_perm :
    ∀ (i : Nat) (vals : List Nat) (g : Rng), i ≤ vals.length →
      (uniqueRandomShuffle i vals g).1.Perm vals := by
  intro i
  induction i with
  | zero => intro vals g _; exact List.Perm.refl _
  | succ i ih =>
    intro vals g hi
    simp only [uniqueRandomShuffle]
    have hr : (rand_int (i + 1) g).1 < i + 1 := by
      simp only [rand_int]
      exact Nat.mod_lt _ (by omega)
    have hp := swapAt_perm vals i (rand_int (i + 1) g).1 (by omega) (by omega)
    exact (ih _ _ (by rw [swapAt_length]; omega)).trans hp

theorem UniqueRandom_perm (n : Nat) (g : Rng) : (UniqueRandom n g).1.Perm (List.range n) := by
  unfold UniqueRandom
  exact uniqueRandomShuffle_perm n _ g (by simp)

theorem chooseCentersRandomLoop_spec (ix : KMeansIndex) (k : Nat) (indices : List Nat) :
    ∀ (rs centers : List Nat),
      centers.Pairwise (fun a b => ¬ ix.distance (ix.dataset.row b) (ix.dataset.row a)
        ix.dataset.cols < 1 / 10 ^ 16) →
      (chooseCentersRandomLoop ix k indices rs centers).length ≤ max k centers.length
        ∧ (chooseCentersRandomLoop ix k indices rs centers).length ≤ centers.length + rs.length
        ∧ (∀ x ∈ chooseCentersRandomLoop ix k indices rs centers,
            x ∈ centers ∨ ∃ r ∈ rs, x = indices.getD r 0)
        ∧ (∀ x ∈ centers, x ∈ chooseCentersRandomLoop ix k indices rs centers)
        ∧ (chooseCentersRandomLoop ix k indices rs centers).Pairwise
            (fun a b => ¬ ix.distance (ix.dataset.row b) (ix.dataset.row a)
              ix.dataset.cols < 1 / 10 ^ 16)
        ∧ ((chooseCentersRandomLoop ix k indices rs centers).length < k →
            ∀ r ∈ rs, indices.getD r 0 ∈ chooseCentersRandomLoop ix k indices rs centers
              ∨ ∃ cj ∈ chooseCentersRandomLoop ix k indices rs centers,
                  ix.distance (ix.dataset.row (indices.getD r 0)) (ix.dataset.row cj)
                    ix.dataset.cols < 1 / 10 ^ 16) := by
  intro rs
  induction rs with
  | nil =>
    intro centers hp
    simp only [chooseCentersRandomLoop]
    exact ⟨le_max_right _ _, by omega, fun x hx => Or.inl hx, fun x hx => hx, hp,
      fun _ r hr => by simp at hr⟩
  | cons rnd rest ih =>
    intro centers hp
    simp only [chooseCentersRandomLoop]
    split
    · rename_i hlt
      split
      · rename_i hdup
        obtain ⟨h1, h2, h3, h4, h5, h6⟩ := ih centers hp
        refine ⟨h1, by simp only [List.length_cons]; omega, ?_, h4, h5, ?_⟩
        · intro x hx
          rcases h3 x hx with h | ⟨r, hr, h⟩
          · exact Or.inl h
          · exact Or.inr ⟨r, List.mem_cons_of_mem _ hr, h⟩
        · intro hk r hr
          rcases List.mem_cons.mp hr with rfl | hr
          · right
            rw [List.any_eq_true] at hdup
            obtain ⟨cj, hcj, hd⟩ := hdup
            exact ⟨cj, h4 cj hcj, by simpa using hd⟩
          · exact h6 hk r hr
      · rename_i hdup
        have hp2 : (centers ++ [indices.getD rnd 0]).Pairwise
            (fun a b => ¬ ix.distance (ix.dataset.row b) (ix.dataset.row a)
              ix.dataset.cols < 1 / 10 ^ 16) := by
          rw [List.pairwise_append]
          refine ⟨hp, List.pairwise_singleton _ _, ?_⟩
          intro a ha b hb
          rw [List.mem_singleton] at hb
          subst hb
          intro hd
          apply hdup
          rw [List.any_eq_true]
          exact ⟨a, ha, by simpa using hd⟩
        obtain ⟨h1, h2, h3, h4, h5, h6⟩ := ih (centers ++ [indices.getD rnd 0]) hp2
        refine ⟨?_, ?_, ?_, ?_, h5, ?_⟩
        · refine le_trans h1 ?_
          simp only [List.length_append, List.length_singleton]
          apply max_le (le_max_left _ _)
          exact le_trans (by omega) (le_max_left k _)
        · rw [List.length_append, List.length_singleton] at h2
          rw [List.length_cons]
          omega
        · intro x hx
          rcases h3 x hx with h | ⟨r, hr, h⟩
          · rcases List.mem_append.mp h with h | h
            · exact Or.inl h
            · exact Or.inr ⟨rnd, List.mem_cons_self _ _, List.mem_singleton.mp h⟩
          · exact Or.inr ⟨r, List.mem_cons_of_mem _ hr, h⟩
        · intro x hx
          exact h4 x (List.mem_append_left _ hx)
        · intro hk r hr
          rcases List.mem_cons.mp hr with rfl | hr
          · left
            exact h4 _ (List.mem_append_right _ (List.mem_singleton.mpr rfl))
          · exact h6 hk r hr
    · rename_i hge
      refine ⟨le_max_right _ _, by omega, fun x hx => Or.inl hx, fun x hx => hx, hp, ?_⟩
      intro hk
      omega

/-- C27: for a sampler sequence `rs` that yields every index of `[0, m)` exactly once (the
negative sentinel is the end of the sequence), `chooseCentersRandom` returns at most
`min(k, m)` centres, all of them elements of `ids` and pairwise not nearer than `1e-16`;
when it returns fewer than `k`, every id of the list is a centre or lies nearer than `1e-16`
to one.  The sampler `UniqueRandom` yields such a sequence for every random stream. -/
theorem random_seeder_centers (ix : KMeansIndex) (k : Nat) (indices rs : List Nat)
    (hrs : rs.Perm (List.range indices.length)) :
    (chooseCentersRandomLoop ix k indices rs []).length ≤ min k indices.length
      ∧ (∀ x ∈ chooseCentersRandomLoop ix k indices rs [], x ∈ indices)
      ∧ (chooseCentersRandomLoop ix k indices rs []).Pairwise
          (fun a b => ¬ ix.distance (ix.dataset.row b) (ix.dataset.row a)
            ix.dataset.cols < 1 / 10 ^ 16)
      ∧ ((chooseCentersRandomLoop ix k indices rs []).length < k →
          ∀ id ∈ indices, id ∈ chooseCentersRandomLoop ix k indices rs []
            ∨ ∃ cj ∈ chooseCentersRandomLoop ix k indices rs [],
                ix.distance (ix.dataset.row id) (ix.dataset.row cj)
                  ix.dataset.cols < 1 / 10 ^ 16)
      ∧ ∀ g, (chooseCentersRandom ix k indices g).1
            = chooseCentersRandomLoop ix k indices (UniqueRandom indices.length g).1 []
          ∧ (UniqueRandom indices.length g).1.Perm (List.range indices.length) := by
  obtain ⟨h1, h2, h3, _, h5, h6⟩ := chooseCentersRandomLoop_spec ix k indices rs []
    List.Pairwise.nil
  have hlen : rs.length = indices.length := by
    rw [hrs.length_eq, List.length_range]
  refine ⟨?_, ?_, h5, ?_, fun g => ⟨rfl, UniqueRandom_perm indices.length g⟩⟩
  · simp only [List.length_nil, Nat.zero_add, hlen] at h1 h2
    rw [Nat.max_eq_left (Nat.zero_le _)] at h1
    exact le_min h1 h2
  · intro x hx
    rcases h3 x hx with h | ⟨r, hr, h⟩
    · simp at h
    · have hr2 : r < indices.length := List.mem_range.mp (hrs.mem_iff.mp hr)
      rw [h, List.getD_eq_getElem _ _ hr2]
      exact List.getElem_mem hr2
  · intro hk id hid
    obtain ⟨r, hr, rfl⟩ := List.getElem_of_mem hid
    have hrm : r ∈ rs := hrs.mem_iff.mpr (List.mem_range.mpr hr)
    have := h6 hk r hrm
    rw [List.getD_eq_getElem _ _ hr] at this
    exact this

theorem random_seeder_centers_witness :
    (chooseCentersRandomLoop indexS1 3 [0, 1, 2, 3] [3, 1, 0, 2] []).length
        ≤ min 3 ([0, 1, 2, 3] : List Nat).length
      ∧ (∀ x ∈ chooseCentersRandomLoop indexS1 3 [0, 1, 2, 3] [3, 1, 0, 2] [],
          x ∈ ([0, 1, 2, 3] : List Nat))
      ∧ (chooseCentersRandomLoop indexS1 3 [0, 1, 2, 3] [3, 1, 0, 2] []).Pairwise
          (fun a b => ¬ indexS1.distance (indexS1.dataset.row b) (indexS1.dataset.row a)
            indexS1.dataset.cols < 1 / 10 ^ 16)
      ∧ ((chooseCentersRandomLoop indexS1 3 [0, 1, 2, 3] [3, 1, 0, 2] []).length < 3 →
          ∀ id ∈ ([0, 1, 2, 3] : List Nat),
            id ∈ chooseCentersRandomLoop indexS1 3 [0, 1, 2, 3] [3, 1, 0, 2] []
            ∨ ∃ cj ∈ chooseCentersRandomLoop indexS1 3 [0, 1, 2, 3] [3, 1, 0, 2] [],
                indexS1.distance (indexS1.dataset.row id) (indexS1.dataset.row cj)
                  indexS1.dataset.cols < 1 / 10 ^ 16)
      ∧ ∀ g, (chooseCentersRandom indexS1 3 [0, 1, 2, 3] g).1
            = chooseCentersRandomLoop indexS1 3 [0, 1, 2, 3]
                (UniqueRandom ([0, 1, 2, 3] : List Nat).length g).1 []
          ∧ (UniqueRandom ([0, 1, 2, 3] : List Nat).length g).1.Perm
              (List.range ([0, 1, 2, 3] : List Nat).length) :=
  random_seeder_centers indexS1 3 [0, 1, 2, 3] [3, 1, 0, 2] (by decide)

theorem foldl_min_spec {α : Type} (f : α → ℚ) :
    ∀ (l : List α) (init : ℚ),
      (l.foldl (fun dist c => if f c < dist then f c else dist) init ≤ init)
        ∧ (∀ c ∈ l, l.foldl (fun dist c => if f c < dist then f c else dist) init ≤ f c)
        ∧ (l.foldl (fun dist c => if f c < dist then f c else dist) init = init
          ∨ ∃ c ∈ l, l.foldl (fun dist c => if f c < dist then f c else dist) init = f c) := by
  intro l
  induction l with
  | nil => intro init; simp
  | cons a l ih =>
    intro init
    simp only [List.foldl_cons]
    obtain ⟨h1, h2, h3⟩ := ih (if f a < init then f a else init)
    have hle : (if f a < init then f a else init) ≤ init := by
      split
      · rename_i h; exact le_of_lt h
      · exact le_refl _
    have hle2 : (if f a < init then f a else init) ≤ f a := by
      split
      · exact le_refl _
      · rename_i h; exact not_lt.mp h
    refine ⟨le_trans h1 hle, ?_, ?_⟩
    · intro c hc
      rcases List.mem_cons.mp hc with rfl | hc
      · exact le_trans h1 hle2
      · exact h2 c hc
    · rcases h3 with h3 | ⟨c, hc, h3⟩
      · by_cases h : f a < init
        · right
          exact ⟨a, List.mem_cons_self _ _, by rw [h3, if_pos h]⟩
        · left
          rw [h3, if_neg h]
      · right
        exact ⟨c, List.mem_cons_of_mem _ hc, h3⟩

/-- The value `dist` of `chooseCentersGonzales` is the least distance from a chosen centre to
the candidate. -/
theorem gonzalesDist_spec (ix : KMeansIndex) (centers : List Nat) (id : Nat)
    (hne : centers ≠ []) :
    (∀ c ∈ centers, gonzalesDist ix centers id
        ≤ ix.distance (ix.dataset.row c) (ix.dataset.row id) ix.dataset.cols)
      ∧ ∃ c ∈ centers, gonzalesDist ix centers id
        = ix.distance (ix.dataset.row c) (ix.dataset.row id) ix.dataset.cols := by
  cases centers with
  | nil => exact absurd rfl hne
  | cons c0 cs =>
    obtain ⟨h1, h2, h3⟩ := foldl_min_spec
      (fun ci => ix.distance (ix.dataset.row ci) (ix.dataset.row id) ix.dataset.cols) cs
      (ix.distance (ix.dataset.row c0) (ix.dataset.row id) ix.dataset.cols)
    simp only [gonzalesDist, List.tail_cons, List.getD_cons_zero]
    constructor
    · intro c hc
      rcases List.mem_cons.mp hc with rfl | hc
      · exact h1
      · exact h2 c hc
    · rcases h3 with h3 | ⟨c, hc, h3⟩
      · exact ⟨c0, List.mem_cons_self _ _, h3⟩
      · exact ⟨c, List.mem_cons_of_mem _ hc, h3⟩

theorem foldl_argmax (f : Nat → ℚ) :
    ∀ (t : Nat),
      (((List.range t).foldl (fun (best : Option Nat × ℚ) j =>
          if f j > best.2 then (some j, f j) else best) (none, 0)).1 = none →
        ((List.range t).foldl (fun (best : Option Nat × ℚ) j =>
          if f j > best.2 then (some j, f j) else best) (none, 0)).2 = 0
          ∧ ∀ j, j < t → f j ≤ 0)
      ∧ ∀ b, ((List.range t).foldl (fun (best : Option Nat × ℚ) j =>
          if f j > best.2 then (some j, f j) else best) (none, 0)).1 = some b →
        b < t
          ∧ ((List.range t).foldl (fun (best : Option Nat × ℚ) j =>
            if f j > best.2 then (some j, f j) else best) (none, 0)).2 = f b
          ∧ 0 < f b ∧ (∀ j, j < t → f j ≤ f b) ∧ ∀ j, j < b → f j < f b := by
  intro t
  induction t with
  | zero => simp
  | succ t ih =>
    rw [List.range_succ, List.foldl_append]
    simp only [List.foldl_cons, List.foldl_nil]
    obtain ⟨ih1, ih2⟩ := ih
    generalize (List.range t).foldl (fun (best : Option Nat × ℚ) j =>
      if f j > best.2 then (some j, f j) else best) (none, 0) = acc at ih1 ih2
    obtain ⟨ai, av⟩ := acc
    simp only at ih1 ih2
    by_cases h : f t > av
    · rw [if_pos h]
      refine ⟨fun hn => by simp at hn, fun b hb => ?_⟩
      simp only [Option.some.injEq] at hb
      subst hb
      cases ai with
      | none =>
        obtain ⟨e1, e2⟩ := ih1 rfl
        subst e1
        refine ⟨by omega, rfl, h, ?_, ?_⟩
        · intro j hj
          rcases Nat.lt_succ_iff_lt_or_eq.mp hj with hj | rfl
          · exact le_trans (e2 j hj) (le_of_lt h)
          · exact le_refl _
        · intro j hj
          exact lt_of_le_of_lt (e2 j hj) h
      | some b0 =>
        obtain ⟨e1, e2, e3, e4, e5⟩ := ih2 b0 rfl
        subst e2
        refine ⟨by omega, rfl, lt_trans e3 h, ?_, ?_⟩
        · intro j hj
          rcases Nat.lt_succ_iff_lt_or_eq.mp hj with hj | rfl
          · exact le_trans (e4 j hj) (le_of_lt h)
          · exact le_refl _
        · intro j hj
          exact lt_of_le_of_lt (e4 j hj) h
    · rw [if_neg h]
      simp only
      constructor
      · intro hn
        obtain ⟨e1, e2⟩ := ih1 hn
        refine ⟨e1, fun j hj => ?_⟩
        rcases Nat.lt_succ_iff_lt_or_eq.mp hj with hj | rfl
        · exact e2 j hj
        · rw [e1] at h
          exact not_lt.mp h
      · intro b hb
        obtain ⟨e1, e2, e3, e4, e5⟩ := ih2 b hb
        refine ⟨by omega, e2, e3, fun j hj => ?_, e5⟩
        rcases Nat.lt_succ_iff_lt_or_eq.mp hj with hj | rfl
        · exact e4 j hj
        · rw [e2] at h
          exact not_lt.mp h

theorem gonzalesBest_spec (ix : KMeansIndex) (indices centers : List Nat) :
    ((gonzalesBest ix indices centers).1 = none →
        ∀ j, j < indices.length → gonzalesDist ix centers (indices.getD j 0) ≤ 0)
      ∧ ∀ b, (gonzalesBest ix indices centers).1 = some b →
        b < indices.length
          ∧ 0 < gonzalesDist ix centers (indices.getD b 0)
          ∧ (∀ j, j < indices.length →
              gonzalesDist ix centers (indices.getD j 0)
                ≤ gonzalesDist ix centers (indices.getD b 0))
          ∧ ∀ j, j < b →
              gonzalesDist ix centers (indices.getD j 0)
                < gonzalesDist ix centers (indices.getD b 0) := by
  obtain ⟨h1, h2⟩ := foldl_argmax (fun j => gonzalesDist ix centers (indices.getD j 0))
    indices.length
  unfold gonzalesBest
  refine ⟨fun hn => (h1 hn).2, fun b hb => ?_⟩
  obtain ⟨e1, _, e3, e4, e5⟩ := h2 b hb
  exact ⟨e1, e3, e4, e5⟩

theorem chooseCentersGonzalesLoop_spec (ix : KMeansIndex) (indices : List Nat) :
    ∀ (slots : Nat) (centers : List Nat),
      (chooseCentersGonzalesLoop ix indices slots centers).take centers.length = centers
        ∧ centers.length ≤ (chooseCentersGonzalesLoop ix indices slots centers).length
        ∧ (chooseCentersGonzalesLoop ix indices slots centers).length ≤ centers.length + slots
        ∧ (∀ t, centers.length ≤ t →
            t < (chooseCentersGonzalesLoop ix indices slots centers).length →
            ∃ b, (gonzalesBest ix indices
                ((chooseCentersGonzalesLoop ix indices slots centers).take t)).1 = some b
              ∧ (chooseCentersGonzalesLoop ix indices slots centers).getD t 0
                = indices.getD b 0)
        ∧ ((chooseCentersGonzalesLoop ix indices slots centers).length < centers.length + slots →
            (gonzalesBest ix indices
              (chooseCentersGonzalesLoop ix indices slots centers)).1 = none) := by
  intro slots
  induction slots with
  | zero =>
    intro centers
    simp only [chooseCentersGonzalesLoop]
    exact ⟨List.take_length _, le_refl _, le_refl _, fun t h1 h2 => by omega, fun h => by omega⟩
  | succ slots ih =>
    intro centers
    simp only [chooseCentersGonzalesLoop]
    cases hb : (gonzalesBest ix indices centers).1 with
    | none =>
      simp only
      exact ⟨List.take_length _, le_refl _, by omega, fun t h1 h2 => by omega, fun _ => hb⟩
    | some b =>
      simp only
      obtain ⟨h1, h2, h3, h4, h5⟩ := ih (centers ++ [indices.getD b 0])
      rw [List.length_append, List.length_singleton] at h1 h2 h3 h4 h5
      have hpre : (chooseCentersGonzalesLoop ix indices slots
          (centers ++ [indices.getD b 0])).take centers.length = centers := by
        have := congrArg (List.take centers.length) h1
        rw [List.take_take, Nat.min_eq_left (by omega), List.take_left] at this
        exact this
      refine ⟨hpre, by omega, by omega, ?_, fun h => h5 (by omega)⟩
      intro t ht1 ht2
      rcases Nat.eq_or_lt_of_le ht1 with rfl | hlt
      · refine ⟨b, by rw [hpre]; exact hb, ?_⟩
        have := congrArg (fun l => l.getD centers.length 0) h1
        simp only at this
        rw [List.getD_eq_getElem?_getD, List.getElem?_take_of_lt (by omega)] at this
        rw [List.getD_eq_getElem?_getD, this]
        simp
      · exact h4 t (by omega) ht2

/-- C28: `chooseCentersGonzales` returns at least one and at most `max(k, 1)` centres; every
slot `t >= 1` that is filled holds `ids[b]` for the smallest position `b` that maximises the
minimum distance to the centres chosen before, and that maximum is positive; when fewer than
`k` slots are filled, no candidate has a positive minimum distance to the returned centres;
and the returned centres are pairwise at positive distance. -/
theorem gonzales_seeder_centers (ix : KMeansIndex) (k : Nat) (indices : List Nat) (g : Rng) :
    1 ≤ (chooseCentersGonzales ix k indices g).1.length
      ∧ (chooseCentersGonzales ix k indices g).1.length ≤ max k 1
      ∧ (∀ t, 1 ≤ t → t < (chooseCentersGonzales ix k indices g).1.length →
          ∃ b, b < indices.length
            ∧ (chooseCentersGonzales ix k indices g).1.getD t 0 = indices.getD b 0
            ∧ 0 < gonzalesDist ix ((chooseCentersGonzales ix k indices g).1.take t)
                (indices.getD b 0)
            ∧ (∀ j, j < indices.length →
                gonzalesDist ix ((chooseCentersGonzales ix k indices g).1.take t)
                    (indices.getD j 0)
                  ≤ gonzalesDist ix ((chooseCentersGonzales ix k indices g).1.take t)
                    (indices.getD b 0))
            ∧ ∀ j, j < b →
                gonzalesDist ix ((chooseCentersGonzales ix k indices g).1.take t)
                    (indices.getD j 0)
                  < gonzalesDist ix ((chooseCentersGonzales ix k indices g).1.take t)
                    (indices.getD b 0))
      ∧ ((chooseCentersGonzales ix k indices g).1.length < k →
          ∀ j, j < indices.length →
            gonzalesDist ix (chooseCentersGonzales ix k indices g).1 (indices.getD j 0) ≤ 0)
      ∧ (∀ (cs : List Nat) (id : Nat), cs ≠ [] →
          (∀ c ∈ cs, gonzalesDist ix cs id
              ≤ ix.distance (ix.dataset.row c) (ix.dataset.row id) ix.dataset.cols)
            ∧ ∃ c ∈ cs, gonzalesDist ix cs id
              = ix.distance (ix.dataset.row c) (ix.dataset.row id) ix.dataset.cols)
      ∧ ∀ s t, s < t → t < (chooseCentersGonzales ix k indices g).1.length →
          0 < ix.distance (ix.dataset.row ((chooseCentersGonzales ix k indices g).1.getD s 0))
            (ix.dataset.row ((chooseCentersGonzales ix k indices g).1.getD t 0))
            ix.dataset.cols := by
  obtain ⟨h1, h2, h3, h4, h5⟩ := chooseCentersGonzalesLoop_spec ix indices (k - 1)
    [indices.getD (rand_int indices.length g).1 0]
  simp only [List.length_singleton] at h1 h2 h3 h4 h5
  unfold chooseCentersGonzales
  simp only
  have hslot : ∀ t, 1 ≤ t →
      t < (chooseCentersGonzalesLoop ix indices (k - 1)
        [indices.getD (rand_int indices.length g).1 0]).length →
      ∃ b, b < indices.length
        ∧ (chooseCentersGonzalesLoop ix indices (k - 1)
            [indices.getD (rand_int indices.length g).1 0]).getD t 0 = indices.getD b 0
        ∧ 0 < gonzalesDist ix ((chooseCentersGonzalesLoop ix indices (k - 1)
            [indices.getD (rand_int indices.length g).1 0]).take t) (indices.getD b 0)
        ∧ (∀ j, j < indices.length →
            gonzalesDist ix ((chooseCentersGonzalesLoop ix indices (k - 1)
                [indices.getD (rand_int indices.length g).1 0]).take t) (indices.getD j 0)
              ≤ gonzalesDist ix ((chooseCentersGonzalesLoop ix indices (k - 1)
                [indices.getD (rand_int indices.length g).1 0]).take t) (indices.getD b 0))
        ∧ ∀ j, j < b →
            gonzalesDist ix ((chooseCentersGonzalesLoop ix indices (k - 1)
                [indices.getD (rand_int indices.length g).1 0]).take t) (indices.getD j 0)
              < gonzalesDist ix ((chooseCentersGonzalesLoop ix indices (k - 1)
                [indices.getD (rand_int indices.length g).1 0]).take t) (indices.getD b 0) := by
    intro t ht1 ht2
    obtain ⟨b, hb, hget⟩ := h4 t ht1 ht2
    obtain ⟨e1, e2, e3, e4⟩ := (gonzalesBest_spec ix indices _).2 b hb
    exact ⟨b, e1, hget, e2, e3, e4⟩
  refine ⟨h2, ?_, hslot, ?_, fun cs id hne => gonzalesDist_spec ix cs id hne, ?_⟩
  · rcases Nat.eq_zero_or_pos k with hk | hk
    · subst hk
      simp only [Nat.zero_sub, Nat.add_zero] at h3
      exact le_trans h3 (le_max_right _ _)
    · exact le_trans (by omega) (le_max_left k 1)
  · intro hk
    exact (gonzalesBest_spec ix indices _).1 (h5 (by omega))
  · intro s t hst ht
    obtain ⟨b, _, hget, hpos, _, _⟩ := hslot t (by omega) ht
    have hne : (chooseCentersGonzalesLoop ix indices (k - 1)
        [indices.getD (rand_int indices.length g).1 0]).take t ≠ [] := by
      intro h
      have := congrArg List.length h
      rw [List.length_take] at this
      simp only [List.length_nil] at this
      omega
    have hmem : (chooseCentersGonzalesLoop ix indices (k - 1)
        [indices.getD (rand_int indices.length g).1 0]).getD s 0
        ∈ (chooseCentersGonzalesLoop ix indices (k - 1)
          [indices.getD (rand_int indices.length g).1 0]).take t := by
      rw [List.getD_eq_getElem _ _ (lt_trans hst ht)]
      rw [List.mem_take_iff_getElem]
      exact ⟨s, by rw [Nat.min_eq_left (le_of_lt ht)]; exact hst, rfl⟩
    have := (gonzalesDist_spec ix _ (indices.getD b 0) hne).1 _ hmem
    rw [hget]
    exact lt_of_lt_of_le hpos this

theorem sum_indicator (a : Nat) : ∀ (B : Nat),
    ((List.range B).map (fun c => if a = c then 1 else 0)).sum = if a < B then 1 else 0 := by
  intro B
  induction B with
  | zero => simp
  | succ B ih =>
    rw [List.range_succ, List.map_append, List.sum_append, ih]
    simp only [List.map_cons, List.map_nil, List.sum_cons, List.sum_nil, Nat.add_zero]
    by_cases h1 : a < B
    · have h2 : ¬ a = B := by omega
      have h3 : a < B + 1 := by omega
      simp [h1, h2, h3]
    · by_cases h2 : a = B
      · subst h2
        simp
      · have h3 : ¬ a < B + 1 := by omega
        simp [h1, h2, h3]

theorem count_sum (B : Nat) : ∀ (l : List Nat), (∀ x ∈ l, x < B) →
    ((List.range B).map (fun c => l.count c)).sum = l.length := by
  intro l
  induction l with
  | nil => intro _; simp
  | cons a l ih =>
    intro h
    have h1 : ∀ c, (a :: l).count c = l.count c + (if a = c then 1 else 0) := by
      intro c
      rw [List.count_cons]
      simp
    simp only [h1]
    rw [List.sum_map_add, ih (fun x hx => h x (List.mem_cons_of_mem _ hx)), sum_indicator,
      if_pos (h a (List.mem_cons_self _ _))]
    simp

theorem sum_le_of_le (f g : Nat → Nat) : ∀ (l : List Nat), (∀ c ∈ l, f c ≤ g c) →
    (l.map f).sum ≤ (l.map g).sum := by
  intro l
  induction l with
  | nil => intro _; simp
  | cons a l ih =>
    intro h
    simp only [List.map_cons, List.sum_cons]
    exact Nat.add_le_add (h a (List.mem_cons_self _ _))
      (ih (fun c hc => h c (List.mem_cons_of_mem _ hc)))

/-- When one of `B` clusters is empty and there are at least `B` points, some cluster has more
than one point. -/
theorem exists_donor (B : Nat) (l : List Nat) (hl : ∀ x ∈ l, x < B) (hm : B ≤ l.length)
    (i : Nat) (hi : i < B) (h0 : l.count i = 0) : ∃ c, c < B ∧ 1 < l.count c := by
  by_contra hn
  push_neg at hn
  have h1 : ((List.range B).map (fun c => l.count c)).sum
      ≤ ((List.range B).map (fun c => if i = c then 0 else 1)).sum := by
    apply sum_le_of_le
    intro c hc
    by_cases h : i = c
    · subst h
      rw [if_pos rfl, h0]
    · rw [if_neg h]
      exact hn c (List.mem_range.mp hc)
  have h2 : ∀ c, (if i = c then 0 else 1) + (if i = c then 1 else 0) = 1 := by
    intro c
    by_cases h : i = c <;> simp [h]
  have h3 : ((List.range B).map (fun c => if i = c then 0 else 1)).sum
      + ((List.range B).map (fun c => if i = c then 1 else 0)).sum = B := by
    rw [← List.sum_map_add]
    simp only [h2]
    simp
  rw [sum_indicator, if_pos hi] at h3
  rw [count_sum B l hl] at h1
  omega

theorem findDonor_found (count : List Int) (B : Nat) (hB : 0 < B) :
    ∀ (steps j : Nat), j < B → (∃ t, t < steps ∧ 1 < count.getD ((j + t) % B) 0) →
      ∃ d, findDonor count B steps j = Except.ok d ∧ d < B ∧ 1 < count.getD d 0 := by
  intro steps
  induction steps with
  | zero => intro j _ ⟨t, ht, _⟩; omega
  | succ steps ih =>
    intro j hj ⟨t, ht, hc⟩
    simp only [findDonor]
    by_cases h : count.getD j 0 ≤ 1
    · rw [if_pos h]
      have ht0 : t ≠ 0 := by
        intro h0
        subst h0
        rw [Nat.add_zero, Nat.mod_eq_of_lt hj] at hc
        omega
      apply ih _ (Nat.mod_lt _ hB)
      refine ⟨t - 1, by omega, ?_⟩
      have : ((j + 1) % B + (t - 1)) % B = (j + t) % B := by
        rw [Nat.add_mod, Nat.mod_mod, ← Nat.add_mod]
        congr 1
        omega
      rw [this]
      exact hc
    · rw [if_neg h]
      exact ⟨j, rfl, hj, by omega⟩

theorem findDonor_of_exists (count : List Int) (B : Nat) (j : Nat) (hj : j < B)
    (h : ∃ c, c < B ∧ 1 < count.getD c 0) :
    ∃ d, findDonor count B B j = Except.ok d ∧ d < B ∧ 1 < count.getD d 0 := by
  obtain ⟨c, hc, hcount⟩ := h
  apply findDonor_found count B (by omega) B j hj
  refine ⟨(c + B - j) % B, Nat.mod_lt _ (by omega), ?_⟩
  have : (j + (c + B - j) % B) % B = c := by
    rw [Nat.add_mod, Nat.mod_mod, ← Nat.add_mod]
    have : j + (c + B - j) = c + B := by omega
    rw [this, Nat.add_mod_right, Nat.mod_eq_of_lt hc]
  rw [this]
  exact hcount

theorem getD_set_int (l : List Int) (i j : Nat) (v : Int) (hi : i < l.length) :
    (l.set i v).getD j 0 = if i = j then v else l.getD j 0 := by
  rw [List.getD_eq_getElem?_getD, List.getD_eq_getElem?_getD, List.getElem?_set]
  by_cases h : i = j
  · subst h
    rw [if_pos rfl, if_pos rfl, if_pos hi]
    rfl
  · rw [if_neg h, if_neg h]

theorem indexOf_le_of_getD (l : List Nat) (j p : Nat) (hp : p < l.length)
    (h : l.getD p 0 = j) : l.indexOf j ≤ p := by
  induction l generalizing p with
  | nil => simp at hp
  | cons a t ih =>
    rw [List.indexOf_cons]
    by_cases ha : a = j
    · simp [ha]
    · have : (a == j) = false := by simpa using ha
      rw [this]
      cases p with
      | zero => simp at h; exact absurd h ha
      | succ q =>
        simp only [List.length_cons, Nat.add_lt_add_iff_right] at hp
        have := ih q hp (by simpa using h)
        simp only [cond_false]
        omega

theorem repairCluster_step (B m : Nat) (st : Clusters) (conv : Bool) (i : Nat) (hi : i < B)
    (hm : B ≤ m) (hlen : st.belongs_to.length = m) (hlt : ∀ x ∈ st.belongs_to, x < B)
    (hc : CountOK B st) :
    ∃ st1 conv1, repairCluster B (st, conv) i = Except.ok (st1, conv1)
      ∧ CountOK B st1 ∧ st1.belongs_to.length = m ∧ (∀ x ∈ st1.belongs_to, x < B)
      ∧ st1.dcenters = st.dcenters ∧ st1.radiuses = st.radiuses
      ∧ (st.count.getD i 0 ≠ 0 → st1 = st ∧ conv1 = conv)
      ∧ (st.count.getD i 0 = 0 → conv1 = false ∧ st1.count.getD i 0 = 1
        ∧ ∃ j, j < B ∧ j ≠ i ∧ 1 < st.count.getD j 0
          ∧ st1.count.getD j 0 = st.count.getD j 0 - 1
          ∧ (∀ c, c ≠ i → c ≠ j → st1.count.getD c 0 = st.count.getD c 0)
          ∧ ∃ k, k < m ∧ st.belongs_to.getD k 0 = j ∧ (∀ p, p < k → st.belongs_to.getD p 0 ≠ j)
            ∧ st1.belongs_to = st.belongs_to.set k i) := by
  obtain ⟨hcl, hcv⟩ := hc
  unfold repairCluster
  simp only
  by_cases h0 : st.count.getD i 0 = 0
  · rw [if_pos h0]
    have hci : st.belongs_to.count i = 0 := by
      have := hcv i hi
      rw [h0] at this
      exact_mod_cast this.symm
    obtain ⟨c, hcB, hcc⟩ := exists_donor B st.belongs_to hlt (by omega) i hi hci
    obtain ⟨j, hfd, hjB, hjc⟩ := findDonor_of_exists st.count B ((i + 1) % B)
      (Nat.mod_lt _ (by omega)) ⟨c, hcB, by rw [hcv c hcB]; exact_mod_cast hcc⟩
    rw [hfd]
    simp only
    have hjcount : 1 < st.belongs_to.count j := by
      have := hcv j hjB
      rw [this] at hjc
      exact_mod_cast hjc
    have hjmem : j ∈ st.belongs_to := List.count_pos_iff.mp (by omega)
    have hk : st.belongs_to.indexOf j < st.belongs_to.length := List.indexOf_lt_length.mpr hjmem
    rw [if_pos hk]
    have hji : j ≠ i := by
      intro h
      subst h
      omega
    have hget : st.belongs_to[st.belongs_to.indexOf j] = j := List.getElem_indexOf hk
    refine ⟨_, _, rfl, ⟨?_, ?_⟩, by simpa using hlen, ?_, rfl, rfl, fun h => absurd h0 h,
      fun _ => ⟨rfl, ?_, j, hjB, hji, hjc, ?_, ?_, st.belongs_to.indexOf j, by omega, ?_, ?_, rfl⟩⟩
    · simp [hcl]
    · intro c hcB
      show ((st.count.set j (st.count.getD j 0 - 1)).set i
        ((st.count.set j (st.count.getD j 0 - 1)).getD i 0 + 1)).getD c 0
        = ((st.belongs_to.set (st.belongs_to.indexOf j) i).count c : Int)
      rw [getD_set_int _ _ _ _ (by simp; omega), getD_set_int _ _ _ _ (by omega),
        getD_set_int _ _ _ _ (by omega), List.count_set _ _ _ _ hk, hget]
      simp only [beq_iff_eq]
      by_cases h1 : i = c
      · subst h1
        rw [if_pos rfl, if_neg hji, if_neg hji, if_pos rfl, h0, hci]
        simp
      · rw [if_neg h1, if_neg h1]
        by_cases h2 : j = c
        · subst h2
          rw [if_pos rfl, if_pos rfl, hcv j hjB]
          have : 1 ≤ st.belongs_to.count j := by omega
          push_cast [Nat.cast_sub this]
          omega
        · rw [if_neg h2, if_neg h2, hcv c hcB]
          simp
    · exact mem_set_lt _ _ _ _ hlt hi
    · show ((st.count.set j (st.count.getD j 0 - 1)).set i
        ((st.count.set j (st.count.getD j 0 - 1)).getD i 0 + 1)).getD i 0 = 1
      rw [getD_set_int _ _ _ _ (by simp; omega), if_pos rfl, getD_set_int _ _ _ _ (by omega),
        if_neg hji, h0]
      rfl
    · show ((st.count.set j (st.count.getD j 0 - 1)).set i
        ((st.count.set j (st.count.getD j 0 - 1)).getD i 0 + 1)).getD j 0 = _
      rw [getD_set_int _ _ _ _ (by simp; omega), if_neg (fun h => hji h.symm),
        getD_set_int _ _ _ _ (by omega), if_pos rfl]
    · intro c hci2 hcj
      show ((st.count.set j (st.count.getD j 0 - 1)).set i
        ((st.count.set j (st.count.getD j 0 - 1)).getD i 0 + 1)).getD c 0 = _
      rw [getD_set_int _ _ _ _ (by simp; omega), if_neg (fun h => hci2 h.symm),
        getD_set_int _ _ _ _ (by omega), if_neg (fun h => hcj h.symm)]
    · rw [List.getD_eq_getElem _ _ hk]
      exact hget
    · intro p hp hpj
      have := indexOf_le_of_getD st.belongs_to j p (by omega) hpj
      omega
  · rw [if_neg h0]
    exact ⟨st, conv, rfl, ⟨hcl, hcv⟩, hlen, hlt, rfl, rfl, fun _ => ⟨rfl, rfl⟩,
      fun h => absurd h h0⟩

theorem getD_set_nat (l : List Nat) (i j : Nat) (v : Nat) (hi : i < l.length) :
    (l.set i v).getD j 0 = if i = j then v else l.getD j 0 := by
  rw [List.getD_eq_getElem?_getD, List.getD_eq_getElem?_getD, List.getElem?_set]
  by_cases h : i = j
  · subst h
    rw [if_pos rfl, if_pos rfl, if_pos hi]
    rfl
  · rw [if_neg h, if_neg h]

theorem repairClusters_inv (B m : Nat) (hm : B ≤ m) (st0 : Clusters) :
    ∀ (n t : Nat) (st : Clusters) (conv : Bool), t + n = B → RepairInv B m st0 t st →
      ∃ st1 conv1, repairClusters B (List.range' t n) (st, conv) = Except.ok (st1, conv1)
        ∧ RepairInv B m st0 B st1
        ∧ ((∃ c, t ≤ c ∧ c < B ∧ st0.count.getD c 0 = 0) → conv1 = false)
        ∧ ((∀ c, t ≤ c → c < B → st0.count.getD c 0 ≠ 0) → conv1 = conv ∧ st1 = st) := by
  intro n
  induction n with
  | zero =>
    intro t st conv ht hinv
    have : t = B := by omega
    subst this
    refine ⟨st, conv, rfl, hinv, ?_, fun _ => ⟨rfl, rfl⟩⟩
    rintro ⟨c, h1, h2, _⟩
    omega
  | succ n ih =>
    intro t st conv ht hinv
    obtain ⟨hc, hlen, hlt, hdc, hrad, hE, hN, hP⟩ := hinv
    have htB : t < B := by omega
    obtain ⟨st1, conv1, hstep, hc1, hlen1, hlt1, hdc1, hrad1, hsame, hmove⟩ :=
      repairCluster_step B m st conv t htB hm hlen hlt hc
    have hinv1 : RepairInv B m st0 (t + 1) st1 := by
      by_cases h0 : st.count.getD t 0 = 0
      · obtain ⟨_, hone, j, hjB, hjt, hj1, hjc, hothers, k, hk, hkj, _, hbt⟩ := hmove h0
        have ht0 : st0.count.getD t 0 = 0 := by
          by_contra hne
          have := (hN t htB hne).1
          omega
        have hj0 : st0.count.getD j 0 ≠ 0 := by
          intro hj0
          rcases Nat.lt_or_ge j t with h | h
          · have := (hE j hjB hj0).2 h
            omega
          · have := (hE j hjB hj0).1 h
            omega
        refine ⟨hc1, hlen1, hlt1, hdc1.trans hdc, hrad1.trans hrad, ?_, ?_, ?_⟩
        · intro c hcB hc0
          have hcj : c ≠ j := fun h => hj0 (h ▸ hc0)
          refine ⟨fun hle => ?_, fun hlt2 => ?_⟩
          · rw [hothers c (by omega) hcj]
            exact (hE c hcB hc0).1 (by omega)
          · by_cases hct : c = t
            · rw [hct]; exact hone
            · rw [hothers c hct hcj]
              exact (hE c hcB hc0).2 (by omega)
        · intro c hcB hc0
          have hct : c ≠ t := fun h => hc0 (h ▸ ht0)
          by_cases hcj : c = j
          · subst hcj
            rw [hjc]
            have := hN c hcB hc0
            omega
          · rw [hothers c hct hcj]
            exact hN c hcB hc0
        · intro p hp
          rw [hbt, getD_set_nat _ _ _ _ (by omega)]
          by_cases hkp : k = p
          · rw [if_pos hkp]
            exact Or.inr ht0
          · rw [if_neg hkp]
            exact hP p hp
      · obtain ⟨hst, _⟩ := hsame h0
        subst hst
        refine ⟨hc, hlen, hlt, hdc, hrad, ?_, hN, hP⟩
        intro c hcB hc0
        refine ⟨fun hle => (hE c hcB hc0).1 (by omega), fun hlt2 => ?_⟩
        by_cases hct : c = t
        · subst hct
          exact absurd ((hE c hcB hc0).1 (le_refl _)) h0
        · exact (hE c hcB hc0).2 (by omega)
    obtain ⟨st2, conv2, hrest, hinv2, hconvF, hconvT⟩ :=
      ih (t + 1) st1 conv1 (by omega) hinv1
    refine ⟨st2, conv2, ?_, hinv2, ?_, ?_⟩
    · rw [List.range'_succ]
      show (match repairCluster B (st, conv) t with
        | Except.error e => Except.error e
        | Except.ok acc1 => repairClusters B (List.range' (t + 1) n) acc1) = _
      rw [hstep]
      exact hrest
    · rintro ⟨c, h1, h2, h3⟩
      by_cases hct : c = t
      · subst hct
        have h0 : st.count.getD c 0 = 0 := (hE c h2 h3).1 (le_refl _)
        have hf := (hmove h0).1
        by_cases hex : ∃ c2, c + 1 ≤ c2 ∧ c2 < B ∧ st0.count.getD c2 0 = 0
        · exact hconvF hex
        · push_neg at hex
          rw [(hconvT hex).1]
          exact hf
      · exact hconvF ⟨c, by omega, h2, h3⟩
    · intro hall
      have h0 : st.count.getD t 0 ≠ 0 := by
        intro h0
        have h1 := hall t (le_refl _) htB
        have := hN t htB h1
        omega
      obtain ⟨e1, e2⟩ := hsame h0
      obtain ⟨e3, e4⟩ := hconvT (fun c h1 h2 => hall c (by omega) h2)
      exact ⟨e3.trans e2, e4.trans e1⟩

theorem countOK_sum (B : Nat) (st : Clusters) (hc : CountOK B st)
    (hlt : ∀ x ∈ st.belongs_to, x < B) :
    ((List.range B).map (fun c => st.count.getD c 0)).sum = (st.belongs_to.length : Int) := by
  have h1 : (List.range B).map (fun c => st.count.getD c 0)
      = (List.range B).map (fun c => ((st.belongs_to.count c : Nat) : Int)) := by
    apply List.map_congr_left
    intro c hc1
    exact hc.2 c (List.mem_range.mp hc1)
  rw [h1, ← count_sum B st.belongs_to hlt]
  induction (List.range B) with
  | nil => simp
  | cons a l ih => simp only [List.map_cons, List.sum_cons, Nat.cast_add, ih]

theorem repairInv_refl (B m : Nat) (st : Clusters) (hc : CountOK B st)
    (hlen : st.belongs_to.length = m) (hlt : ∀ x ∈ st.belongs_to, x < B) :
    RepairInv B m st 0 st := by
  refine ⟨hc, hlen, hlt, rfl, rfl, ?_, ?_, fun p _ => Or.inl rfl⟩
  · intro c _ h0
    exact ⟨fun _ => h0, fun h => absurd h (by omega)⟩
  · intro c hcB h0
    refine ⟨?_, le_refl _⟩
    rw [hc.2 c hcB] at h0 ⊢
    have : (st.belongs_to.count c : Int) ≠ 0 := h0
    omega

/-- The empty-cluster repair pass on a state whose counts agree with the assignment. -/
theorem repairClusters_spec (B m : Nat) (st : Clusters) (conv : Bool)
    (hm : B ≤ m) (hlen : st.belongs_to.length = m) (hlt : ∀ x ∈ st.belongs_to, x < B)
    (hc : CountOK B st) :
    ∃ st1 conv1, repairClusters B (List.range B) (st, conv) = Except.ok (st1, conv1)
      ∧ CountOK B st1 ∧ st1.belongs_to.length = m ∧ (∀ x ∈ st1.belongs_to, x < B)
      ∧ st1.dcenters = st.dcenters ∧ st1.radiuses = st.radiuses
      ∧ ((List.range B).map (fun c => st1.count.getD c 0)).sum = (m : Int)
      ∧ (∀ c, c < B → 1 ≤ st1.count.getD c 0)
      ∧ (∀ c, c < B → st.count.getD c 0 = 0 → st1.count.getD c 0 = 1)
      ∧ (∀ c, c < B → st.count.getD c 0 ≠ 0 → st1.count.getD c 0 ≤ st.count.getD c 0)
      ∧ (∀ p, p < m → st1.belongs_to.getD p 0 = st.belongs_to.getD p 0
          ∨ st.count.getD (st1.belongs_to.getD p 0) 0 = 0)
      ∧ ((∃ c, c < B ∧ st.count.getD c 0 = 0) → conv1 = false)
      ∧ ((∀ c, c < B → st.count.getD c 0 ≠ 0) → conv1 = conv ∧ st1 = st) := by
  obtain ⟨st1, conv1, hr, ⟨i1, i2, i3, i4, i5, i6, i7, i8⟩, hF, hT⟩ :=
    repairClusters_inv B m hm st B 0 st conv (by omega) (repairInv_refl B m st hc hlen hlt)
  rw [← List.range_eq_range'] at hr
  refine ⟨st1, conv1, hr, i1, i2, i3, i4, i5, ?_, ?_, ?_, ?_, i8, ?_, ?_⟩
  · rw [countOK_sum B st1 i1 i3, i2]
  · intro c hcB
    by_cases h0 : st.count.getD c 0 = 0
    · rw [(i6 c hcB h0).2 hcB]
    · exact (i7 c hcB h0).1
  · intro c hcB h0
    exact (i6 c hcB h0).2 hcB
  · intro c hcB h0
    exact (i7 c hcB h0).2
  · rintro ⟨c, h1, h2⟩
    exact hF ⟨c, Nat.zero_le _, h1, h2⟩
  · intro h
    exact hT (fun c _ hcB => h c hcB)

/-- C29: in a split of `m >= B` points whose array `count` agrees with `belongs_to` (the
entries of which are cluster numbers below `B`), the empty-cluster repair pass returns (the
search for a donor finds one), the counts still agree with the assignment and add up to `m`,
every cluster has at least one point, every cluster that was empty has exactly one, no other
cluster has gained a point, and a point that has changed its cluster is in one that was
empty. -/
theorem repair_pass_fills_every_empty_cluster (B m : Nat) (st : Clusters) (conv : Bool)
    (hm : B ≤ m) (hlen : st.belongs_to.length = m) (hlt : ∀ x ∈ st.belongs_to, x < B)
    (hc : CountOK B st) :
    ∃ st1 conv1, repairClusters B (List.range B) (st, conv) = Except.ok (st1, conv1)
      ∧ CountOK B st1 ∧ st1.belongs_to.length = m
      ∧ ((List.range B).map (fun c => st1.count.getD c 0)).sum = (m : Int)
      ∧ (∀ c, c < B → 1 ≤ st1.count.getD c 0)
      ∧ (∀ c, c < B → st.count.getD c 0 = 0 → st1.count.getD c 0 = 1)
      ∧ (∀ c, c < B → st.count.getD c 0 ≠ 0 → st1.count.getD c 0 ≤ st.count.getD c 0)
      ∧ (∀ p, p < m → st1.belongs_to.getD p 0 = st.belongs_to.getD p 0
          ∨ st.count.getD (st1.belongs_to.getD p 0) 0 = 0) := by
  obtain ⟨st1, conv1, h1, h2, h3, _, _, _, h7, h8, h9, h10, h11, _⟩ :=
    repairClusters_spec B m st conv hm hlen hlt hc
  exact ⟨st1, conv1, h1, h2, h3, h7, h8, h9, h10, h11⟩

theorem repair_pass_fills_every_empty_cluster_witness :
    ∃ st1 conv1, repairClusters 3 (List.range 3)
        ({ dcenters := [], radiuses := [], count := [0, 4, 0], belongs_to := [1, 1, 1, 1] },
          true) = Except.ok (st1, conv1)
      ∧ CountOK 3 st1 ∧ st1.belongs_to.length = 4
      ∧ ((List.range 3).map (fun c => st1.count.getD c 0)).sum = ((4 : Nat) : Int)
      ∧ (∀ c, c < 3 → 1 ≤ st1.count.getD c 0)
      ∧ (∀ c, c < 3 → ([0, 4, 0] : List Int).getD c 0 = 0 → st1.count.getD c 0 = 1)
      ∧ (∀ c, c < 3 → ([0, 4, 0] : List Int).getD c 0 ≠ 0 →
          st1.count.getD c 0 ≤ ([0, 4, 0] : List Int).getD c 0)
      ∧ (∀ p, p < 4 → st1.belongs_to.getD p 0 = ([1, 1, 1, 1] : List Nat).getD p 0
          ∨ ([0, 4, 0] : List Int).getD (st1.belongs_to.getD p 0) 0 = 0) :=
  repair_pass_fills_every_empty_cluster 3 4
    { dcenters := [], radiuses := [], count := [0, 4, 0], belongs_to := [1, 1, 1, 1] } true
    (by decide) rfl (by decide) (by unfold CountOK; decide)

theorem foldl_argmin (f : Nat → ℚ) :
    ∀ (n : Nat),
      ((List.range' 1 n).foldl (fun (best : Nat × ℚ) j =>
          if best.2 > f j then (j, f j) else best) (0, f 0)).1 < n + 1
        ∧ ((List.range' 1 n).foldl (fun (best : Nat × ℚ) j =>
            if best.2 > f j then (j, f j) else best) (0, f 0)).2
          = f ((List.range' 1 n).foldl (fun (best : Nat × ℚ) j =>
            if best.2 > f j then (j, f j) else best) (0, f 0)).1
        ∧ (∀ j, j < n + 1 → ((List.range' 1 n).foldl (fun (best : Nat × ℚ) j =>
            if best.2 > f j then (j, f j) else best) (0, f 0)).2 ≤ f j)
        ∧ ∀ j, j < ((List.range' 1 n).foldl (fun (best : Nat × ℚ) j =>
            if best.2 > f j then (j, f j) else best) (0, f 0)).1 →
          ((List.range' 1 n).foldl (fun (best : Nat × ℚ) j =>
            if best.2 > f j then (j, f j) else best) (0, f 0)).2 < f j := by
  intro n
  induction n with
  | zero =>
    refine ⟨Nat.zero_lt_succ _, rfl, fun j hj => ?_, fun j hj => absurd hj (Nat.not_lt_zero _)⟩
    have : j = 0 := by omega
    subst this
    exact le_refl _
  | succ n ih =>
    rw [List.range'_concat, List.foldl_append, Nat.one_mul]
    simp only [List.foldl_cons, List.foldl_nil]
    generalize (List.range' 1 n).foldl (fun (best : Nat × ℚ) j =>
      if best.2 > f j then (j, f j) else best) (0, f 0) = acc at ih
    obtain ⟨ai, av⟩ := acc
    simp only at ih
    obtain ⟨h1, h2, h3, h4⟩ := ih
    by_cases h : av > f (1 + n)
    · rw [if_pos h]
      refine ⟨by omega, rfl, ?_, ?_⟩
      · intro j hj
        by_cases hjn : j = 1 + n
        · rw [hjn]
        · exact le_trans (le_of_lt h) (h3 j (by omega))
      · intro j hj
        exact lt_of_lt_of_le h (h3 j (by omega))
    · rw [if_neg h]
      refine ⟨by simp only; omega, h2, ?_, h4⟩
      intro j hj
      by_cases hjn : j = 1 + n
      · rw [hjn]
        exact not_lt.mp h
      · exact h3 j (by omega)

/-- The scan for the nearest centre returns the lowest index among the centres at the
smallest distance, with that distance. -/
theorem nearestCenter_spec (ix : KMeansIndex) (x : Vec) (dc : List Vec) (B : Nat) (hB : 1 ≤ B) :
    (nearestCenter ix x dc B).1 < B
      ∧ (nearestCenter ix x dc B).2
        = ix.distance x (dc.getD (nearestCenter ix x dc B).1 []) ix.veclen_
      ∧ (∀ j, j < B → (nearestCenter ix x dc B).2 ≤ ix.distance x (dc.getD j []) ix.veclen_)
      ∧ ∀ j, j < (nearestCenter ix x dc B).1 →
          (nearestCenter ix x dc B).2 < ix.distance x (dc.getD j []) ix.veclen_ := by
  have h := foldl_argmin (fun j => ix.distance x (dc.getD j []) ix.veclen_) (B - 1)
  have e : B - 1 + 1 = B := by omega
  rw [e] at h
  exact h

theorem count_take_succ (l : List Nat) (n c : Nat) (hn : n < l.length) :
    (l.take (n + 1)).count c = (l.take n).count c + if l.getD n 0 = c then 1 else 0 := by
  rw [List.take_succ, List.count_append, List.getD_eq_getElem _ _ hn,
    List.getElem?_eq_getElem hn]
  simp only [Option.toList_some, List.count_cons, List.count_nil, beq_iff_eq]
  omega

theorem getD_set_rat (l : List ℚ) (i j : Nat) (v : ℚ) (hi : i < l.length) :
    (l.set i v).getD j 0 = if i = j then v else l.getD j 0 := by
  rw [List.getD_eq_getElem?_getD, List.getD_eq_getElem?_getD, List.getElem?_set]
  by_cases h : i = j
  · subst h
    rw [if_pos rfl, if_pos rfl, if_pos hi]
    rfl
  · rw [if_neg h, if_neg h]

theorem assignStep_inv (ix : KMeansIndex) (indices : List Nat) (dc : List Vec) (B n : Nat)
    (hB : 1 ≤ B) (hn : n < indices.length) (st : Clusters)
    (h : AssignInv ix indices dc B n st) :
    AssignInv ix indices dc B (n + 1)
      { st with
        radiuses :=
          if (nearestCenter ix (ix.dataset.row (indices.getD n 0)) dc B).2
              > st.radiuses.getD (nearestCenter ix (ix.dataset.row (indices.getD n 0)) dc B).1 0
          then st.radiuses.set (nearestCenter ix (ix.dataset.row (indices.getD n 0)) dc B).1
            (nearestCenter ix (ix.dataset.row (indices.getD n 0)) dc B).2
          else st.radiuses
        count := st.count.set (nearestCenter ix (ix.dataset.row (indices.getD n 0)) dc B).1
          (st.count.getD (nearestCenter ix (ix.dataset.row (indices.getD n 0)) dc B).1 0 + 1)
        belongs_to := st.belongs_to.set n
          (nearestCenter ix (ix.dataset.row (indices.getD n 0)) dc B).1 } := by
  obtain ⟨h1, h2, h3, h4, h5, h6, h7⟩ := h
  have hlt := nearestCenter_lt ix (ix.dataset.row (indices.getD n 0)) dc B hB
  generalize hnc : nearestCenter ix (ix.dataset.row (indices.getD n 0)) dc B = nc at hlt ⊢
  have hnb : n < st.belongs_to.length := by omega
  have hbt : ∀ i, (st.belongs_to.set n nc.1).getD i 0
      = if n = i then nc.1 else st.belongs_to.getD i 0 :=
    fun i => getD_set_nat _ _ _ _ hnb
  refine ⟨h1, by simp [h2], ?_, by simp [h4], ?_, ?_, ?_⟩
  · intro i hi
    show (st.belongs_to.set n nc.1).getD i 0 = _
    rw [hbt]
    by_cases hni : n = i
    · rw [if_pos hni, ← hni, hnc]
    · rw [if_neg hni]
      exact h3 i (by omega)
  · intro c hc
    show (st.count.set nc.1 (st.count.getD nc.1 0 + 1)).getD c 0
      = (((st.belongs_to.set n nc.1).take (n + 1)).count c : Int)
    rw [getD_set_int _ _ _ _ (by omega), count_take_succ _ _ _ (by simp; omega), hbt,
      if_pos rfl, take_set_of_le _ _ (le_refl _)]
    by_cases hcc : nc.1 = c
    · rw [if_pos hcc, if_pos hcc, ← hcc, h5 nc.1 hlt]
      push_cast
      rfl
    · rw [if_neg hcc, if_neg hcc, h5 c hc]
      simp
  · show (if nc.2 > st.radiuses.getD nc.1 0 then st.radiuses.set nc.1 nc.2
      else st.radiuses).length = B
    split
    · simp [h6]
    · exact h6
  · intro c hc
    show (∀ i, i < n + 1 → (st.belongs_to.set n nc.1).getD i 0 = c →
        (nearestCenter ix (ix.dataset.row (indices.getD i 0)) dc B).2
          ≤ (if nc.2 > st.radiuses.getD nc.1 0 then st.radiuses.set nc.1 nc.2
            else st.radiuses).getD c 0)
      ∧ ((if nc.2 > st.radiuses.getD nc.1 0 then st.radiuses.set nc.1 nc.2
            else st.radiuses).getD c 0 = 0
        ∨ ∃ i, i < n + 1 ∧ (st.belongs_to.set n nc.1).getD i 0 = c
          ∧ (nearestCenter ix (ix.dataset.row (indices.getD i 0)) dc B).2
            = (if nc.2 > st.radiuses.getD nc.1 0 then st.radiuses.set nc.1 nc.2
              else st.radiuses).getD c 0)
    obtain ⟨k1, k2⟩ := h7 c hc
    have hrad : (if nc.2 > st.radiuses.getD nc.1 0 then st.radiuses.set nc.1 nc.2
        else st.radiuses).getD c 0
        = if nc.1 = c ∧ nc.2 > st.radiuses.getD nc.1 0 then nc.2 else st.radiuses.getD c 0 := by
      by_cases hg : nc.2 > st.radiuses.getD nc.1 0
      · rw [if_pos hg, getD_set_rat _ _ _ _ (by omega)]
        by_cases hcc : nc.1 = c
        · rw [if_pos hcc, if_pos ⟨hcc, hg⟩]
        · rw [if_neg hcc, if_neg (fun h => hcc h.1)]
      · rw [if_neg hg, if_neg (fun h => hg h.2)]
    rw [hrad]
    constructor
    · intro i hi hbi
      rw [hbt] at hbi
      by_cases hni : n = i
      · rw [if_pos hni] at hbi
        rw [← hni, hnc]
        by_cases hg : nc.2 > st.radiuses.getD nc.1 0
        · rw [if_pos ⟨hbi, hg⟩]
        · rw [if_neg (fun h => hg h.2), ← hbi]
          exact not_lt.mp hg
      · rw [if_neg hni] at hbi
        have := k1 i (by omega) hbi
        split
        · rename_i hg
          rw [hg.1] at hg
          exact le_trans this (le_of_lt hg.2)
        · exact this
    · by_cases hg : nc.1 = c ∧ nc.2 > st.radiuses.getD nc.1 0
      · rw [if_pos hg]
        right
        refine ⟨n, by omega, ?_, ?_⟩
        · rw [hbt, if_pos rfl]
          exact hg.1
        · rw [hnc]
      · rw [if_neg hg]
        rcases k2 with k2 | ⟨i, hi, e1, e2⟩
        · exact Or.inl k2
        · right
          refine ⟨i, by omega, ?_, e2⟩
          rw [hbt, if_neg (by omega)]
          exact e1

theorem assignFold_inv (ix : KMeansIndex) (indices : List Nat) (dc : List Vec) (B : Nat)
    (hB : 1 ≤ B) : ∀ (n : Nat), n ≤ indices.length →
      AssignInv ix indices dc B n ((List.range n).foldl
        (fun st i =>
          { st with
            radiuses :=
              if (nearestCenter ix (ix.dataset.row (indices.getD i 0)) dc B).2
                  > st.radiuses.getD
                    (nearestCenter ix (ix.dataset.row (indices.getD i 0)) dc B).1 0
              then st.radiuses.set (nearestCenter ix (ix.dataset.row (indices.getD i 0)) dc B).1
                (nearestCenter ix (ix.dataset.row (indices.getD i 0)) dc B).2
              else st.radiuses
            count := st.count.set (nearestCenter ix (ix.dataset.row (indices.getD i 0)) dc B).1
              (st.count.getD (nearestCenter ix (ix.dataset.row (indices.getD i 0)) dc B).1 0 + 1)
            belongs_to := st.belongs_to.set i
              (nearestCenter ix (ix.dataset.row (indices.getD i 0)) dc B).1 })
        { dcenters := dc
          radiuses := List.replicate B 0
          count := List.replicate B 0
          belongs_to := List.replicate indices.length 0 }) := by
  intro n
  induction n with
  | zero =>
    intro _
    refine ⟨rfl, by simp, fun i hi => absurd hi (by omega), by simp, ?_, by simp, ?_⟩
    · intro c hc
      simp [List.getD_eq_getElem?_getD, hc]
    · intro c hc
      refine ⟨fun i hi => absurd hi (by omega), Or.inl ?_⟩
      simp [List.getD_eq_getElem?_getD, hc]
  | succ n ih =>
    intro hn
    rw [List.range_succ, List.foldl_append]
    simp only [List.foldl_cons, List.foldl_nil]
    exact assignStep_inv ix indices dc B n hB (by omega) _ (ih (by omega))

/-- The first assignment: every point is in the cluster of its nearest centre (the lowest
index among the nearest), `count` agrees with `belongs_to`, and `radiuses[c]` is the largest
distance of a member of cluster `c` to its centre, 0 for a cluster without members. -/
theorem assignPoints_spec (ix : KMeansIndex) (indices : List Nat) (dc : List Vec) (B : Nat)
    (hB : 1 ≤ B) :
    (assignPoints ix indices dc B).dcenters = dc
      ∧ (assignPoints ix indices dc B).belongs_to.length = indices.length
      ∧ (∀ i, i < indices.length → (assignPoints ix indices dc B).belongs_to.getD i 0
          = (nearestCenter ix (ix.dataset.row (indices.getD i 0)) dc B).1)
      ∧ CountOK B (assignPoints ix indices dc B)
      ∧ (assignPoints ix indices dc B).radiuses.length = B
      ∧ ∀ c, c < B →
          (∀ i, i < indices.length → (assignPoints ix indices dc B).belongs_to.getD i 0 = c →
            (nearestCenter ix (ix.dataset.row (indices.getD i 0)) dc B).2
              ≤ (assignPoints ix indices dc B).radiuses.getD c 0)
          ∧ ((assignPoints ix indices dc B).radiuses.getD c 0 = 0
            ∨ ∃ i, i < indices.length
              ∧ (assignPoints ix indices dc B).belongs_to.getD i 0 = c
              ∧ (nearestCenter ix (ix.dataset.row (indices.getD i 0)) dc B).2
                = (assignPoints ix indices dc B).radiuses.getD c 0) := by
  obtain ⟨h1, h2, h3, h4, h5, h6, h7⟩ :=
    assignFold_inv ix indices dc B hB indices.length (le_refl _)
  refine ⟨h1, h2, h3, ⟨h4, ?_⟩, h6, h7⟩
  intro c hc
  have := h5 c hc
  rw [List.take_of_length_le (le_of_eq h2)] at this
  exact this

/-- Moving the point at position `k` from its cluster to the cluster `new` and adjusting the
two counters keeps `count` in agreement with `belongs_to`. -/
theorem count_move (B : Nat) (count : List Int) (bt : List Nat) (k new : Nat)
    (hk : k < bt.length) (hnew : new < B) (hold : bt.getD k 0 < B) (hne : new ≠ bt.getD k 0)
    (hlen : count.length = B) (hcv : ∀ c, c < B → count.getD c 0 = (bt.count c : Int)) :
    ∀ c, c < B →
      ((count.set (bt.getD k 0) (count.getD (bt.getD k 0) 0 - 1)).set new
        ((count.set (bt.getD k 0) (count.getD (bt.getD k 0) 0 - 1)).getD new 0 + 1)).getD c 0
      = ((bt.set k new).count c : Int) := by
  intro c hc
  have hget : bt[k] = bt.getD k 0 := (List.getD_eq_getElem _ _ hk).symm
  have hpos : 1 ≤ bt.count (bt.getD k 0) := by
    have : bt.getD k 0 ∈ bt := by rw [← hget]; exact List.getElem_mem hk
    exact List.count_pos_iff.mpr this
  generalize bt.getD k 0 = old at hold hne hget hpos
  rw [getD_set_int _ _ _ _ (by simp; omega), getD_set_int _ _ _ _ (by omega),
    getD_set_int _ _ _ _ (by omega), List.count_set _ _ _ _ hk, hget]
  simp only [beq_iff_eq]
  by_cases h1 : new = c
  · subst h1
    rw [if_pos rfl, if_neg (fun h => hne h.symm), if_neg (fun h => hne h.symm), if_pos rfl,
      hcv new hc]
    simp
  · rw [if_neg h1, if_neg h1]
    by_cases h2 : old = c
    · subst h2
      rw [if_pos rfl, if_pos rfl, hcv old hold]
      push_cast [Nat.cast_sub hpos]
      omega
    · rw [if_neg h2, if_neg h2, hcv c hc]
      simp

theorem reassignPoints_countOK (ix : KMeansIndex) (indices : List Nat) (B : Nat) (hB : 1 ≤ B)
    (st : Clusters) (conv : Bool) (hlen : st.belongs_to.length = indices.length)
    (hlt : ∀ x ∈ st.belongs_to, x < B) (hc : CountOK B st) :
    CountOK B (reassignPoints ix indices B st conv).1
      ∧ (reassignPoints ix indices B st conv).1.belongs_to.length = indices.length
      ∧ (∀ x ∈ (reassignPoints ix indices B st conv).1.belongs_to, x < B)
      ∧ (reassignPoints ix indices B st conv).1.dcenters = st.dcenters := by
  unfold reassignPoints
  apply foldl_inv (fun acc : Clusters × Bool => CountOK B acc.1
    ∧ acc.1.belongs_to.length = indices.length ∧ (∀ x ∈ acc.1.belongs_to, x < B)
    ∧ acc.1.dcenters = st.dcenters)
  · intro acc i hi hacc
    obtain ⟨⟨k1, k2⟩, h2, h3, h4⟩ := hacc
    have hi2 : i < acc.1.belongs_to.length := by
      rw [h2]
      exact List.mem_range.mp hi
    have hnl := nearestCenter_lt ix (ix.dataset.row (indices.getD i 0)) acc.1.dcenters B hB
    dsimp only
    split
    · rename_i hne
      refine ⟨⟨by simp [k1], ?_⟩, by simp [h2], mem_set_lt _ _ _ _ h3 hnl, h4⟩
      exact count_move B acc.1.count acc.1.belongs_to i _ hi2 hnl
        (getD_lt_of_forall_mem _ B i h3 hi2) hne k1 k2
    · exact ⟨⟨k1, k2⟩, h2, h3, h4⟩
  · exact ⟨hc, hlen, hlt, rfl⟩

theorem recomputeCenters_ok (ix : KMeansIndex) (indices : List Nat) (st : Clusters) (B : Nat)
    (h : ∀ c, c < B → 1 ≤ st.count.getD c 0) :
    ∃ dc, recomputeCenters ix indices st B = Except.ok dc := by
  unfold recomputeCenters
  rw [if_neg]
  · exact ⟨_, rfl⟩
  · rintro ⟨_, h2⟩
    rw [List.any_eq_true] at h2
    obtain ⟨c, hc, h0⟩ := h2
    have := h c (List.mem_range.mp hc)
    simp only [decide_eq_true_eq] at h0
    omega

/-- When every cluster has a point before the Lloyd loop, the loop returns, and every
cluster has a point after it. -/
theorem lloydLoop_total (ix : KMeansIndex) (indices : List Nat) (B : Nat) (hB : 1 ≤ B)
    (hm : B ≤ indices.length) :
    ∀ (left : Nat) (conv : Bool) (st : Clusters),
      CountOK B st → st.belongs_to.length = indices.length → (∀ x ∈ st.belongs_to, x < B) →
      (∀ c, c < B → 1 ≤ st.count.getD c 0) →
      ∃ st1, lloydLoop ix indices B left conv st = Except.ok st1
        ∧ CountOK B st1 ∧ st1.belongs_to.length = indices.length
        ∧ (∀ x ∈ st1.belongs_to, x < B) ∧ ∀ c, c < B → 1 ≤ st1.count.getD c 0 := by
  intro left
  induction left with
  | zero =>
    intro conv st hc hlen hlt hpos
    exact ⟨st, rfl, hc, hlen, hlt, hpos⟩
  | succ left ih =>
    intro conv st hc hlen hlt hpos
    simp only [lloydLoop]
    by_cases hconv : conv = true
    · rw [if_pos hconv]
      exact ⟨st, rfl, hc, hlen, hlt, hpos⟩
    · rw [if_neg hconv]
      obtain ⟨dc, hdc⟩ := recomputeCenters_ok ix indices st B hpos
      rw [hdc]
      simp only
      obtain ⟨r1, r2, r3, _⟩ := reassignPoints_countOK ix indices B hB
        { st with dcenters := dc, radiuses := List.replicate B 0 } true hlen hlt hc
      obtain ⟨st2, conv2, hrep, q1, q2, q3, _, _, _, q7, _⟩ :=
        repairClusters_spec B indices.length
          (reassignPoints ix indices B
            { st with dcenters := dc, radiuses := List.replicate B 0 } true).1
          (reassignPoints ix indices B
            { st with dcenters := dc, radiuses := List.replicate B 0 } true).2 hm r2 r3 r1
      rw [Prod.mk.eta] at hrep
      rw [hrep]
      exact ih conv2 st2 q1 q2 q3 q7

theorem swapAt_map (assign : Nat → Nat) (a : List Nat) (i j : Nat) (hi : i < a.length)
    (hj : j < a.length) : swapAt (a.map assign) i j = (swapAt a i j).map assign := by
  unfold swapAt
  rw [List.map_set, List.map_set, List.getD_eq_getElem _ _ (by simpa using hj),
    List.getD_eq_getElem _ _ (by simpa using hi), List.getD_eq_getElem _ _ hj,
    List.getD_eq_getElem _ _ hi, List.getElem_map, List.getElem_map]

theorem partitionFold_assign (ix : KMeansIndex) (assign : Nat → Nat) (c start : Nat)
    (st0 : PartState) (h0 : PartInv c start 0 st0)
    (ha : st0.belongs_to = st0.indices.map assign) (n : Nat) (hn : n ≤ st0.indices.length) :
    ((List.range n).foldl (partitionStep ix c) st0).belongs_to
      = ((List.range n).foldl (partitionStep ix c) st0).indices.map assign := by
  induction n with
  | zero => exact ha
  | succ n ih =>
    have ih1 := ih (by omega)
    obtain ⟨⟨k0, k1, k2, k3, k4, k5, k6⟩, _, i3, _, _⟩ :=
      partitionFold ix c start st0 h0 n (by omega)
    rw [List.range_succ, List.foldl_append]
    simp only [List.foldl_cons, List.foldl_nil]
    generalize (List.range n).foldl (partitionStep ix c) st0 = st at ih1 k0 k1 k2 k3 k4 k5 k6 i3
    unfold partitionStep
    split
    · rename_i hc
      have hsi : start ≤ n := by
        by_contra hlt
        have := k3 n (by omega)
        omega
      have hei : st.end_ ≤ n := by rw [max_eq_right hsi] at k2; exact k2
      show swapAt st.belongs_to n st.end_ = (swapAt st.indices n st.end_).map assign
      rw [ih1]
      exact swapAt_map assign _ _ _ (by omega) (by omega)
    · exact ih1

/-- What a pass of the partition loop establishes when the assignment of a point is a
function of its id. -/
theorem partitionPass_assign (ix : KMeansIndex) (assign : Nat → Nat) (c start : Nat)
    (indices : List Nat) (hs : start ≤ indices.length)
    (hlo : ∀ p, p < start → assign (indices.getD p 0) < c)
    (hhi : ∀ p, start ≤ p → p < indices.length → c ≤ assign (indices.getD p 0))
    (p : PartState)
    (hp : p = partitionPass ix c
      { indices := indices, belongs_to := indices.map assign, end_ := start, variance := 0 }) :
    p.indices.Perm indices ∧ p.indices.length = indices.length
      ∧ p.indices.take start = indices.take start
      ∧ p.belongs_to = p.indices.map assign
      ∧ start ≤ p.end_ ∧ p.end_ ≤ indices.length
      ∧ (∀ q, q < start → assign (p.indices.getD q 0) < c)
      ∧ (∀ q, start ≤ q → q < p.end_ → assign (p.indices.getD q 0) = c)
      ∧ (∀ q, p.end_ ≤ q → q < indices.length → c < assign (p.indices.getD q 0)) := by
  subst hp
  unfold partitionPass
  dsimp only
  have hmap : ∀ (l : List Nat) (q : Nat), q < l.length →
      (l.map assign).getD q 0 = assign (l.getD q 0) := by
    intro l q hq
    rw [List.getD_eq_getElem _ _ (by simpa using hq), List.getD_eq_getElem _ _ hq,
      List.getElem_map]
  have h0 : PartInv c start 0
      { indices := indices, belongs_to := indices.map assign, end_ := start, variance := 0 } := by
    refine ⟨by simp, le_refl _, by simp, ?_, ?_, ?_, ?_⟩
    · intro q hq
      show (indices.map assign).getD q 0 < c
      rw [hmap _ _ (by omega)]
      exact hlo q hq
    · intro q h1 h2; simp only at h2; omega
    · intro q h1 h2; simp only at h1; rw [max_eq_left (Nat.zero_le _)] at h2; omega
    · intro q h1 h2
      rw [max_eq_left (Nat.zero_le _)] at h1
      show c ≤ (indices.map assign).getD q 0
      simp only [List.length_map] at h2
      rw [hmap _ _ h2]
      exact hhi q h1 h2
  obtain ⟨⟨k0, k1, k2, k3, k4, k5, k6⟩, i2, i3, i4, _⟩ :=
    partitionFold ix c start _ h0 indices.length (le_refl _)
  have ha := partitionFold_assign ix assign c start _ h0 rfl indices.length (le_refl _)
  dsimp only at k0 k1 k2 k3 k4 k5 k6 i2 i3 i4 ha
  rw [max_eq_right hs] at k2 k5 k6
  generalize (List.range indices.length).foldl (partitionStep ix c)
    { indices := indices, belongs_to := indices.map assign, end_ := start, variance := 0 } = p
    at k0 k1 k2 k3 k4 k5 k6 i2 i3 i4 ha
  refine ⟨i2, i3, i4, ha, k1, k2, ?_, ?_, ?_⟩
  · intro q hq
    have := k3 q hq
    rw [ha, hmap _ _ (by omega)] at this
    exact this
  · intro q hq1 hq2
    have := k4 q hq1 hq2
    rw [ha, hmap _ _ (by omega)] at this
    exact this
  · intro q hq1 hq2
    have := k5 q hq1 hq2
    rw [ha, hmap _ _ (by omega)] at this
    exact this

theorem mem_take_getD (l : List Nat) (n x : Nat) (hx : x ∈ l.take n) :
    ∃ q, q < n ∧ q < l.length ∧ l.getD q 0 = x := by
  obtain ⟨q, hq, rfl⟩ := List.getElem_of_mem hx
  rw [List.length_take] at hq
  refine ⟨q, by omega, by omega, ?_⟩
  rw [List.getElem_take, List.getD_eq_getElem _ _ (by omega)]

theorem mem_drop_getD (l : List Nat) (n x : Nat) (hx : x ∈ l.drop n) :
    ∃ q, n ≤ q ∧ q < l.length ∧ l.getD q 0 = x := by
  obtain ⟨q, hq, rfl⟩ := List.getElem_of_mem hx
  rw [List.length_drop] at hq
  refine ⟨n + q, by omega, by omega, ?_⟩
  rw [List.getElem_drop, List.getD_eq_getElem _ _ (by omega)]

/-- In a list whose entries are ordered by cluster around the positions `a` and `b`, the
entries of cluster `c` are those between the two positions. -/
theorem filter_eq_mid (assign : Nat → Nat) (c : Nat) (l : List Nat) (a b : Nat) (hab : a ≤ b)
    (hb : b ≤ l.length)
    (h1 : ∀ q, q < a → assign (l.getD q 0) < c)
    (h2 : ∀ q, a ≤ q → q < b → assign (l.getD q 0) = c)
    (h3 : ∀ q, b ≤ q → q < l.length → c < assign (l.getD q 0)) :
    l.filter (fun x => decide (assign x = c)) = (l.drop a).take (b - a) := by
  conv => lhs; rw [← take_mid_drop l a b hab]
  rw [List.filter_append, List.filter_append]
  have e1 : (l.take a).filter (fun x => decide (assign x = c)) = [] := by
    rw [List.filter_eq_nil_iff]
    intro x hx
    obtain ⟨q, hq1, hq2, rfl⟩ := mem_take_getD l a x hx
    have := h1 q hq1
    simp only [decide_eq_true_eq]
    omega
  have e3 : (l.drop b).filter (fun x => decide (assign x = c)) = [] := by
    rw [List.filter_eq_nil_iff]
    intro x hx
    obtain ⟨q, hq1, hq2, rfl⟩ := mem_drop_getD l b x hx
    have := h3 q hq1 hq2
    simp only [decide_eq_true_eq]
    omega
  have e2 : ((l.drop a).take (b - a)).filter (fun x => decide (assign x = c))
      = (l.drop a).take (b - a) := by
    rw [List.filter_eq_self]
    intro x hx
    obtain ⟨q, hq1, hq2, rfl⟩ := mem_take_getD _ _ x hx
    rw [List.length_drop] at hq2
    have e : (l.drop a).getD q 0 = l.getD (a + q) 0 := by
      rw [List.getD_eq_getElem _ _ (by rw [List.length_drop]; omega),
        List.getD_eq_getElem _ _ (by omega), List.getElem_drop]
    rw [e]
    simp only [decide_eq_true_eq]
    exact h2 (a + q) (by omega) (by omega)
  rw [e1, e2, e3, List.nil_append, List.append_nil]

theorem getD_mem_take (l : List Nat) (n q : Nat) (hq : q < n) (hl : q < l.length) :
    l.getD q 0 ∈ l.take n := by
  rw [List.getD_eq_getElem _ _ hl]
  have : q < (l.take n).length := by rw [List.length_take]; omega
  have e : (l.take n)[q] = l[q] := List.getElem_take ..
  rw [← e]
  exact List.getElem_mem this

theorem getD_mem_drop (l : List Nat) (n q : Nat) (hq : n ≤ q) (hl : q < l.length) :
    l.getD q 0 ∈ l.drop n := by
  rw [List.getD_eq_getElem _ _ hl]
  have h1 : q - n < (l.drop n).length := by rw [List.length_drop]; omega
  have e : (l.drop n)[q - n] = l[q] := by
    rw [List.getElem_drop]
    congr 1
    omega
  rw [← e]
  exact List.getElem_mem h1

/-- The facts about one round of the partition loop: the pass for cluster `c` from the
cursor `start`, followed by the call on the gathered sub-slice, which returns it permuted as
`slice`. -/
theorem childSlice_facts (ix : KMeansIndex) (assign : Nat → Nat) (c start : Nat)
    (indices : List Nat) (hs : start ≤ indices.length)
    (hlo : ∀ x ∈ indices.take start, assign x < c)
    (hhi : ∀ x ∈ indices.drop start, c ≤ assign x)
    (p : PartState)
    (hp : p = partitionPass ix c
      { indices := indices, belongs_to := indices.map assign, end_ := start, variance := 0 })
    (slice : List Nat) (hsl : slice.Perm ((p.indices.drop start).take (p.end_ - start))) :
    start ≤ p.end_ ∧ p.end_ ≤ indices.length
      ∧ ((p.indices.drop start).take (p.end_ - start)).Perm
          (indices.filter (fun x => decide (assign x = c)))
      ∧ p.end_ = start + (indices.filter (fun x => decide (assign x = c))).length
      ∧ (p.indices.take start ++ slice ++ p.indices.drop p.end_).length = indices.length
      ∧ (p.indices.take start ++ slice ++ p.indices.drop p.end_).Perm indices
      ∧ p.belongs_to = (p.indices.take start ++ slice ++ p.indices.drop p.end_).map assign
      ∧ (p.indices.take start ++ slice ++ p.indices.drop p.end_).take p.end_
          = indices.take start ++ slice
      ∧ (∀ x ∈ (p.indices.take start ++ slice ++ p.indices.drop p.end_).take p.end_,
          assign x < c + 1)
      ∧ (∀ x ∈ (p.indices.take start ++ slice ++ p.indices.drop p.end_).drop p.end_,
          c + 1 ≤ assign x) := by
  obtain ⟨q1, q2, q3, q4, q5, q6, q7, q8, q9⟩ := partitionPass_assign ix assign c start indices
    hs (fun q hq => hlo _ (getD_mem_take _ _ _ hq (by omega)))
    (fun q h1 h2 => hhi _ (getD_mem_drop _ _ _ h1 h2)) p hp
  have hfil := filter_eq_mid assign c p.indices start p.end_ q5 (by rw [q2]; exact q6) q7 q8
    (by rw [q2]; exact q9)
  have hsub : ((p.indices.drop start).take (p.end_ - start)).Perm
      (indices.filter (fun x => decide (assign x = c))) := by
    rw [← hfil]
    exact q1.filter _
  have hsublen : ((p.indices.drop start).take (p.end_ - start)).length = p.end_ - start := by
    rw [List.length_take, List.length_drop]; omega
  have hsl2 : slice.length = p.end_ - start := by rw [hsl.length_eq, hsublen]
  have hts : (p.indices.take start).length = start := by rw [List.length_take]; omega
  have hperm : (p.indices.take start ++ slice ++ p.indices.drop p.end_).Perm p.indices := by
    conv => rhs; rw [← take_mid_drop p.indices start p.end_ q5]
    exact (List.Perm.append_left _ hsl).append_right _
  have hmapsl : slice.map assign = ((p.indices.drop start).take (p.end_ - start)).map assign := by
    have hc1 : ∀ x ∈ (p.indices.drop start).take (p.end_ - start), assign x = c := by
      intro x hx
      rw [← hfil] at hx
      simpa using (List.mem_filter.mp hx).2
    have hc2 : ∀ x ∈ slice, assign x = c := fun x hx => hc1 x (hsl.mem_iff.mp hx)
    rw [List.eq_replicate_of_mem (a := c) (l := slice.map assign) (by
        intro y hy
        obtain ⟨x, hx, rfl⟩ := List.mem_map.mp hy
        exact hc2 x hx),
      List.eq_replicate_of_mem (a := c)
        (l := ((p.indices.drop start).take (p.end_ - start)).map assign) (by
        intro y hy
        obtain ⟨x, hx, rfl⟩ := List.mem_map.mp hy
        exact hc1 x hx)]
    simp only [List.length_map, hsl2, hsublen]
  have htake : (p.indices.take start ++ slice ++ p.indices.drop p.end_).take p.end_
      = p.indices.take start ++ slice := by
    rw [List.take_append_of_le_length (by
      simp only [List.length_append, hts, hsl2]; omega)]
    rw [List.take_of_length_le (by
      simp only [List.length_append, hts, hsl2]; omega)]
  have hdrop : (p.indices.take start ++ slice ++ p.indices.drop p.end_).drop p.end_
      = p.indices.drop p.end_ := by
    rw [List.drop_append_of_le_length (by
      simp only [List.length_append, hts, hsl2]; omega)]
    rw [List.drop_of_length_le (by
      simp only [List.length_append, hts, hsl2]; omega)]
    simp
  refine ⟨q5, q6, hsub, ?_, ?_, hperm.trans q1, ?_, by rw [htake, q3], ?_, ?_⟩
  · have := hsub.length_eq
    rw [hsublen] at this
    omega
  · simp only [List.length_append, hts, hsl2, List.length_drop]; omega
  · rw [q4]
    conv => lhs; rw [← take_mid_drop p.indices start p.end_ q5]
    simp only [List.map_append, hmapsl]
  · intro x hx
    rw [htake] at hx
    rcases List.mem_append.mp hx with h | h
    · rw [q3] at h
      have := hlo x h
      omega
    · have hx2 := hsl.mem_iff.mp h
      rw [← hfil] at hx2
      have : assign x = c := by simpa using (List.mem_filter.mp hx2).2
      omega
  · intro x hx
    rw [hdrop] at hx
    obtain ⟨q, hq1, hq2, rfl⟩ := mem_drop_getD _ _ _ hx
    have := q9 q hq1 (by omega)
    omega

theorem slotOffset_succ (assign : Nat → Nat) (indices : List Nat) (c t : Nat) :
    slotOffset assign indices c (t + 1)
      = (indices.filter (fun x => decide (assign x = c))).length
        + slotOffset assign indices (c + 1) t := by
  unfold slotOffset
  rw [List.range_succ_eq_map, List.map_cons, List.sum_cons, List.map_map]
  congr 2
  apply List.map_congr_left
  intro i _
  simp only [Function.comp, Nat.add_zero]
  have : c + 1 + i = c + (i + 1) := by omega
  rw [this]

theorem slotOffset_perm (assign : Nat → Nat) {a b : List Nat} (h : a.Perm b) (c t : Nat) :
    slotOffset assign a c t = slotOffset assign b c t := by
  unfold slotOffset
  congr 1
  apply List.map_congr_left
  intro i _
  exact (h.filter _).length_eq

theorem clusterChildren_slices (ix : KMeansIndex) (B D : Nat)
    (recurse : BuildState → List Nat → Nat → NodeStats → Nat → ClusteringResult)
    (off level : Nat) (centers : List Vec) (radiuses : List ℚ) (count : List Int)
    (assign : Nat → Nat)
    (Q : List Nat → Nat → NodeStats → KMeansNode → List Nat → Prop)
    (hrec : ∀ bs sub o stats node slice bs1,
      recurse bs sub o stats (level + 1) = Except.ok (node, slice, bs1) →
      stats.pivot.length = D → slice.Perm sub ∧ Q sub o stats node slice)
    (hcent : ∀ c, c < B → (centers.getD c []).length = D) :
    ∀ (n c : Nat) (indices : List Nat) (start : Nat) (bs : BuildState)
      (childs : List KMeansNode) (indices1 : List Nat) (bs2 : BuildState),
      c + n = B → start ≤ indices.length →
      (∀ x ∈ indices.take start, assign x < c) →
      (∀ x ∈ indices.drop start, c ≤ assign x) →
      clusterChildren ix recurse off level centers radiuses count (List.range' c n)
        indices (indices.map assign) start bs = Except.ok (childs, indices1, bs2) →
      indices1.Perm indices ∧ indices1.take start = indices.take start
        ∧ indices1.length = indices.length ∧ childs.length = n
        ∧ ∀ t, t < n → ∃ child sub stats slice,
            childs[t]? = some child
            ∧ Q sub (off + (start + slotOffset assign indices c t)) stats child slice
            ∧ stats.pivot = centers.getD (c + t) [] ∧ stats.radius = radiuses.getD (c + t) 0
            ∧ sub.Perm (indices.filter (fun x => decide (assign x = c + t)))
            ∧ (indices1.drop (start + slotOffset assign indices c t)).take sub.length
                = slice := by
  intro n
  induction n with
  | zero =>
    intro c indices start bs childs indices1 bs2 hc hs hlo hhi h
    simp only [List.range'_zero, clusterChildren, Except.ok.injEq, Prod.mk.injEq] at h
    obtain ⟨h1, h2, _⟩ := h
    subst h1 h2
    exact ⟨List.Perm.refl _, rfl, rfl, rfl, fun t ht => absurd ht (by omega)⟩
  | succ n ih =>
    intro c indices start bs childs indices1 bs2 hc hs hlo hhi h
    rw [List.range'_succ] at h
    simp only [clusterChildren] at h
    generalize hp : partitionPass ix c
      { indices := indices, belongs_to := indices.map assign, end_ := start, variance := 0 } = p
      at h
    split at h
    · exact absurd h (by simp)
    · rename_i child slice bs1 hr
      obtain ⟨r1, r2⟩ := hrec _ _ _ _ _ _ _ hr (hcent c (by omega))
      obtain ⟨f1, f2, f3, f4, f5, f6, f7, f8, f9, f10⟩ :=
        childSlice_facts ix assign c start indices hs hlo hhi p hp.symm slice r1
      split at h
      · exact absurd h (by simp)
      · rename_i rest indices2 bs3 hr2
        simp only [Except.ok.injEq, Prod.mk.injEq] at h
        obtain ⟨h1, h2, h3⟩ := h
        subst h1 h2 h3
        rw [f7] at hr2
        obtain ⟨i1, i2, i3, i4, i5⟩ := ih (c + 1) _ p.end_ bs1 rest indices2 bs3
          (by omega) (by rw [f5]; exact f2) f9 f10 hr2
        have hsl : slice.length = (indices.filter (fun x => decide (assign x = c))).length :=
          (r1.trans f3).length_eq
        have htk : indices2.take p.end_ = indices.take start ++ slice := by rw [i2, f8]
        have hts : (indices.take start).length = start := by rw [List.length_take]; omega
        have hdecomp : indices2 = (indices.take start ++ slice) ++ indices2.drop p.end_ := by
          rw [← htk, List.take_append_drop]
        refine ⟨i1.trans f6, ?_, by rw [i3, f5], by simp [i4], ?_⟩
        · rw [hdecomp, List.append_assoc, List.take_append_of_le_length (by omega),
            List.take_of_length_le (by omega)]
        · intro t ht
          cases t with
          | zero =>
            refine ⟨child, (p.indices.drop start).take (p.end_ - start),
              { pivot := centers.getD c [], radius := radiuses.getD c 0
                variance := p.variance / ((count.getD c 0 : Int) : ℚ)
                  - ix.distance (centers.getD c []) ZeroIterator ix.veclen_ },
              slice, by simp, ?_, rfl, rfl, ?_, ?_⟩
            · have e : off + (start + slotOffset assign indices c 0) = off + start := by
                simp [slotOffset]
              rw [e]
              exact r2
            · exact f3
            · have e : start + slotOffset assign indices c 0 = start := by simp [slotOffset]
              rw [e, (f3).length_eq, ← hsl]
              conv => lhs; rw [hdecomp, List.append_assoc]
              rw [List.drop_append_of_le_length (by omega), List.drop_of_length_le (by omega),
                List.nil_append, List.take_append_of_le_length (le_refl _),
                List.take_of_length_le (le_refl _)]
          | succ t =>
            obtain ⟨ch, sub, stats, sl, e1, e2, e3, e4, e5, e6⟩ := i5 t (by omega)
            have eoff : p.end_ + slotOffset assign
                (p.indices.take start ++ slice ++ p.indices.drop p.end_) (c + 1) t
                = start + slotOffset assign indices c (t + 1) := by
              rw [slotOffset_succ, slotOffset_perm assign f6, f4]
              omega
            have ec : c + 1 + t = c + (t + 1) := by omega
            rw [eoff] at e2 e6
            rw [ec] at e3 e4 e5
            refine ⟨ch, sub, stats, sl, ?_, e2, e3, e4, e5.trans (f6.filter _), e6⟩
            simpa using e1

theorem count_map_eq_filter (assign : Nat → Nat) (l : List Nat) (c : Nat) :
    (l.map assign).count c = (l.filter (fun x => decide (assign x = c))).length := by
  induction l with
  | nil => rfl
  | cons a l ih =>
    rw [List.map_cons, List.count_cons, ih, List.filter_cons]
    by_cases h : assign a = c
    · simp [h]
    · simp [h]

theorem slotOffset_eq_sum (assign : Nat → Nat) (indices : List Nat) (count : List Int) (B : Nat)
    (hcount : ∀ c, c < B → count.getD c 0 = ((indices.map assign).count c : Int)) :
    ∀ t, t ≤ B → ((slotOffset assign indices 0 t : Nat) : Int)
      = ((List.range t).map (fun i => count.getD i 0)).sum := by
  intro t
  induction t with
  | zero => intro _; simp [slotOffset]
  | succ t ih =>
    intro ht
    have e := ih (by omega)
    unfold slotOffset at e ⊢
    rw [List.range_succ, List.map_append, List.sum_append, List.map_append, List.sum_append,
      Nat.cast_add, e]
    simp only [List.map_cons, List.map_nil, List.sum_cons, List.sum_nil, Nat.add_zero,
      Nat.zero_add, add_zero]
    rw [hcount t (by omega), count_map_eq_filter]

/-- The partition loop of a split: the children and the sub-slices they are built on. -/
theorem clusterChildren_contiguous (ix : KMeansIndex) (B fuel off level : Nat)
    (centers : List Vec) (radiuses : List ℚ) (count : List Int) (indices belongs_to : List Nat)
    (bs : BuildState) (childs : List KMeansNode) (indices1 : List Nat) (bs2 : BuildState)
    (assign : Nat → Nat) (hB : 1 ≤ B)
    (hcent : ∀ c, c < B → (centers.getD c []).length = ix.veclen_)
    (hbt : belongs_to = indices.map assign)
    (hcount : ∀ c, c < B → count.getD c 0 = (belongs_to.count c : Int))
    (h : clusterChildren ix (computeClustering ix B fuel) off level centers radiuses count
      (List.range B) indices belongs_to 0 bs = Except.ok (childs, indices1, bs2)) :
    indices1.Perm indices ∧ childs.length = B
      ∧ ∀ c, c < B → ∃ (s : Nat) (child : KMeansNode) (sub : List Nat) (stats : NodeStats)
          (slice : List Nat) (bs_c bs_d : BuildState),
          (s : Int) = ((List.range c).map (fun i => count.getD i 0)).sum
          ∧ (sub.length : Int) = count.getD c 0
          ∧ sub.Perm (indices.filter (fun id => decide (assign id = c)))
          ∧ childs[c]? = some child
          ∧ stats.pivot = centers.getD c [] ∧ stats.radius = radiuses.getD c 0
          ∧ computeClustering ix B fuel bs_c sub (off + s) stats (level + 1)
              = Except.ok (child, slice, bs_d)
          ∧ slice.Perm sub
          ∧ (indices1.drop s).take sub.length = slice := by
  subst hbt
  rw [List.range_eq_range'] at h
  obtain ⟨i1, _, _, i4, i5⟩ := clusterChildren_slices ix B ix.veclen_
    (computeClustering ix B fuel) off level centers radiuses count assign
    (fun sub o stats node slice => slice.Perm sub ∧ ∃ bs_c bs_d,
      computeClustering ix B fuel bs_c sub o stats (level + 1) = Except.ok (node, slice, bs_d))
    (fun bs sub o stats node slice bs1 hr hpl =>
      ⟨(computeClustering_spec ix B hB fuel bs sub o stats (level + 1) node slice bs1 hr hpl).1,
        (computeClustering_spec ix B hB fuel bs sub o stats (level + 1) node slice bs1 hr hpl).1,
        bs, bs1, hr⟩)
    hcent B 0 indices 0 bs childs indices1 bs2 (by omega) (Nat.zero_le _)
    (fun x hx => by simp at hx) (fun x _ => Nat.zero_le _) h
  refine ⟨i1, i4, fun c hc => ?_⟩
  obtain ⟨child, sub, stats, slice, e1, ⟨e2, bs_c, bs_d, e3⟩, e4, e5, e6, e7⟩ := i5 c hc
  simp only [Nat.zero_add] at e3 e4 e5 e6 e7
  refine ⟨slotOffset assign indices 0 c, child, sub, stats, slice, bs_c, bs_d,
    slotOffset_eq_sum assign indices count B hcount c (by omega), ?_, e6, e1, e4, e5, e3, e2, e7⟩
  rw [hcount c hc, count_map_eq_filter, e6.length_eq]

/-- For a slice of distinct ids the assignment of the points is a function of the id. -/
theorem assignment_of_nodup (indices bt : List Nat) (hn : indices.Nodup)
    (hl : bt.length = indices.length) :
    bt = indices.map (fun id => bt.getD (indices.indexOf id) 0) := by
  apply List.ext_getElem (by simp [hl])
  intro i h1 h2
  rw [List.getElem_map, List.indexOf_getElem hn, List.getD_eq_getElem _ _ h1]

/-- The node that `computeClustering` returns keeps the statistics, the size and the level
it was called with. -/
theorem computeClustering_stats (ix : KMeansIndex) (B fuel : Nat) (bs : BuildState)
    (indices : List Nat) (off : Nat) (stats : NodeStats) (level : Nat) (node : KMeansNode)
    (slice : List Nat) (bs1 : BuildState)
    (h : computeClustering ix B fuel bs indices off stats level = Except.ok (node, slice, bs1)) :
    node.pivot = stats.pivot ∧ node.radius = stats.radius ∧ node.variance = stats.variance
      ∧ node.size = indices.length ∧ node.level = level := by
  cases fuel with
  | zero => simp [computeClustering] at h
  | succ fuel =>
    simp only [computeClustering] at h
    split at h
    · simp only [makeLeaf, Except.ok.injEq, Prod.mk.injEq] at h
      obtain ⟨h1, _, _⟩ := h
      subst h1
      exact ⟨rfl, rfl, rfl, rfl, rfl⟩
    · split at h
      · simp only [makeLeaf, Except.ok.injEq, Prod.mk.injEq] at h
        obtain ⟨h1, _, _⟩ := h
        subst h1
        exact ⟨rfl, rfl, rfl, rfl, rfl⟩
      · split at h
        · exact absurd h (by simp)
        · split at h
          · exact absurd h (by simp)
          · simp only [Except.ok.injEq, Prod.mk.injEq] at h
            obtain ⟨h1, _, _⟩ := h
            subst h1
            exact ⟨rfl, rfl, rfl, rfl, rfl⟩

theorem zero_iterations_core (ix : KMeansIndex) (B fuel : Nat) (bs : BuildState)
    (indices : List Nat) (off : Nat) (stats : NodeStats) (level : Nat) (node : KMeansNode)
    (indices1 : List Nat) (bs1 : BuildState) (childs : List KMeansNode)
    (hB : 1 ≤ B) (hit : ix.max_iter = 0)
    (h : computeClustering ix B (fuel + 1) bs indices off stats level
      = Except.ok (node, indices1, bs1))
    (hsplit : node.childs = some childs) :
    (∀ st0, lloydLoop ix indices B ix.max_iter false st0 = Except.ok st0)
      ∧ childs.length = B ∧ indices1.Perm indices
      ∧ ∀ c, c < B → ∃ (child : KMeansNode) (sub slice : List Nat) (s : Nat)
          (stats_c : NodeStats) (bs_c bs_d : BuildState),
          childs[c]? = some child
          ∧ computeClustering ix B fuel bs_c sub (off + s) stats_c (level + 1)
              = Except.ok (child, slice, bs_d)
          ∧ slice.Perm sub
          ∧ sub.Perm (indices.filter (fun id => decide ((nearestCenter ix (ix.dataset.row id)
              (seedRows ix B (callChooseCenters ix B indices bs.rng).1) B).1 = c)))
          ∧ child.pivot = (List.range ix.veclen_).map (fun k =>
              vget (ix.dataset.row ((callChooseCenters ix B indices bs.rng).1.getD c 0)) k)
          ∧ (∀ id ∈ sub, ix.distance (ix.dataset.row id) child.pivot ix.veclen_ ≤ child.radius)
          ∧ (child.radius = 0 ∨ ∃ id ∈ sub,
              ix.distance (ix.dataset.row id) child.pivot ix.veclen_ = child.radius) := by
  have hloop : ∀ st0, lloydLoop ix indices B ix.max_iter false st0 = Except.ok st0 := by
    intro st0
    rw [hit]
    rfl
  simp only [computeClustering] at h
  split at h
  · simp only [makeLeaf, Except.ok.injEq, Prod.mk.injEq] at h
    obtain ⟨h1, _, _⟩ := h
    subst h1
    exact absurd hsplit (by simp [KMeansNode.childs])
  · split at h
    · simp only [makeLeaf, Except.ok.injEq, Prod.mk.injEq] at h
      obtain ⟨h1, _, _⟩ := h
      subst h1
      exact absurd hsplit (by simp [KMeansNode.childs])
    · rw [hloop] at h
      simp only at h
      split at h
      · exact absurd h (by simp)
      · rename_i childs1 indices2 bs2 hch
        simp only [Except.ok.injEq, Prod.mk.injEq] at h
        obtain ⟨h1, h2, _⟩ := h
        subst h1 h2
        simp only [KMeansNode.childs, Option.some.injEq] at hsplit
        subst hsplit
        change clusterChildren ix (computeClustering ix B fuel) off level
          (assignPoints ix indices (seedRows ix B (callChooseCenters ix B indices bs.rng).1)
            B).dcenters
          (assignPoints ix indices (seedRows ix B (callChooseCenters ix B indices bs.rng).1)
            B).radiuses
          (assignPoints ix indices (seedRows ix B (callChooseCenters ix B indices bs.rng).1)
            B).count (List.range B) indices
          (assignPoints ix indices (seedRows ix B (callChooseCenters ix B indices bs.rng).1)
            B).belongs_to 0 _ = _ at hch
        generalize hdc : seedRows ix B (callChooseCenters ix B indices bs.rng).1 = dc at hch ⊢
        obtain ⟨a1, a2, a3, a4, a5, a6⟩ := assignPoints_spec ix indices dc B hB
        have hcent : ∀ c, c < B → (dc.getD c []).length = ix.veclen_ := by
          intro c hc
          rw [← hdc]
          exact rows_shape B ix.veclen_ c _ hc
        have hbt : (assignPoints ix indices dc B).belongs_to
            = indices.map (fun id => (nearestCenter ix (ix.dataset.row id) dc B).1) := by
          apply List.ext_getElem (by simp [a2])
          intro i h1 h2
          have := a3 i (by omega)
          rw [List.getD_eq_getElem _ _ h1, List.getD_eq_getElem _ _ (by omega)] at this
          rw [this, List.getElem_map]
        rw [a1] at hch
        obtain ⟨c1, c2, c3⟩ := clusterChildren_contiguous ix B fuel off level dc _ _ indices _ _
          _ _ _ (fun id => (nearestCenter ix (ix.dataset.row id) dc B).1) hB hcent
          hbt a4.2 hch
        refine ⟨hloop, c2, c1, fun c hc => ?_⟩
        obtain ⟨s, child, sub, stats_c, slice, bs_c, bs_d, _, _, e3, e4, e5, e6, e7, e8, _⟩ :=
          c3 c hc
        obtain ⟨p1, p2, _⟩ := computeClustering_stats ix B fuel bs_c sub (off + s) stats_c
          (level + 1) child slice bs_d e7
        have hpiv : child.pivot = dc.getD c [] := by rw [p1, e5]
        have hrow : dc.getD c [] = (List.range ix.veclen_).map (fun k =>
            vget (ix.dataset.row ((callChooseCenters ix B indices bs.rng).1.getD c 0)) k) := by
          rw [← hdc]
          unfold seedRows
          rw [List.getD_eq_getElem _ _ (by simpa using hc)]
          simp
        have hmem : ∀ id ∈ sub, ∃ i, i < indices.length ∧ indices.getD i 0 = id
            ∧ (assignPoints ix indices dc B).belongs_to.getD i 0 = c := by
          intro id hid
          have h1 := List.mem_filter.mp (e3.mem_iff.mp hid)
          obtain ⟨i, hi, hget⟩ := List.getElem_of_mem h1.1
          refine ⟨i, hi, by rw [List.getD_eq_getElem _ _ hi, hget], ?_⟩
          rw [a3 i hi, List.getD_eq_getElem _ _ hi, hget]
          simpa using h1.2
        have hdist : ∀ i, i < indices.length →
            (assignPoints ix indices dc B).belongs_to.getD i 0 = c →
            (nearestCenter ix (ix.dataset.row (indices.getD i 0)) dc B).2
              = ix.distance (ix.dataset.row (indices.getD i 0)) child.pivot ix.veclen_ := by
          intro i hi hbi
          rw [(nearestCenter_spec ix _ dc B hB).2.1, ← a3 i hi, hbi, hpiv]
        obtain ⟨r1, r2⟩ := a6 c hc
        refine ⟨child, sub, slice, s, stats_c, bs_c, bs_d, e4, e7, e8, e3, hpiv.trans hrow,
          ?_, ?_⟩
        · intro id hid
          obtain ⟨i, hi, hget, hbi⟩ := hmem id hid
          have := r1 i hi hbi
          rw [hdist i hi hbi, hget] at this
          rw [p2, e6]
          exact this
        · rw [p2, e6]
          rcases r2 with r2 | ⟨i, hi, hbi, hv⟩
          · exact Or.inl r2
          · right
            refine ⟨indices.getD i 0, ?_, ?_⟩
            · apply e3.mem_iff.mpr
              apply List.mem_filter.mpr
              refine ⟨by rw [List.getD_eq_getElem _ _ hi]; exact List.getElem_mem hi, ?_⟩
              rw [← a3 i hi, hbi]
              simp
            · rw [← hdist i hi hbi]
              exact hv

/-- C23: with `iterations = 0` the Lloyd loop returns the first assignment unchanged (no
recomputation of the centres, no repair), and for every call of `computeClustering` that
splits its node: child `c` is built on exactly the ids of the slice whose nearest seed row,
the lowest index among the nearest, is `c`; its pivot is the dataset row of seed `c`; and its
radius is the largest distance of these ids to that row (0 when the child has no id at a
positive distance). -/
theorem zero_iterations_split_by_nearest_seed (ix : KMeansIndex) (B fuel : Nat)
    (bs : BuildState) (indices : List Nat) (off : Nat) (stats : NodeStats) (level : Nat)
    (node : KMeansNode) (indices1 : List Nat) (bs1 : BuildState) (childs : List KMeansNode)
    (hB : 1 ≤ B) (hit : ix.max_iter = 0)
    (h : computeClustering ix B (fuel + 1) bs indices off stats level
      = Except.ok (node, indices1, bs1))
    (hsplit : node.childs = some childs) :
    (∀ st0, lloydLoop ix indices B ix.max_iter false st0 = Except.ok st0)
      ∧ childs.length = B ∧ indices1.Perm indices
      ∧ (∀ c, c < B → ∃ (child : KMeansNode) (sub slice : List Nat) (s : Nat)
          (stats_c : NodeStats) (bs_c bs_d : BuildState),
          childs[c]? = some child
          ∧ computeClustering ix B fuel bs_c sub (off + s) stats_c (level + 1)
              = Except.ok (child, slice, bs_d)
          ∧ slice.Perm sub
          ∧ sub.Perm (indices.filter (fun id => decide ((nearestCenter ix (ix.dataset.row id)
              (seedRows ix B (callChooseCenters ix B indices bs.rng).1) B).1 = c)))
          ∧ child.pivot = (List.range ix.veclen_).map (fun k =>
              vget (ix.dataset.row ((callChooseCenters ix B indices bs.rng).1.getD c 0)) k)
          ∧ (∀ id ∈ sub, ix.distance (ix.dataset.row id) child.pivot ix.veclen_ ≤ child.radius)
          ∧ (child.radius = 0 ∨ ∃ id ∈ sub,
              ix.distance (ix.dataset.row id) child.pivot ix.veclen_ = child.radius))
      ∧ ∀ (x : Vec) (dc : List Vec),
          (nearestCenter ix x dc B).1 < B
          ∧ (∀ j, j < B → ix.distance x (dc.getD (nearestCenter ix x dc B).1 []) ix.veclen_
              ≤ ix.distance x (dc.getD j []) ix.veclen_)
          ∧ ∀ j, j < (nearestCenter ix x dc B).1 →
              ix.distance x (dc.getD (nearestCenter ix x dc B).1 []) ix.veclen_
                < ix.distance x (dc.getD j []) ix.veclen_ := by
  obtain ⟨h1, h2, h3, h4⟩ := zero_iterations_core ix B fuel bs indices off stats level node
    indices1 bs1 childs hB hit h hsplit
  refine ⟨h1, h2, h3, h4, fun x dc => ?_⟩
  obtain ⟨n1, n2, n3, n4⟩ := nearestCenter_spec ix x dc B hB
  rw [n2] at n3 n4
  exact ⟨n1, n3, n4⟩

theorem zero_iterations_split_by_nearest_seed_witness :
    (∀ st0, lloydLoop indexS0 (List.range 4) 2 indexS0.max_iter false st0 = Except.ok st0)
      ∧ ((okValue rootCallS0 (KMeansNode.mk [] 0 0 0 0 none none, [],
          { rng := [], memoryCounter := 0 })).1.childs.getD []).length = 2
      ∧ (okValue rootCallS0 (KMeansNode.mk [] 0 0 0 0 none none, [],
          { rng := [], memoryCounter := 0 })).2.1.Perm (List.range 4)
      ∧ (∀ c, c < 2 → ∃ (child : KMeansNode) (sub slice : List Nat) (s : Nat)
          (stats_c : NodeStats) (bs_c bs_d : BuildState),
          ((okValue rootCallS0 (KMeansNode.mk [] 0 0 0 0 none none, [],
            { rng := [], memoryCounter := 0 })).1.childs.getD [])[c]? = some child
          ∧ computeClustering indexS0 2 4 bs_c sub (0 + s) stats_c (0 + 1)
              = Except.ok (child, slice, bs_d)
          ∧ slice.Perm sub
          ∧ sub.Perm ((List.range 4).filter (fun id => decide ((nearestCenter indexS0
              (indexS0.dataset.row id) (seedRows indexS0 2 (callChooseCenters indexS0 2
                (List.range 4) ({ rng := [], memoryCounter := 0 } : BuildState).rng).1) 2).1
                = c)))
          ∧ child.pivot = (List.range indexS0.veclen_).map (fun k =>
              vget (indexS0.dataset.row ((callChooseCenters indexS0 2 (List.range 4)
                ({ rng := [], memoryCounter := 0 } : BuildState).rng).1.getD c 0)) k)
          ∧ (∀ id ∈ sub, indexS0.distance (indexS0.dataset.row id) child.pivot indexS0.veclen_
              ≤ child.radius)
          ∧ (child.radius = 0 ∨ ∃ id ∈ sub,
              indexS0.distance (indexS0.dataset.row id) child.pivot indexS0.veclen_
                = child.radius))
      ∧ ∀ (x : Vec) (dc : List Vec),
          (nearestCenter indexS0 x dc 2).1 < 2
          ∧ (∀ j, j < 2 →
              indexS0.distance x (dc.getD (nearestCenter indexS0 x dc 2).1 []) indexS0.veclen_
                ≤ indexS0.distance x (dc.getD j []) indexS0.veclen_)
          ∧ ∀ j, j < (nearestCenter indexS0 x dc 2).1 →
              indexS0.distance x (dc.getD (nearestCenter indexS0 x dc 2).1 []) indexS0.veclen_
                < indexS0.distance x (dc.getD j []) indexS0.veclen_ :=
  zero_iterations_split_by_nearest_seed indexS0 2 4 { rng := [], memoryCounter := 0 }
    (List.range 4) 0 (computeNodeStatistics indexS0 (List.range 4) 4) 0 _ _ _ _
    (by decide) rfl
    (eq_ok_of_isOk rootCallS0 (KMeansNode.mk [] 0 0 0 0 none none, [],
      { rng := [], memoryCounter := 0 }) (by decide!))
    (eq_some_of_isSome _ [] (by decide!))

theorem chooseCentersKMeansppLoop_length (ix : KMeansIndex) (indices : List Nat) :
    ∀ (todo : Nat) (centers : List Nat) (cl : List ℚ) (pot : ℚ) (g : Rng),
      (chooseCentersKMeansppLoop ix indices todo centers cl pot g).1.length
        = centers.length + todo := by
  intro todo
  induction todo with
  | zero => intro centers cl pot g; rfl
  | succ todo ih =>
    intro centers cl pot g
    simp only [chooseCentersKMeansppLoop]
    rw [ih, List.length_append, List.length_singleton]
    omega

/-- The k-means++ seeder reports `k` centres whatever the points are: it has no test for
duplicates. -/
theorem chooseCentersKMeanspp_length (ix : KMeansIndex) (k : Nat) (indices : List Nat)
    (g : Rng) (hk : 1 ≤ k) : (chooseCentersKMeanspp ix k indices g).1.length = k := by
  unfold chooseCentersKMeanspp
  simp only
  rw [chooseCentersKMeansppLoop_length, List.length_singleton]
  omega

theorem kmeansppWalk_le (cl : List ℚ) :
    ∀ (steps index : Nat) (r : ℚ), kmeansppWalk cl steps index r ≤ index + steps := by
  intro steps
  induction steps with
  | zero => intro index r; simp [kmeansppWalk]
  | succ steps ih =>
    intro index r
    simp only [kmeansppWalk]
    split
    · omega
    · have := ih (index + 1) (r - cl.getD index 0)
      omega

theorem chooseCentersKMeansppLoop_mem (ix : KMeansIndex) (indices : List Nat)
    (hne : 1 ≤ indices.length) :
    ∀ (todo : Nat) (centers : List Nat) (cl : List ℚ) (pot : ℚ) (g : Rng),
      (∀ x ∈ centers, x ∈ indices) →
      ∀ x ∈ (chooseCentersKMeansppLoop ix indices todo centers cl pot g).1, x ∈ indices := by
  intro todo
  induction todo with
  | zero => intro centers cl pot g h; exact h
  | succ todo ih =>
    intro centers cl pot g h
    simp only [chooseCentersKMeansppLoop]
    apply ih
    intro x hx
    rcases List.mem_append.mp hx with h1 | h1
    · exact h x h1
    · rw [List.mem_singleton] at h1
      rw [h1]
      have hw := kmeansppWalk_le cl (indices.length - 1) 0 (rand_double pot g).1
      rw [List.getD_eq_getElem _ _ (by omega)]
      exact List.getElem_mem _

/-- Every centre that the k-means++ seeder returns is an id of the slice. -/
theorem chooseCentersKMeanspp_mem (ix : KMeansIndex) (k : Nat) (indices : List Nat)
    (g : Rng) (hne : 1 ≤ indices.length) :
    ∀ x ∈ (chooseCentersKMeanspp ix k indices g).1, x ∈ indices := by
  unfold chooseCentersKMeanspp
  simp only
  apply chooseCentersKMeansppLoop_mem ix indices hne
  intro x hx
  rw [List.mem_singleton] at hx
  rw [hx]
  have : (rand_int indices.length g).1 < indices.length := by
    simp only [rand_int]
    exact Nat.mod_lt _ (by omega)
  rw [List.getD_eq_getElem _ _ this]
  exact List.getElem_mem _

/-- When all seed rows are the same, every point is assigned to cluster 0. -/
theorem nearestCenter_identical (ix : KMeansIndex) (x : Vec) (dc : List Vec) (B : Nat)
    (hB : 1 ≤ B) (v : Vec) (hdc : ∀ c, c < B → dc.getD c [] = v) :
    (nearestCenter ix x dc B).1 = 0 := by
  obtain ⟨n1, n2, _, n4⟩ := nearestCenter_spec ix x dc B hB
  by_contra hne
  have := n4 0 (by omega)
  rw [n2, hdc _ n1, hdc 0 (by omega)] at this
  exact lt_irrefl _ this

theorem seedRows_identical (ix : KMeansIndex) (B : Nat) (seeds indices : List Nat) (r0 : Vec)
    (hlen : seeds.length = B) (hmem : ∀ x ∈ seeds, x ∈ indices)
    (hrows : ∀ id ∈ indices, ix.dataset.row id = r0) :
    ∀ c, c < B → (seedRows ix B seeds).getD c []
      = (List.range ix.veclen_).map (fun k => vget r0 k) := by
  intro c hc
  unfold seedRows
  rw [List.getD_eq_getElem _ _ (by simpa using hc)]
  simp only [List.getElem_map, List.getElem_range]
  have : seeds.getD c 0 ∈ indices := by
    rw [List.getD_eq_getElem _ _ (by omega)]
    exact hmem _ (List.getElem_mem _)
  rw [hrows _ this]

/-- The first assignment on a slice of identical rows seeded by rows of the slice: every
point is in cluster 0. -/
theorem assignPoints_identical (ix : KMeansIndex) (B : Nat) (hB : 1 ≤ B)
    (seeds indices : List Nat) (r0 : Vec) (hlen : seeds.length = B)
    (hmem : ∀ x ∈ seeds, x ∈ indices) (hrows : ∀ id ∈ indices, ix.dataset.row id = r0) :
    (assignPoints ix indices (seedRows ix B seeds) B).belongs_to = indices.map (fun _ => 0)
      ∧ CountOK B (assignPoints ix indices (seedRows ix B seeds) B) := by
  obtain ⟨_, a2, a3, a4, _⟩ := assignPoints_spec ix indices (seedRows ix B seeds) B hB
  refine ⟨?_, a4⟩
  apply List.ext_getElem (by simp [a2])
  intro i h1 h2
  have := a3 i (by omega)
  rw [List.getD_eq_getElem _ _ h1] at this
  rw [this, List.getElem_map]
  exact nearestCenter_identical ix _ _ B hB _
    (seedRows_identical ix B seeds indices r0 hlen hmem hrows)

theorem callChooseCenters_kmeanspp (ix : KMeansIndex) (B : Nat) (indices : List Nat) (g : Rng)
    (hk : ix.chooseCenters = flann_centers_init_t.FLANN_CENTERS_KMEANSPP) (hB : 1 ≤ B)
    (hne : 1 ≤ indices.length) :
    (callChooseCenters ix B indices g).1.length = B
      ∧ ∀ x ∈ (callChooseCenters ix B indices g).1, x ∈ indices := by
  unfold callChooseCenters
  rw [hk]
  exact ⟨chooseCentersKMeanspp_length ix B indices g hB,
    chooseCentersKMeanspp_mem ix B indices g hne⟩

/-- With k-means++ seeding, a slice of at least `B >= 2` identical rows and at least one
Lloyd iteration, the first recomputation of the centres divides by the count 0 of an empty
cluster. -/
theorem computeClustering_kmeanspp_nan (ix : KMeansIndex) (B : Nat) (hB : 2 ≤ B)
    (hk : ix.chooseCenters = flann_centers_init_t.FLANN_CENTERS_KMEANSPP)
    (hit : 1 ≤ ix.max_iter) (hv : 0 < ix.veclen_) (r0 : Vec) (fuel : Nat) (bs : BuildState)
    (indices : List Nat) (off : Nat) (stats : NodeStats) (level : Nat)
    (hlen : B ≤ indices.length) (hrows : ∀ id ∈ indices, ix.dataset.row id = r0) :
    computeClustering ix B (fuel + 1) bs indices off stats level = Except.error Err.nan := by
  obtain ⟨s1, s2⟩ := callChooseCenters_kmeanspp ix B indices bs.rng hk (by omega) (by omega)
  obtain ⟨a1, a2⟩ := assignPoints_identical ix B (by omega) _ indices r0 s1 s2 hrows
  have hl : lloydLoop ix indices B ix.max_iter false
      (assignPoints ix indices (seedRows ix B (callChooseCenters ix B indices bs.rng).1) B)
      = Except.error Err.nan := by
    obtain ⟨m, hm⟩ : ∃ m, ix.max_iter = m + 1 := ⟨ix.max_iter - 1, by omega⟩
    rw [hm]
    simp only [lloydLoop, Bool.false_eq_true, if_false]
    have hrc : recomputeCenters ix indices
        (assignPoints ix indices (seedRows ix B (callChooseCenters ix B indices bs.rng).1) B) B
        = Except.error Err.nan := by
      unfold recomputeCenters
      rw [if_pos]
      refine ⟨hv, ?_⟩
      rw [List.any_eq_true]
      refine ⟨1, List.mem_range.mpr (by omega), ?_⟩
      simp only [decide_eq_true_eq]
      rw [a2.2 1 (by omega), a1]
      simp [List.count_replicate]
    rw [hrc]
  simp only [computeClustering]
  split
  · omega
  · split
    · omega
    · split
      · rename_i e he
        have := hl.symm.trans he
        simp only [Except.error.injEq] at this
        rw [this]
      · rename_i st he
        exact absurd (hl.symm.trans he) (by simp)

theorem clusterChildren_head_error (ix : KMeansIndex)
    (recurse : BuildState → List Nat → Nat → NodeStats → Nat → ClusteringResult)
    (off level : Nat) (centers : List Vec) (radiuses : List ℚ) (count : List Int)
    (c : Nat) (cs indices bt : List Nat) (start : Nat) (bs : BuildState) (e : Err)
    (h : ∀ stats, recurse bs
      (((partitionPass ix c
          { indices := indices, belongs_to := bt, end_ := start, variance := 0 }).indices.drop
            start).take
        ((partitionPass ix c
          { indices := indices, belongs_to := bt, end_ := start, variance := 0 }).end_ - start))
      (off + start) stats (level + 1) = Except.error e) :
    clusterChildren ix recurse off level centers radiuses count (c :: cs) indices bt start bs
      = Except.error e := by
  simp only [clusterChildren]
  rw [h]

/-- With k-means++ seeding and `iterations = 0`, `computeClustering` on a slice of at least
`B` identical rows passes the whole slice to child 0 and so never returns: every amount of
fuel runs out. -/
theorem computeClustering_kmeanspp_hang (ix : KMeansIndex) (B : Nat) (hB : 1 ≤ B)
    (hk : ix.chooseCenters = flann_centers_init_t.FLANN_CENTERS_KMEANSPP)
    (hit : ix.max_iter = 0) (r0 : Vec) :
    ∀ (fuel : Nat) (bs : BuildState) (indices : List Nat) (off : Nat) (stats : NodeStats)
      (level : Nat), B ≤ indices.length → (∀ id ∈ indices, ix.dataset.row id = r0) →
      computeClustering ix B fuel bs indices off stats level
        = Except.error Err.outOfFuel := by
  intro fuel
  induction fuel with
  | zero => intro bs indices off stats level _ _; rfl
  | succ fuel ih =>
    intro bs indices off stats level hlen hrows
    obtain ⟨s1, s2⟩ := callChooseCenters_kmeanspp ix B indices bs.rng hk hB (by omega)
    obtain ⟨a1, _⟩ := assignPoints_identical ix B hB _ indices r0 s1 s2 hrows
    have hl : ∀ st0, lloydLoop ix indices B ix.max_iter false st0 = Except.ok st0 := by
      intro st0
      rw [hit]
      rfl
    have hcc : ∀ centers radiuses count bs1 bt, bt = indices.map (fun _ => 0) →
        clusterChildren ix (computeClustering ix B fuel) off level centers radiuses count
          (List.range B) indices bt 0 bs1
          = Except.error Err.outOfFuel := by
      intro centers radiuses count bs1 bt hbt
      subst hbt
      have hr : List.range B = 0 :: List.range' 1 (B - 1) := by
        obtain ⟨m, hm⟩ : ∃ m, B = m + 1 := ⟨B - 1, by omega⟩
        rw [hm, List.range_eq_range', List.range'_succ]
        rfl
      rw [hr]
      apply clusterChildren_head_error
      intro stats1
      obtain ⟨_, _, f3, _⟩ := childSlice_facts ix (fun _ => 0) 0 0 indices (Nat.zero_le _)
        (fun x hx => by simp at hx) (fun x _ => Nat.zero_le _) _ rfl _ (List.Perm.refl _)
      have hall : indices.filter (fun x => decide ((fun _ => 0) x = 0)) = indices := by
        rw [List.filter_eq_self]
        intro x _
        simp
      rw [hall] at f3
      apply ih
      · rw [f3.length_eq]
        exact hlen
      · intro id hid
        exact hrows id (f3.mem_iff.mp hid)
    simp only [computeClustering]
    split
    · omega
    · split
      · omega
      · rw [hl]
        simp only
        split
        · rename_i e he
          have := (hcc _ _ _ _ _ a1).symm.trans he
          simp only [Except.error.injEq] at this
          rw [this]
        · rename_i c1 c2 c3 he
          exact absurd ((hcc _ _ _ _ _ a1).symm.trans he) (by simp)

/-- With k-means++ seeding a call of `computeClustering` on at least `B` points never takes
a leaf exit. -/
theorem computeClustering_kmeanspp_split (ix : KMeansIndex) (B : Nat) (hB : 1 ≤ B)
    (hk : ix.chooseCenters = flann_centers_init_t.FLANN_CENTERS_KMEANSPP)
    (fuel : Nat) (bs : BuildState) (indices : List Nat) (off : Nat) (stats : NodeStats)
    (level : Nat) (node : KMeansNode) (slice : List Nat) (bs1 : BuildState)
    (hlen : B ≤ indices.length)
    (h : computeClustering ix B fuel bs indices off stats level = Except.ok (node, slice, bs1)) :
    node.childs ≠ none := by
  obtain ⟨s1, _⟩ := callChooseCenters_kmeanspp ix B indices bs.rng hk hB (by omega)
  cases fuel with
  | zero => simp [computeClustering] at h
  | succ fuel =>
    simp only [computeClustering] at h
    split at h
    · omega
    · split at h
      · omega
      · split at h
        · exact absurd h (by simp)
        · split at h
          · exact absurd h (by simp)
          · simp only [Except.ok.injEq, Prod.mk.injEq] at h
            obtain ⟨h1, _, _⟩ := h
            subst h1
            simp [KMeansNode.childs]

/-- With k-means++ seeding the root of a built index over at least `branching` rows is
never a leaf, whatever the rows are. -/
theorem kmeanspp_root_is_split (ix : KMeansIndex) (fuel : Nat) (g : Rng) (ix1 : KMeansIndex)
    (g1 : Rng) (root : KMeansNode)
    (hk : ix.chooseCenters = flann_centers_init_t.FLANN_CENTERS_KMEANSPP)
    (hN : ix.branching.toNat ≤ ix.size_)
    (h : buildIndex ix fuel g = Except.ok (ix1, g1)) (hr : ix1.root = some root) :
    root.childs ≠ none := by
  unfold buildIndex at h
  split at h
  · exact absurd h (by simp)
  · rename_i hB
    split at h
    · exact absurd h (by simp)
    · rename_i root1 indices1 bs1 hc
      simp only [Except.ok.injEq, Prod.mk.injEq] at h
      obtain ⟨h1, _⟩ := h
      subst h1
      simp only [Option.some.injEq] at hr
      subst hr
      exact computeClustering_kmeanspp_split ix ix.branching.toNat (by omega) hk fuel _ _ _ _ _
        _ _ _ (by rw [List.length_range]; exact hN) hc

theorem buildIndex_eq_error (ix : KMeansIndex) (fuel : Nat) (g : Rng) (e : Err)
    (hB : ¬ ix.branching < 2)
    (h : computeClustering ix ix.branching.toNat fuel
      { rng := g, memoryCounter := ix.memoryCounter + ix.veclen_ * sizeofDistanceType }
      (List.range ix.size_) 0 (computeNodeStatistics ix (List.range ix.size_) ix.size_) 0
      = Except.error e) :
    buildIndex ix fuel g = Except.error e := by
  unfold buildIndex
  rw [if_neg hB, h]

theorem indexZeros_rows : ∀ id ∈ List.range indexZeros.size_,
    indexZeros.dataset.row id = [0, 0] := by
  intro id hid
  have hlt : id < 100 := List.mem_range.mp hid
  show (List.replicate 100 ([0, 0] : Vec)).getD id [] = [0, 0]
  rw [List.getD_eq_getElem _ _ (by simpa using hlt), List.getElem_replicate]

theorem indexTwin_rows : ∀ id ∈ List.range indexTwin.size_,
    indexTwin.dataset.row id = [0] := by
  intro id hid
  have hlt : id < 2 := List.mem_range.mp hid
  show (List.replicate 2 ([0] : Vec)).getD id [] = [0]
  rw [List.getD_eq_getElem _ _ (by simpa using hlt), List.getElem_replicate]

/-- C21 (defect of the code): on 100 all-zero rows with branching 32 the k-means++ seeder
reports 32 centres for every random stream, so the leaf exit for fewer than `branching`
centres is not taken; every point is assigned to cluster 0 and the first recomputation of
the centres divides by the count 0 of the other clusters, where the build of the model ends
with `Err.nan` for every random stream.  The root is not a leaf with the ids 0..99. -/
theorem kmeanspp_zero_rows_root_is_not_leaf :
    (∀ g, (chooseCentersKMeanspp indexZeros 32 (List.range 100) g).1.length = 32)
      ∧ ∀ fuel g, buildIndex indexZeros (fuel + 1) g = Except.error Err.nan := by
  refine ⟨fun g => chooseCentersKMeanspp_length indexZeros 32 _ g (by decide), fun fuel g => ?_⟩
  apply buildIndex_eq_error indexZeros (fuel + 1) g Err.nan (by decide)
  exact computeClustering_kmeanspp_nan indexZeros 32 (by decide) rfl (by decide) (by decide)
    [0, 0] fuel _ _ 0 _ 0 (by decide) indexZeros_rows

/-- C24 (defect of the code): on two identical rows with branching 2, `iterations = 0` and
k-means++ seeding the build does not terminate: the seeder reports two centres, both points
are assigned to cluster 0, and child 0 is built on the whole slice again, so that every
amount of fuel runs out, for every random stream. -/
theorem kmeanspp_zero_iterations_build_never_returns :
    ∀ fuel g, buildIndex indexTwin fuel g = Except.error Err.outOfFuel := by
  intro fuel g
  apply buildIndex_eq_error indexTwin fuel g Err.outOfFuel (by decide)
  exact computeClustering_kmeanspp_hang indexTwin 2 (by decide) rfl rfl [0] fuel _ _ 0 _ 0
    (by decide) indexTwin_rows

theorem L2_self (x : Vec) (len : Nat) : L2 x x len = 0 := by
  unfold L2
  apply List.sum_eq_zero
  intro y hy
  obtain ⟨k, _, rfl⟩ := List.mem_map.mp hy
  simp

theorem L2_seedRow (x r : Vec) (len : Nat) :
    L2 x ((List.range len).map (fun k => vget r k)) len = L2 x r len := by
  unfold L2
  congr 1
  apply List.map_congr_left
  intro k hk
  have hk2 : k < len := List.mem_range.mp hk
  have : vget ((List.range len).map (fun k => vget r k)) k = vget r k := by
    unfold vget
    rw [List.getD_eq_getElem _ _ (by simpa using hk2)]
    simp [vget]
  rw [this]

/-- What `chooseCentersRandom` returns, for every random stream. -/
theorem chooseCentersRandom_props (ix : KMeansIndex) (k : Nat) (indices : List Nat) (g : Rng) :
    (chooseCentersRandom ix k indices g).1.length ≤ min k indices.length
      ∧ (∀ x ∈ (chooseCentersRandom ix k indices g).1, x ∈ indices)
      ∧ (chooseCentersRandom ix k indices g).1.Pairwise
          (fun a b => ¬ ix.distance (ix.dataset.row b) (ix.dataset.row a)
            ix.dataset.cols < 1 / 10 ^ 16)
      ∧ ((chooseCentersRandom ix k indices g).1.length < k →
          ∀ id ∈ indices, id ∈ (chooseCentersRandom ix k indices g).1
            ∨ ∃ cj ∈ (chooseCentersRandom ix k indices g).1,
                ix.distance (ix.dataset.row id) (ix.dataset.row cj)
                  ix.dataset.cols < 1 / 10 ^ 16) := by
  have hperm := UniqueRandom_perm indices.length g
  obtain ⟨h1, h2, h3, _, h5, h6⟩ := chooseCentersRandomLoop_spec ix k indices
    (UniqueRandom indices.length g).1 [] List.Pairwise.nil
  have hlen : (UniqueRandom indices.length g).1.length = indices.length := by
    rw [hperm.length_eq, List.length_range]
  unfold chooseCentersRandom
  refine ⟨?_, ?_, h5, ?_⟩
  · simp only [List.length_nil, Nat.zero_add, hlen] at h1 h2
    rw [Nat.max_eq_left (Nat.zero_le _)] at h1
    exact le_min h1 h2
  · intro x hx
    rcases h3 x hx with h | ⟨r, hr, h⟩
    · simp at h
    · have hr2 : r < indices.length := List.mem_range.mp (hperm.mem_iff.mp hr)
      rw [h, List.getD_eq_getElem _ _ hr2]
      exact List.getElem_mem hr2
  · intro hk id hid
    obtain ⟨r, hr, rfl⟩ := List.getElem_of_mem hid
    have hrm : r ∈ (UniqueRandom indices.length g).1 :=
      hperm.mem_iff.mpr (List.mem_range.mpr hr)
    have := h6 hk r hrm
    rw [List.getD_eq_getElem _ _ hr] at this
    exact this

/-- On a slice of at least `k` distinct ids whose rows are pairwise apart the random seeder
returns `k` centres. -/
theorem chooseCentersRandom_full (ix : KMeansIndex) (k : Nat) (indices : List Nat) (g : Rng)
    (hn : indices.Nodup) (hk : k ≤ indices.length) (hrows : RowsApart ix indices) :
    (chooseCentersRandom ix k indices g).1.length = k := by
  obtain ⟨h1, h2, h3, h4⟩ := chooseCentersRandom_props ix k indices g
  by_contra hne
  have hlt : (chooseCentersRandom ix k indices g).1.length < k := by
    have := le_trans h1 (min_le_left _ _)
    omega
  have hsub : indices ⊆ (chooseCentersRandom ix k indices g).1 := by
    intro id hid
    rcases h4 hlt id hid with h | ⟨cj, hcj, hd⟩
    · exact h
    · by_cases he : id = cj
      · rw [he]; exact hcj
      · exact absurd hd (hrows id hid cj (h2 cj hcj) he)
  have := (List.Nodup.subperm hn hsub).length_le
  omega

theorem seedRows_getD (ix : KMeansIndex) (B : Nat) (seeds : List Nat) (j : Nat) (hj : j < B) :
    (seedRows ix B seeds).getD j []
      = (List.range ix.veclen_).map (fun k => vget (ix.dataset.row (seeds.getD j 0)) k) := by
  unfold seedRows
  rw [List.getD_eq_getElem _ _ (by simpa using hj)]
  simp only [List.getElem_map, List.getElem_range]

/-- Under the squared Euclidean distance a seed whose row is apart from the rows of the
other seeds is nearest to its own centre. -/
theorem seed_nearest (ix : KMeansIndex) (B : Nat) (seeds : List Nat) (hd : ix.distance = L2)
    (hcols : ix.dataset.cols = ix.veclen_) (hB : 1 ≤ B) (hlen : seeds.length = B)
    (hpw : seeds.Pairwise (fun a b => ¬ ix.distance (ix.dataset.row b) (ix.dataset.row a)
      ix.dataset.cols < 1 / 10 ^ 16)) (i : Nat) (hi : i < B) :
    (nearestCenter ix (ix.dataset.row (seeds.getD i 0)) (seedRows ix B seeds) B).1 = i := by
  have hdist : ∀ j, j < B →
      ix.distance (ix.dataset.row (seeds.getD i 0)) ((seedRows ix B seeds).getD j []) ix.veclen_
        = L2 (ix.dataset.row (seeds.getD i 0)) (ix.dataset.row (seeds.getD j 0)) ix.veclen_ := by
    intro j hj
    rw [seedRows_getD ix B seeds j hj, hd]
    exact L2_seedRow _ _ _
  have hpos : ∀ j, j < i →
      0 < L2 (ix.dataset.row (seeds.getD i 0)) (ix.dataset.row (seeds.getD j 0)) ix.veclen_ := by
    intro j hj
    have h1 := (List.pairwise_iff_getElem.mp hpw) j i (by omega) (by omega) hj
    rw [hd, hcols] at h1
    rw [List.getD_eq_getElem _ _ (by omega), List.getD_eq_getElem _ _ (by omega)]
    have : (0 : ℚ) < 1 / 10 ^ 16 := by norm_num
    exact lt_of_lt_of_le this (not_lt.mp h1)
  obtain ⟨n1, n2, n3, n4⟩ := nearestCenter_spec ix (ix.dataset.row (seeds.getD i 0))
    (seedRows ix B seeds) B hB
  rcases Nat.lt_trichotomy
    (nearestCenter ix (ix.dataset.row (seeds.getD i 0)) (seedRows ix B seeds) B).1 i
    with h | h | h
  · have h3 := n3 i hi
    rw [hdist i hi, L2_self, n2, hdist _ n1] at h3
    exact absurd (hpos _ h) (not_lt.mpr h3)
  · exact h
  · have h4 := n4 i h
    rw [hdist i hi, L2_self, n2, hdist _ n1] at h4
    exact absurd h4 (not_lt.mpr (L2_nonneg _ _ _))

/-- After the first assignment every cluster holds its seed. -/
theorem assignPoints_counts_pos (ix : KMeansIndex) (B : Nat) (seeds indices : List Nat)
    (hd : ix.distance = L2) (hcols : ix.dataset.cols = ix.veclen_) (hB : 1 ≤ B)
    (hlen : seeds.length = B) (hmem : ∀ x ∈ seeds, x ∈ indices)
    (hpw : seeds.Pairwise (fun a b => ¬ ix.distance (ix.dataset.row b) (ix.dataset.row a)
      ix.dataset.cols < 1 / 10 ^ 16)) :
    ∀ c, c < B → 1 ≤ (assignPoints ix indices (seedRows ix B seeds) B).count.getD c 0 := by
  intro c hc
  obtain ⟨_, a2, a3, a4, _⟩ := assignPoints_spec ix indices (seedRows ix B seeds) B hB
  rw [a4.2 c hc]
  have hin : seeds.getD c 0 ∈ indices := by
    rw [List.getD_eq_getElem _ _ (by omega)]
    exact hmem _ (List.getElem_mem _)
  obtain ⟨p, hp, hget⟩ := List.getElem_of_mem hin
  have hbp := a3 p hp
  rw [List.getD_eq_getElem _ _ hp, hget, seed_nearest ix B seeds hd hcols hB hlen hpw c hc]
    at hbp
  have : c ∈ (assignPoints ix indices (seedRows ix B seeds) B).belongs_to := by
    rw [← hbp, List.getD_eq_getElem _ _ (by omega)]
    exact List.getElem_mem _
  have := List.count_pos_iff.mpr this
  omega

theorem filter_disjoint_length (l : List Nat) (p q : Nat → Bool)
    (h : ∀ x ∈ l, ¬ (p x = true ∧ q x = true)) :
    (l.filter p).length + (l.filter q).length ≤ l.length := by
  induction l with
  | nil => simp
  | cons a l ih =>
    have ih1 := ih (fun x hx => h x (List.mem_cons_of_mem _ hx))
    have ha := h a (List.mem_cons_self _ _)
    rw [List.filter_cons, List.filter_cons]
    by_cases hp : p a = true
    · have hq : q a = false := by
        cases hqa : q a
        · rfl
        · exact absurd ⟨hp, hqa⟩ ha
      simp only [hp, hq, if_true, List.length_cons]
      simp
      omega
    · by_cases hq : q a = true
      · simp only [hp, hq, if_true, List.length_cons]
        simp
        omega
      · simp only [hp, hq, List.length_cons]
        simp
        omega

/-- The partition loop returns when the recursive call returns on every sub-slice it is
given. -/
theorem clusterChildren_total (ix : KMeansIndex)
    (recurse : BuildState → List Nat → Nat → NodeStats → Nat → ClusteringResult)
    (off level : Nat) (centers : List Vec) (radiuses : List ℚ) (count : List Int)
    (assign : Nat → Nat) (Q : KMeansNode → Prop) (A : List Nat → Prop)
    (hrec : ∀ bs sub o stats, A sub →
      ∃ node slice bs1, recurse bs sub o stats (level + 1) = Except.ok (node, slice, bs1)
        ∧ slice.Perm sub ∧ Q node) :
    ∀ (n c : Nat) (indices : List Nat) (start : Nat) (bs : BuildState),
      start ≤ indices.length →
      (∀ x ∈ indices.take start, assign x < c) →
      (∀ x ∈ indices.drop start, c ≤ assign x) →
      (∀ t, t < n → ∀ sub,
        sub.Perm (indices.filter (fun x => decide (assign x = c + t))) → A sub) →
      ∃ childs indices1 bs2,
        clusterChildren ix recurse off level centers radiuses count (List.range' c n)
          indices (indices.map assign) start bs = Except.ok (childs, indices1, bs2)
        ∧ indices1.Perm indices ∧ childs.length = n ∧ ∀ ch ∈ childs, Q ch := by
  intro n
  induction n with
  | zero =>
    intro c indices start bs _ _ _ _
    exact ⟨[], indices, bs, rfl, List.Perm.refl _, rfl, fun ch hch => absurd hch (by simp)⟩
  | succ n ih =>
    intro c indices start bs hs hlo hhi hA
    obtain ⟨_, _, g3, _⟩ := childSlice_facts ix assign c start indices hs hlo hhi _ rfl _
      (List.Perm.refl _)
    obtain ⟨node, slice, bs1, hr, r1, r2⟩ := hrec bs _ (off + start)
      { pivot := centers.getD c [], radius := radiuses.getD c 0
        variance := (partitionPass ix c
            { indices := indices, belongs_to := indices.map assign, end_ := start
              variance := 0 }).variance / ((count.getD c 0 : Int) : ℚ)
          - ix.distance (centers.getD c []) ZeroIterator ix.veclen_ }
      (hA 0 (by omega) _ g3)
    obtain ⟨f1, f2, f3, f4, f5, f6, f7, f8, f9, f10⟩ :=
      childSlice_facts ix assign c start indices hs hlo hhi _ rfl slice r1
    obtain ⟨rest, indices2, bs3, hih, i1, i2, i3⟩ := ih (c + 1) _ _ bs1
      (by rw [f5]; exact f2) f9 f10 (by
        intro t ht sub hsub
        apply hA (t + 1) (by omega) sub
        have e : c + (t + 1) = c + 1 + t := by omega
        rw [e]
        exact hsub.trans (f6.filter _))
    refine ⟨node :: rest, indices2, bs3, ?_, i1.trans f6, by simp [i2], ?_⟩
    · rw [List.range'_succ]
      simp only [clusterChildren]
      rw [hr]
      simp only
      rw [f7, hih]
    · intro ch hch
      rcases List.mem_cons.mp hch with h | h
      · rw [h]; exact r2
      · exact i3 ch h

theorem callChooseCenters_random (ix : KMeansIndex) (B : Nat) (indices : List Nat) (g : Rng)
    (hR : ix.chooseCenters = flann_centers_init_t.FLANN_CENTERS_RANDOM) :
    callChooseCenters ix B indices g = chooseCentersRandom ix B indices g := by
  unfold callChooseCenters
  rw [hR]

theorem rowsApart_of_subset (ix : KMeansIndex) {a b : List Nat} (h : RowsApart ix b)
    (hsub : ∀ x ∈ a, x ∈ b) : RowsApart ix a :=
  fun x hx y hy hne => h x (hsub x hx) y (hsub y hy) hne

/-- The state of the buffers after the Lloyd loop of a split of distinct ids with rows
pairwise apart, under random seeding and the squared Euclidean distance: the loop returns,
`count` agrees with `belongs_to`, and no cluster is empty. -/
theorem lloydLoop_apart (ix : KMeansIndex) (B : Nat) (hB : 2 ≤ B)
    (hR : ix.chooseCenters = flann_centers_init_t.FLANN_CENTERS_RANDOM) (hd : ix.distance = L2)
    (hcols : ix.dataset.cols = ix.veclen_) (indices : List Nat) (g : Rng)
    (hn : indices.Nodup) (hlen : B ≤ indices.length) (hrows : RowsApart ix indices) :
    (callChooseCenters ix B indices g).1.length = B
      ∧ ∃ st, lloydLoop ix indices B ix.max_iter false
          (assignPoints ix indices (seedRows ix B (callChooseCenters ix B indices g).1) B)
          = Except.ok st
        ∧ CountOK B st ∧ st.belongs_to.length = indices.length
        ∧ (∀ x ∈ st.belongs_to, x < B) ∧ ∀ c, c < B → 1 ≤ st.count.getD c 0 := by
  rw [callChooseCenters_random ix B indices g hR]
  have hfull := chooseCentersRandom_full ix B indices g hn hlen hrows
  obtain ⟨_, p2, p3, _⟩ := chooseCentersRandom_props ix B indices g
  refine ⟨hfull, ?_⟩
  obtain ⟨_, a2, _, a4, _⟩ := assignPoints_spec ix indices
    (seedRows ix B (chooseCentersRandom ix B indices g).1) B (by omega)
  have aok := assignPoints_ok ix indices B (by omega)
    (seedRows ix B (chooseCentersRandom ix B indices g).1)
    (fun c hc => rows_shape B ix.veclen_ c _ hc)
  exact lloydLoop_total ix indices B (by omega) hlen ix.max_iter false _ a4 a2 aok.2.1
    (assignPoints_counts_pos ix B _ indices hd hcols (by omega) hfull p2 p3)

/-- Under random seeding and the squared Euclidean distance, `computeClustering` with
`B >= 2` on a slice of distinct ids whose rows are pairwise apart returns once the fuel
exceeds the length of the slice, and every leaf below the node it returns holds at least one
and fewer than `B` ids. -/
theorem computeClustering_apart_total (ix : KMeansIndex) (B : Nat) (hB : 2 ≤ B)
    (hR : ix.chooseCenters = flann_centers_init_t.FLANN_CENTERS_RANDOM) (hd : ix.distance = L2)
    (hcols : ix.dataset.cols = ix.veclen_) :
    ∀ (fuel : Nat) (bs : BuildState) (indices : List Nat) (off : Nat) (stats : NodeStats)
      (level : Nat), indices.Nodup → 1 ≤ indices.length → indices.length < fuel →
      RowsApart ix indices →
      ∃ node slice bs1,
        computeClustering ix B fuel bs indices off stats level = Except.ok (node, slice, bs1)
        ∧ slice.Perm indices ∧ ∀ l ∈ node.leaves, 1 ≤ l.size ∧ l.size < B := by
  intro fuel
  induction fuel with
  | zero => intro bs indices off stats level _ _ h _; omega
  | succ fuel ih =>
    intro bs indices off stats level hn h1 hf hrows
    by_cases hlt : indices.length < B
    · refine ⟨KMeansNode.mk stats.pivot stats.radius stats.variance indices.length level
        none (some off), indices.insertionSort (fun a b => a ≤ b), bs, ?_,
        List.perm_insertionSort _ _, ?_⟩
      · simp only [computeClustering]
        rw [if_pos hlt]
        rfl
      · intro l hl
        rw [@leaves_of_leaf (KMeansNode.mk stats.pivot stats.radius stats.variance
          indices.length level none (some off)) rfl, List.mem_singleton] at hl
        rw [hl]
        exact ⟨h1, hlt⟩
    · obtain ⟨s1, st, hl, k1, k2, k3, k4⟩ := lloydLoop_apart ix B hB hR hd hcols indices bs.rng
        hn (by omega) hrows
      have hbt := assignment_of_nodup indices st.belongs_to hn k2
      generalize hassign : (fun id => st.belongs_to.getD (indices.indexOf id) 0) = assign
        at hbt
      have hcnt : ∀ c, c < B →
          1 ≤ (indices.filter (fun x => decide (assign x = c))).length := by
        intro c hc
        have h2 := k4 c hc
        rw [k1.2 c hc, hbt, count_map_eq_filter] at h2
        omega
      obtain ⟨childs, indices1, bs2, hcc, c1, c2, c3⟩ := clusterChildren_total ix
        (computeClustering ix B fuel) off level st.dcenters st.radiuses st.count assign
        (fun node => ∀ l ∈ node.leaves, 1 ≤ l.size ∧ l.size < B)
        (fun sub => sub.Nodup ∧ 1 ≤ sub.length ∧ sub.length < fuel ∧ RowsApart ix sub)
        (fun bs0 sub o stats0 hA =>
          ih bs0 sub o stats0 (level + 1) hA.1 hA.2.1 hA.2.2.1 hA.2.2.2)
        B 0 indices 0
        { rng := (callChooseCenters ix B indices bs.rng).2
          memoryCounter := bs.memoryCounter + B * (ix.veclen_ * sizeofDistanceType) }
        (Nat.zero_le _) (fun x hx => by simp at hx) (fun x _ => Nat.zero_le _)
        (by
          intro t ht sub hsub
          rw [Nat.zero_add] at hsub
          refine ⟨hsub.nodup_iff.mpr (hn.filter _), ?_, ?_,
            rowsApart_of_subset ix hrows (fun x hx =>
              (List.mem_filter.mp (hsub.mem_iff.mp hx)).1)⟩
          · rw [hsub.length_eq]
            exact hcnt t ht
          · rw [hsub.length_eq]
            have hother : ∃ u, u < B ∧ u ≠ t := by
              by_cases h0 : t = 0
              · exact ⟨1, by omega, by omega⟩
              · exact ⟨0, by omega, fun h => h0 h.symm⟩
            obtain ⟨u, hu, hut⟩ := hother
            have hdis := filter_disjoint_length indices (fun x => decide (assign x = t))
              (fun x => decide (assign x = u)) (by
                intro x _ hx
                simp only [decide_eq_true_eq] at hx
                exact hut (hx.2.symm.trans hx.1))
            have := hcnt u hu
            omega)
      rw [← hbt, ← List.range_eq_range'] at hcc
      refine ⟨KMeansNode.mk stats.pivot stats.radius stats.variance indices.length level
        (some childs) none, indices1, bs2, ?_, c1, ?_⟩
      · cases hres : computeClustering ix B (fuel + 1) bs indices off stats level with
        | error e =>
          simp only [computeClustering] at hres
          split at hres
          · omega
          · split at hres
            · omega
            · split at hres
              · rename_i e1 he
                exact absurd (hl.symm.trans he) (by simp)
              · rename_i st1 he
                have hst := hl.symm.trans he
                simp only [Except.ok.injEq] at hst
                subst hst
                split at hres
                · rename_i e2 he2
                  exact absurd (hcc.symm.trans he2) (by simp)
                · exact absurd hres (by simp)
        | ok r =>
          simp only [computeClustering] at hres
          split at hres
          · omega
          · split at hres
            · omega
            · split at hres
              · exact absurd hres (by simp)
              · rename_i st1 he
                have hst := hl.symm.trans he
                simp only [Except.ok.injEq] at hst
                subst hst
                split at hres
                · exact absurd hres (by simp)
                · rename_i ch2 ind2 bs3 he2
                  have h3 := hcc.symm.trans he2
                  simp only [Except.ok.injEq, Prod.mk.injEq] at h3
                  obtain ⟨e1, e2, e3⟩ := h3
                  subst e1 e2 e3
                  rw [← hres]
      · intro l hl2
        rw [@leaves_of_childs (KMeansNode.mk stats.pivot stats.radius stats.variance
          indices.length level (some childs) none) childs rfl, List.mem_flatMap] at hl2
        obtain ⟨ch, hch, hlc⟩ := hl2
        exact c3 ch hch l hlc

/-- Under random seeding and the squared Euclidean distance the build over rows that are
pairwise apart returns once the fuel exceeds the number of rows, and every leaf of the tree
holds at least one and fewer than `branching` ids. -/
theorem buildIndex_apart_total (ix : KMeansIndex) (hB : 2 ≤ ix.branching)
    (hR : ix.chooseCenters = flann_centers_init_t.FLANN_CENTERS_RANDOM) (hd : ix.distance = L2)
    (hcols : ix.dataset.cols = ix.veclen_) (hN : 1 ≤ ix.size_)
    (hrows : RowsApart ix (List.range ix.size_)) (fuel : Nat) (hf : ix.size_ < fuel)
    (g : Rng) :
    ∃ ix1 g1 root, buildIndex ix fuel g = Except.ok (ix1, g1) ∧ ix1.root = some root
      ∧ ∀ l ∈ root.leaves, 1 ≤ l.size ∧ l.size < ix.branching.toNat := by
  obtain ⟨node, slice, bs1, hc, _, hq⟩ := computeClustering_apart_total ix ix.branching.toNat
    (by omega) hR hd hcols fuel
    { rng := g, memoryCounter := ix.memoryCounter + ix.veclen_ * sizeofDistanceType }
    (List.range ix.size_) 0 (computeNodeStatistics ix (List.range ix.size_) ix.size_) 0
    (List.nodup_range _) (by rw [List.length_range]; exact hN)
    (by rw [List.length_range]; exact hf) hrows
  refine ⟨{ ix with
      root := some node, indices := some slice, memoryCounter := bs1.memoryCounter },
    bs1.rng, node, ?_, rfl, hq⟩
  unfold buildIndex
  rw [if_neg (by omega), hc]

theorem sum_le_length (f : KMeansNode → Nat) :
    ∀ (L : List KMeansNode), (∀ x ∈ L, f x ≤ 1) → (L.map f).sum ≤ L.length := by
  intro L
  induction L with
  | nil => intro _; simp
  | cons a L ih =>
    intro h1
    simp only [List.map_cons, List.sum_cons, List.length_cons]
    have ha := h1 a (List.mem_cons_self _ _)
    have := ih (fun y hy => h1 y (List.mem_cons_of_mem _ hy))
    omega

theorem eq_one_of_sum (f : KMeansNode → Nat) :
    ∀ (L : List KMeansNode), (∀ x ∈ L, f x ≤ 1) → (L.map f).sum = L.length →
      ∀ x ∈ L, f x = 1 := by
  intro L
  induction L with
  | nil => intro _ _ x hx; simp at hx
  | cons a L ih =>
    intro h1 h2 x hx
    simp only [List.map_cons, List.sum_cons, List.length_cons] at h2
    have ha := h1 a (List.mem_cons_self _ _)
    have hle : (L.map f).sum ≤ L.length :=
      sum_le_length f L (fun y hy => h1 y (List.mem_cons_of_mem _ hy))
    have hL : (L.map f).sum = L.length := by omega
    rcases List.mem_cons.mp hx with h | h
    · rw [h]; omega
    · exact ih (fun y hy => h1 y (List.mem_cons_of_mem _ hy)) hL x h

theorem sum_of_all_one (f : KMeansNode → Nat) :
    ∀ (L : List KMeansNode), (∀ x ∈ L, f x = 1) → (L.map f).sum = L.length := by
  intro L
  induction L with
  | nil => intro _; simp
  | cons a L ih =>
    intro h1
    simp only [List.map_cons, List.sum_cons, List.length_cons]
    rw [h1 a (List.mem_cons_self _ _), ih (fun y hy => h1 y (List.mem_cons_of_mem _ hy))]
    omega

theorem rowsApart_S1 : RowsApart indexS1 (List.range indexS1.size_) := by
  unfold RowsApart
  decide!

/-- The build of scenario S1 for every iteration cap and every random stream: four leaves
of one id each. -/
theorem buildS1_leaves (it : Nat) (g : Rng) :
    ∃ ix1 g1 root, buildIndex { indexS1 with max_iter := it } 5 g = Except.ok (ix1, g1)
      ∧ ix1.root = some root ∧ root.leaves.length = 4
      ∧ (∀ l ∈ root.leaves, l.childs = none ∧ l.size = 1 ∧ ∃ id, leafIds ix1 l = [id])
      ∧ (root.leaves.flatMap (leafIds ix1)).Perm [0, 1, 2, 3] := by
  obtain ⟨ix1, g1, root, hb, hr, hq⟩ := buildIndex_apart_total { indexS1 with max_iter := it }
    (show 2 ≤ indexS1.branching by decide) rfl rfl rfl (show 1 ≤ indexS1.size_ by decide)
    rowsApart_S1 5 (show indexS1.size_ < 5 by decide) g
  obtain ⟨⟨_, root1, perm, w1, w2, w3, w4⟩, hs, _⟩ :=
    buildIndex_wellFormed _ 5 g ix1 g1 hb
  rw [hr, Option.some.injEq] at w1
  subst w1
  have hsize : ix1.size_ = 4 := hs
  obtain ⟨l1, l2⟩ := Forest.leaves_spec ix1 w4
  have hmem := l2 perm w2 (by rw [List.drop_zero, List.take_length])
  simp only [List.flatMap_cons, List.flatMap_nil, List.append_nil] at l1 hmem
  have hp4 : perm.length = 4 := by rw [w3.length_eq, List.length_range, hsize]
  have hone : ∀ l ∈ root.leaves, l.size = 1 := by
    intro l hl
    have := hq l hl
    have hb2 : ({ indexS1 with max_iter := it } : KMeansIndex).branching.toNat = 2 := rfl
    rw [hb2] at this
    omega
  have hlen : root.leaves.length = 4 := by
    rw [← sum_of_all_one KMeansNode.size root.leaves hone, l1, hp4]
  have hflat : root.leaves.flatMap (leafIds ix1) = perm := hmem
  have hids : ∀ l ∈ root.leaves, (leafIds ix1 l).length = 1 := by
    apply eq_one_of_sum (fun l => (leafIds ix1 l).length)
    · intro l hl
      show (leafIds ix1 l).length ≤ 1
      unfold leafIds
      rw [List.length_take, hone l hl]
      exact min_le_left _ _
    · have := congrArg List.length hflat
      rw [List.length_flatMap, hp4] at this
      rw [hlen]
      exact this
  refine ⟨ix1, g1, root, hb, hr, hlen, ?_, ?_⟩
  · intro l hl
    refine ⟨?_, hone l hl, List.length_eq_one.mp (hids l hl)⟩
    have := (List.mem_filter.mp hl).2
    simpa [KMeansNode.isLeaf] using this
  · rw [hflat]
    have : ([0, 1, 2, 3] : List Nat) = List.range ix1.size_ := by rw [hsize]; rfl
    rw [this]
    exact w3

/-- C22 (amended): for the points (0,0), (0,1), (10,0), (10,1) with `B = 2`, the squared
Euclidean distance and random seeding, the build returns for every outcome of the random
draws (and every iteration cap) a tree with exactly four leaves, each holding one id, which
together hold the ids 0, 1, 2, 3. -/
theorem s1_build_has_four_single_leaves (it : Nat) (g : Rng) :
    ∃ ix1 g1 root, buildIndex { indexS1 with max_iter := it } 5 g = Except.ok (ix1, g1)
      ∧ ix1.root = some root ∧ root.leaves.length = 4
      ∧ (∀ l ∈ root.leaves, l.childs = none ∧ l.size = 1 ∧ ∃ id, leafIds ix1 l = [id])
      ∧ (root.leaves.flatMap (leafIds ix1)).Perm [0, 1, 2, 3] :=
  buildS1_leaves it g

/-- C22 (counterexample): the tree built for scenario S1 with the random stream `[]` has
four leaves, not two; and with the stream `[3, 2, 1, 0]`, which seeds the root with the rows
0 and 1, the children of the root hold the ids 0, 2 and 1, 3. -/
theorem s1_build_has_four_leaves :
    rootS1.leaves.length = 4 ∧ rootS1.leaves.map (leafIds builtS1.1) = [[1], [0], [3], [2]]
      ∧ childIdsS1b = [[2, 0], [3, 1]] := by
  decide!

theorem foldl_argmin_idx (f : Nat → ℚ) :
    ∀ (n : Nat),
      (List.range' 1 n).foldl (fun best i => if f i < f best then i else best) 0 < n + 1
        ∧ (∀ j, j < n + 1 →
            f ((List.range' 1 n).foldl (fun best i => if f i < f best then i else best) 0) ≤ f j)
        ∧ ∀ j, j < (List.range' 1 n).foldl (fun best i => if f i < f best then i else best) 0 →
            f ((List.range' 1 n).foldl (fun best i => if f i < f best then i else best) 0)
              < f j := by
  intro n
  induction n with
  | zero =>
    refine ⟨Nat.zero_lt_succ _, fun j hj => ?_, fun j hj => absurd hj (Nat.not_lt_zero _)⟩
    have : j = 0 := by omega
    subst this
    exact le_refl _
  | succ n ih =>
    rw [List.range'_concat, List.foldl_append, Nat.one_mul]
    simp only [List.foldl_cons, List.foldl_nil]
    generalize (List.range' 1 n).foldl (fun best i => if f i < f best then i else best) 0
      = b at ih
    obtain ⟨h1, h3, h4⟩ := ih
    by_cases h : f (1 + n) < f b
    · rw [if_pos h]
      refine ⟨by omega, ?_, ?_⟩
      · intro j hj
        by_cases hjn : j = 1 + n
        · rw [hjn]
        · exact le_trans (le_of_lt h) (h3 j (by omega))
      · intro j hj
        exact lt_of_lt_of_le h (h3 j (by omega))
    · rw [if_neg h]
      refine ⟨by omega, ?_, h4⟩
      intro j hj
      by_cases hjn : j = 1 + n
      · rw [hjn]
        exact not_lt.mp h
      · exact h3 j (by omega)

/-- The child that `exploreNodeBranches` returns is the first among the children nearest to
the query. -/
theorem explore_best_spec (ix : KMeansIndex) (n : KMeansNode) (q : Vec) (heap : Heap)
    (hB : 1 ≤ ix.branching.toNat) :
    (∀ j, j < ix.branching.toNat →
        ix.distance q (n.child (exploreNodeBranches ix n q heap).1).pivot ix.veclen_
          ≤ ix.distance q (n.child j).pivot ix.veclen_)
      ∧ ∀ j, j < (exploreNodeBranches ix n q heap).1 →
        ix.distance q (n.child (exploreNodeBranches ix n q heap).1).pivot ix.veclen_
          < ix.distance q (n.child j).pivot ix.veclen_ := by
  have h := foldl_argmin_idx (fun i => ix.distance q (n.child i).pivot ix.veclen_)
    (ix.branching.toNat - 1)
  have e : ix.branching.toNat - 1 + 1 = ix.branching.toNat := by omega
  rw [e] at h
  exact ⟨h.2.1, h.2.2⟩

theorem filter_ne_length (B best : Nat) (hb : best < B) :
    ((List.range B).filter (fun i => decide (i ≠ best))).length = B - 1 := by
  have h := range_filter_ne_perm B best hb
  have := h.length_eq
  rw [List.length_append, List.length_singleton, List.length_range] at this
  omega

/-- C31: for a node with `B >= 1` children and every query, `exploreNodeBranches` returns
the smallest index among the children whose pivots are nearest to the query, and inserts
into the heap the `B - 1` other children, each once and in the order of their indices, with
the key distance to the pivot minus `cb_index` times the variance; the returned child is not
inserted.  The heap then holds the branches it held before followed by as many of the
inserted ones as it has room for: all of them when it had room for `B - 1` more. -/
theorem explore_returns_first_nearest_child (ix : KMeansIndex) (node : KMeansNode) (q : Vec)
    (heap : Heap) (hB : 1 ≤ ix.branching.toNat) :
    (exploreNodeBranches ix node q heap).1 < ix.branching.toNat
      ∧ (∀ j, j < ix.branching.toNat →
          ix.distance q (node.child (exploreNodeBranches ix node q heap).1).pivot ix.veclen_
            ≤ ix.distance q (node.child j).pivot ix.veclen_)
      ∧ (∀ j, j < (exploreNodeBranches ix node q heap).1 →
          ix.distance q (node.child (exploreNodeBranches ix node q heap).1).pivot ix.veclen_
            < ix.distance q (node.child j).pivot ix.veclen_)
      ∧ (exploreNodeBranches ix node q heap).2
        = (((List.range ix.branching.toNat).filter
            (fun i => decide (i ≠ (exploreNodeBranches ix node q heap).1))).map
            (fun i => ({ node := node.child i
                         mindist := ix.distance q (node.child i).pivot ix.veclen_
                           - ix.cb_index * (node.child i).variance } : BranchSt))).foldl
          Heap.insert heap
      ∧ (exploreNodeBranches ix node q heap).2.items
        = heap.items ++ (((List.range ix.branching.toNat).filter
            (fun i => decide (i ≠ (exploreNodeBranches ix node q heap).1))).map
            (fun i => ({ node := node.child i
                         mindist := ix.distance q (node.child i).pivot ix.veclen_
                           - ix.cb_index * (node.child i).variance } : BranchSt))).take
          (heap.length - heap.items.length)
      ∧ (heap.items.length + (ix.branching.toNat - 1) ≤ heap.length →
          (exploreNodeBranches ix node q heap).2.items
            = heap.items ++ ((List.range ix.branching.toNat).filter
                (fun i => decide (i ≠ (exploreNodeBranches ix node q heap).1))).map
                (fun i => ({ node := node.child i
                             mindist := ix.distance q (node.child i).pivot ix.veclen_
                               - ix.cb_index * (node.child i).variance } : BranchSt)))
      ∧ ((List.range ix.branching.toNat).filter
          (fun i => decide (i ≠ (exploreNodeBranches ix node q heap).1))).length
        = ix.branching.toNat - 1
      ∧ ((List.range ix.branching.toNat).filter
          (fun i => decide (i ≠ (exploreNodeBranches ix node q heap).1))).Nodup
      ∧ ∀ i, i ∈ (List.range ix.branching.toNat).filter
            (fun i => decide (i ≠ (exploreNodeBranches ix node q heap).1))
          ↔ i < ix.branching.toNat ∧ i ≠ (exploreNodeBranches ix node q heap).1 := by
  have hlt := explore_best_lt ix node q heap hB
  obtain ⟨h1, h2⟩ := explore_best_spec ix node q heap hB
  refine ⟨hlt, h1, h2, explore_heap ix node q heap, (explore_items ix node q heap).2,
    explore_items_room ix node q heap hB, filter_ne_length _ _ hlt,
    (List.nodup_range _).filter _, fun i => ?_⟩
  simp [List.mem_filter]

theorem explore_returns_first_nearest_child_witness :
    1 ≤ builtS1.1.branching.toNat ∧
    (exploreNodeBranches builtS1.1 rootS1 [0, 1 / 2] heapS1).1
        < builtS1.1.branching.toNat
      ∧ (∀ j, j < builtS1.1.branching.toNat →
          builtS1.1.distance [0, 1 / 2] (rootS1.child (exploreNodeBranches builtS1.1 rootS1 [0, 1 / 2] heapS1).1).pivot
              builtS1.1.veclen_
            ≤ builtS1.1.distance [0, 1 / 2] (rootS1.child j).pivot builtS1.1.veclen_)
      ∧ (∀ j, j < (exploreNodeBranches builtS1.1 rootS1 [0, 1 / 2] heapS1).1 →
          builtS1.1.distance [0, 1 / 2] (rootS1.child (exploreNodeBranches builtS1.1 rootS1 [0, 1 / 2] heapS1).1).pivot
              builtS1.1.veclen_
            < builtS1.1.distance [0, 1 / 2] (rootS1.child j).pivot builtS1.1.veclen_)
      ∧ (exploreNodeBranches builtS1.1 rootS1 [0, 1 / 2] heapS1).2
        = (((List.range builtS1.1.branching.toNat).filter
            (fun i => decide (i ≠ (exploreNodeBranches builtS1.1 rootS1 [0, 1 / 2] heapS1).1))).map
            (fun i => ({ node := rootS1.child i
                         mindist := builtS1.1.distance [0, 1 / 2] (rootS1.child i).pivot
                                 builtS1.1.veclen_
                           - builtS1.1.cb_index * (rootS1.child i).variance } : BranchSt))).foldl
          Heap.insert heapS1
      ∧ (exploreNodeBranches builtS1.1 rootS1 [0, 1 / 2] heapS1).2.items
        = heapS1.items ++ (((List.range builtS1.1.branching.toNat).filter
            (fun i => decide (i ≠ (exploreNodeBranches builtS1.1 rootS1 [0, 1 / 2] heapS1).1))).map
            (fun i => ({ node := rootS1.child i
                         mindist := builtS1.1.distance [0, 1 / 2] (rootS1.child i).pivot
                                 builtS1.1.veclen_
                           - builtS1.1.cb_index * (rootS1.child i).variance } : BranchSt))).take
          (heapS1.length - heapS1.items.length)
      ∧ (heapS1.items.length + (builtS1.1.branching.toNat - 1) ≤ heapS1.length →
          (exploreNodeBranches builtS1.1 rootS1 [0, 1 / 2] heapS1).2.items
            = heapS1.items ++ ((List.range builtS1.1.branching.toNat).filter
                (fun i => decide (i ≠ (exploreNodeBranches builtS1.1 rootS1 [0, 1 / 2] heapS1).1))).map
                (fun i => ({ node := rootS1.child i
                             mindist := builtS1.1.distance [0, 1 / 2] (rootS1.child i).pivot
                                 builtS1.1.veclen_
                               - builtS1.1.cb_index * (rootS1.child i).variance } : BranchSt)))
      ∧ ((List.range builtS1.1.branching.toNat).filter
          (fun i => decide (i ≠ (exploreNodeBranches builtS1.1 rootS1 [0, 1 / 2] heapS1).1))).length
        = builtS1.1.branching.toNat - 1
      ∧ ((List.range builtS1.1.branching.toNat).filter
          (fun i => decide (i ≠ (exploreNodeBranches builtS1.1 rootS1 [0, 1 / 2] heapS1).1))).Nodup
      ∧ ∀ i, i ∈ (List.range builtS1.1.branching.toNat).filter
            (fun i => decide (i ≠ (exploreNodeBranches builtS1.1 rootS1 [0, 1 / 2] heapS1).1))
          ↔ i < builtS1.1.branching.toNat
            ∧ i ≠ (exploreNodeBranches builtS1.1 rootS1 [0, 1 / 2] heapS1).1 :=
  ⟨by decide!, explore_returns_first_nearest_child builtS1.1 rootS1 [0, 1 / 2]
    heapS1 (by decide!)⟩

/-- C36: for every `k >= 1`, every list of `n >= 1` candidate ids and every random stream,
`chooseCentersKMeanspp` returns exactly `k` centres, each of them an id of the list, whatever
the rows are; the centres need not be distinct: on two identical rows it returns the same id
twice. -/
theorem kmeanspp_seeder_returns_k_centers (ix : KMeansIndex) (k : Nat) (indices : List Nat)
    (g : Rng) (hk : 1 ≤ k) (hn : 1 ≤ indices.length) :
    (chooseCentersKMeanspp ix k indices g).1.length = k
      ∧ (∀ x ∈ (chooseCentersKMeanspp ix k indices g).1, x ∈ indices)
      ∧ (chooseCentersKMeanspp indexTwin 2 [0, 1] []).1 = [0, 0] :=
  ⟨chooseCentersKMeanspp_length ix k indices g hk, chooseCentersKMeanspp_mem ix k indices g hn,
    by decide!⟩

theorem kmeanspp_seeder_returns_k_centers_witness :
    (chooseCentersKMeanspp indexZeros 32 (List.range 100) [5, 7]).1.length = 32
      ∧ (∀ x ∈ (chooseCentersKMeanspp indexZeros 32 (List.range 100) [5, 7]).1,
          x ∈ List.range 100)
      ∧ (chooseCentersKMeanspp indexTwin 2 [0, 1] []).1 = [0, 0] :=
  kmeanspp_seeder_returns_k_centers indexZeros 32 (List.range 100) [5, 7] (by decide)
    (by decide)

/-- C39: `query_vector` returns -1 whenever `desc_mode` is neither 0 nor 1 or `method` lies
outside 0..3, and then nothing has happened but the printing of the usage text and of the
error message: the results file and the assignments file have not been opened, nothing has
been read and no search structure has been created. -/
theorem query_vector_rejects_unknown_modes (w : QueryWorld) (desc_mode method : Int)
    (h : (desc_mode ≠ 0 ∧ desc_mode ≠ 1) ∨ method < 0 ∨ 3 < method) :
    (query_vector w desc_mode method).1 = some (-1)
      ∧ ((query_vector w desc_mode method).2
            = [QueryEvent.printUsage, QueryEvent.reportDescMode desc_mode]
          ∨ (query_vector w desc_mode method).2
            = [QueryEvent.printUsage, QueryEvent.reportMethod method])
      ∧ QueryEvent.openResults ∉ (query_vector w desc_mode method).2
      ∧ QueryEvent.openAssignments ∉ (query_vector w desc_mode method).2
      ∧ QueryEvent.readAssignments ∉ (query_vector w desc_mode method).2
      ∧ QueryEvent.createFlannIndex ∉ (query_vector w desc_mode method).2
      ∧ QueryEvent.createAnnTree ∉ (query_vector w desc_mode method).2 := by
  unfold query_vector
  by_cases h1 : desc_mode ≠ 0 ∧ desc_mode ≠ 1
  · rw [if_pos h1]
    simp
  · rw [if_neg h1]
    have h2 : method < 0 ∨ method > 3 := by
      rcases h with h | h | h
      · exact absurd h h1
      · exact Or.inl h
      · exact Or.inr h
    rw [if_pos h2]
    simp

theorem query_vector_rejects_unknown_modes_witness :
    (query_vector worldAllGood 0 4).1 = some (-1)
      ∧ ((query_vector worldAllGood 0 4).2
            = [QueryEvent.printUsage, QueryEvent.reportDescMode 0]
          ∨ (query_vector worldAllGood 0 4).2
            = [QueryEvent.printUsage, QueryEvent.reportMethod 4])
      ∧ QueryEvent.openResults ∉ (query_vector worldAllGood 0 4).2
      ∧ QueryEvent.openAssignments ∉ (query_vector worldAllGood 0 4).2
      ∧ QueryEvent.readAssignments ∉ (query_vector worldAllGood 0 4).2
      ∧ QueryEvent.createFlannIndex ∉ (query_vector worldAllGood 0 4).2
      ∧ QueryEvent.createAnnTree ∉ (query_vector worldAllGood 0 4).2 :=
  query_vector_rejects_unknown_modes worldAllGood 0 4 (Or.inr (Or.inr (by decide)))

/-- C40: the local `sigma` of `query_vector`, the integer expression `1/4*128`, is 0 whatever
the inputs are, so the denominator `sigma*sigma` of every weight `w_fi` is 0 and the quotient
is not a finite number. -/
theorem sigma_is_zero :
    sigma = 0 ∧ sigma * sigma = 0 ∧ ∀ (exp : ℚ → ℚ) (distance : ℚ), w_fi exp distance = none := by
  refine ⟨by decide, by decide, fun exp distance => ?_⟩
  unfold w_fi
  rw [if_pos]
  have : sigma * sigma = 0 := by decide
  rw [this]
  rfl

theorem foldl_first_min (v : Nat → ℚ) (int : Nat → Bool) :
    ∀ (t : Nat),
      (((List.range t).foldl (fun (acc : Option ℚ × Option Nat) i =>
          if int i then (if ltMax (v i) acc.1 then (some (v i), some i) else acc) else acc)
          (none, none)).2 = none →
        ((List.range t).foldl (fun (acc : Option ℚ × Option Nat) i =>
          if int i then (if ltMax (v i) acc.1 then (some (v i), some i) else acc) else acc)
          (none, none)).1 = none ∧ ∀ j, j < t → int j = false)
      ∧ ∀ b, ((List.range t).foldl (fun (acc : Option ℚ × Option Nat) i =>
          if int i then (if ltMax (v i) acc.1 then (some (v i), some i) else acc) else acc)
          (none, none)).2 = some b →
        b < t ∧ int b = true
          ∧ ((List.range t).foldl (fun (acc : Option ℚ × Option Nat) i =>
            if int i then (if ltMax (v i) acc.1 then (some (v i), some i) else acc) else acc)
            (none, none)).1 = some (v b)
          ∧ (∀ j, j < t → int j = true → v b ≤ v j)
          ∧ ∀ j, j < b → int j = true → v b < v j := by
  intro t
  induction t with
  | zero => simp
  | succ t ih =>
    rw [List.range_succ, List.foldl_append]
    simp only [List.foldl_cons, List.foldl_nil]
    obtain ⟨ih1, ih2⟩ := ih
    generalize (List.range t).foldl (fun (acc : Option ℚ × Option Nat) i =>
      if int i then (if ltMax (v i) acc.1 then (some (v i), some i) else acc) else acc)
      (none, none) = acc at ih1 ih2
    obtain ⟨am, ai⟩ := acc
    simp only at ih1 ih2
    by_cases hint : int t = true
    · rw [if_pos hint]
      cases ai with
      | none =>
        obtain ⟨e1, e2⟩ := ih1 rfl
        subst e1
        simp only [ltMax, if_true]
        refine ⟨fun hn => by simp at hn, fun b hb => ?_⟩
        simp only [Option.some.injEq] at hb
        subst hb
        refine ⟨by omega, hint, rfl, ?_, ?_⟩
        · intro j hj hjint
          rcases Nat.lt_succ_iff_lt_or_eq.mp hj with hj | rfl
          · rw [e2 j hj] at hjint
            exact absurd hjint (by simp)
          · exact le_refl _
        · intro j hj hjint
          rw [e2 j hj] at hjint
          exact absurd hjint (by simp)
      | some b0 =>
        obtain ⟨e1, e2, e3, e4, e5⟩ := ih2 b0 rfl
        subst e3
        by_cases h : v t < v b0
        · have hl : ltMax (v t) (some (v b0)) = true := by simp [ltMax, h]
          rw [if_pos hl]
          refine ⟨fun hn => by simp at hn, fun b hb => ?_⟩
          simp only [Option.some.injEq] at hb
          subst hb
          refine ⟨by omega, hint, rfl, ?_, ?_⟩
          · intro j hj hjint
            rcases Nat.lt_succ_iff_lt_or_eq.mp hj with hj | rfl
            · exact le_trans (le_of_lt h) (e4 j hj hjint)
            · exact le_refl _
          · intro j hj hjint
            exact lt_of_lt_of_le h (e4 j hj hjint)
        · have hl : ¬ ltMax (v t) (some (v b0)) = true := by simp [ltMax, h]
          rw [if_neg hl]
          refine ⟨fun hn => by simp at hn, fun b hb => ?_⟩
          simp only [Option.some.injEq] at hb
          subst hb
          refine ⟨by omega, e2, rfl, ?_, e5⟩
          intro j hj hjint
          rcases Nat.lt_succ_iff_lt_or_eq.mp hj with hj | rfl
          · exact e4 j hj hjint
          · exact not_lt.mp h
    · rw [if_neg hint]
      simp only
      constructor
      · intro hn
        obtain ⟨e1, e2⟩ := ih1 hn
        refine ⟨e1, fun j hj => ?_⟩
        rcases Nat.lt_succ_iff_lt_or_eq.mp hj with hj | rfl
        · exact e2 j hj
        · simpa using hint
      · intro b hb
        obtain ⟨e1, e2, e3, e4, e5⟩ := ih2 b hb
        refine ⟨by omega, e2, e3, ?_, e5⟩
        intro j hj hjint
        rcases Nat.lt_succ_iff_lt_or_eq.mp hj with hj | rfl
        · exact e4 j hj hjint
        · exact absurd hjint hint

/-- The loop over the cluster list of `getMinVarianceClusters` picks the first internal
cluster with the smallest value of `variance`, and no cluster when none is internal. -/
theorem findSplit_spec (ix : KMeansIndex) (clusters : List KMeansNode) (mv : ℚ) :
    ((findSplit ix clusters mv).2 = none →
        ∀ j, j < clusters.length →
          ((clusters.getD j (KMeansNode.mk [] 0 0 0 0 none none)).childs).isSome = false)
      ∧ ∀ i, (findSplit ix clusters mv).2 = some i →
        i < clusters.length
          ∧ ((clusters.getD i (KMeansNode.mk [] 0 0 0 0 none none)).childs).isSome = true
          ∧ (findSplit ix clusters mv).1 = some (splitVariance ix mv
              (clusters.getD i (KMeansNode.mk [] 0 0 0 0 none none)))
          ∧ (∀ j, j < clusters.length →
              ((clusters.getD j (KMeansNode.mk [] 0 0 0 0 none none)).childs).isSome = true →
              splitVariance ix mv (clusters.getD i (KMeansNode.mk [] 0 0 0 0 none none))
                ≤ splitVariance ix mv (clusters.getD j (KMeansNode.mk [] 0 0 0 0 none none)))
          ∧ ∀ j, j < i →
              ((clusters.getD j (KMeansNode.mk [] 0 0 0 0 none none)).childs).isSome = true →
              splitVariance ix mv (clusters.getD i (KMeansNode.mk [] 0 0 0 0 none none))
                < splitVariance ix mv (clusters.getD j (KMeansNode.mk [] 0 0 0 0 none none)) := by
  have h := foldl_first_min
    (fun i => splitVariance ix mv (clusters.getD i (KMeansNode.mk [] 0 0 0 0 none none)))
    (fun i => ((clusters.getD i (KMeansNode.mk [] 0 0 0 0 none none)).childs).isSome)
    clusters.length
  exact ⟨fun hn => (h.1 hn).2, h.2⟩

theorem sum_set (f : KMeansNode → ℚ) :
    ∀ (l : List KMeansNode) (i : Nat) (x : KMeansNode) (_ : i < l.length),
      ((l.set i x).map f).sum = (l.map f).sum - f (l.getD i (KMeansNode.mk [] 0 0 0 0 none none))
        + f x := by
  intro l
  induction l with
  | nil => intro i x hi; simp at hi
  | cons a l ih =>
    intro i x hi
    cases i with
    | zero =>
      simp only [List.set_cons_zero, List.map_cons, List.sum_cons, List.getD_cons_zero]
      ring
    | succ i =>
      simp only [List.set_cons_succ, List.map_cons, List.sum_cons, List.getD_cons_succ]
      rw [ih i x (by simpa using hi)]
      ring

theorem splitVariance_sum (ix : KMeansIndex) (mv : ℚ) (c : KMeansNode) :
    splitVariance ix mv c
      = mv - c.variance * (c.size : ℚ)
        + ((List.range ix.branching.toNat).map
            (fun j => (c.child j).variance * ((c.child j).size : ℚ))).sum := by
  unfold splitVariance
  rw [foldl_add_sum (fun j => (c.child j).variance * ((c.child j).size : ℚ))]

/-- Splitting the cluster at position `i` changes the weighted sum as the loop computes
it. -/
theorem weightedVariance_split (ix : KMeansIndex) (hB : 1 ≤ ix.branching.toNat)
    (clusters : List KMeansNode) (i : Nat) (hi : i < clusters.length) :
    weightedVariance (splitCluster ix clusters i)
      = splitVariance ix (weightedVariance clusters)
          (clusters.getD i (KMeansNode.mk [] 0 0 0 0 none none)) := by
  rw [splitVariance_sum]
  unfold weightedVariance splitCluster
  rw [List.map_append, List.sum_append,
    sum_set (fun c => c.variance * (c.size : ℚ)) clusters i _ hi, List.map_map]
  have hr : List.range ix.branching.toNat = 0 :: List.range' 1 (ix.branching.toNat - 1) := by
    obtain ⟨m, hm⟩ : ∃ m, ix.branching.toNat = m + 1 := ⟨ix.branching.toNat - 1, by omega⟩
    rw [hm, List.range_eq_range', List.range'_succ]
    rfl
  rw [hr, List.map_cons, List.sum_cons]
  exact add_assoc _ _ _

theorem minVarianceLoop_sum (ix : KMeansIndex) (hB : 1 ≤ ix.branching.toNat) (k : Nat) :
    ∀ (fuel : Nat) (clusters : List KMeansNode) (mv : ℚ) (cl : List KMeansNode) (vv : ℚ),
      mv = weightedVariance clusters →
      minVarianceLoop ix k fuel clusters mv = Except.ok (cl, vv) →
      vv = weightedVariance cl := by
  intro fuel
  induction fuel with
  | zero => intro clusters mv cl vv _ h; simp [minVarianceLoop] at h
  | succ fuel ih =>
    intro clusters mv cl vv hmv h
    rw [minVarianceLoop] at h
    split at h
    · have hs := findSplit_spec ix clusters mv
      split at h
      · simp only [Except.ok.injEq, Prod.mk.injEq] at h
        rw [← h.1, ← h.2]; exact hmv
      · rename_i minVariance splitIndex hf
        split at h
        · simp only [Except.ok.injEq, Prod.mk.injEq] at h
          rw [← h.1, ← h.2]; exact hmv
        · have h2 := hs.2 splitIndex (by rw [hf])
          refine ih _ _ cl vv ?_ h
          have h1 : minVariance = some (splitVariance ix mv
              (clusters.getD splitIndex (KMeansNode.mk [] 0 0 0 0 none none))) := by
            have := h2.2.2.1
            rw [hf] at this
            exact this
          rw [h1, Option.getD_some, weightedVariance_split ix hB clusters splitIndex h2.1, hmv]
    · simp only [Except.ok.injEq, Prod.mk.injEq] at h
      rw [← h.1, ← h.2]; exact hmv

/-- One iteration of the loop that splits: the state afterwards. -/
theorem minVarianceLoop_step (ix : KMeansIndex) (hB : 1 ≤ ix.branching.toNat) (k fuel : Nat)
    (clusters : List KMeansNode) (i : Nat)
    (hlen : clusters.length < k)
    (hi : (findSplit ix clusters (weightedVariance clusters)).2 = some i)
    (hroom : ix.branching.toNat + clusters.length - 1 ≤ k) :
    minVarianceLoop ix k (fuel + 1) clusters (weightedVariance clusters)
      = minVarianceLoop ix k fuel (splitCluster ix clusters i)
          (weightedVariance (splitCluster ix clusters i)) := by
  have hs := (findSplit_spec ix clusters (weightedVariance clusters)).2 i hi
  rw [minVarianceLoop, if_pos hlen]
  have hp : findSplit ix clusters (weightedVariance clusters)
      = (some (splitVariance ix (weightedVariance clusters)
          (clusters.getD i (KMeansNode.mk [] 0 0 0 0 none none))), some i) := by
    rw [← hs.2.2.1, ← hi]
  rw [hp]
  simp only
  rw [if_neg (by omega), Option.getD_some, weightedVariance_split ix hB clusters i hs.1]

/-- An iteration of the loop that stops: nothing changes. -/
theorem minVarianceLoop_stop (ix : KMeansIndex) (k fuel : Nat)
    (clusters : List KMeansNode) (mv : ℚ)
    (h : ¬ clusters.length < k ∨ (findSplit ix clusters mv).2 = none
      ∨ k < ix.branching.toNat + clusters.length - 1) :
    minVarianceLoop ix k (fuel + 1) clusters mv = Except.ok (clusters, mv) := by
  rw [minVarianceLoop]
  split
  · split
    · rfl
    · rename_i minVariance splitIndex hf
      rcases h with h | h | h
      · exact absurd (by assumption) h
      · rw [hf] at h; simp at h
      · rw [if_pos (by omega)]
  · rfl

theorem getMinVarianceClusters_sum (ix : KMeansIndex) (hB : 2 ≤ ix.branching.toNat)
    (root : KMeansNode) (k fuel : Nat) (hk : 1 ≤ k) (hfuel : k - 1 < fuel) :
    ∃ cl vv, getMinVarianceClusters ix root k fuel = Except.ok (cl, vv)
      ∧ vv = weightedVariance cl / (root.size : ℚ) := by
  obtain ⟨cl, v, h1, -, -, -⟩ := minVarianceLoop_length ix k hB fuel [root]
    (root.variance * (root.size : ℚ)) (by simpa using hk) (by simp) (by simp) (by simpa using hfuel)
  have h2 := minVarianceLoop_sum ix (by omega) k fuel [root] _ cl v
    (by simp [weightedVariance]) h1
  refine ⟨cl, v / (root.size : ℚ), by simp only [getMinVarianceClusters, h1], ?_⟩
  rw [h2]

/-- C32. In `getMinVarianceClusters` (branching at least 2, `k >= 1` clusters asked for, fuel
above `k - 1`): the loop starts with `meanVariance` equal to the sum of `variance * size` over
the list `[root]`; in a state whose `meanVariance` is that sum over the current list, the index
`i` chosen by the inner loop is an internal member, the value kept with it is the sum over the
list after splitting `i`, that sum is at most the sum after splitting any other internal member
and strictly below it for every internal member before `i`, the list after the split is the old
one with member `i` replaced by its child 0 followed by its children `1..B-1` in order, and an
iteration that has room for the split continues in the state made of that list and its sum;
no index is chosen exactly when no member is internal; and the call returns a list together
with `varianceValue` equal to the sum over that list divided by `root.size`. -/
theorem min_variance_loop_keeps_weighted_sum (ix : KMeansIndex)
    (hB : 2 ≤ ix.branching.toNat) (root : KMeansNode) (k fuel : Nat) (hk : 1 ≤ k)
    (hfuel : k - 1 < fuel) :
    root.variance * (root.size : ℚ) = weightedVariance [root]
      ∧ (∀ (clusters : List KMeansNode) (i : Nat),
          (findSplit ix clusters (weightedVariance clusters)).2 = some i →
          i < clusters.length
            ∧ ((clusters.getD i (KMeansNode.mk [] 0 0 0 0 none none)).childs).isSome = true
            ∧ (findSplit ix clusters (weightedVariance clusters)).1
              = some (weightedVariance (splitCluster ix clusters i))
            ∧ (∀ j, j < clusters.length →
                ((clusters.getD j (KMeansNode.mk [] 0 0 0 0 none none)).childs).isSome = true →
                weightedVariance (splitCluster ix clusters i)
                  ≤ weightedVariance (splitCluster ix clusters j))
            ∧ (∀ j, j < i →
                ((clusters.getD j (KMeansNode.mk [] 0 0 0 0 none none)).childs).isSome = true →
                weightedVariance (splitCluster ix clusters i)
                  < weightedVariance (splitCluster ix clusters j))
            ∧ splitCluster ix clusters i
              = clusters.set i ((clusters.getD i (KMeansNode.mk [] 0 0 0 0 none none)).child 0)
                ++ (List.range' 1 (ix.branching.toNat - 1)).map
                  (fun t => (clusters.getD i (KMeansNode.mk [] 0 0 0 0 none none)).child t)
            ∧ (clusters.length < k → ix.branching.toNat + clusters.length - 1 ≤ k →
                ∀ n, minVarianceLoop ix k (n + 1) clusters (weightedVariance clusters)
                  = minVarianceLoop ix k n (splitCluster ix clusters i)
                      (weightedVariance (splitCluster ix clusters i))))
      ∧ (∀ (clusters : List KMeansNode),
          (findSplit ix clusters (weightedVariance clusters)).2 = none ↔
            ∀ j, j < clusters.length →
              ((clusters.getD j (KMeansNode.mk [] 0 0 0 0 none none)).childs).isSome = false)
      ∧ ∃ cl vv, getMinVarianceClusters ix root k fuel = Except.ok (cl, vv)
          ∧ vv = weightedVariance cl / (root.size : ℚ) := by
  have hB1 : 1 ≤ ix.branching.toNat := by omega
  refine ⟨by simp [weightedVariance], ?_, ?_, getMinVarianceClusters_sum ix hB root k fuel hk hfuel⟩
  · intro clusters i hi
    obtain ⟨h1, h2, h3, h4, h5⟩ := (findSplit_spec ix clusters (weightedVariance clusters)).2 i hi
    refine ⟨h1, h2, ?_, ?_, ?_, rfl, ?_⟩
    · rw [h3, weightedVariance_split ix hB1 clusters i h1]
    · intro j hj hint
      rw [weightedVariance_split ix hB1 clusters i h1, weightedVariance_split ix hB1 clusters j hj]
      exact h4 j hj hint
    · intro j hj hint
      rw [weightedVariance_split ix hB1 clusters i h1,
        weightedVariance_split ix hB1 clusters j (by omega)]
      exact h5 j hj hint
    · intro hlen hroom n
      exact minVarianceLoop_step ix hB1 k n clusters i hlen hi hroom
  · intro clusters
    constructor
    · exact (findSplit_spec ix clusters (weightedVariance clusters)).1
    · intro hall
      cases hf : (findSplit ix clusters (weightedVariance clusters)).2 with
      | none => rfl
      | some i =>
        obtain ⟨h1, h2, -⟩ := (findSplit_spec ix clusters (weightedVariance clusters)).2 i hf
        rw [hall i h1] at h2
        exact absurd h2 (by simp)

theorem min_variance_loop_keeps_weighted_sum_witness :
    2 ≤ builtS1.1.branching.toNat
      ∧ ∃ cl vv, getMinVarianceClusters builtS1.1 rootS1 3 3 = Except.ok (cl, vv)
          ∧ vv = weightedVariance cl / (rootS1.size : ℚ) :=
  ⟨by decide!,
    (min_variance_loop_keeps_weighted_sum builtS1.1 (by decide!) rootS1 3 3 (by decide)
      (by decide)).2.2.2⟩

/-- The call of `computeClustering` on a slice that is split, in terms of the Lloyd loop and
the partition loop. -/
theorem computeClustering_unfold (ix : KMeansIndex) (B fuel : Nat) (bs : BuildState)
    (indices : List Nat) (off : Nat) (stats : NodeStats) (level : Nat)
    (hlen : ¬ indices.length < B)
    (hseed : ¬ (callChooseCenters ix B indices bs.rng).1.length < B) :
    computeClustering ix B (fuel + 1) bs indices off stats level
      = match lloydLoop ix indices B ix.max_iter false
          (assignPoints ix indices (seedRows ix B (callChooseCenters ix B indices bs.rng).1)
            B) with
        | Except.error e => Except.error e
        | Except.ok st =>
          match clusterChildren ix (computeClustering ix B fuel) off level
              st.dcenters st.radiuses st.count (List.range B) indices st.belongs_to 0
              { rng := (callChooseCenters ix B indices bs.rng).2
                memoryCounter :=
                  bs.memoryCounter + B * (ix.veclen_ * sizeofDistanceType) } with
          | Except.error e => Except.error e
          | Except.ok (childs, indices1, bs1) =>
            Except.ok (KMeansNode.mk stats.pivot stats.radius stats.variance indices.length
              level (some childs) none, indices1, bs1) := by
  rw [computeClustering]
  simp only [hlen, hseed, if_false]
  rfl

theorem recomputeCenters_error (ix : KMeansIndex) (indices : List Nat) (st : Clusters)
    (B : Nat) (e : Err) (h : recomputeCenters ix indices st B = Except.error e) :
    e = Err.nan := by
  unfold recomputeCenters at h
  split at h
  · simp only [Except.error.injEq] at h
    exact h.symm
  · exact absurd h (by simp)

/-- The Lloyd loop returns, or ends with a division by a zero count; once an iteration has
run, or when no cluster is empty at the start, no cluster is empty at the end. -/
theorem lloydLoop_ok_or_nan (ix : KMeansIndex) (indices : List Nat) (B : Nat) (hB : 1 ≤ B)
    (hm : B ≤ indices.length) (left : Nat) (conv : Bool) (st : Clusters)
    (hc : CountOK B st) (hlen : st.belongs_to.length = indices.length)
    (hlt : ∀ x ∈ st.belongs_to, x < B) :
    (∃ st1, lloydLoop ix indices B left conv st = Except.ok st1
        ∧ CountOK B st1 ∧ st1.belongs_to.length = indices.length
        ∧ (∀ x ∈ st1.belongs_to, x < B)
        ∧ (((1 ≤ left ∧ conv = false) ∨ ∀ c, c < B → 1 ≤ st.count.getD c 0) →
            ∀ c, c < B → 1 ≤ st1.count.getD c 0))
      ∨ lloydLoop ix indices B left conv st = Except.error Err.nan := by
  cases left with
  | zero =>
    refine Or.inl ⟨st, rfl, hc, hlen, hlt, fun h => ?_⟩
    rcases h with h | h
    · omega
    · exact h
  | succ left =>
    by_cases hconv : conv = true
    · refine Or.inl ⟨st, by simp only [lloydLoop]; rw [if_pos hconv], hc, hlen, hlt, fun h => ?_⟩
      rcases h with h | h
      · rw [h.2] at hconv
        exact absurd hconv (by simp)
      · exact h
    · cases hdc : recomputeCenters ix indices st B with
      | error e =>
        right
        simp only [lloydLoop]
        rw [if_neg hconv, hdc, recomputeCenters_error ix indices st B e hdc]
      | ok dc =>
        left
        obtain ⟨r1, r2, r3, _⟩ := reassignPoints_countOK ix indices B hB
          { st with dcenters := dc, radiuses := List.replicate B 0 } true hlen hlt hc
        obtain ⟨st2, conv2, hrep, q1, q2, q3, _, _, _, q7, _⟩ :=
          repairClusters_spec B indices.length
            (reassignPoints ix indices B
              { st with dcenters := dc, radiuses := List.replicate B 0 } true).1
            (reassignPoints ix indices B
              { st with dcenters := dc, radiuses := List.replicate B 0 } true).2 hm r2 r3 r1
        rw [Prod.mk.eta] at hrep
        obtain ⟨st1, t1, t2, t3, t4, t5⟩ := lloydLoop_total ix indices B hB hm left conv2 st2
          q1 q2 q3 q7
        refine ⟨st1, ?_, t2, t3, t4, fun _ => t5⟩
        simp only [lloydLoop]
        rw [if_neg hconv, hdc]
        simp only
        rw [hrep]
        exact t1

theorem sum_ge_card (f : Nat → Int) :
    ∀ (B : Nat), (∀ i, i < B → 1 ≤ f i) → (B : Int) ≤ ((List.range B).map f).sum := by
  intro B
  induction B with
  | zero => intro _; simp
  | succ B ih =>
    intro h
    rw [List.range_succ, List.map_append, List.sum_append]
    have := ih (fun i hi => h i (by omega))
    have := h B (by omega)
    simp only [List.map_cons, List.map_nil, List.sum_cons, List.sum_nil, add_zero]
    push_cast
    omega

theorem sum_ge_member (f : Nat → Int) :
    ∀ (B : Nat), (∀ i, i < B → 1 ≤ f i) → ∀ c, c < B →
      f c + ((B : Int) - 1) ≤ ((List.range B).map f).sum := by
  intro B
  induction B with
  | zero => intro _ c hc; omega
  | succ B ih =>
    intro h c hc
    rw [List.range_succ, List.map_append, List.sum_append]
    simp only [List.map_cons, List.map_nil, List.sum_cons, List.sum_nil, add_zero]
    push_cast
    rcases Nat.lt_succ_iff_lt_or_eq.mp hc with hc1 | rfl
    · have := ih (fun i hi => h i (by omega)) c hc1
      have := h B (by omega)
      omega
    · have := sum_ge_card f c (fun i hi => h i (by omega))
      omega

/-- The partition loop returns, or ends with the error `nan`, when the recursive call does
so on every sub-slice it is given. -/
theorem clusterChildren_total_or (ix : KMeansIndex)
    (recurse : BuildState → List Nat → Nat → NodeStats → Nat → ClusteringResult)
    (off level : Nat) (centers : List Vec) (radiuses : List ℚ) (count : List Int)
    (assign : Nat → Nat) (A : List Nat → Prop)
    (hrec : ∀ bs sub o stats, A sub →
      (∃ node slice bs1, recurse bs sub o stats (level + 1) = Except.ok (node, slice, bs1)
        ∧ slice.Perm sub)
      ∨ recurse bs sub o stats (level + 1) = Except.error Err.nan) :
    ∀ (n c : Nat) (indices : List Nat) (start : Nat) (bs : BuildState),
      start ≤ indices.length →
      (∀ x ∈ indices.take start, assign x < c) →
      (∀ x ∈ indices.drop start, c ≤ assign x) →
      (∀ t, t < n → ∀ sub,
        sub.Perm (indices.filter (fun x => decide (assign x = c + t))) → A sub) →
      (∃ childs indices1 bs2,
        clusterChildren ix recurse off level centers radiuses count (List.range' c n)
          indices (indices.map assign) start bs = Except.ok (childs, indices1, bs2)
        ∧ indices1.Perm indices ∧ childs.length = n)
      ∨ clusterChildren ix recurse off level centers radiuses count (List.range' c n)
          indices (indices.map assign) start bs = Except.error Err.nan := by
  intro n
  induction n with
  | zero =>
    intro c indices start bs _ _ _ _
    exact Or.inl ⟨[], indices, bs, rfl, List.Perm.refl _, rfl⟩
  | succ n ih =>
    intro c indices start bs hs hlo hhi hA
    obtain ⟨_, _, g3, _⟩ := childSlice_facts ix assign c start indices hs hlo hhi _ rfl _
      (List.Perm.refl _)
    rcases hrec bs _ (off + start)
      { pivot := centers.getD c [], radius := radiuses.getD c 0
        variance := (partitionPass ix c
            { indices := indices, belongs_to := indices.map assign, end_ := start
              variance := 0 }).variance / ((count.getD c 0 : Int) : ℚ)
          - ix.distance (centers.getD c []) ZeroIterator ix.veclen_ }
      (hA 0 (by omega) _ g3) with ⟨node, slice, bs1, hr, r1⟩ | hnan
    · obtain ⟨f1, f2, f3, f4, f5, f6, f7, f8, f9, f10⟩ :=
        childSlice_facts ix assign c start indices hs hlo hhi _ rfl slice r1
      rcases ih (c + 1) _ _ bs1 (by rw [f5]; exact f2) f9 f10 (by
          intro t ht sub hsub
          apply hA (t + 1) (by omega) sub
          have e : c + (t + 1) = c + 1 + t := by omega
          rw [e]
          exact hsub.trans (f6.filter _)) with ⟨rest, indices2, bs3, hih, i1, i2⟩ | hnan2
      · refine Or.inl ⟨node :: rest, indices2, bs3, ?_, i1.trans f6, by simp [i2]⟩
        rw [List.range'_succ]
        simp only [clusterChildren]
        rw [hr]
        simp only
        rw [f7, hih]
      · right
        rw [List.range'_succ]
        simp only [clusterChildren]
        rw [hr]
        simp only
        rw [f7, hnan2]
    · right
      rw [List.range'_succ]
      simp only [clusterChildren]
      rw [hnan]

/-- With `B >= 2` and an iteration cap of at least 1, `computeClustering` on a slice of
distinct ids returns, or ends with a division by a zero count, once the fuel exceeds the
length of the slice. -/
theorem computeClustering_terminates (ix : KMeansIndex) (B : Nat) (hB : 2 ≤ B)
    (hit : 1 ≤ ix.max_iter) :
    ∀ (fuel : Nat) (bs : BuildState) (indices : List Nat) (off : Nat) (stats : NodeStats)
      (level : Nat), indices.Nodup → indices.length < fuel →
      (∃ node slice bs1,
        computeClustering ix B fuel bs indices off stats level = Except.ok (node, slice, bs1)
        ∧ slice.Perm indices)
      ∨ computeClustering ix B fuel bs indices off stats level = Except.error Err.nan := by
  intro fuel
  induction fuel with
  | zero => intro bs indices off stats level _ h; omega
  | succ fuel ih =>
    intro bs indices off stats level hn hf
    by_cases hlt : indices.length < B
    · refine Or.inl ⟨KMeansNode.mk stats.pivot stats.radius stats.variance indices.length level
        none (some off), indices.insertionSort (fun a b => a ≤ b), bs, ?_,
        List.perm_insertionSort _ _⟩
      simp only [computeClustering]
      rw [if_pos hlt]
      rfl
    · by_cases hseed : (callChooseCenters ix B indices bs.rng).1.length < B
      · refine Or.inl ⟨KMeansNode.mk stats.pivot stats.radius stats.variance indices.length
          level none (some off), indices.insertionSort (fun a b => a ≤ b),
          { bs with rng := (callChooseCenters ix B indices bs.rng).2 }, ?_,
          List.perm_insertionSort _ _⟩
        rw [computeClustering]
        simp only [hlt, hseed, if_false, if_true]
        rfl
      · rw [computeClustering_unfold ix B fuel bs indices off stats level hlt hseed]
        obtain ⟨_, a2, _, a4, _⟩ := assignPoints_spec ix indices
          (seedRows ix B (callChooseCenters ix B indices bs.rng).1) B (by omega)
        have aok := assignPoints_ok ix indices B (by omega)
          (seedRows ix B (callChooseCenters ix B indices bs.rng).1)
          (fun c hc => rows_shape B ix.veclen_ c _ hc)
        rcases lloydLoop_ok_or_nan ix indices B (by omega) (by omega) ix.max_iter false _ a4 a2
          aok.2.1 with ⟨st, hl, k1, k2, k3, k4⟩ | hnan
        · rw [hl]
          simp only
          have k5 := k4 (Or.inl ⟨hit, rfl⟩)
          have hbt := assignment_of_nodup indices st.belongs_to hn k2
          generalize hassign : (fun id => st.belongs_to.getD (indices.indexOf id) 0) = assign
            at hbt
          have hcnt : ∀ c, c < B →
              1 ≤ (indices.filter (fun x => decide (assign x = c))).length := by
            intro c hc
            have h2 := k5 c hc
            rw [k1.2 c hc, hbt, count_map_eq_filter] at h2
            omega
          rcases clusterChildren_total_or ix (computeClustering ix B fuel) off level
            st.dcenters st.radiuses st.count assign
            (fun sub => sub.Nodup ∧ sub.length < fuel)
            (fun bs0 sub o stats0 hA => ih bs0 sub o stats0 (level + 1) hA.1 hA.2)
            B 0 indices 0
            { rng := (callChooseCenters ix B indices bs.rng).2
              memoryCounter := bs.memoryCounter + B * (ix.veclen_ * sizeofDistanceType) }
            (Nat.zero_le _) (fun x hx => by simp at hx) (fun x _ => Nat.zero_le _)
            (by
              intro t ht sub hsub
              rw [Nat.zero_add] at hsub
              refine ⟨hsub.nodup_iff.mpr (hn.filter _), ?_⟩
              rw [hsub.length_eq]
              have hother : ∃ u, u < B ∧ u ≠ t := by
                by_cases h0 : t = 0
                · exact ⟨1, by omega, by omega⟩
                · exact ⟨0, by omega, fun h => h0 h.symm⟩
              obtain ⟨u, hu, hut⟩ := hother
              have hdis := filter_disjoint_length indices (fun x => decide (assign x = t))
                (fun x => decide (assign x = u)) (by
                  intro x _ hx
                  simp only [decide_eq_true_eq] at hx
                  exact hut (hx.2.symm.trans hx.1))
              have := hcnt u hu
              omega) with ⟨childs, indices1, bs2, hcc, c1, _⟩ | hnan2
          · rw [← hbt, ← List.range_eq_range'] at hcc
            rw [hcc]
            exact Or.inl ⟨_, _, _, rfl, c1⟩
          · rw [← hbt, ← List.range_eq_range'] at hnan2
            rw [hnan2]
            exact Or.inr rfl
        · rw [hnan]
          exact Or.inr rfl

/-- With `branching >= 2` and an iteration cap of at least 1, the build returns, or ends with
a division by a zero count, once the fuel exceeds the number of rows. -/
theorem buildIndex_terminates (ix : KMeansIndex) (hB : 2 ≤ ix.branching)
    (hit : 1 ≤ ix.max_iter) (fuel : Nat) (hf : ix.size_ < fuel) (g : Rng) :
    (∃ ix1 g1, buildIndex ix fuel g = Except.ok (ix1, g1))
      ∨ buildIndex ix fuel g = Except.error Err.nan := by
  unfold buildIndex
  rw [if_neg (by omega)]
  rcases computeClustering_terminates ix ix.branching.toNat (by omega) hit fuel
    { rng := g, memoryCounter := ix.memoryCounter + ix.veclen_ * sizeofDistanceType }
    (List.range ix.size_) 0 (computeNodeStatistics ix (List.range ix.size_) ix.size_) 0
    (List.nodup_range _) (by rw [List.length_range]; exact hf) with
    ⟨node, slice, bs1, hc, _⟩ | hnan
  · rw [hc]
    exact Or.inl ⟨_, _, rfl⟩
  · rw [hnan]
    exact Or.inr rfl

theorem seedRows_row (ix : KMeansIndex) (B : Nat) (seeds : List Nat) (j : Nat) (hj : j < B)
    (hrow : (ix.dataset.row (seeds.getD j 0)).length = ix.veclen_) :
    (seedRows ix B seeds).getD j [] = ix.dataset.row (seeds.getD j 0) := by
  rw [seedRows_getD ix B seeds j hj, ← hrow]
  exact map_vget_range _

/-- A seed whose row is at a positive distance from the rows of the earlier seeds, and at no
negative distance from the rows of the later ones, is nearest to its own centre. -/
theorem seed_nearest_gen (ix : KMeansIndex) (B : Nat) (seeds : List Nat) (hB : 1 ≤ B)
    (hself : ∀ a n, ix.distance a a n = 0)
    (hrow : ∀ j, j < B → (ix.dataset.row (seeds.getD j 0)).length = ix.veclen_)
    (i : Nat) (hi : i < B)
    (hlow : ∀ j, j < i → 0 < ix.distance (ix.dataset.row (seeds.getD i 0))
      (ix.dataset.row (seeds.getD j 0)) ix.veclen_)
    (hhigh : ∀ j, i < j → j < B → 0 ≤ ix.distance (ix.dataset.row (seeds.getD i 0))
      (ix.dataset.row (seeds.getD j 0)) ix.veclen_) :
    (nearestCenter ix (ix.dataset.row (seeds.getD i 0)) (seedRows ix B seeds) B).1 = i := by
  obtain ⟨n1, n2, n3, n4⟩ := nearestCenter_spec ix (ix.dataset.row (seeds.getD i 0))
    (seedRows ix B seeds) B hB
  rcases Nat.lt_trichotomy
    (nearestCenter ix (ix.dataset.row (seeds.getD i 0)) (seedRows ix B seeds) B).1 i
    with h | h | h
  · have h3 := n3 i hi
    rw [seedRows_row ix B seeds i hi (hrow i hi), hself, n2,
      seedRows_row ix B seeds _ n1 (hrow _ n1)] at h3
    exact absurd (hlow _ h) (not_lt.mpr h3)
  · exact h
  · have h4 := n4 i h
    rw [seedRows_row ix B seeds i hi (hrow i hi), hself, n2,
      seedRows_row ix B seeds _ n1 (hrow _ n1)] at h4
    exact absurd h4 (not_lt.mpr (hhigh _ h n1))

/-- The centres of `chooseCentersGonzales` are ids of the slice, and every centre is at a
positive distance from each centre chosen before it (measured from the earlier centre). -/
theorem chooseCentersGonzales_props (ix : KMeansIndex) (k : Nat) (indices : List Nat) (g : Rng)
    (hn : 1 ≤ indices.length) :
    (∀ t, t < (chooseCentersGonzales ix k indices g).1.length →
        (chooseCentersGonzales ix k indices g).1.getD t 0 ∈ indices)
      ∧ ∀ s t, s < t → t < (chooseCentersGonzales ix k indices g).1.length →
          0 < ix.distance (ix.dataset.row ((chooseCentersGonzales ix k indices g).1.getD s 0))
            (ix.dataset.row ((chooseCentersGonzales ix k indices g).1.getD t 0))
            ix.dataset.cols := by
  obtain ⟨h1, h2, h3, h4, h5⟩ := chooseCentersGonzalesLoop_spec ix indices (k - 1)
    [indices.getD (rand_int indices.length g).1 0]
  simp only [List.length_singleton] at h1 h2 h3 h4 h5
  unfold chooseCentersGonzales
  simp only
  have hslot : ∀ t, 1 ≤ t →
      t < (chooseCentersGonzalesLoop ix indices (k - 1)
        [indices.getD (rand_int indices.length g).1 0]).length →
      ∃ b, b < indices.length
        ∧ (chooseCentersGonzalesLoop ix indices (k - 1)
            [indices.getD (rand_int indices.length g).1 0]).getD t 0 = indices.getD b 0
        ∧ 0 < gonzalesDist ix ((chooseCentersGonzalesLoop ix indices (k - 1)
            [indices.getD (rand_int indices.length g).1 0]).take t) (indices.getD b 0) := by
    intro t ht1 ht2
    obtain ⟨b, hb, hget⟩ := h4 t ht1 ht2
    obtain ⟨e1, e2, _, _⟩ := (gonzalesBest_spec ix indices _).2 b hb
    exact ⟨b, e1, hget, e2⟩
  constructor
  · intro t ht
    rcases Nat.eq_zero_or_pos t with h0 | hpos
    · subst h0
      have e := congrArg (fun l => l.getD 0 0) h1
      simp only at e
      rw [List.getD_eq_getElem?_getD, List.getElem?_take_of_lt (by omega)] at e
      rw [List.getD_eq_getElem?_getD, e]
      simp only [List.getD_cons_zero]
      have hr : (rand_int indices.length g).1 < indices.length := by
        unfold rand_int
        exact Nat.mod_lt _ (by omega)
      rw [List.getD_eq_getElem _ _ hr]
      exact List.getElem_mem _
    · obtain ⟨b, hb, hget, _⟩ := hslot t hpos ht
      rw [hget, List.getD_eq_getElem _ _ hb]
      exact List.getElem_mem _
  · intro s t hst ht
    obtain ⟨b, _, hget, hpos⟩ := hslot t (by omega) ht
    have hne : (chooseCentersGonzalesLoop ix indices (k - 1)
        [indices.getD (rand_int indices.length g).1 0]).take t ≠ [] := by
      intro h
      have := congrArg List.length h
      rw [List.length_take] at this
      simp only [List.length_nil] at this
      omega
    have hmem : (chooseCentersGonzalesLoop ix indices (k - 1)
        [indices.getD (rand_int indices.length g).1 0]).getD s 0
        ∈ (chooseCentersGonzalesLoop ix indices (k - 1)
          [indices.getD (rand_int indices.length g).1 0]).take t := by
      rw [List.getD_eq_getElem _ _ (lt_trans hst ht)]
      rw [List.mem_take_iff_getElem]
      exact ⟨s, by rw [Nat.min_eq_left (le_of_lt ht)]; exact hst, rfl⟩
    have := (gonzalesDist_spec ix _ (indices.getD b 0) hne).1 _ hmem
    rw [hget]
    exact lt_of_lt_of_le hpos this

/-- Under random or Gonzales seeding the seeds of a split are ids of the slice and their rows
are pairwise at a positive distance, in one of the two orders of the arguments. -/
theorem seeds_apart (ix : KMeansIndex) (B : Nat) (indices : List Nat) (g : Rng)
    (hseed : ix.chooseCenters = flann_centers_init_t.FLANN_CENTERS_RANDOM
      ∨ ix.chooseCenters = flann_centers_init_t.FLANN_CENTERS_GONZALES)
    (hn : 1 ≤ indices.length) :
    (∀ t, t < (callChooseCenters ix B indices g).1.length →
        (callChooseCenters ix B indices g).1.getD t 0 ∈ indices)
      ∧ ∀ s t, s < t → t < (callChooseCenters ix B indices g).1.length →
          0 < ix.distance (ix.dataset.row ((callChooseCenters ix B indices g).1.getD s 0))
              (ix.dataset.row ((callChooseCenters ix B indices g).1.getD t 0)) ix.dataset.cols
            ∨ 0 < ix.distance (ix.dataset.row ((callChooseCenters ix B indices g).1.getD t 0))
              (ix.dataset.row ((callChooseCenters ix B indices g).1.getD s 0))
              ix.dataset.cols := by
  rcases hseed with hR | hG
  · rw [callChooseCenters_random ix B indices g hR]
    obtain ⟨_, p2, p3, _⟩ := chooseCentersRandom_props ix B indices g
    constructor
    · intro t ht
      rw [List.getD_eq_getElem _ _ ht]
      exact p2 _ (List.getElem_mem _)
    · intro s t hst ht
      right
      have h1 := (List.pairwise_iff_getElem.mp p3) s t (by omega) ht hst
      rw [List.getD_eq_getElem _ _ (by omega), List.getD_eq_getElem _ _ (by omega)]
      have : (0 : ℚ) < 1 / 10 ^ 16 := by norm_num
      exact lt_of_lt_of_le this (not_lt.mp h1)
  · have hc : callChooseCenters ix B indices g = chooseCentersGonzales ix B indices g := by
      unfold callChooseCenters
      rw [hG]
    rw [hc]
    obtain ⟨q1, q2⟩ := chooseCentersGonzales_props ix B indices g hn
    exact ⟨q1, fun s t hst ht => Or.inl (q2 s t hst ht)⟩

theorem eq_error_of_errValue {α : Type} (r : Except Err α) (e : Err)
    (h : errValue r = some e) : r = Except.error e := by
  cases r with
  | ok a => simp [errValue] at h
  | error e1 =>
    simp only [errValue, Option.some.injEq] at h
    rw [h]

theorem L2_symm (a b : Vec) (len : Nat) : L2 a b len = L2 b a len := by
  unfold L2
  congr 1
  apply List.map_congr_left
  intro k _
  ring

/-- Under random or Gonzales seeding and a symmetric distance that is zero from a point to
itself, every seed of a split is nearest to its own centre. -/
theorem seed_in_own_cluster (ix : KMeansIndex) (B : Nat) (indices : List Nat) (g : Rng)
    (hseed : ix.chooseCenters = flann_centers_init_t.FLANN_CENTERS_RANDOM
      ∨ ix.chooseCenters = flann_centers_init_t.FLANN_CENTERS_GONZALES)
    (hsym : ∀ a b n, ix.distance a b n = ix.distance b a n)
    (hself : ∀ a n, ix.distance a a n = 0)
    (hcols : ix.dataset.cols = ix.veclen_)
    (hrows : ∀ id ∈ indices, (ix.dataset.row id).length = ix.veclen_)
    (hB : 1 ≤ B) (hlen : B ≤ indices.length)
    (hfull : ¬ (callChooseCenters ix B indices g).1.length < B) :
    ∀ c, c < B → (callChooseCenters ix B indices g).1.getD c 0 ∈ indices
      ∧ (nearestCenter ix (ix.dataset.row ((callChooseCenters ix B indices g).1.getD c 0))
          (seedRows ix B (callChooseCenters ix B indices g).1) B).1 = c := by
  obtain ⟨s1, s2⟩ := seeds_apart ix B indices g hseed (by omega)
  have hpos : ∀ i j, i < B → j < B → i ≠ j →
      0 < ix.distance (ix.dataset.row ((callChooseCenters ix B indices g).1.getD i 0))
        (ix.dataset.row ((callChooseCenters ix B indices g).1.getD j 0)) ix.veclen_ := by
    intro i j hi hj hij
    rw [← hcols]
    rcases Nat.lt_or_gt_of_ne hij with h | h
    · rcases s2 i j h (by omega) with h1 | h1
      · exact h1
      · rw [hsym]; exact h1
    · rcases s2 j i h (by omega) with h1 | h1
      · rw [hsym]; exact h1
      · exact h1
  intro c hc
  refine ⟨s1 c (by omega), ?_⟩
  exact seed_nearest_gen ix B _ hB hself (fun j hj => hrows _ (s1 j (by omega))) c hc
    (fun j hj => hpos c j hc (by omega) (by omega))
    (fun j hj hjB => le_of_lt (hpos c j hc hjB (by omega)))

/-- C35 (amended). Under random or Gonzales seeding and a symmetric distance with
`d(x, x) = 0`, in a split of `m >= B` points whose seeder has returned `B` centres: every
seed is an id of the slice and the first assignment puts it into the cluster of its own
centre; so `count[c] >= 1` for every cluster after the first assignment; and for every
number of iterations the Lloyd loop returns with `count[c] >= 1` for every cluster, in a
state from which the recomputation of the centres returns without a division by zero. -/
theorem seeds_keep_own_clusters (ix : KMeansIndex) (B : Nat) (indices : List Nat) (g : Rng)
    (hseed : ix.chooseCenters = flann_centers_init_t.FLANN_CENTERS_RANDOM
      ∨ ix.chooseCenters = flann_centers_init_t.FLANN_CENTERS_GONZALES)
    (hsym : ∀ a b n, ix.distance a b n = ix.distance b a n)
    (hself : ∀ a n, ix.distance a a n = 0)
    (hcols : ix.dataset.cols = ix.veclen_)
    (hrows : ∀ id ∈ indices, (ix.dataset.row id).length = ix.veclen_)
    (hB : 1 ≤ B) (hlen : B ≤ indices.length)
    (hfull : ¬ (callChooseCenters ix B indices g).1.length < B) :
    (∀ c, c < B → (callChooseCenters ix B indices g).1.getD c 0 ∈ indices
        ∧ (nearestCenter ix (ix.dataset.row ((callChooseCenters ix B indices g).1.getD c 0))
            (seedRows ix B (callChooseCenters ix B indices g).1) B).1 = c)
      ∧ (∀ c, c < B →
          1 ≤ (assignPoints ix indices (seedRows ix B (callChooseCenters ix B indices g).1)
            B).count.getD c 0)
      ∧ ∀ left, ∃ st, lloydLoop ix indices B left false
            (assignPoints ix indices (seedRows ix B (callChooseCenters ix B indices g).1) B)
            = Except.ok st
          ∧ (∀ c, c < B → 1 ≤ st.count.getD c 0)
          ∧ ∃ dc, recomputeCenters ix indices st B = Except.ok dc := by
  have hown := seed_in_own_cluster ix B indices g hseed hsym hself hcols hrows hB hlen hfull
  obtain ⟨_, a2, a3, a4, _⟩ := assignPoints_spec ix indices
    (seedRows ix B (callChooseCenters ix B indices g).1) B hB
  have aok := assignPoints_ok ix indices B hB
    (seedRows ix B (callChooseCenters ix B indices g).1)
    (fun c hc => rows_shape B ix.veclen_ c _ hc)
  have hcount : ∀ c, c < B →
      1 ≤ (assignPoints ix indices (seedRows ix B (callChooseCenters ix B indices g).1)
        B).count.getD c 0 := by
    intro c hc
    rw [a4.2 c hc]
    obtain ⟨hin, hnear⟩ := hown c hc
    obtain ⟨p, hp, hget⟩ := List.getElem_of_mem hin
    have hbp := a3 p hp
    rw [List.getD_eq_getElem _ _ hp, hget, hnear] at hbp
    have : c ∈ (assignPoints ix indices (seedRows ix B (callChooseCenters ix B indices g).1)
        B).belongs_to := by
      rw [← hbp, List.getD_eq_getElem _ _ (by omega)]
      exact List.getElem_mem _
    have := List.count_pos_iff.mpr this
    omega
  refine ⟨hown, hcount, fun left => ?_⟩
  obtain ⟨st, t1, _, _, _, t5⟩ := lloydLoop_total ix indices B hB hlen left false _ a4 a2
    aok.2.1 hcount
  exact ⟨st, t1, t5, recomputeCenters_ok ix indices st B t5⟩

theorem seeds_keep_own_clusters_witness :
    ¬ (callChooseCenters indexS1 2 [0, 1, 2, 3] []).1.length < 2
      ∧ 1 ≤ (assignPoints indexS1 [0, 1, 2, 3]
        (seedRows indexS1 2 (callChooseCenters indexS1 2 [0, 1, 2, 3] []).1) 2).count.getD 0 0
      ∧ 1 ≤ (assignPoints indexS1 [0, 1, 2, 3]
        (seedRows indexS1 2 (callChooseCenters indexS1 2 [0, 1, 2, 3] []).1) 2).count.getD 1 0 :=
  ⟨by decide!,
    (seeds_keep_own_clusters indexS1 2 [0, 1, 2, 3] []
      (Or.inl rfl) (fun a b n => L2_symm a b n) (fun a n => L2_self a n) rfl (by decide)
      (by decide) (by decide) (by decide!)).2.1 0 (by decide),
    (seeds_keep_own_clusters indexS1 2 [0, 1, 2, 3] []
      (Or.inl rfl) (fun a b n => L2_symm a b n) (fun a n => L2_self a n) rfl (by decide)
      (by decide) (by decide) (by decide!)).2.1 1 (by decide)⟩

/-- C35 as stated fails: the distance `oneSided` is zero from every vector to itself, yet
under Gonzales seeding the split of the rows `(0)` and `(1)` (random stream `[]`) gets the
seeds 0 and 1, the first assignment puts both points into cluster 0, so `count` is `[2, 0]`,
and the first recomputation of the centres divides by `count[1] = 0`: the build ends with
`nan`. -/
theorem one_sided_distance_leaves_seed_cluster_empty :
    (∀ x n, oneSided x x n = 0)
      ∧ indexOneSided.chooseCenters = flann_centers_init_t.FLANN_CENTERS_GONZALES
      ∧ (callChooseCenters indexOneSided 2 [0, 1] []).1 = [0, 1]
      ∧ (nearestCenter indexOneSided (indexOneSided.dataset.row 1)
          (seedRows indexOneSided 2 [0, 1]) 2).1 = 0
      ∧ (assignPoints indexOneSided [0, 1] (seedRows indexOneSided 2 [0, 1]) 2).count = [2, 0]
      ∧ recomputeCenters indexOneSided [0, 1]
          (assignPoints indexOneSided [0, 1] (seedRows indexOneSided 2 [0, 1]) 2) 2
        = Except.error Err.nan
      ∧ buildIndex indexOneSided 3 [] = Except.error Err.nan := by
  exact ⟨fun x n => by simp [oneSided], rfl, by decide!, by decide!, by decide!,
    eq_error_of_errValue _ _ (by decide!), eq_error_of_errValue _ _ (by decide!)⟩

/-- C37 (defect of the code): on the index built over scenario S1, whose four leaves lie on
level 2 and hold one point each, `level_L = 33` gives the points 0 and 2 the same label
`-2147483648` (and the points 1 and 3 the label 0), although they lie in different leaves
above level 33: the numbers of the leftmost descendants on level 33 and `nb_nodes_before_L`
(which comes out as `-1`) exceed the range of `int`. -/
theorem deep_level_labels_collide :
    buildIndex indexS1 3 [] = Except.ok builtS1
      ∧ (rootS1.leaves.map (fun l => (l.level, members builtS1.1 l)))
        = [(2, [1]), (2, [0]), (2, [3]), (2, [2])]
      ∧ nbNodesBeforeL builtS1.1.branching 33 = -1
      ∧ levelLabels builtS1.1 33 [0, 0, 0, 0] 7 = some (2, [-2147483648, 0, -2147483648, 0]) :=
  ⟨eq_ok_of_isOk _ _ (by decide!), by decide!, by decide!, by decide!⟩

/-- C15 (defect of the code): on the index built from `indexChain`, a chain of depth 32, the
first child of the root is a node of level 1 with the points 0 and 2 below it, and
`level_L = 1` gives point 0 the label `-2` and point 2 the label `0`: the leaf of point 0
lies on level 32, where the node numbers exceed the range of `int`, and the climb from the
wrapped number does not reach the number of the ancestor. -/
theorem deep_leaf_label_differs_from_sibling :
    (buildIndex indexChain 40 []).isOk = true
      ∧ rootChain.childs.isSome = true
      ∧ (rootChain.child 0).level = 1
      ∧ 0 ∈ members builtChain.1 (rootChain.child 0)
      ∧ 2 ∈ members builtChain.1 (rootChain.child 0)
      ∧ (levelLabels builtChain.1 1 (List.replicate 33 0) 100).map
          (fun r => (r.1, r.2.getD 0 0, r.2.getD 2 0)) = some (32, -2, 0) := by
  decide!

/-- C7 (defect of the code): the final `assert(result.full())` of `findNeighbors` fails on a
built index although no more neighbours are requested than there are points.  The index is
built over the two rows `0` and `1` with branching 2, `iterations = 0`, k-means++ seeding and
the random stream `0, 0, 0, 0, 0, 1`; the root and its first child are split with row 0 as
both seeds, so that each has an empty second child, and the node below holds the two leaves
of the points 0 and 1.  The descent for the query `1/4` inserts the two empty leaves into the
branch heap, which is allocated with capacity `size_ = 2` and is then full; the insert of the
leaf of point 1 leaves the heap as it is.  The sink of capacity 2 ends with the one point 0,
for the budgets 0 and 5 alike. -/
theorem bbf_assertion_fails_on_full_heap :
    buildIndex indexPair 5 [0, 0, 0, 0, 0, 1] = Except.ok builtPair
      ∧ builtPair.1.root = some rootPair
      ∧ rootPair.nodes.map (fun n => (n.level, n.childs.isSome, members builtPair.1 n))
        = [(0, true, [0, 1]), (1, true, [0, 1]), (2, true, [0, 1]), (3, false, [0]),
            (3, false, [1]), (2, false, []), (1, false, [])]
      ∧ 2 ≤ builtPair.1.size_
      ∧ (findNN builtPair.1 [1 / 4] 0 20 rootPair
            { result := { capacity := 2, entries := [] }, checks := 0
              heap := { length := builtPair.1.size_, items := [] } }).toOption.map
          (fun st => (st.result.entries, st.heap.length,
            st.heap.items.map (fun b => members builtPair.1 b.node)))
        = some ([(1 / 16, 0)], 2, [[], []])
      ∧ errValue (findNeighbors builtPair.1 { capacity := 2, entries := [] } [1 / 4] 0 20)
        = some Err.assertionFailed
      ∧ errValue (findNeighbors builtPair.1 { capacity := 2, entries := [] } [1 / 4] 5 20)
        = some Err.assertionFailed :=
  ⟨eq_ok_of_isOk _ _ (by decide!), eq_some_of_isSome _ _ (by decide!), by decide!, by decide!,
    by decide!, by decide!, by decide!⟩

theorem assignFoldBy_inv (pick : Nat → Nat) (n B : Nat) (hB : 1 ≤ B)
    (hpick : ∀ i, pick i < B) : ∀ (k : Nat), k ≤ n →
      ((List.range k).foldl
        (fun (st : Clusters) i =>
          { st with
            count := st.count.set (pick i) (st.count.getD (pick i) 0 + 1)
            belongs_to := st.belongs_to.set i (pick i) })
        { dcenters := [], radiuses := [], count := List.replicate B 0
          belongs_to := List.replicate n 0 }).count.length = B
      ∧ ((List.range k).foldl
        (fun (st : Clusters) i =>
          { st with
            count := st.count.set (pick i) (st.count.getD (pick i) 0 + 1)
            belongs_to := st.belongs_to.set i (pick i) })
        { dcenters := [], radiuses := [], count := List.replicate B 0
          belongs_to := List.replicate n 0 }).belongs_to.length = n
      ∧ (∀ x ∈ ((List.range k).foldl
        (fun (st : Clusters) i =>
          { st with
            count := st.count.set (pick i) (st.count.getD (pick i) 0 + 1)
            belongs_to := st.belongs_to.set i (pick i) })
        { dcenters := [], radiuses := [], count := List.replicate B 0
          belongs_to := List.replicate n 0 }).belongs_to, x < B)
      ∧ (∀ i, i < k → ((List.range k).foldl
        (fun (st : Clusters) i =>
          { st with
            count := st.count.set (pick i) (st.count.getD (pick i) 0 + 1)
            belongs_to := st.belongs_to.set i (pick i) })
        { dcenters := [], radiuses := [], count := List.replicate B 0
          belongs_to := List.replicate n 0 }).belongs_to.getD i 0 = pick i)
      ∧ ∀ c, c < B → ((List.range k).foldl
        (fun (st : Clusters) i =>
          { st with
            count := st.count.set (pick i) (st.count.getD (pick i) 0 + 1)
            belongs_to := st.belongs_to.set i (pick i) })
        { dcenters := [], radiuses := [], count := List.replicate B 0
          belongs_to := List.replicate n 0 }).count.getD c 0
        = ((((List.range k).foldl
        (fun (st : Clusters) i =>
          { st with
            count := st.count.set (pick i) (st.count.getD (pick i) 0 + 1)
            belongs_to := st.belongs_to.set i (pick i) })
        { dcenters := [], radiuses := [], count := List.replicate B 0
          belongs_to := List.replicate n 0 }).belongs_to.take k).count c : Int) := by
  intro k
  induction k with
  | zero =>
    intro _
    refine ⟨by simp, by simp, ?_, fun i hi => absurd hi (by omega), ?_⟩
    · intro x hx
      simp only [List.range_zero, List.foldl_nil] at hx
      rw [List.eq_of_mem_replicate hx]
      omega
    · intro c hc
      simp [List.getD_eq_getElem?_getD, hc]
  | succ k ih =>
    intro hk
    obtain ⟨h1, h2, h3, h4, h5⟩ := ih (by omega)
    rw [List.range_succ, List.foldl_append]
    simp only [List.foldl_cons, List.foldl_nil]
    generalize (List.range k).foldl
        (fun (st : Clusters) i =>
          { st with
            count := st.count.set (pick i) (st.count.getD (pick i) 0 + 1)
            belongs_to := st.belongs_to.set i (pick i) })
        { dcenters := [], radiuses := [], count := List.replicate B 0
          belongs_to := List.replicate n 0 } = st at h1 h2 h3 h4 h5
    have hkb : k < st.belongs_to.length := by omega
    have hbt : ∀ i, (st.belongs_to.set k (pick k)).getD i 0
        = if k = i then pick k else st.belongs_to.getD i 0 :=
      fun i => getD_set_nat _ _ _ _ hkb
    refine ⟨by simp [h1], by simp [h2], mem_set_lt _ _ _ _ h3 (hpick k), ?_, ?_⟩
    · intro i hi
      show (st.belongs_to.set k (pick k)).getD i 0 = pick i
      rw [hbt]
      by_cases hki : k = i
      · rw [if_pos hki, hki]
      · rw [if_neg hki]
        exact h4 i (by omega)
    · intro c hc
      show (st.count.set (pick k) (st.count.getD (pick k) 0 + 1)).getD c 0
        = (((st.belongs_to.set k (pick k)).take (k + 1)).count c : Int)
      rw [getD_set_int _ _ _ _ (by rw [h1]; exact hpick k),
        count_take_succ _ _ _ (by simp; omega), hbt, if_pos rfl,
        take_set_of_le _ _ (le_refl _)]
      by_cases hcc : pick k = c
      · rw [if_pos hcc, if_pos hcc, ← hcc, h5 (pick k) (hpick k)]
        push_cast
        rfl
      · rw [if_neg hcc, if_neg hcc, h5 c hc]
        simp

/-- The first assignment puts every point into the cluster picked for it and leaves `count`
in agreement with `belongs_to`. -/
theorem assignPointsBy_spec (pick : Nat → Nat) (n B : Nat) (hB : 1 ≤ B)
    (hpick : ∀ i, pick i < B) :
    CountOK B (assignPointsBy pick n B)
      ∧ (assignPointsBy pick n B).belongs_to.length = n
      ∧ (∀ x ∈ (assignPointsBy pick n B).belongs_to, x < B)
      ∧ ∀ i, i < n → (assignPointsBy pick n B).belongs_to.getD i 0 = pick i := by
  obtain ⟨h1, h2, h3, h4, h5⟩ := assignFoldBy_inv pick n B hB hpick n (le_refl _)
  refine ⟨⟨h1, fun c hc => ?_⟩, h2, h3, h4⟩
  have := h5 c hc
  rw [List.take_of_length_le (le_of_eq h2)] at this
  exact this

theorem reassignPointsBy_countOK (pick : Nat → Nat) (n B : Nat) (hpick : ∀ i, pick i < B)
    (st : Clusters) (conv : Bool) (hlen : st.belongs_to.length = n)
    (hlt : ∀ x ∈ st.belongs_to, x < B) (hc : CountOK B st) :
    CountOK B (reassignPointsBy pick n st conv).1
      ∧ (reassignPointsBy pick n st conv).1.belongs_to.length = n
      ∧ (∀ x ∈ (reassignPointsBy pick n st conv).1.belongs_to, x < B) := by
  unfold reassignPointsBy
  apply foldl_inv (fun acc : Clusters × Bool => CountOK B acc.1
    ∧ acc.1.belongs_to.length = n ∧ (∀ x ∈ acc.1.belongs_to, x < B))
  · intro acc i hi hacc
    obtain ⟨⟨k1, k2⟩, h2, h3⟩ := hacc
    have hi2 : i < acc.1.belongs_to.length := by
      rw [h2]
      exact List.mem_range.mp hi
    dsimp only
    split
    · rename_i hne
      refine ⟨⟨by simp [k1], ?_⟩, by simp [h2], mem_set_lt _ _ _ _ h3 (hpick i)⟩
      exact count_move B acc.1.count acc.1.belongs_to i _ hi2 (hpick i)
        (getD_lt_of_forall_mem _ B i h3 hi2) hne k1 k2
    · exact ⟨⟨k1, k2⟩, h2, h3⟩
  · exact ⟨hc, hlen, hlt⟩

/-- The Lloyd loop returns whatever the scans for the nearest centre yield, with `count` in
agreement with `belongs_to`; once a pass has run, or when no cluster is empty at the start,
no cluster is empty at the end. -/
theorem lloydLoopBy_total (picks : Nat → Nat → Nat) (n B : Nat) (hm : B ≤ n)
    (hpick : ∀ t i, picks t i < B) :
    ∀ (left iteration : Nat) (conv : Bool) (st : Clusters),
      CountOK B st → st.belongs_to.length = n → (∀ x ∈ st.belongs_to, x < B) →
      ∃ st1, lloydLoopBy picks n B left iteration conv st = Except.ok st1
        ∧ CountOK B st1 ∧ st1.belongs_to.length = n
        ∧ (∀ x ∈ st1.belongs_to, x < B)
        ∧ (((1 ≤ left ∧ conv = false) ∨ ∀ c, c < B → 1 ≤ st.count.getD c 0) →
            ∀ c, c < B → 1 ≤ st1.count.getD c 0) := by
  intro left
  induction left with
  | zero =>
    intro iteration conv st hc hlen hlt
    refine ⟨st, rfl, hc, hlen, hlt, fun h => ?_⟩
    rcases h with h | h
    · omega
    · exact h
  | succ left ih =>
    intro iteration conv st hc hlen hlt
    by_cases hconv : conv = true
    · refine ⟨st, by simp only [lloydLoopBy]; rw [if_pos hconv], hc, hlen, hlt, fun h => ?_⟩
      rcases h with h | h
      · rw [h.2] at hconv
        exact absurd hconv (by simp)
      · exact h
    · obtain ⟨r1, r2, r3⟩ := reassignPointsBy_countOK (picks (iteration + 1)) n B
        (hpick (iteration + 1)) st true hlen hlt hc
      obtain ⟨st2, conv2, hrep, q1, q2, q3, _, _, _, q7, _⟩ :=
        repairClusters_spec B n
          (reassignPointsBy (picks (iteration + 1)) n st true).1
          (reassignPointsBy (picks (iteration + 1)) n st true).2 hm r2 r3 r1
      rw [Prod.mk.eta] at hrep
      obtain ⟨st1, t1, t2, t3, t4, t5⟩ := ih (iteration + 1) conv2 st2 q1 q2 q3
      refine ⟨st1, ?_, t2, t3, t4, fun _ => t5 (Or.inr q7)⟩
      simp only [lloydLoopBy]
      rw [if_neg hconv, hrep]
      exact t1

/-- The partition loop returns when the recursive call does so on every sub-slice it is
given, and every child is the result of the call on the ids assigned to one cluster. -/
theorem clusterChildren_returns (ix : KMeansIndex)
    (recurse : BuildState → List Nat → Nat → NodeStats → Nat → ClusteringResult)
    (off level : Nat) (centers : List Vec) (radiuses : List ℚ) (count : List Int)
    (assign : Nat → Nat) (A : List Nat → Prop) (Q : List Nat → KMeansNode → Prop)
    (hrec : ∀ bs sub o stats, A sub →
      ∃ node slice bs1, recurse bs sub o stats (level + 1) = Except.ok (node, slice, bs1)
        ∧ slice.Perm sub ∧ Q sub node) :
    ∀ (n c : Nat) (indices : List Nat) (start : Nat) (bs : BuildState),
      start ≤ indices.length →
      (∀ x ∈ indices.take start, assign x < c) →
      (∀ x ∈ indices.drop start, c ≤ assign x) →
      (∀ t, t < n → ∀ sub,
        sub.Perm (indices.filter (fun x => decide (assign x = c + t))) → A sub) →
      ∃ childs indices1 bs2,
        clusterChildren ix recurse off level centers radiuses count (List.range' c n)
          indices (indices.map assign) start bs = Except.ok (childs, indices1, bs2)
        ∧ indices1.Perm indices ∧ childs.length = n
        ∧ ∀ ch ∈ childs, ∃ t sub, t < n
            ∧ sub.Perm (indices.filter (fun x => decide (assign x = c + t))) ∧ Q sub ch := by
  intro n
  induction n with
  | zero =>
    intro c indices start bs _ _ _ _
    exact ⟨[], indices, bs, rfl, List.Perm.refl _, rfl, fun ch hch => by simp at hch⟩
  | succ n ih =>
    intro c indices start bs hs hlo hhi hA
    obtain ⟨_, _, g3, _⟩ := childSlice_facts ix assign c start indices hs hlo hhi _ rfl _
      (List.Perm.refl _)
    obtain ⟨node, slice, bs1, hr, r1, hq⟩ := hrec bs _ (off + start)
      { pivot := centers.getD c [], radius := radiuses.getD c 0
        variance := (partitionPass ix c
            { indices := indices, belongs_to := indices.map assign, end_ := start
              variance := 0 }).variance / ((count.getD c 0 : Int) : ℚ)
          - ix.distance (centers.getD c []) ZeroIterator ix.veclen_ }
      (hA 0 (by omega) _ g3)
    obtain ⟨f1, f2, f3, f4, f5, f6, f7, f8, f9, f10⟩ :=
      childSlice_facts ix assign c start indices hs hlo hhi _ rfl slice r1
    obtain ⟨rest, indices2, bs3, hih, i1, i2, i3⟩ := ih (c + 1) _ _ bs1
      (by rw [f5]; exact f2) f9 f10 (by
        intro t ht sub hsub
        apply hA (t + 1) (by omega) sub
        have e : c + (t + 1) = c + 1 + t := by omega
        rw [e]
        exact hsub.trans (f6.filter _))
    refine ⟨node :: rest, indices2, bs3, ?_, i1.trans f6, by simp [i2], ?_⟩
    · rw [List.range'_succ]
      simp only [clusterChildren]
      rw [hr]
      simp only
      rw [f7, hih]
    · intro ch hch
      rcases List.mem_cons.mp hch with h | h
      · rw [h]
        exact ⟨0, _, by omega, g3, hq⟩
      · obtain ⟨t, sub, ht, hsub, hqs⟩ := i3 ch h
        refine ⟨t + 1, sub, by omega, ?_, hqs⟩
        have e : c + (t + 1) = c + 1 + t := by omega
        rw [e]
        exact hsub.trans (f6.filter _)

theorem computeClusteringBy_unfold (ix : KMeansIndex) (seeded : List Nat → Bool)
    (picks : List Nat → Nat → Nat → Nat) (B fuel : Nat) (bs : BuildState)
    (indices : List Nat) (off : Nat) (stats : NodeStats) (level : Nat)
    (hlen : ¬ indices.length < B) (hseed : ¬ seeded indices = false) :
    computeClusteringBy ix seeded picks B (fuel + 1) bs indices off stats level
      = match lloydLoopBy (picks indices) indices.length B ix.max_iter 0 false
            (assignPointsBy (picks indices 0) indices.length B) with
        | Except.error e => Except.error e
        | Except.ok st =>
          match clusterChildren ix (computeClusteringBy ix seeded picks B fuel) off level
              st.dcenters st.radiuses st.count (List.range B)
              indices st.belongs_to 0
              { rng := bs.rng
                memoryCounter := bs.memoryCounter + B * (ix.veclen_ * sizeofDistanceType) } with
          | Except.error e => Except.error e
          | Except.ok (childs, indices1, bs1) =>
            Except.ok (KMeansNode.mk stats.pivot stats.radius stats.variance indices.length
              level (some childs) none, indices1, bs1) := by
  rw [computeClusteringBy]
  simp only [hlen, hseed, if_false]
  rfl

/-- With `B >= 2` and an iteration cap of at least 1, `computeClusteringBy` on a slice of
distinct ids returns once the fuel exceeds the length of the slice, whatever the seeder and
the scans for the nearest centre yield, and every split of the tree it returns is into `B`
non-empty children. -/
theorem computeClusteringBy_total (ix : KMeansIndex) (seeded : List Nat → Bool)
    (picks : List Nat → Nat → Nat → Nat) (B : Nat) (hB : 2 ≤ B) (hit : 1 ≤ ix.max_iter)
    (hpick : ∀ s t i, picks s t i < B) :
    ∀ (fuel : Nat) (bs : BuildState) (indices : List Nat) (off : Nat) (stats : NodeStats)
      (level : Nat), indices.Nodup → indices.length < fuel →
      ∃ node slice bs1,
        computeClusteringBy ix seeded picks B fuel bs indices off stats level
          = Except.ok (node, slice, bs1)
        ∧ slice.Perm indices ∧ node.size = indices.length ∧ Shrinks B node := by
  intro fuel
  induction fuel with
  | zero => intro bs indices off stats level _ h; omega
  | succ fuel ih =>
    intro bs indices off stats level hn hf
    have hleaf : ∀ bs0 : BuildState,
        (KMeansNode.mk stats.pivot stats.radius stats.variance indices.length level
          none (some off)).size = indices.length
        ∧ Shrinks B (KMeansNode.mk stats.pivot stats.radius stats.variance indices.length level
          none (some off)) := by
      intro _
      refine ⟨rfl, fun m hm cs hcs => ?_⟩
      rw [@nodes_of_leaf (KMeansNode.mk stats.pivot stats.radius stats.variance indices.length
        level none (some off)) rfl, List.mem_singleton] at hm
      rw [hm] at hcs
      simp [KMeansNode.childs] at hcs
    by_cases hlt : indices.length < B
    · refine ⟨KMeansNode.mk stats.pivot stats.radius stats.variance indices.length level
        none (some off), indices.insertionSort (fun a b => a ≤ b), bs, ?_,
        List.perm_insertionSort _ _, (hleaf bs).1, (hleaf bs).2⟩
      simp only [computeClusteringBy]
      rw [if_pos hlt]
      rfl
    · by_cases hseed : seeded indices = false
      · refine ⟨KMeansNode.mk stats.pivot stats.radius stats.variance indices.length
          level none (some off), indices.insertionSort (fun a b => a ≤ b), bs, ?_,
          List.perm_insertionSort _ _, (hleaf bs).1, (hleaf bs).2⟩
        rw [computeClusteringBy]
        simp only [hlt, hseed, if_false, if_true]
        rfl
      · rw [computeClusteringBy_unfold ix seeded picks B fuel bs indices off stats level hlt
          hseed]
        obtain ⟨a1, a2, a3, _⟩ := assignPointsBy_spec (picks indices 0) indices.length B
          (by omega) (hpick indices 0)
        obtain ⟨st, hl, k1, k2, k3, k4⟩ := lloydLoopBy_total (picks indices) indices.length B
          (by omega) (hpick indices) ix.max_iter 0 false _ a1 a2 a3
        rw [hl]
        simp only
        have k5 := k4 (Or.inl ⟨hit, rfl⟩)
        have hbt := assignment_of_nodup indices st.belongs_to hn k2
        generalize hassign : (fun id => st.belongs_to.getD (indices.indexOf id) 0) = assign
          at hbt
        have hcnt : ∀ c, c < B →
            st.count.getD c 0
              = ((indices.filter (fun x => decide (assign x = c))).length : Int) := by
          intro c hc
          rw [k1.2 c hc, hbt, count_map_eq_filter]
        have hsum := countOK_sum B st k1 k3
        rw [k2] at hsum
        have hsize : ∀ c, c < B →
            1 ≤ (indices.filter (fun x => decide (assign x = c))).length
              ∧ (indices.filter (fun x => decide (assign x = c))).length + (B - 1)
                ≤ indices.length := by
          intro c hc
          have h1 := k5 c hc
          have h2 := sum_ge_member (fun c => st.count.getD c 0) B k5 c hc
          rw [hsum] at h2
          simp only at h2
          rw [hcnt c hc] at h1 h2
          constructor <;> omega
        obtain ⟨childs, indices1, bs2, hcc, c1, c2, c3⟩ :=
          clusterChildren_returns ix (computeClusteringBy ix seeded picks B fuel) off level
            st.dcenters st.radiuses st.count assign
            (fun sub => sub.Nodup ∧ sub.length < fuel)
            (fun sub node => node.size = sub.length ∧ Shrinks B node)
            (fun bs0 sub o stats0 hA => ih bs0 sub o stats0 (level + 1) hA.1 hA.2)
            B 0 indices 0
            { rng := bs.rng
              memoryCounter := bs.memoryCounter + B * (ix.veclen_ * sizeofDistanceType) }
            (Nat.zero_le _) (fun x hx => by simp at hx) (fun x _ => Nat.zero_le _)
            (by
              intro t ht sub hsub
              rw [Nat.zero_add] at hsub
              refine ⟨hsub.nodup_iff.mpr (hn.filter _), ?_⟩
              rw [hsub.length_eq]
              have := (hsize t ht).2
              omega)
        rw [← hbt, ← List.range_eq_range'] at hcc
        rw [hcc]
        refine ⟨_, _, _, rfl, c1, rfl, fun m hm cs hcs => ?_⟩
        rw [@nodes_of_childs (KMeansNode.mk stats.pivot stats.radius stats.variance
          indices.length level (some childs) none) childs rfl] at hm
        rcases List.mem_cons.mp hm with h | h
        · subst h
          simp only [KMeansNode.childs, Option.some.injEq] at hcs
          subst hcs
          refine ⟨c2, fun ch hch => ?_⟩
          obtain ⟨t, sub, ht, hsub, hq1, _⟩ := c3 ch hch
          rw [Nat.zero_add] at hsub
          have := hsize t ht
          rw [hq1, hsub.length_eq]
          exact this
        · obtain ⟨ch, hch, hmem⟩ := mem_nodesList.mp h
          obtain ⟨t, sub, ht, hsub, _, hq2⟩ := c3 ch hch
          exact hq2 m hmem cs hcs

/-- With `branching >= 2` and an iteration cap of at least 1, `buildIndexBy` returns once the
fuel exceeds the number of rows, and every split of its tree is into `branching` non-empty
children. -/
theorem buildIndexBy_total (ix : KMeansIndex) (seeded : List Nat → Bool)
    (picks : List Nat → Nat → Nat → Nat) (hB : 2 ≤ ix.branching) (hit : 1 ≤ ix.max_iter)
    (hpick : ∀ s t i, picks s t i < ix.branching.toNat) (fuel : Nat) (hf : ix.size_ < fuel)
    (g : Rng) :
    ∃ ix1 g1 root, buildIndexBy ix seeded picks fuel g = Except.ok (ix1, g1)
      ∧ ix1.root = some root ∧ root.size = ix.size_ ∧ Shrinks ix.branching.toNat root := by
  unfold buildIndexBy
  rw [if_neg (by omega)]
  obtain ⟨node, slice, bs1, hc, _, h3, h4⟩ := computeClusteringBy_total ix seeded picks
    ix.branching.toNat (by omega) hit hpick fuel
    { rng := g, memoryCounter := ix.memoryCounter + ix.veclen_ * sizeofDistanceType }
    (List.range ix.size_) 0 (computeNodeStatistics ix (List.range ix.size_) ix.size_) 0
    (List.nodup_range _) (by rw [List.length_range]; exact hf)
  rw [hc]
  rw [List.length_range] at h3
  exact ⟨_, _, node, rfl, rfl, h3, h4⟩

/-- The reassignment pass of the source moves the points as `reassignPointsBy` does when the
scan picks the nearest centre. -/
theorem reassignPoints_eq_by (ix : KMeansIndex) (indices : List Nat) (B : Nat) (st : Clusters)
    (conv : Bool) :
    (reassignPoints ix indices B st conv).1.count
        = (reassignPointsBy
            (fun i => (nearestCenter ix (ix.dataset.row (indices.getD i 0)) st.dcenters B).1)
            indices.length st conv).1.count
      ∧ (reassignPoints ix indices B st conv).1.belongs_to
        = (reassignPointsBy
            (fun i => (nearestCenter ix (ix.dataset.row (indices.getD i 0)) st.dcenters B).1)
            indices.length st conv).1.belongs_to
      ∧ (reassignPoints ix indices B st conv).2
        = (reassignPointsBy
            (fun i => (nearestCenter ix (ix.dataset.row (indices.getD i 0)) st.dcenters B).1)
            indices.length st conv).2 := by
  unfold reassignPoints reassignPointsBy
  have key : ∀ (l : List Nat) (a b : Clusters × Bool),
      a.1.count = b.1.count → a.1.belongs_to = b.1.belongs_to → a.2 = b.2 →
      a.1.dcenters = st.dcenters →
      (l.foldl (fun acc i =>
        let nc := nearestCenter ix (ix.dataset.row (indices.getD i 0)) acc.1.dcenters B
        let radiuses :=
          if nc.2 > acc.1.radiuses.getD nc.1 0 then acc.1.radiuses.set nc.1 nc.2
          else acc.1.radiuses
        if nc.1 ≠ acc.1.belongs_to.getD i 0 then
          ({ acc.1 with
              radiuses := radiuses
              count := ((acc.1.count.set (acc.1.belongs_to.getD i 0)
                  (acc.1.count.getD (acc.1.belongs_to.getD i 0) 0 - 1)).set nc.1
                  ((acc.1.count.set (acc.1.belongs_to.getD i 0)
                    (acc.1.count.getD (acc.1.belongs_to.getD i 0) 0 - 1)).getD nc.1 0 + 1))
              belongs_to := acc.1.belongs_to.set i nc.1 }, false)
        else ({ acc.1 with radiuses := radiuses }, acc.2)) a).1.count
        = (l.foldl (fun acc i =>
          if (nearestCenter ix (ix.dataset.row (indices.getD i 0)) st.dcenters B).1
              ≠ acc.1.belongs_to.getD i 0 then
            ({ acc.1 with
                count := ((acc.1.count.set (acc.1.belongs_to.getD i 0)
                    (acc.1.count.getD (acc.1.belongs_to.getD i 0) 0 - 1)).set
                    (nearestCenter ix (ix.dataset.row (indices.getD i 0)) st.dcenters B).1
                    ((acc.1.count.set (acc.1.belongs_to.getD i 0)
                      (acc.1.count.getD (acc.1.belongs_to.getD i 0) 0 - 1)).getD
                      (nearestCenter ix (ix.dataset.row (indices.getD i 0)) st.dcenters B).1 0
                      + 1))
                belongs_to := acc.1.belongs_to.set i
                  (nearestCenter ix (ix.dataset.row (indices.getD i 0)) st.dcenters B).1 },
              false)
          else acc) b).1.count
      ∧ (l.foldl (fun acc i =>
        let nc := nearestCenter ix (ix.dataset.row (indices.getD i 0)) acc.1.dcenters B
        let radiuses :=
          if nc.2 > acc.1.radiuses.getD nc.1 0 then acc.1.radiuses.set nc.1 nc.2
          else acc.1.radiuses
        if nc.1 ≠ acc.1.belongs_to.getD i 0 then
          ({ acc.1 with
              radiuses := radiuses
              count := ((acc.1.count.set (acc.1.belongs_to.getD i 0)
                  (acc.1.count.getD (acc.1.belongs_to.getD i 0) 0 - 1)).set nc.1
                  ((acc.1.count.set (acc.1.belongs_to.getD i 0)
                    (acc.1.count.getD (acc.1.belongs_to.getD i 0) 0 - 1)).getD nc.1 0 + 1))
              belongs_to := acc.1.belongs_to.set i nc.1 }, false)
        else ({ acc.1 with radiuses := radiuses }, acc.2)) a).1.belongs_to
        = (l.foldl (fun acc i =>
          if (nearestCenter ix (ix.dataset.row (indices.getD i 0)) st.dcenters B).1
              ≠ acc.1.belongs_to.getD i 0 then
            ({ acc.1 with
                count := ((acc.1.count.set (acc.1.belongs_to.getD i 0)
                    (acc.1.count.getD (acc.1.belongs_to.getD i 0) 0 - 1)).set
                    (nearestCenter ix (ix.dataset.row (indices.getD i 0)) st.dcenters B).1
                    ((acc.1.count.set (acc.1.belongs_to.getD i 0)
                      (acc.1.count.getD (acc.1.belongs_to.getD i 0) 0 - 1)).getD
                      (nearestCenter ix (ix.dataset.row (indices.getD i 0)) st.dcenters B).1 0
                      + 1))
                belongs_to := acc.1.belongs_to.set i
                  (nearestCenter ix (ix.dataset.row (indices.getD i 0)) st.dcenters B).1 },
              false)
          else acc) b).1.belongs_to
      ∧ (l.foldl (fun acc i =>
        let nc := nearestCenter ix (ix.dataset.row (indices.getD i 0)) acc.1.dcenters B
        let radiuses :=
          if nc.2 > acc.1.radiuses.getD nc.1 0 then acc.1.radiuses.set nc.1 nc.2
          else acc.1.radiuses
        if nc.1 ≠ acc.1.belongs_to.getD i 0 then
          ({ acc.1 with
              radiuses := radiuses
              count := ((acc.1.count.set (acc.1.belongs_to.getD i 0)
                  (acc.1.count.getD (acc.1.belongs_to.getD i 0) 0 - 1)).set nc.1
                  ((acc.1.count.set (acc.1.belongs_to.getD i 0)
                    (acc.1.count.getD (acc.1.belongs_to.getD i 0) 0 - 1)).getD nc.1 0 + 1))
              belongs_to := acc.1.belongs_to.set i nc.1 }, false)
        else ({ acc.1 with radiuses := radiuses }, acc.2)) a).2
        = (l.foldl (fun acc i =>
          if (nearestCenter ix (ix.dataset.row (indices.getD i 0)) st.dcenters B).1
              ≠ acc.1.belongs_to.getD i 0 then
            ({ acc.1 with
                count := ((acc.1.count.set (acc.1.belongs_to.getD i 0)
                    (acc.1.count.getD (acc.1.belongs_to.getD i 0) 0 - 1)).set
                    (nearestCenter ix (ix.dataset.row (indices.getD i 0)) st.dcenters B).1
                    ((acc.1.count.set (acc.1.belongs_to.getD i 0)
                      (acc.1.count.getD (acc.1.belongs_to.getD i 0) 0 - 1)).getD
                      (nearestCenter ix (ix.dataset.row (indices.getD i 0)) st.dcenters B).1 0
                      + 1))
                belongs_to := acc.1.belongs_to.set i
                  (nearestCenter ix (ix.dataset.row (indices.getD i 0)) st.dcenters B).1 },
              false)
          else acc) b).2 := by
    intro l
    induction l with
    | nil => intro a b h1 h2 h3 _; exact ⟨h1, h2, h3⟩
    | cons i rest ih =>
      intro a b h1 h2 h3 h4
      simp only [List.foldl_cons]
      apply ih
      · simp only [h4, h2, h1]
        split <;> rfl
      · simp only [h4, h2]
        split <;> rfl
      · simp only [h4, h2, h3]
        split <;> rfl
      · simp only [h4]
        split <;> rfl
  exact key _ _ _ rfl rfl rfl rfl

theorem assignPoints_eq_by (ix : KMeansIndex) (indices : List Nat) (dc : List Vec) (B : Nat) :
    (assignPoints ix indices dc B).count
        = (assignPointsBy
            (fun i => (nearestCenter ix (ix.dataset.row (indices.getD i 0)) dc B).1)
            indices.length B).count
      ∧ (assignPoints ix indices dc B).belongs_to
        = (assignPointsBy
            (fun i => (nearestCenter ix (ix.dataset.row (indices.getD i 0)) dc B).1)
            indices.length B).belongs_to := by
  unfold assignPoints assignPointsBy
  have key : ∀ (l : List Nat) (a b : Clusters),
      a.count = b.count → a.belongs_to = b.belongs_to →
      (l.foldl (fun st i =>
        let nc := nearestCenter ix (ix.dataset.row (indices.getD i 0)) dc B
        { st with
          radiuses :=
            if nc.2 > st.radiuses.getD nc.1 0 then st.radiuses.set nc.1 nc.2 else st.radiuses
          count := st.count.set nc.1 (st.count.getD nc.1 0 + 1)
          belongs_to := st.belongs_to.set i nc.1 }) a).count
        = (l.foldl (fun (st : Clusters) i =>
          { st with
            count := st.count.set
              (nearestCenter ix (ix.dataset.row (indices.getD i 0)) dc B).1
              (st.count.getD (nearestCenter ix (ix.dataset.row (indices.getD i 0)) dc B).1 0
                + 1)
            belongs_to := st.belongs_to.set i
              (nearestCenter ix (ix.dataset.row (indices.getD i 0)) dc B).1 }) b).count
      ∧ (l.foldl (fun st i =>
        let nc := nearestCenter ix (ix.dataset.row (indices.getD i 0)) dc B
        { st with
          radiuses :=
            if nc.2 > st.radiuses.getD nc.1 0 then st.radiuses.set nc.1 nc.2 else st.radiuses
          count := st.count.set nc.1 (st.count.getD nc.1 0 + 1)
          belongs_to := st.belongs_to.set i nc.1 }) a).belongs_to
        = (l.foldl (fun (st : Clusters) i =>
          { st with
            count := st.count.set
              (nearestCenter ix (ix.dataset.row (indices.getD i 0)) dc B).1
              (st.count.getD (nearestCenter ix (ix.dataset.row (indices.getD i 0)) dc B).1 0
                + 1)
            belongs_to := st.belongs_to.set i
              (nearestCenter ix (ix.dataset.row (indices.getD i 0)) dc B).1 }) b).belongs_to := by
    intro l
    induction l with
    | nil => intro a b h1 h2; exact ⟨h1, h2⟩
    | cons i rest ih =>
      intro a b h1 h2
      simp only [List.foldl_cons]
      apply ih
      · simp only [h1]
      · simp only [h2]
  exact key _ _ _ rfl rfl

/-- C34. With `branching = B >= 2` and an iteration cap `max_iter >= 1`, whatever the seeder
returns and whatever the scans for the nearest centre yield (`seeded` and `picks` are
arbitrary, which covers the runs in which a division by a zero count has left NaN centres):
the Lloyd loop of a split of `m >= B` points returns with `count` in agreement with
`belongs_to` and every `count >= 1`; the build returns once the fuel, which bounds the depth
of the recursion, exceeds the number of rows; and in the tree it returns every split node has
`B` children, each of which holds at least one point and at most the points of the split
node less `B - 1`, fewer than the node itself.  The two assignment passes of
`computeClustering` move the points as `assignPointsBy` and `reassignPointsBy` do when the
pick is the nearest centre. -/
theorem splits_shrink_and_build_terminates (ix : KMeansIndex) (seeded : List Nat → Bool)
    (picks : List Nat → Nat → Nat → Nat) (hB : 2 ≤ ix.branching) (hit : 1 ≤ ix.max_iter)
    (hpick : ∀ s t i, picks s t i < ix.branching.toNat) :
    (∀ indices : List Nat, ix.branching.toNat ≤ indices.length →
        ∃ st, lloydLoopBy (picks indices) indices.length ix.branching.toNat ix.max_iter 0 false
            (assignPointsBy (picks indices 0) indices.length ix.branching.toNat)
            = Except.ok st
          ∧ CountOK ix.branching.toNat st ∧ st.belongs_to.length = indices.length
          ∧ ∀ c, c < ix.branching.toNat → 1 ≤ st.count.getD c 0)
      ∧ (∀ (fuel : Nat) (g : Rng), ix.size_ < fuel →
          ∃ ix1 g1 root, buildIndexBy ix seeded picks fuel g = Except.ok (ix1, g1)
            ∧ ix1.root = some root ∧ root.size = ix.size_
            ∧ ∀ m ∈ root.nodes, ∀ cs, m.childs = some cs →
                cs.length = ix.branching.toNat
                  ∧ ∀ ch ∈ cs, 1 ≤ ch.size ∧ ch.size + (ix.branching.toNat - 1) ≤ m.size
                    ∧ ch.size < m.size)
      ∧ (∀ (indices : List Nat) (dc : List Vec),
          (assignPoints ix indices dc ix.branching.toNat).count
              = (assignPointsBy
                  (fun i => (nearestCenter ix (ix.dataset.row (indices.getD i 0)) dc
                    ix.branching.toNat).1)
                  indices.length ix.branching.toNat).count
            ∧ (assignPoints ix indices dc ix.branching.toNat).belongs_to
              = (assignPointsBy
                  (fun i => (nearestCenter ix (ix.dataset.row (indices.getD i 0)) dc
                    ix.branching.toNat).1)
                  indices.length ix.branching.toNat).belongs_to)
      ∧ (∀ (indices : List Nat) (st : Clusters) (conv : Bool),
          (reassignPoints ix indices ix.branching.toNat st conv).1.count
              = (reassignPointsBy
                  (fun i => (nearestCenter ix (ix.dataset.row (indices.getD i 0)) st.dcenters
                    ix.branching.toNat).1)
                  indices.length st conv).1.count
            ∧ (reassignPoints ix indices ix.branching.toNat st conv).1.belongs_to
              = (reassignPointsBy
                  (fun i => (nearestCenter ix (ix.dataset.row (indices.getD i 0)) st.dcenters
                    ix.branching.toNat).1)
                  indices.length st conv).1.belongs_to
            ∧ (reassignPoints ix indices ix.branching.toNat st conv).2
              = (reassignPointsBy
                  (fun i => (nearestCenter ix (ix.dataset.row (indices.getD i 0)) st.dcenters
                    ix.branching.toNat).1)
                  indices.length st conv).2) := by
  have hBn : 2 ≤ ix.branching.toNat := by omega
  refine ⟨?_, ?_, fun indices dc => assignPoints_eq_by ix indices dc _,
    fun indices st conv => reassignPoints_eq_by ix indices _ st conv⟩
  · intro indices hlen
    obtain ⟨a1, a2, a3, _⟩ := assignPointsBy_spec (picks indices 0) indices.length
      ix.branching.toNat (by omega) (hpick indices 0)
    obtain ⟨st, hl, k1, k2, _, k4⟩ := lloydLoopBy_total (picks indices) indices.length
      ix.branching.toNat hlen (hpick indices) ix.max_iter 0 false _ a1 a2 a3
    exact ⟨st, hl, k1, k2, k4 (Or.inl ⟨hit, rfl⟩)⟩
  · intro fuel g hf
    obtain ⟨ix1, g1, root, h1, h2, h3, h4⟩ := buildIndexBy_total ix seeded picks hB hit hpick
      fuel hf g
    refine ⟨ix1, g1, root, h1, h2, h3, fun m hm cs hcs => ?_⟩
    obtain ⟨s1, s2⟩ := h4 m hm cs hcs
    refine ⟨s1, fun ch hch => ?_⟩
    obtain ⟨t1, t2⟩ := s2 ch hch
    exact ⟨t1, t2, by omega⟩


theorem splits_shrink_and_build_terminates_witness :
    2 ≤ indexZeros.branching ∧ 1 ≤ indexZeros.max_iter
      ∧ (∀ (s : List Nat) (t i : Nat), picksFirst s t i < indexZeros.branching.toNat)
      ∧ indexZeros.branching.toNat ≤ (List.range 100).length
      ∧ indexZeros.size_ < 101
      ∧ (∃ st, lloydLoopBy (picksFirst (List.range 100)) (List.range 100).length
            indexZeros.branching.toNat indexZeros.max_iter 0 false
            (assignPointsBy (picksFirst (List.range 100) 0) (List.range 100).length
              indexZeros.branching.toNat) = Except.ok st
          ∧ CountOK indexZeros.branching.toNat st
          ∧ st.belongs_to.length = (List.range 100).length
          ∧ ∀ c, c < indexZeros.branching.toNat → 1 ≤ st.count.getD c 0)
      ∧ (∃ ix1 g1 root, buildIndexBy indexZeros seededAll picksFirst 101 [] = Except.ok (ix1, g1)
          ∧ ix1.root = some root ∧ root.size = indexZeros.size_
          ∧ ∀ m ∈ root.nodes, ∀ cs, m.childs = some cs →
              cs.length = indexZeros.branching.toNat
                ∧ ∀ ch ∈ cs, 1 ≤ ch.size
                  ∧ ch.size + (indexZeros.branching.toNat - 1) ≤ m.size
                  ∧ ch.size < m.size)
      ∧ (lloydLoopBy (picksFirst (List.range 100)) 100 32 11 0 false
            (assignPointsBy (picksFirst (List.range 100) 0) 100 32)).toOption.map
          (fun st => st.count) = some (69 :: List.replicate 31 1) :=
  have h := splits_shrink_and_build_terminates indexZeros seededAll picksFirst (by decide)
    (by decide) (fun _ _ _ => (by decide : (0 : Nat) < indexZeros.branching.toNat))
  ⟨by decide, by decide, fun _ _ _ => (by decide : (0 : Nat) < indexZeros.branching.toNat),
    by decide, by decide,
    h.1 (List.range 100) (by decide), h.2.1 101 [] (by decide), by decide!⟩

/-- C5 (defect of the code): the build of `indexR` with the stream `rngR` ends its only Lloyd
iteration with an empty-cluster repair, which moves row 2 into cluster 1 without updating
`radiuses[1]`; the leaf of that cluster has pivot `20` and radius `0`, and its member lies at
distance `100` from the pivot. -/
theorem leaf_radius_violated_after_repair :
    (builtIndex (buildIndex indexR 3 rngR)).map radiusViolations = some [(2, 100, 0)] := by
  decide!

/-- C1 (defect of the code): on the index built from `indexR` with the stream `rngR` the
exact search for the nearest neighbour of the query `29` returns row 3 at distance `9`,
although row 2 lies at distance `1`: the leaf of row 2 has the radius `0` of
`leaf_radius_violated_after_repair` and is pruned. -/
theorem exact_search_misses_nearest :
    (builtIndex (buildIndex indexR 3 rngR)).bind
        (fun ix => searchEntries ix [29] 1 FLANN_CHECKS_UNLIMITED 3) = some ([(9, 3)], 0)
      ∧ L2 (indexR.dataset.row 2) [29] 1 = 1 := by
  decide!

end KMeans
